import Mathlib

/-!
Shallow embedding of the s21 containers library (src/src/lib): the red-black
tree engine `Rb_tree` of s21_red_black_tree.h and the thin facades
s21_set.h / s21_multiset.h / s21_map.h built on it.

Modelling conventions:
* C++ pointers become `Nat` indices into an arena (`mem : Nat → Node V`);
  the null pointer is index `0`, and allocation hands out indices from a
  counter `next` starting at `1`.  Each tree owns an allocated sentinel cell
  (`nil`), exactly as the C++ constructor allocates `nil_` first.
* Every pointer assignment of the C++ becomes one functional update, in the
  same order as the source lines, and every read happens on the state current
  at that source line.
* Loops (`while`) become fuel-indexed recursions returning `Option`; `none`
  means the fuel ran out, which never happens on well-formed trees when the
  fuel exceeds the tree depth.
* Keys are `Int`, the comparison policy is the default `std::less` (`<` on
  `Int`), and `KeyOfValue` is an explicit function `kov : V → Int`
  (`id` for set/multiset, `Prod.fst` for map).
-/

namespace S21

/-- Colour of a tree node (enum `Node_color` of the source). -/
inductive Node_color where
  | Red : Node_color
  | Black : Node_color
deriving DecidableEq, Repr

/-- One node of the tree: payload, colour and the three links
(struct `Node` of the source; links are arena indices). -/
structure Node (V : Type) where
  val : V
  color : Node_color
  left : Nat
  right : Nat
  p : Nat
deriving DecidableEq, Repr

/-- State of one `Rb_tree` object: the arena, the root and sentinel indices,
the allocation counter and `node_count`. -/
structure Rb_tree (V : Type) where
  mem : Nat → Node V
  root : Nat
  nil : Nat
  next : Nat
  node_count : Nat

variable {V : Type}

/-- Overwrite the node stored at index `i`. -/
def upd (t : Rb_tree V) (i : Nat) (f : Node V → Node V) : Rb_tree V :=
  { t with mem := fun j => if j = i then f (t.mem j) else t.mem j }

/-- Assignment `i->left = j`. -/
def setLeft (t : Rb_tree V) (i j : Nat) : Rb_tree V :=
  upd t i (fun n => { n with left := j })

/-- Assignment `i->right = j`. -/
def setRight (t : Rb_tree V) (i j : Nat) : Rb_tree V :=
  upd t i (fun n => { n with right := j })

/-- Assignment `i->p = j`. -/
def setP (t : Rb_tree V) (i j : Nat) : Rb_tree V :=
  upd t i (fun n => { n with p := j })

/-- Assignment `i->color = c`. -/
def setColor (t : Rb_tree V) (i : Nat) (c : Node_color) : Rb_tree V :=
  upd t i (fun n => { n with color := c })

/-- Engine `create_node`: allocates a fresh cell and runs the `Node`
constructor, whose default arguments set colour `Red` and all three links to
the null pointer (index 0). -/
def create_node (t : Rb_tree V) (value : V) : Rb_tree V × Nat :=
  let n := t.next
  ({ t with
      mem := fun j => if j = n then
          { val := value, color := .Red, left := 0, right := 0, p := 0 }
        else t.mem j,
      next := n + 1 }, n)

/-- Engine default constructor `Rb_tree()`: allocates the sentinel, colours it
`Black`, makes its three links self-referential and lets `root` be the
sentinel. -/
def tree_new (vdef : V) : Rb_tree V :=
  let t0 : Rb_tree V :=
    { mem := fun _ => { val := vdef, color := .Red, left := 0, right := 0, p := 0 },
      root := 0, nil := 0, next := 1, node_count := 0 }
  let r := create_node t0 vdef
  let t1 := upd r.1 r.2 (fun n => { n with color := .Black, left := r.2, right := r.2, p := r.2 })
  { t1 with nil := r.2, root := r.2 }

/-- Engine `minimum`: follow `left` links until they reach the sentinel. -/
def minimum (t : Rb_tree V) : Nat → Nat → Option Nat
  | _, 0 => none
  | i, fuel + 1 =>
    if (t.mem i).left ≠ t.nil then minimum t ((t.mem i).left) fuel else some i

/-- Engine `maximum`: follow `right` links until they reach the sentinel. -/
def maximum (t : Rb_tree V) : Nat → Nat → Option Nat
  | _, 0 => none
  | i, fuel + 1 =>
    if (t.mem i).right ≠ t.nil then maximum t ((t.mem i).right) fuel else some i

/-- Loop of engine `search`: descend while the node is not the sentinel and
the key differs from the node key. -/
def search_loop (kov : V → Int) (t : Rb_tree V) (key : Int) : Nat → Nat → Option Nat
  | _, 0 => none
  | res, fuel + 1 =>
    if res ≠ t.nil ∧ key ≠ kov (t.mem res).val then
      if key < kov (t.mem res).val then search_loop kov t key ((t.mem res).left) fuel
      else search_loop kov t key ((t.mem res).right) fuel
    else some res

/-- Engine `search`: start the descent at the root. -/
def search (kov : V → Int) (t : Rb_tree V) (key : Int) (fuel : Nat) : Option Nat :=
  search_loop kov t key t.root fuel

/-- Loop of engine `lower_bound`: same descent as `search` but remembering the
previously visited node in `prev`. -/
def lower_bound_loop (kov : V → Int) (t : Rb_tree V) (key : Int) :
    Nat → Nat → Nat → Option Nat
  | _, _, 0 => none
  | res, prev, fuel + 1 =>
    if res ≠ t.nil ∧ key ≠ kov (t.mem res).val then
      if key < kov (t.mem res).val then
        lower_bound_loop kov t key ((t.mem res).left) res fuel
      else
        lower_bound_loop kov t key ((t.mem res).right) res fuel
    else
      some (if res = t.nil ∧ key < kov (t.mem prev).val then prev else res)

/-- Engine `lower_bound`: descend from the root (with `prev` initialised to the
root) and, when the descent fell off the tree, return `prev` only when the key
is less than the key of `prev`. -/
def lower_bound (kov : V → Int) (t : Rb_tree V) (key : Int) (fuel : Nat) : Option Nat :=
  lower_bound_loop kov t key t.root t.root fuel

/-- Engine `link_new_node`: attach a freshly created node below `father`
(or make it the black root when `father` is the sentinel). -/
def link_new_node (kov : V → Int) (t : Rb_tree V) (father new_node : Nat) : Rb_tree V :=
  let t1 := upd t new_node (fun n => { n with left := t.nil, right := t.nil })
  if father = t1.nil then
    let t2 := { t1 with root := new_node }
    upd t2 new_node (fun n => { n with p := t2.nil, color := .Black })
  else
    let t2 := setP t1 new_node father
    if kov (t2.mem new_node).val < kov (t2.mem father).val then setLeft t2 father new_node
    else setRight t2 father new_node

/-- Descent loop of engine `find_or_create`: walk down recording the last
visited node as `father`; with unique keys an exact match breaks out with
`created = false`.  Returns `(father, current, created)`. -/
def find_or_create_loop (kov : V → Int) (t : Rb_tree V) (key : Int) (unique_keys : Bool) :
    Nat → Nat → Nat → Option (Nat × Nat × Bool)
  | _, _, 0 => none
  | cur, father, fuel + 1 =>
    if cur ≠ t.nil then
      if unique_keys = true ∧ ¬ key < kov (t.mem cur).val ∧ ¬ kov (t.mem cur).val < key then
        some (cur, cur, false)
      else if key < kov (t.mem cur).val then
        find_or_create_loop kov t key unique_keys ((t.mem cur).left) cur fuel
      else
        find_or_create_loop kov t key unique_keys ((t.mem cur).right) cur fuel
    else some (father, cur, true)

/-- Engine `find_or_create`: after the descent, either return the duplicate or
create a new node and link it below `father`. -/
def find_or_create (kov : V → Int) (t : Rb_tree V) (key : Int) (value : V)
    (unique_keys : Bool) (fuel : Nat) : Option (Rb_tree V × Nat × Bool) :=
  match find_or_create_loop kov t key unique_keys t.root t.nil fuel with
  | none => none
  | some (father, cur, created) =>
    if created = true then
      let r := create_node t value
      some (link_new_node kov r.1 father r.2, r.2, true)
    else some (t, cur, false)

/-- Engine `left_rotate`, one heap write per source line, each read performed
on the state current at that line. -/
def left_rotate (t : Rb_tree V) (parent_node : Nat) : Rb_tree V :=
  let child := (t.mem parent_node).right
  let t1 := setRight t parent_node ((t.mem child).left)
  let t2 := if (t1.mem child).left ≠ t1.nil then setP t1 ((t1.mem child).left) parent_node else t1
  let t3 := setP t2 child ((t2.mem parent_node).p)
  let t4 :=
    if (t3.mem parent_node).p = t3.nil then { t3 with root := child }
    else if parent_node = (t3.mem ((t3.mem parent_node).p)).left then
      setLeft t3 ((t3.mem parent_node).p) child
    else
      setRight t3 ((t3.mem parent_node).p) child
  let t5 := setLeft t4 child parent_node
  setP t5 parent_node child

/-- Engine `right_rotate`, mirror image of `left_rotate`. -/
def right_rotate (t : Rb_tree V) (parent_node : Nat) : Rb_tree V :=
  let child := (t.mem parent_node).left
  let t1 := setLeft t parent_node ((t.mem child).right)
  let t2 := if (t1.mem child).right ≠ t1.nil then setP t1 ((t1.mem child).right) parent_node else t1
  let t3 := setP t2 child ((t2.mem parent_node).p)
  let t4 :=
    if (t3.mem parent_node).p = t3.nil then { t3 with root := child }
    else if parent_node = (t3.mem ((t3.mem parent_node).p)).right then
      setRight t3 ((t3.mem parent_node).p) child
    else
      setLeft t3 ((t3.mem parent_node).p) child
  let t5 := setRight t4 child parent_node
  setP t5 parent_node child

/-- Engine `rebalance_left` (one iteration of `insert_fixup` when the parent is
a left child): returns the updated heap and the next node to fix. -/
def rebalance_left (t : Rb_tree V) (node : Nat) : Rb_tree V × Nat :=
  let temp := (t.mem ((t.mem ((t.mem node).p)).p)).right
  if (t.mem temp).color = .Red then
    let t1 := setColor t temp .Black
    let t2 := setColor t1 ((t1.mem node).p) .Black
    let t3 := setColor t2 ((t2.mem ((t2.mem node).p)).p) .Red
    (t3, (t3.mem ((t3.mem node).p)).p)
  else
    let r :=
      if node = (t.mem ((t.mem node).p)).right then
        let node1 := (t.mem node).p
        (left_rotate t node1, node1)
      else (t, node)
    let t1 := r.1
    let node1 := r.2
    let t2 := setColor t1 ((t1.mem node1).p) .Black
    let t3 := setColor t2 ((t2.mem ((t2.mem node1).p)).p) .Red
    (right_rotate t3 ((t3.mem ((t3.mem node1).p)).p), node1)

/-- Engine `rebalance_right`, mirror image of `rebalance_left`. -/
def rebalance_right (t : Rb_tree V) (node : Nat) : Rb_tree V × Nat :=
  let temp := (t.mem ((t.mem ((t.mem node).p)).p)).left
  if (t.mem temp).color = .Red then
    let t1 := setColor t temp .Black
    let t2 := setColor t1 ((t1.mem node).p) .Black
    let t3 := setColor t2 ((t2.mem ((t2.mem node).p)).p) .Red
    (t3, (t3.mem ((t3.mem node).p)).p)
  else
    let r :=
      if node = (t.mem ((t.mem node).p)).left then
        let node1 := (t.mem node).p
        (right_rotate t node1, node1)
      else (t, node)
    let t1 := r.1
    let node1 := r.2
    let t2 := setColor t1 ((t1.mem node1).p) .Black
    let t3 := setColor t2 ((t2.mem ((t2.mem node1).p)).p) .Red
    (left_rotate t3 ((t3.mem ((t3.mem node1).p)).p), node1)

/-- Loop of engine `insert_fixup`: iterate while the parent is red, then force
the root black. -/
def insert_fixup_loop (t : Rb_tree V) (node : Nat) : Nat → Option (Rb_tree V)
  | 0 => none
  | fuel + 1 =>
    if (t.mem ((t.mem node).p)).color = .Red then
      if (t.mem node).p = (t.mem ((t.mem ((t.mem node).p)).p)).left then
        let r := rebalance_left t node
        insert_fixup_loop r.1 r.2 fuel
      else
        let r := rebalance_right t node
        insert_fixup_loop r.1 r.2 fuel
    else some (setColor t t.root .Black)

/-- Engine `insert`: `find_or_create`, then the guarded `insert_fixup` call and
the `node_count` increment when a node was created. -/
def insert (kov : V → Int) (t : Rb_tree V) (key : Int) (value : V)
    (unique_keys : Bool) (fuel : Nat) : Option (Rb_tree V × Nat × Bool) :=
  match find_or_create kov t key value unique_keys fuel with
  | none => none
  | some (t1, node, created) =>
    if created = true then
      match (if (t1.mem node).p ≠ t1.nil ∧ (t1.mem ((t1.mem node).p)).color = .Red ∧
               (t1.mem ((t1.mem node).p)).p ≠ t1.nil
             then insert_fixup_loop t1 node fuel
             else some t1) with
      | none => none
      | some t2 => some ({ t2 with node_count := t2.node_count + 1 }, node, created)
    else some (t1, node, created)

/-- Engine `transplant`: replace the subtree rooted at `u` by the one rooted at
`v`; note the unconditional final write `v->p = u->p`, performed even when `v`
is the sentinel. -/
def transplant (t : Rb_tree V) (u v : Nat) : Rb_tree V :=
  let t1 :=
    if (t.mem u).p = t.nil then { t with root := v }
    else if u = (t.mem ((t.mem u).p)).left then setLeft t ((t.mem u).p) v
    else setRight t ((t.mem u).p) v
  setP t1 v ((t1.mem u).p)

/-- Engine `delete_fixup_left` (one iteration of `delete_fixup` when `x` is a
left child): returns the updated heap and the next `x`. -/
def delete_fixup_left (t : Rb_tree V) (x : Nat) : Rb_tree V × Nat :=
  let w := (t.mem ((t.mem x).p)).right
  let r :=
    if (t.mem w).color = .Red then
      let t1 := setColor t w .Black
      let t2 := setColor t1 ((t1.mem x).p) .Red
      let t3 := left_rotate t2 ((t2.mem x).p)
      (t3, (t3.mem ((t3.mem x).p)).right)
    else (t, w)
  let t1 := r.1
  let w1 := r.2
  if (t1.mem ((t1.mem w1).left)).color = .Black ∧ (t1.mem ((t1.mem w1).right)).color = .Black then
    (setColor t1 w1 .Red, (t1.mem x).p)
  else
    let r2 :=
      if (t1.mem ((t1.mem w1).right)).color = .Black then
        let t2 := setColor t1 ((t1.mem w1).left) .Black
        let t3 := setColor t2 w1 .Red
        let t4 := right_rotate t3 w1
        (t4, (t4.mem ((t4.mem x).p)).right)
      else (t1, w1)
    let t2 := r2.1
    let w2 := r2.2
    let t3 := setColor t2 w2 ((t2.mem ((t2.mem x).p)).color)
    let t4 := setColor t3 ((t3.mem w2).right) .Black
    let t5 := setColor t4 ((t4.mem x).p) .Black
    let t6 := left_rotate t5 ((t5.mem x).p)
    (t6, t6.root)

/-- Engine `delete_fixup_right`, mirror image of `delete_fixup_left`. -/
def delete_fixup_right (t : Rb_tree V) (x : Nat) : Rb_tree V × Nat :=
  let w := (t.mem ((t.mem x).p)).left
  let r :=
    if (t.mem w).color = .Red then
      let t1 := setColor t w .Black
      let t2 := setColor t1 ((t1.mem x).p) .Red
      let t3 := right_rotate t2 ((t2.mem x).p)
      (t3, (t3.mem ((t3.mem x).p)).left)
    else (t, w)
  let t1 := r.1
  let w1 := r.2
  if (t1.mem ((t1.mem w1).right)).color = .Black ∧ (t1.mem ((t1.mem w1).left)).color = .Black then
    (setColor t1 w1 .Red, (t1.mem x).p)
  else
    let r2 :=
      if (t1.mem ((t1.mem w1).left)).color = .Black then
        let t2 := setColor t1 ((t1.mem w1).right) .Black
        let t3 := setColor t2 w1 .Red
        let t4 := left_rotate t3 w1
        (t4, (t4.mem ((t4.mem x).p)).left)
      else (t1, w1)
    let t2 := r2.1
    let w2 := r2.2
    let t3 := setColor t2 w2 ((t2.mem ((t2.mem x).p)).color)
    let t4 := setColor t3 ((t3.mem w2).left) .Black
    let t5 := setColor t4 ((t4.mem x).p) .Black
    let t6 := right_rotate t5 ((t5.mem x).p)
    (t6, t6.root)

/-- Loop of engine `delete_fixup`: iterate while `x` is a black non-root, then
colour `x` black. -/
def delete_fixup_loop (t : Rb_tree V) (x : Nat) : Nat → Option (Rb_tree V)
  | 0 => none
  | fuel + 1 =>
    if x ≠ t.root ∧ (t.mem x).color = .Black then
      if x = (t.mem ((t.mem x).p)).left then
        let r := delete_fixup_left t x
        delete_fixup_loop r.1 r.2 fuel
      else
        let r := delete_fixup_right t x
        delete_fixup_loop r.1 r.2 fuel
    else some (setColor t x .Black)

/-- Tail of engine `delete_node` after the structural unlinking: `destroy_node`
(the cell is deallocated; its contents are never read again on well-formed
runs), the decrement of `node_count`, and the guarded `delete_fixup`. -/
def delete_node_finish (t : Rb_tree V) (x : Nat) (y_original_color : Node_color)
    (fuel : Nat) : Option (Rb_tree V) :=
  let t1 := { t with node_count := t.node_count - 1 }
  if y_original_color = .Black then delete_fixup_loop t1 x fuel else some t1

/-- Engine `delete_node`: immediate return on the sentinel, then the standard
three-case removal with the in-order successor splice. -/
def delete_node (t : Rb_tree V) (z : Nat) (fuel : Nat) : Option (Rb_tree V) :=
  if z = t.nil then some t
  else if (t.mem z).left = t.nil then
    let x := (t.mem z).right
    let t1 := transplant t z ((t.mem z).right)
    delete_node_finish t1 x ((t.mem z).color) fuel
  else if (t.mem z).right = t.nil then
    let x := (t.mem z).left
    let t1 := transplant t z ((t.mem z).left)
    delete_node_finish t1 x ((t.mem z).color) fuel
  else
    match minimum t ((t.mem z).right) fuel with
    | none => none
    | some y =>
      let y_original_color := (t.mem y).color
      let x := (t.mem y).right
      let t2 :=
        if y ≠ (t.mem z).right then
          let ta := transplant t y ((t.mem y).right)
          let tb := setRight ta y ((ta.mem z).right)
          setP tb ((tb.mem y).right) y
        else setP t x y
      let t3 := transplant t2 z y
      let t4 := setLeft t3 y ((t3.mem z).left)
      let t5 := setP t4 ((t4.mem y).left) y
      let t6 := setColor t5 y ((t5.mem z).color)
      delete_node_finish t6 x y_original_color fuel

/-- Ascending loop of `Rb_tree_iterator::increment`: climb while the current
node is the right child of its parent, then step to that parent. -/
def climb_right (t : Rb_tree V) : Nat → Nat → Option Nat
  | _, 0 => none
  | cur, fuel + 1 =>
    let father := (t.mem cur).p
    if father ≠ t.nil ∧ cur = (t.mem father).right then climb_right t father fuel
    else some father

/-- Ascending loop of `Rb_tree_iterator::decrement`: climb while the current
node is the left child of its parent, then step to that parent. -/
def climb_left (t : Rb_tree V) : Nat → Nat → Option Nat
  | _, 0 => none
  | cur, fuel + 1 =>
    let father := (t.mem cur).p
    if father ≠ t.nil ∧ cur = (t.mem father).left then climb_left t father fuel
    else some father

/-- Iterator `increment`: at the sentinel restart at `minimum(root)`; with a
right child descend to that subtree's leftmost node (the same loop as
`minimum`); otherwise climb. -/
def iter_increment (t : Rb_tree V) (cur : Nat) (fuel : Nat) : Option Nat :=
  if cur = t.nil then minimum t t.root fuel
  else if (t.mem cur).right ≠ t.nil then minimum t ((t.mem cur).right) fuel
  else climb_right t cur fuel

/-- Iterator `decrement`: at the sentinel jump to `maximum(root)`; with a left
child descend to that subtree's rightmost node (the same loop as `maximum`);
otherwise climb. -/
def iter_decrement (t : Rb_tree V) (cur : Nat) (fuel : Nat) : Option Nat :=
  if cur = t.nil then maximum t t.root fuel
  else if (t.mem cur).left ≠ t.nil then maximum t ((t.mem cur).left) fuel
  else climb_left t cur fuel

/-- Engine `begin()`: an iterator at `minimum(root)`. -/
def tree_begin (t : Rb_tree V) (fuel : Nat) : Option Nat :=
  minimum t t.root fuel

/-- Indices of the subtree rooted at `i` in in-order (specification-side
traversal used to state the claims; `fuel` bounds the unfolding depth). -/
def inorder (t : Rb_tree V) : Nat → Nat → List Nat
  | _, 0 => []
  | i, fuel + 1 =>
    if i = t.nil then []
    else inorder t ((t.mem i).left) fuel ++ i :: inorder t ((t.mem i).right) fuel

/-- Values stored in the subtree rooted at `i`, in in-order. -/
def inorderVals (t : Rb_tree V) (i fuel : Nat) : List V :=
  (inorder t i fuel).map (fun j => (t.mem j).val)

/-- Structural check: the subtree rooted at `i` unfolds completely to sentinel
leaves within `fuel` steps, all its indices are allocated non-null non-sentinel
cells, and every child holds a parent back-link to its father. -/
def subtree_ok (t : Rb_tree V) : Nat → Nat → Bool
  | _, 0 => false
  | i, fuel + 1 =>
    if i = t.nil then true
    else
      decide (i ≠ 0) && decide (i < t.next) &&
      ((t.mem i).left == t.nil || (t.mem ((t.mem i).left)).p == i) &&
      ((t.mem i).right == t.nil || (t.mem ((t.mem i).right)).p == i) &&
      subtree_ok t ((t.mem i).left) fuel && subtree_ok t ((t.mem i).right) fuel

/-- Well-formedness of a tree state: the sentinel is an allocated non-null
black cell whose `left` and `right` point to itself, the root's parent is the
sentinel, and the whole tree hangs together (`subtree_ok` with fuel `next`,
which always suffices since every allocated cell has index below `next`). -/
def wf (t : Rb_tree V) : Bool :=
  decide (t.nil ≠ 0) && decide (t.nil < t.next) &&
  ((t.mem t.nil).color == .Black) &&
  ((t.mem t.nil).left == t.nil) && ((t.mem t.nil).right == t.nil) &&
  ((t.mem t.root).p == t.nil) &&
  subtree_ok t t.root t.next

/-- Facade `set` / `map` insertion: the engine insert with `unique_keys = true`
(s21_set.h / s21_map.h always pass `true`). -/
def set_insert (t : Rb_tree Int) (value : Int) (fuel : Nat) : Option (Rb_tree Int × Nat × Bool) :=
  insert id t value value true fuel

/-- Facade `multiset` insertion: the engine insert with `unique_keys = false`. -/
def ms_insert (t : Rb_tree Int) (value : Int) (fuel : Nat) : Option (Rb_tree Int × Nat × Bool) :=
  insert id t value value false fuel

/-- Facade `erase(key)` of set and multiset:
`tree->delete_node(tree->search(key))`. -/
def erase_key (t : Rb_tree Int) (key : Int) (fuel : Nat) : Option (Rb_tree Int) :=
  match search id t key fuel with
  | none => none
  | some z => delete_node t z fuel

/-- Loop of facade `multiset::count`: starting from `find(key)`, count while
the iterator's value equals the key, advancing with the iterator increment. -/
def ms_count_loop (t : Rb_tree Int) (key : Int) : Nat → Nat → Nat → Option Nat
  | _, _, 0 => none
  | it, acc, fuel + 1 =>
    if (t.mem it).val = key then
      match iter_increment t it fuel with
      | none => none
      | some it1 => ms_count_loop t key it1 (acc + 1) fuel
    else some acc

/-- Facade `multiset::count`: `find(key)` (engine `search`) then the counting
walk. -/
def ms_count (t : Rb_tree Int) (key : Int) (fuel : Nat) : Option Nat :=
  match search id t key fuel with
  | none => none
  | some it => ms_count_loop t key it 0 fuel

/-- Facade `multiset::lower_bound`: wraps the engine `lower_bound`. -/
def ms_lower_bound (t : Rb_tree Int) (key : Int) (fuel : Nat) : Option Nat :=
  lower_bound id t key fuel

/-- Build a tree by inserting the listed values in order with the given
uniqueness flag, starting from the freshly constructed empty tree (facade
usage pattern; `none` if any insert runs out of fuel). -/
def build_tree (unique_keys : Bool) (fuel : Nat) (xs : List Int) : Option (Rb_tree Int) :=
  xs.foldl
    (fun acc x =>
      match acc with
      | none => none
      | some t => (insert id t x x unique_keys fuel).map (fun r => r.1))
    (some (tree_new 0))

/-- Outcome of the copy constructor `Rb_tree(const Rb_tree&)` under an
allocator whose `failAt`-th allocation throws. -/
inductive CopyResult (V : Type) where
  | ok (dest : Rb_tree V)
  | thrown (leaked : List Nat) (dest : Rb_tree V)
  | nullDeref
  | uninitRead

/-- Walk of `destroy_subtree` (engine `post_order_process` with the destroying
action), recording the freed cells.  Entering the loop with the null pointer
dereferences it (`current->left` with `current == nullptr`), which the model
reports as `Except.error`. -/
def destroy_walk (t : Rb_tree V) (current : Nat) (freed : List Nat) :
    Nat → Option (Except Unit (List Nat))
  | 0 => none
  | fuel + 1 =>
    if current = t.nil then some (.ok freed)
    else if current = 0 then some (.error ())
    else if (t.mem current).left ≠ t.nil then destroy_walk t ((t.mem current).left) freed fuel
    else if (t.mem current).right ≠ t.nil then destroy_walk t ((t.mem current).right) freed fuel
    else
      let parent := (t.mem current).p
      let t1 :=
        if parent ≠ t.nil then
          (if current = (t.mem parent).left then setLeft t parent t.nil
           else setRight t parent t.nil)
        else t
      let t2 := setColor t1 current .Red
      destroy_walk t2 parent (freed ++ [current]) fuel

/-- Stack loop of engine `copy_tree`: each popped pair `(orig, copy)` copies
the right child first (created node gets colour, parent back-link and sentinel
child links, matching the source line order) and then the left child;
`acount` counts allocations and the `failAt`-th `create_node` throws, which is
reported as `Except.error` carrying the destination state at that moment. -/
def copy_tree_loop (src : Rb_tree V) (failAt : Nat) :
    Rb_tree V → Nat → List (Nat × Nat) → Nat → Option (Except (Rb_tree V) (Rb_tree V))
  | d, _, [], _ => some (.ok d)
  | _, _, _ :: _, 0 => none
  | d, acount, (orig, copy) :: stack, fuel + 1 =>
    let step1 :=
      if (src.mem orig).right ≠ src.nil then
        if acount + 1 = failAt then none
        else
          let r := create_node d ((src.mem ((src.mem orig).right)).val)
          let d1 := setRight r.1 copy r.2
          let d2 := setColor d1 r.2 ((src.mem ((src.mem orig).right)).color)
          let d3 := setP d2 r.2 copy
          let d4 := setRight d3 r.2 d3.nil
          let d5 := setLeft d4 r.2 d4.nil
          some (d5, acount + 1, ((src.mem orig).right, r.2) :: stack)
      else some (setRight d copy d.nil, acount, stack)
    match step1 with
    | none => some (.error d)
    | some (da, ca, sa) =>
      let step2 :=
        if (src.mem orig).left ≠ src.nil then
          if ca + 1 = failAt then none
          else
            let r := create_node da ((src.mem ((src.mem orig).left)).val)
            let d1 := setLeft r.1 copy r.2
            let d2 := setColor d1 r.2 ((src.mem ((src.mem orig).left)).color)
            let d3 := setP d2 r.2 copy
            let d4 := setRight d3 r.2 d3.nil
            let d5 := setLeft d4 r.2 d4.nil
            some (d5, ca + 1, ((src.mem orig).left, r.2) :: sa)
        else some (setLeft da copy da.nil, ca, sa)
      match step2 with
      | none => some (.error da)
      | some (db, cb, sb) => copy_tree_loop src failAt db cb sb fuel

/-- Catch block of the copy constructor: `if (root != nil_) clear(); throw;`.
The sentinel cell itself is never deallocated (the destructor of the
half-constructed object does not run), so it is always among the leaked
cells; `clear`'s walk can hit a null pointer on a partially initialised root
copy. -/
def copy_ctor_catch (d : Rb_tree V) (fuel : Nat) : Option (CopyResult V) :=
  let allocated := (List.range d.next).filter (fun i => decide (i ≠ 0))
  if d.root ≠ d.nil then
    match destroy_walk d d.root [] fuel with
    | none => none
    | some (.error _) => some (.nullDeref)
    | some (.ok freed) => some (.thrown (allocated.filter (fun i => decide (i ∉ freed))) d)
  else some (.thrown allocated d)

/-- Copy constructor `Rb_tree(const Rb_tree&)` under an allocator whose
`failAt`-th allocation throws (`failAt = 0` means no injected failure).
Allocation 1 is the destination sentinel; if it throws, the catch block reads
the uninitialised `root`/`nil_` members (`uninitRead`).  Allocation 2 is the
copy of the source root, created with null child links by the `Node`
constructor and only given children when its stack entry is processed. -/
def copy_ctor (src : Rb_tree V) (vdef : V) (failAt : Nat) (fuel : Nat) : Option (CopyResult V) :=
  if failAt = 1 then some .uninitRead
  else
    let base : Rb_tree V :=
      { mem := fun _ => { val := vdef, color := .Red, left := 0, right := 0, p := 0 },
        root := 0, nil := 0, next := 1, node_count := 0 }
    let r := create_node base vdef
    let d0 := upd r.1 r.2 (fun n => { n with color := .Black, left := r.2, right := r.2, p := r.2 })
    let d1 := { d0 with nil := r.2, root := r.2 }
    if src.root = src.nil then some (.ok { d1 with node_count := src.node_count })
    else if 2 = failAt then copy_ctor_catch d1 fuel
    else
      let r2 := create_node d1 ((src.mem src.root).val)
      let d2 := setColor r2.1 r2.2 ((src.mem src.root).color)
      let d3 := setP d2 r2.2 d2.nil
      let d4 := { d3 with root := r2.2 }
      match copy_tree_loop src failAt d4 2 [(src.root, r2.2)] fuel with
      | none => none
      | some (.error dfail) => copy_ctor_catch dfail fuel
      | some (.ok dok) => some (.ok { dok with node_count := src.node_count })

/-- Discriminator: did the copy constructor model end in a null-pointer
dereference during cleanup? -/
def is_null_deref : Option (CopyResult V) → Bool
  | some .nullDeref => true
  | _ => false

/-- Cells leaked by a throwing copy construction (`none` unless the run ended
with a propagated exception). -/
def leaked_cells : Option (CopyResult V) → Option (List Nat)
  | some (.thrown leaked _) => some leaked
  | _ => none

/-- Concrete multiset `{5, 1}` (insert 5 then 1), used against `lower_bound`. -/
def msTree51 : Rb_tree Int := (build_tree false 10 [5, 1]).getD (tree_new 0)

/-- Concrete multiset `{1, 2}`, used against `count`. -/
def msTree12 : Rb_tree Int := (build_tree false 10 [1, 2]).getD (tree_new 0)

/-- Concrete set `{1, 2}` built with unique keys. -/
def setTree12 : Rb_tree Int := (build_tree true 10 [1, 2]).getD (tree_new 0)

/-- The set `{1, 2}` after `erase(2)` (public `delete_node` of the node
holding 2). -/
def setTree12erase2 : Rb_tree Int := (erase_key setTree12 2 10).getD (tree_new 0)

/-! ## Inductive mirror of arena subtrees

To reason about the rebalancing algorithms, each well-formed arena subtree is
read off into an inductive binary tree that records, for every node, its arena
index, payload and colour.  The red-black conditions and the ordering
conditions become ordinary structural predicates on this mirror, and every
arena mutation is proved to act on the mirror as a local surgery. -/

/-- Inductive mirror of an arena subtree: `tip` is the sentinel, `bin` keeps
the arena index, the payload and the colour of the node. -/
inductive BT (V : Type) where
  | tip : BT V
  | bin : BT V → Nat → V → Node_color → BT V → BT V
deriving DecidableEq

/-- Arena indices of the mirror, in in-order. -/
def BT.idxs : BT V → List Nat
  | .tip => []
  | .bin l j _ _ r => BT.idxs l ++ j :: BT.idxs r

/-- Payloads of the mirror, in in-order. -/
def BT.vals : BT V → List V
  | .tip => []
  | .bin l _ v _ r => BT.vals l ++ v :: BT.vals r

/-- Colour of the mirror's top node; the sentinel counts as black. -/
def BT.topColor : BT V → Node_color
  | .tip => .Black
  | .bin _ _ _ c _ => c

/-- Index of the mirror's top node, if any. -/
def BT.topIdx : BT V → Option Nat
  | .tip => none
  | .bin _ j _ _ _ => some j

/-- Black height of the mirror, `none` if the two sides of some node
disagree; a `tip` (the sentinel) counts one black node. -/
def BT.bh : BT V → Option Nat
  | .tip => some 1
  | .bin l _ _ c r =>
    match BT.bh l, BT.bh r with
    | some a, some b =>
      if a = b then some (a + (if c = .Black then 1 else 0)) else none
    | _, _ => none

/-- No red node of the mirror has a red child. -/
def BT.noRR : BT V → Bool
  | .tip => true
  | .bin l _ _ c r =>
    BT.noRR l && BT.noRR r &&
    (c == .Black || (BT.topColor l == .Black && BT.topColor r == .Black))

/-- Left rotation as a surgery on the mirror's top. -/
def BT.rotL : BT V → BT V
  | .bin a x vx cx (.bin b y vy cy cc) => .bin (.bin a x vx cx b) y vy cy cc
  | T => T

/-- Right rotation as a surgery on the mirror's top. -/
def BT.rotR : BT V → BT V
  | .bin (.bin a y vy cy b) x vx cx c => .bin a y vy cy (.bin b x vx cx c)
  | T => T

/-- Recolour every node carrying arena index `a` (at most one in a mirror
without duplicate indices). -/
def BT.recolor (a : Nat) (c : Node_color) : BT V → BT V
  | .tip => .tip
  | .bin l j v cc r => .bin (BT.recolor a c l) j v (if j = a then c else cc) (BT.recolor a c r)

/-- Apply the surgery `g` to the subtree whose top carries arena index `x`
(the recursion stops at the first hit on each path). -/
def BT.replace (x : Nat) (g : BT V → BT V) : BT V → BT V
  | .tip => .tip
  | .bin l j v c r =>
    if j = x then g (.bin l j v c r)
    else .bin (BT.replace x g l) j v c (BT.replace x g r)

/-- Subtree of the mirror whose top carries arena index `x`. -/
def BT.subAt (x : Nat) : BT V → Option (BT V)
  | .tip => none
  | .bin l j v c r =>
    if j = x then some (.bin l j v c r)
    else (BT.subAt x l).orElse (fun _ => BT.subAt x r)

/-- Parent index of the node carrying arena index `x` inside the mirror. -/
def BT.parIn (x : Nat) : BT V → Option Nat
  | .tip => none
  | .bin l j _ _ r =>
    if BT.topIdx l = some x ∨ BT.topIdx r = some x then some j
    else (BT.parIn x l).orElse (fun _ => BT.parIn x r)

/-- Read an arena subtree off into its inductive mirror; `none` when the
structure does not unfold to sentinel leaves within the fuel. -/
def toTree (t : Rb_tree V) : Nat → Nat → Option (BT V)
  | _, 0 => none
  | i, fuel + 1 =>
    if i = t.nil then some .tip
    else
      match toTree t ((t.mem i).left) fuel, toTree t ((t.mem i).right) fuel with
      | some L, some R => some (.bin L i ((t.mem i).val) ((t.mem i).color) R)
      | _, _ => none

/-- The two arenas agree on the structural fields (everything except the
parent link) of cell `j`. -/
def agreeCell (t2 t : Rb_tree V) (j : Nat) : Prop :=
  (t2.mem j).left = (t.mem j).left ∧ (t2.mem j).right = (t.mem j).right ∧
  (t2.mem j).val = (t.mem j).val ∧ (t2.mem j).color = (t.mem j).color

/-- Every index recorded in the mirror names an allocated (non-null, below
the allocation counter) arena cell. -/
def cellsB (t : Rb_tree V) (S : BT V) : Bool :=
  S.idxs.all (fun j => decide (j ≠ 0) && decide (j < t.next))

/-- Parent back-link check against the mirror: the arena `p` field of the top
of every child subtree points at its mirror father. -/
def parB (t : Rb_tree V) : BT V → Bool
  | .tip => true
  | .bin l j _ _ r =>
    (match BT.topIdx l with
     | some a => (t.mem a).p == j
     | none => true) &&
    (match BT.topIdx r with
     | some a => (t.mem a).p == j
     | none => true) &&
    parB t l && parB t r

/-- Red-black soundness of a mirror: black top, no red node with a red child,
and a consistent black height. -/
def rb_ok (S : BT V) : Bool :=
  (S.topColor == .Black) && S.noRR && (S.bh).isSome

/-- `noRR` with one exemption: the node carrying index `z` may hang red under
a red father (CLRS insert-fixup loop invariant). -/
def BT.noRRx (z : Nat) : BT V → Bool
  | .tip => true
  | .bin l _ _ c r =>
    BT.noRRx z l && BT.noRRx z r &&
    (c == .Black ||
      ((l.topIdx == some z || l.topColor == .Black) &&
       (r.topIdx == some z || r.topColor == .Black)))

/-- Sentinel-cell invariant of every live tree object: an allocated non-null
black cell whose `left` and `right` links point at itself. -/
def sentinel_ok (t : Rb_tree V) : Prop :=
  t.nil ≠ 0 ∧ t.nil < t.next ∧ (t.mem t.nil).color = .Black ∧
  (t.mem t.nil).left = t.nil ∧ (t.mem t.nil).right = t.nil

/-- Simulation pack tying an arena state to its mirror: the sentinel is sound,
the root's parent link is the sentinel, the tree reads off to `G` within fuel
`f`, all recorded cells are allocated, the back-links are coherent and no
index repeats. -/
structure Sim (t : Rb_tree V) (G : BT V) (f : Nat) : Prop where
  sent : sentinel_ok t
  rootp : (t.mem t.root).p = t.nil
  tt : toTree t t.root f = some G
  cells : cellsB t G = true
  par : parB t G = true
  nodup : G.idxs.Nodup

/-- Mirror of the duplicate check on the descent path of `find_or_create`
(and `insert_node`): with unique keys the walk breaks at the first node whose
key is neither less nor greater than the searched key. -/
def dupFound (kov : V → Int) (key : Int) : BT V → Option Nat
  | .tip => none
  | .bin l j v _ r =>
    if ¬ key < kov v ∧ ¬ kov v < key then some j
    else if key < kov v then dupFound kov key l
    else dupFound kov key r

/-- Mirror of the structural effect of `find_or_create` + `link_new_node` on
a non-empty tree: descend with the comparison of the source (`comp(key, ·)`
left, otherwise right) and hang a fresh red node with arena index `n` at the
reached leaf position. -/
def bstAdd (kov : V → Int) (key : Int) (n : Nat) (value : V) : BT V → BT V
  | .tip => .bin .tip n value .Red .tip
  | .bin l j w c r =>
    if key < kov w then .bin (bstAdd kov key n value l) j w c r
    else .bin l j w c (bstAdd kov key n value r)

/-- Optional lower bound check (non-strict, as duplicates go right). -/
def loOK (lo : Option Int) (k : Int) : Bool :=
  match lo with
  | none => true
  | some a => a ≤ k

/-- Optional upper bound check (non-strict: rebalancing rotations can move a
duplicate key from a right subtree into a left one, so only the loose
ordering is invariant). -/
def hiOK (k : Int) (hi : Option Int) : Bool :=
  match hi with
  | none => true
  | some a => k ≤ a

/-- Search-tree soundness of a mirror between optional bounds: every node key
is within the bounds, left subtrees are non-strictly below their node key,
right subtrees non-strictly above. -/
def BT.bst (kov : V → Int) : Option Int → Option Int → BT V → Bool
  | _, _, .tip => true
  | lo, hi, .bin l _ v _ r =>
    loOK lo (kov v) && hiOK (kov v) hi &&
    BT.bst kov lo (some (kov v)) l && BT.bst kov (some (kov v)) hi r

/-- Colour of the node carrying arena index `x` inside a mirror (the sentinel
counts as black). -/
def BT.colorAt (x : Nat) : BT V → Node_color
  | .tip => .Black
  | .bin l j _ c r =>
    if j = x then c else (if x ∈ l.idxs then BT.colorAt x l else BT.colorAt x r)

/-- The red-red condition restricted to the one edge into the node carrying
index `z`: every red node whose child top carries `z` has that child black.
Together with `noRRx z` this recovers the full `noRR`. -/
def BT.zEdge (z : Nat) : BT V → Bool
  | .tip => true
  | .bin l _ _ c r =>
    BT.zEdge z l && BT.zEdge z r &&
    (c == .Black ||
      ((!(l.topIdx == some z) || l.topColor == .Black) &&
       (!(r.topIdx == some z) || r.topColor == .Black)))

/-- Length of the root path down to the node carrying index `x` (`0` when
absent): the termination measure of the fix-up loops. -/
def BT.depthOf (x : Nat) : BT V → Nat
  | .tip => 0
  | .bin l j _ _ r =>
    if j = x then 1
    else (if x ∈ l.idxs then BT.depthOf x l + 1 else BT.depthOf x r + 1)

/-- Mirror surgery of insert-fixup case 1 (red uncle, either side): recolour
parent and uncle black, grandparent red. -/
def fixC1 (p g u : Nat) (T : BT V) : BT V :=
  BT.recolor g .Red (BT.recolor p .Black (BT.recolor u .Black T))

/-- Mirror surgery of insert-fixup case 3, left configuration: recolour the
parent black and the grandparent red, then rotate right at the grandparent. -/
def fixLL (p g : Nat) (T : BT V) : BT V :=
  BT.rotR (BT.recolor g .Red (BT.recolor p .Black T))

/-- Mirror surgery of insert-fixup cases 2+3, left configuration: pre-rotate
left at the parent, recolour, then rotate right at the grandparent. -/
def fixLR (p g z : Nat) (T : BT V) : BT V :=
  BT.rotR (BT.recolor g .Red (BT.recolor z .Black (BT.replace p BT.rotL T)))

/-- Mirror surgery of insert-fixup case 3, right configuration. -/
def fixRR (p g : Nat) (T : BT V) : BT V :=
  BT.rotL (BT.recolor g .Red (BT.recolor p .Black T))

/-- Mirror surgery of insert-fixup cases 2+3, right configuration. -/
def fixRL (p g z : Nat) (T : BT V) : BT V :=
  BT.rotL (BT.recolor g .Red (BT.recolor z .Black (BT.replace p BT.rotR T)))

/-! ## Theorems about the claims -/

/-- Listing the sentinel subtree gives the empty list at any fuel. -/
theorem inorder_nil_emp (t : Rb_tree V) : ∀ fuel, inorder t t.nil fuel = []
  | 0 => rfl
  | _ + 1 => by simp [inorder]

/-- On a subtree that unfolds completely, `minimum` terminates and returns the
first node of the in-order listing. -/
theorem minimum_head (t : Rb_tree V) :
    ∀ fuel i, subtree_ok t i fuel = true → i ≠ t.nil →
      inorder t i fuel ≠ [] ∧ minimum t i fuel = (inorder t i fuel).head? := by
  intro fuel
  induction fuel with
  | zero => intro i h; simp [subtree_ok] at h
  | succ f ih =>
    intro i hok hne
    rw [subtree_ok, if_neg hne] at hok
    simp only [Bool.and_eq_true] at hok
    by_cases hl : (t.mem i).left = t.nil
    · rw [inorder, if_neg hne, hl, inorder_nil_emp]
      rw [minimum, if_neg (by simp [hl])]
      exact ⟨by simp, by simp⟩
    · obtain ⟨hne1, heq⟩ := ih ((t.mem i).left) hok.1.2 hl
      rw [inorder, if_neg hne, minimum, if_pos hl, heq,
        List.head?_append_of_ne_nil _ hne1]
      exact ⟨by simp [hne1], rfl⟩

/-- On a subtree that unfolds completely, `maximum` terminates and returns the
last node of the in-order listing. -/
theorem maximum_last (t : Rb_tree V) :
    ∀ fuel i, subtree_ok t i fuel = true → i ≠ t.nil →
      inorder t i fuel ≠ [] ∧ maximum t i fuel = (inorder t i fuel).getLast? := by
  intro fuel
  induction fuel with
  | zero => intro i h; simp [subtree_ok] at h
  | succ f ih =>
    intro i hok hne
    rw [subtree_ok, if_neg hne] at hok
    simp only [Bool.and_eq_true] at hok
    by_cases hr : (t.mem i).right = t.nil
    · rw [inorder, if_neg hne, hr, inorder_nil_emp]
      rw [maximum, if_neg (by simp [hr])]
      have h3 : (inorder t ((t.mem i).left) f ++ [i]).getLast? = some i := by
        rw [List.getLast?_append_of_ne_nil _ (by simp)]
        simp
      exact ⟨by simp, h3.symm⟩
    · obtain ⟨hne1, heq⟩ := ih ((t.mem i).right) hok.2 hr
      rw [inorder, if_neg hne, maximum, if_pos hr, heq]
      have h3 : (inorder t ((t.mem i).left) f ++ i :: inorder t ((t.mem i).right) f).getLast?
          = (inorder t ((t.mem i).right) f).getLast? := by
        rw [List.getLast?_append_of_ne_nil _ (by simp)]
        rw [show i :: inorder t ((t.mem i).right) f
              = [i] ++ inorder t ((t.mem i).right) f from rfl]
        rw [List.getLast?_append_of_ne_nil _ hne1]
      exact ⟨by simp, h3.symm⟩

/-- On a subtree that unfolds completely, `search_loop` terminates and returns
either the sentinel or a node of that subtree whose key equals the searched
key (this is immediate from the loop's exit condition, no ordering
assumption is needed). -/
theorem search_loop_spec (kov : V → Int) (t : Rb_tree V) (key : Int) :
    ∀ fuel i, subtree_ok t i fuel = true →
      ∃ r, search_loop kov t key i fuel = some r ∧
        (r = t.nil ∨ (r ∈ inorder t i fuel ∧ kov (t.mem r).val = key)) := by
  intro fuel
  induction fuel with
  | zero => intro i h; simp [subtree_ok] at h
  | succ f ih =>
    intro i hok
    by_cases hni : i = t.nil
    · exact ⟨i, by rw [search_loop, if_neg (by simp [hni])], Or.inl hni⟩
    rw [subtree_ok, if_neg hni] at hok
    simp only [Bool.and_eq_true] at hok
    by_cases hkey : key = kov (t.mem i).val
    · refine ⟨i, by rw [search_loop, if_neg (by simp [hkey])], Or.inr ⟨?_, hkey.symm⟩⟩
      rw [inorder, if_neg hni]
      simp
    · by_cases hlt : key < kov (t.mem i).val
      · obtain ⟨r, hr, hd⟩ := ih ((t.mem i).left) hok.1.2
        refine ⟨r, ?_, ?_⟩
        · rw [search_loop, if_pos ⟨hni, hkey⟩, if_pos hlt]; exact hr
        · refine hd.imp id (fun h => ⟨?_, h.2⟩)
          rw [inorder, if_neg hni]
          exact List.mem_append_left _ h.1
      · obtain ⟨r, hr, hd⟩ := ih ((t.mem i).right) hok.2
        refine ⟨r, ?_, ?_⟩
        · rw [search_loop, if_pos ⟨hni, hkey⟩, if_neg hlt]; exact hr
        · refine hd.imp id (fun h => ⟨?_, h.2⟩)
          rw [inorder, if_neg hni]
          exact List.mem_append_right _ (List.mem_cons_of_mem _ h.1)

/-- C10: erasing an absent key, or the end iterator, is a no-op.  On any tree
state whose structure unfolds completely within the given fuel and that stores
no element equal to `key`, the facade `erase(key)` of set and multiset
(`delete_node(search(key))`) returns the state unchanged, and
`delete_node` applied to the sentinel (the node of `end()`, which is what
`erase(end())` passes) also returns the state unchanged. -/
theorem c10_erase_absent_key_or_end_is_noop (t : Rb_tree Int) (key : Int) (fuel : Nat)
    (hok : subtree_ok t t.root fuel = true)
    (habs : ∀ v ∈ inorderVals t t.root fuel, v ≠ key) :
    erase_key t key fuel = some t ∧ delete_node t t.nil fuel = some t := by
  have hnil : delete_node t t.nil fuel = some t := by rw [delete_node, if_pos rfl]
  refine ⟨?_, hnil⟩
  obtain ⟨r, hr, hd⟩ := search_loop_spec id t key fuel t.root hok
  have hrnil : r = t.nil := by
    rcases hd with h | h
    · exact h
    · exact absurd h.2 (habs ((t.mem r).val) (List.mem_map_of_mem _ h.1))
  rw [erase_key, search, hr, hrnil]
  exact hnil

/-- Witness for C10 at a concrete input: the set `{1, 2}` stores nothing equal
to 99, and erasing 99 (or erasing at `end()`) leaves the state unchanged. -/
theorem c10_witness :
    erase_key setTree12 99 10 = some setTree12 ∧
    delete_node setTree12 setTree12.nil 10 = some setTree12 :=
  c10_erase_absent_key_or_end_is_noop setTree12 99 10 (by decide) (by decide)

/-- C9: at the sentinel (the `end()` position) the iterator increment lands on
`begin()`, which is the first node of the in-order listing (the tree minimum),
and the iterator decrement lands on the last node of the in-order listing (the
tree maximum), for every tree state whose structure unfolds completely within
the given fuel and that is not empty. -/
theorem c9_end_iterator_wraps_to_min_and_max (t : Rb_tree V) (fuel : Nat)
    (hok : subtree_ok t t.root fuel = true) (hne : t.root ≠ t.nil) :
    iter_increment t t.nil fuel = tree_begin t fuel ∧
    iter_increment t t.nil fuel = (inorder t t.root fuel).head? ∧
    iter_decrement t t.nil fuel = (inorder t t.root fuel).getLast? := by
  have h1 := minimum_head t fuel t.root hok hne
  have h2 := maximum_last t fuel t.root hok hne
  refine ⟨by rw [iter_increment, if_pos rfl]; rfl, ?_, ?_⟩
  · rw [iter_increment, if_pos rfl]
    exact h1.2
  · rw [iter_decrement, if_pos rfl]
    exact h2.2

/-- Witness for C9 at a concrete input: in the set `{1, 2}`, incrementing from
`end()` gives `begin()` (the node holding 1) and decrementing from `end()`
gives the node holding 2. -/
theorem c9_witness :
    iter_increment setTree12 setTree12.nil 10 = tree_begin setTree12 10 ∧
    iter_increment setTree12 setTree12.nil 10 = (inorder setTree12 setTree12.root 10).head? ∧
    iter_decrement setTree12 setTree12.nil 10 = (inorder setTree12 setTree12.root 10).getLast? :=
  c9_end_iterator_wraps_to_min_and_max setTree12 10 (by decide) (by decide)

/-- C7: counterexample. In the multiset `{5, 1}` (insert 5, then 1) the
element 5 is the unique stored element whose key is not less than 2 — so it is
the first such element in iteration order — yet `lower_bound(2)` returns the
sentinel, i.e. `end()`: the descent ends by stepping right from node 1 and the
final `comp(key, prev->key)` repair only inspects that last visited node. -/
theorem c7_lower_bound_misses_existing_element :
    (build_tree false 10 [5, 1]).isSome = true ∧
    msTree51.root ≠ msTree51.nil ∧
    (inorderVals msTree51 msTree51.root 10).filter (fun v => decide (2 ≤ v)) = [5] ∧
    ms_lower_bound msTree51 2 10 = some msTree51.nil := by
  refine ⟨by decide, by decide, by decide, by decide⟩

/-- C8: counterexample. In the multiset `{1, 2}` no stored element equals 0,
but `count(0)` returns 1: `find(0)` lands on the sentinel, whose
default-constructed value compares equal to the key 0, so the counting loop
walks once through the sentinel before stopping at the minimum element. -/
theorem c8_count_overcounts_default_key :
    (build_tree false 10 [1, 2]).isSome = true ∧
    (inorderVals msTree12 msTree12.root 10).count 0 = 0 ∧
    ms_count msTree12 0 20 = some 1 := by
  refine ⟨by decide, by decide, by decide⟩

/-- C6: counterexample. Build the tree by inserting 1 then 2 (public
mutations from the empty tree) and erase the key 2: `transplant(z, z->right)`
unconditionally executes `v->p = u->p` with `v` the sentinel, so after this
public operation the sentinel's parent link points at the interior node
holding 1 instead of at the sentinel itself (its colour and its left/right
self-links are unaffected here). -/
theorem c6_sentinel_parent_dangles_after_delete :
    (build_tree true 10 [1, 2]).isSome = true ∧
    (erase_key setTree12 2 10).isSome = true ∧
    (setTree12erase2.mem setTree12erase2.nil).color = .Black ∧
    (setTree12erase2.mem setTree12erase2.nil).left = setTree12erase2.nil ∧
    (setTree12erase2.mem setTree12erase2.nil).right = setTree12erase2.nil ∧
    (setTree12erase2.mem setTree12erase2.nil).p ≠ setTree12erase2.nil := by
  refine ⟨by decide, by decide, by decide, by decide, by decide, by decide⟩

/-- C5: counterexample. Copy-construct from the two-node set `{1, 2}` with an
allocator whose third allocation throws (sentinel and root copy succeed, the
copy of the child node fails).  The root copy still carries the null child
links installed by the `Node` constructor, so the catch block's
`clear()` walk steps into the null pointer and dereferences it (undefined
behaviour) instead of freeing the copied nodes; and when the failure strikes
one allocation earlier, the exception propagates but the destination's
sentinel cell (index 1) is never deallocated. -/
theorem c5_copy_cleanup_null_deref_and_sentinel_leak :
    (build_tree true 10 [1, 2]).isSome = true ∧
    is_null_deref (copy_ctor setTree12 0 3 50) = true ∧
    leaked_cells (copy_ctor setTree12 0 2 50) = some [1] := by
  refine ⟨by decide, by decide, by decide⟩

/-! ## Mirror infrastructure lemmas -/

/-- Reading off the sentinel gives `tip` at any positive fuel. -/
theorem toTree_nil (t : Rb_tree V) (f : Nat) : toTree t t.nil (f + 1) = some .tip := by
  simp [toTree]

/-- Fuel monotonicity of the read-off. -/
theorem toTree_mono (t : Rb_tree V) :
    ∀ f g i T, f ≤ g → toTree t i f = some T → toTree t i g = some T := by
  intro f
  induction f with
  | zero => intro g i T _ h; simp [toTree] at h
  | succ f ih =>
    intro g i T hfg h
    obtain ⟨g, rfl⟩ : ∃ g2, g = g2 + 1 := ⟨g - 1, by omega⟩
    rw [toTree] at h
    rw [toTree]
    by_cases hi : i = t.nil
    · rw [if_pos hi] at h ⊢; exact h
    rw [if_neg hi] at h ⊢
    rcases hL : toTree t ((t.mem i).left) f with _ | L <;> rw [hL] at h
    · exact absurd h (by simp)
    rcases hR : toTree t ((t.mem i).right) f with _ | R <;> rw [hR] at h
    · exact absurd h (by simp)
    rw [ih _ _ _ (by omega) hL, ih _ _ _ (by omega) hR]
    exact h

/-- The read-off only depends on the structural fields and the sentinel
index, not on the parent links nor on the bookkeeping fields. -/
theorem toTree_congr (t2 t : Rb_tree V) (hnil : t2.nil = t.nil)
    (h : ∀ j, agreeCell t2 t j) : ∀ f i, toTree t2 i f = toTree t i f := by
  intro f
  induction f with
  | zero => intro i; simp [toTree]
  | succ f ih =>
    intro i
    rw [toTree, toTree, hnil]
    by_cases hi : i = t.nil
    · simp [hi]
    rw [if_neg hi, if_neg hi, (h i).1, (h i).2.1, (h i).2.2.1, (h i).2.2.2, ih, ih]

/-- Parent-link writes are invisible to the read-off. -/
theorem setP_toTree (t : Rb_tree V) (a b : Nat) (f i : Nat) :
    toTree (setP t a b) i f = toTree t i f := by
  refine toTree_congr (setP t a b) t rfl (fun j => ?_) f i
  unfold agreeCell setP upd
  by_cases hj : j = a <;> simp [hj]

/-- Changing the root field does not change the read-off. -/
theorem root_toTree (t : Rb_tree V) (r : Nat) (f i : Nat) :
    toTree { t with root := r } i f = toTree t i f :=
  toTree_congr { t with root := r } t rfl (fun _ => ⟨rfl, rfl, rfl, rfl⟩) f i

/-- Changing the node counter does not change the read-off. -/
theorem count_toTree (t : Rb_tree V) (c : Nat) (f i : Nat) :
    toTree { t with node_count := c } i f = toTree t i f :=
  toTree_congr { t with node_count := c } t rfl (fun _ => ⟨rfl, rfl, rfl, rfl⟩) f i

/-- Indices recorded in a read-off mirror are never the sentinel. -/
theorem toTree_idx_ne_nil (t : Rb_tree V) :
    ∀ f i T, toTree t i f = some T → ∀ j ∈ T.idxs, j ≠ t.nil := by
  intro f
  induction f with
  | zero => intro i T h; simp [toTree] at h
  | succ f ih =>
    intro i T h j hj
    rw [toTree] at h
    by_cases hi : i = t.nil
    · rw [if_pos hi] at h
      obtain rfl : BT.tip = T := Option.some.inj h
      simp [BT.idxs] at hj
    rw [if_neg hi] at h
    rcases hL : toTree t ((t.mem i).left) f with _ | L <;> rw [hL] at h
    · exact absurd h (by simp)
    rcases hR : toTree t ((t.mem i).right) f with _ | R <;> rw [hR] at h
    · exact absurd h (by simp)
    obtain rfl : BT.bin L i ((t.mem i).val) ((t.mem i).color) R = T := Option.some.inj h
    rw [BT.idxs] at hj
    rcases List.mem_append.1 hj with hj | hj
    · exact ih _ _ hL j hj
    rcases List.mem_cons.1 hj with rfl | hj
    · exact hi
    · exact ih _ _ hR j hj

/-- Frame rule: if two arenas agree (up to parent links) on every cell listed
in the mirror of a subtree and have the same sentinel, the subtree reads off
identically in both. -/
theorem toTree_frame (t2 t : Rb_tree V) (hnil : t2.nil = t.nil) :
    ∀ f i T, toTree t i f = some T → (∀ j ∈ T.idxs, agreeCell t2 t j) →
      toTree t2 i f = some T := by
  intro f
  induction f with
  | zero => intro i T h; simp [toTree] at h
  | succ f ih =>
    intro i T h hag
    rw [toTree] at h
    rw [toTree, hnil]
    by_cases hi : i = t.nil
    · rw [if_pos hi] at h ⊢; exact h
    rw [if_neg hi] at h ⊢
    rcases hL : toTree t ((t.mem i).left) f with _ | L <;> rw [hL] at h
    · exact absurd h (by simp)
    rcases hR : toTree t ((t.mem i).right) f with _ | R <;> rw [hR] at h
    · exact absurd h (by simp)
    obtain rfl : BT.bin L i ((t.mem i).val) ((t.mem i).color) R = T := Option.some.inj h
    have hii : i ∈ (BT.bin L i ((t.mem i).val) ((t.mem i).color) R).idxs := by
      rw [BT.idxs]; simp
    obtain ⟨e1, e2, e3, e4⟩ := hag i hii
    rw [e1, e2, e3, e4]
    have hagL : ∀ j ∈ L.idxs, agreeCell t2 t j := by
      intro j hj
      refine hag j ?_
      rw [BT.idxs]
      exact List.mem_append_left _ hj
    have hagR : ∀ j ∈ R.idxs, agreeCell t2 t j := by
      intro j hj
      refine hag j ?_
      rw [BT.idxs]
      exact List.mem_append_right _ (List.mem_cons_of_mem _ hj)
    rw [ih _ _ hL hagL, ih _ _ hR hagR]

/-- A structurally sound arena subtree reads off successfully. -/
theorem subtree_ok_toTree (t : Rb_tree V) :
    ∀ f i, subtree_ok t i f = true → ∃ T, toTree t i f = some T := by
  intro f
  induction f with
  | zero => intro i h; simp [subtree_ok] at h
  | succ f ih =>
    intro i hok
    by_cases hi : i = t.nil
    · exact ⟨.tip, by rw [toTree, if_pos hi]⟩
    rw [subtree_ok, if_neg hi] at hok
    simp only [Bool.and_eq_true] at hok
    obtain ⟨L, hL⟩ := ih _ hok.1.2
    obtain ⟨R, hR⟩ := ih _ hok.2
    exact ⟨_, by rw [toTree, if_neg hi, hL, hR]⟩

/-- The mirror's index list is the arena in-order listing. -/
theorem toTree_inorder (t : Rb_tree V) :
    ∀ f i T, toTree t i f = some T → inorder t i f = T.idxs := by
  intro f
  induction f with
  | zero => intro i T h; simp [toTree] at h
  | succ f ih =>
    intro i T h
    rw [toTree] at h
    by_cases hi : i = t.nil
    · rw [if_pos hi] at h
      obtain rfl := Option.some.inj h
      rw [inorder, if_pos hi, BT.idxs]
    rw [if_neg hi] at h
    rcases hL : toTree t ((t.mem i).left) f with _ | L <;> rw [hL] at h
    · exact absurd h (by simp)
    rcases hR : toTree t ((t.mem i).right) f with _ | R <;> rw [hR] at h
    · exact absurd h (by simp)
    obtain rfl := Option.some.inj h
    rw [inorder, if_neg hi, BT.idxs, ih _ _ hL, ih _ _ hR]

/-- The mirror's payload list is the value image of its index list. -/
theorem toTree_vals_map (t : Rb_tree V) :
    ∀ f i T, toTree t i f = some T → T.vals = T.idxs.map (fun j => (t.mem j).val) := by
  intro f
  induction f with
  | zero => intro i T h; simp [toTree] at h
  | succ f ih =>
    intro i T h
    rw [toTree] at h
    by_cases hi : i = t.nil
    · rw [if_pos hi] at h
      obtain rfl := Option.some.inj h
      simp [BT.idxs, BT.vals]
    rw [if_neg hi] at h
    rcases hL : toTree t ((t.mem i).left) f with _ | L <;> rw [hL] at h
    · exact absurd h (by simp)
    rcases hR : toTree t ((t.mem i).right) f with _ | R <;> rw [hR] at h
    · exact absurd h (by simp)
    obtain rfl := Option.some.inj h
    rw [BT.vals, BT.idxs, List.map_append, List.map_cons, ih _ _ hL, ih _ _ hR]

/-- Shape of the mirror's top: the sentinel reads off as `tip`, anything else
as a `bin` carrying its own index. -/
theorem toTree_topIdx (t : Rb_tree V) (x f : Nat) (S : BT V)
    (h : toTree t x f = some S) :
    (x = t.nil → S = .tip) ∧ (x ≠ t.nil → S.topIdx = some x) := by
  rcases f with _ | f
  · simp [toTree] at h
  rw [toTree] at h
  by_cases hx : x = t.nil
  · rw [if_pos hx] at h
    obtain rfl := Option.some.inj h
    exact ⟨fun _ => rfl, fun hc => absurd hx hc⟩
  rw [if_neg hx] at h
  rcases hL : toTree t ((t.mem x).left) f with _ | L <;> rw [hL] at h
  · exact absurd h (by simp)
  rcases hR : toTree t ((t.mem x).right) f with _ | R <;> rw [hR] at h
  · exact absurd h (by simp)
  obtain rfl := Option.some.inj h
  exact ⟨fun hc => absurd hc hx, fun _ => rfl⟩

/-- Elimination for a `bin`-shaped read-off: the recorded index, payload and
colour come from the arena cell and the children read off with one fuel
less. -/
theorem toTree_bin_elim (t : Rb_tree V) (x f : Nat) (L R : BT V) (j : Nat) (v : V)
    (c : Node_color) (h : toTree t x f = some (.bin L j v c R)) :
    x ≠ t.nil ∧ j = x ∧ v = (t.mem x).val ∧ c = (t.mem x).color ∧
    ∃ f2, f = f2 + 1 ∧ toTree t ((t.mem x).left) f2 = some L ∧
      toTree t ((t.mem x).right) f2 = some R := by
  rcases f with _ | f
  · simp [toTree] at h
  rw [toTree] at h
  by_cases hx : x = t.nil
  · rw [if_pos hx] at h
    exact absurd (Option.some.inj h) (by simp)
  rw [if_neg hx] at h
  rcases hL : toTree t ((t.mem x).left) f with _ | L2 <;> rw [hL] at h
  · exact absurd h (by simp)
  rcases hR : toTree t ((t.mem x).right) f with _ | R2 <;> rw [hR] at h
  · exact absurd h (by simp)
  obtain ⟨rfl, rfl, rfl, rfl, rfl⟩ :
      L2 = L ∧ x = j ∧ (t.mem x).val = v ∧ (t.mem x).color = c ∧ R2 = R := by
    have := Option.some.inj h
    injection this with h1 h2 h3 h4 h5
    exact ⟨h1, h2, h3, h4, h5⟩
  exact ⟨hx, rfl, rfl, rfl, f, rfl, hL, hR⟩

/-- Surgery at an absent index is the identity. -/
theorem BT.replace_of_not_mem (x : Nat) (g : BT V → BT V) :
    ∀ T : BT V, x ∉ T.idxs → T.replace x g = T := by
  intro T
  induction T with
  | tip => intro _; rfl
  | bin l j v c r ihl ihr =>
    intro h
    rw [BT.idxs] at h
    simp only [List.mem_append, List.mem_cons] at h
    push_neg at h
    rw [BT.replace, if_neg (fun hc => h.2.1 hc.symm), ihl h.1, ihr h.2.2]

/-- A successful `subAt` witnesses membership of the index. -/
theorem BT.subAt_mem (x : Nat) :
    ∀ T : BT V, ∀ S, BT.subAt x T = some S → x ∈ T.idxs := by
  intro T
  induction T with
  | tip => intro S h; simp [BT.subAt] at h
  | bin l j v c r ihl ihr =>
    intro S h
    rw [BT.subAt] at h
    by_cases hj : j = x
    · rw [BT.idxs]
      exact List.mem_append_right _ (hj ▸ List.mem_cons_self _ _)
    rw [if_neg hj] at h
    rw [BT.idxs]
    rcases h2 : BT.subAt x l with _ | S2
    · rw [h2] at h
      refine List.mem_append_right _ (List.mem_cons_of_mem _ (ihr S ?_))
      exact h
    · rw [h2] at h
      exact List.mem_append_left _ (ihl S2 h2)

/-- Every mirror index is reachable by `subAt`, and its subtree reads off from
the arena at that index. -/
theorem toTree_subAt (t : Rb_tree V) :
    ∀ f i T, toTree t i f = some T → ∀ x ∈ T.idxs,
      ∃ S, BT.subAt x T = some S ∧ ∃ g, g ≤ f ∧ toTree t x g = some S := by
  intro f
  induction f with
  | zero => intro i T h; simp [toTree] at h
  | succ f ih =>
    intro i T h x hx
    rw [toTree] at h
    by_cases hi : i = t.nil
    · rw [if_pos hi] at h
      obtain rfl := Option.some.inj h
      simp [BT.idxs] at hx
    rw [if_neg hi] at h
    rcases hL : toTree t ((t.mem i).left) f with _ | L <;> rw [hL] at h
    · exact absurd h (by simp)
    rcases hR : toTree t ((t.mem i).right) f with _ | R <;> rw [hR] at h
    · exact absurd h (by simp)
    obtain rfl := Option.some.inj h
    by_cases hxi : i = x
    · refine ⟨_, by rw [BT.subAt, if_pos hxi], f + 1, le_refl _, ?_⟩
      rw [← hxi, toTree, if_neg hi, hL, hR]
    rcases h2 : BT.subAt x L with _ | S2
    · have hxr : x ∈ R.idxs := by
        rw [BT.idxs] at hx
        rcases List.mem_append.1 hx with hxl | hxr
        · obtain ⟨S, hS, _⟩ := ih _ _ hL x hxl
          rw [h2] at hS
          exact absurd hS (by simp)
        rcases List.mem_cons.1 hxr with rfl | hxr
        · exact absurd rfl hxi
        exact hxr
      obtain ⟨S, hS, g, hg, hT⟩ := ih _ _ hR x hxr
      refine ⟨S, ?_, g, Nat.le_succ_of_le hg, hT⟩
      rw [BT.subAt, if_neg hxi, h2]
      simpa [Option.orElse] using hS
    · have hxl : x ∈ L.idxs := BT.subAt_mem x L S2 h2
      obtain ⟨S, hS, g, hg, hT⟩ := ih _ _ hL x hxl
      refine ⟨S, ?_, g, Nat.le_succ_of_le hg, hT⟩
      rw [BT.subAt, if_neg hxi, hS]
      simp [Option.orElse]

/-- Unpack one level of the structural soundness check. -/
theorem subtree_ok_elim (t : Rb_tree V) (i f : Nat)
    (h : subtree_ok t i (f + 1) = true) (hi : i ≠ t.nil) :
    i ≠ 0 ∧ i < t.next ∧
    ((t.mem i).left = t.nil ∨ (t.mem ((t.mem i).left)).p = i) ∧
    ((t.mem i).right = t.nil ∨ (t.mem ((t.mem i).right)).p = i) ∧
    subtree_ok t ((t.mem i).left) f = true ∧ subtree_ok t ((t.mem i).right) f = true := by
  rw [subtree_ok, if_neg hi] at h
  simp only [Bool.and_eq_true, Bool.or_eq_true, beq_iff_eq, decide_eq_true_eq] at h
  exact ⟨h.1.1.1.1.1, h.1.1.1.1.2, h.1.1.1.2, h.1.1.2, h.1.2, h.2⟩

/-- Inside a structurally sound subtree, the parent link of every non-top node
points into the subtree (to its structural father). -/
theorem par_mem (t : Rb_tree V) :
    ∀ f a S, subtree_ok t a f = true → toTree t a f = some S →
      ∀ x ∈ S.idxs, x ≠ a → (t.mem x).p ∈ S.idxs := by
  intro f
  induction f with
  | zero => intro a S h; simp [subtree_ok] at h
  | succ f ih =>
    intro a S hok hT x hx hxa
    obtain ⟨hanil, L, R, va, ca, rfl, hL, hR⟩ :
        a ≠ t.nil ∧ ∃ L R va ca, S = .bin L a va ca R ∧
          toTree t ((t.mem a).left) f = some L ∧ toTree t ((t.mem a).right) f = some R := by
      have hanil : a ≠ t.nil := by
        intro hc
        rw [toTree, if_pos hc] at hT
        obtain rfl := Option.some.inj hT
        simp [BT.idxs] at hx
      rcases S with _ | ⟨L, j, v, c, R⟩
      · simp [BT.idxs] at hx
      obtain ⟨_, rfl, rfl, rfl, f2, hf2, hBL, hBR⟩ := toTree_bin_elim t a _ L R j v c hT
      obtain rfl : f2 = f := by omega
      exact ⟨hanil, L, R, _, _, rfl, hBL, hBR⟩
    obtain ⟨_, _, hbl, hbr, hokL, hokR⟩ := subtree_ok_elim t a f hok hanil
    rw [BT.idxs] at hx ⊢
    rcases List.mem_append.1 hx with hxl | hxr
    · have hLne : L ≠ .tip := by rintro rfl; simp [BT.idxs] at hxl
      have hlnil : (t.mem a).left ≠ t.nil := by
        intro hc
        rw [hc] at hL
        rcases f with _ | f
        · simp [toTree] at hL
        rw [toTree_nil] at hL
        exact hLne (Option.some.inj hL).symm
      have hLtop : L.topIdx = some ((t.mem a).left) := (toTree_topIdx t _ f L hL).2 hlnil
      by_cases hxt : x = (t.mem a).left
      · have : (t.mem x).p = a := by
          rcases hbl with hc | hc
          · exact absurd hc (hxt ▸ hxt ▸ hlnil)
          · rw [hxt]; exact hc
        rw [this]
        exact List.mem_append_right _ (List.mem_cons_self _ _)
      · have := ih _ _ hokL hL x hxl hxt
        exact List.mem_append_left _ this
    rcases List.mem_cons.1 hxr with rfl | hxr
    · exact absurd rfl hxa
    have hRne : R ≠ .tip := by rintro rfl; simp [BT.idxs] at hxr
    have hrnil : (t.mem a).right ≠ t.nil := by
      intro hc
      rw [hc] at hR
      rcases f with _ | f
      · simp [toTree] at hR
      rw [toTree_nil] at hR
      exact hRne (Option.some.inj hR).symm
    by_cases hxt : x = (t.mem a).right
    · have : (t.mem x).p = a := by
        rcases hbr with hc | hc
        · exact absurd hc (hxt ▸ hxt ▸ hrnil)
        · rw [hxt]; exact hc
      rw [this]
      exact List.mem_append_right _ (List.mem_cons_self _ _)
    · have := ih _ _ hokR hR x hxr hxt
      exact List.mem_append_right _ (List.mem_cons_of_mem _ this)

/-- A read-off subtree is `tip` exactly when its index is the sentinel. -/
theorem toTree_tip_iff (t : Rb_tree V) (x f : Nat) (S : BT V)
    (h : toTree t x f = some S) : S = .tip ↔ x = t.nil := by
  constructor
  · rintro rfl
    by_contra hx
    rcases f with _ | f
    · simp [toTree] at h
    rw [toTree, if_neg hx] at h
    rcases hL : toTree t ((t.mem x).left) f with _ | L <;> rw [hL] at h
    · exact absurd h (by simp)
    rcases hR : toTree t ((t.mem x).right) f with _ | R <;> rw [hR] at h
    · exact absurd h (by simp)
    exact absurd (Option.some.inj h) (by simp)
  · rintro rfl
    rcases f with _ | f
    · simp [toTree] at h
    rw [toTree_nil] at h
    exact (Option.some.inj h).symm

/-- Decompose a read-off around a member index at the top. -/
theorem toTree_mem_elim (t : Rb_tree V) (a f : Nat) (S : BT V)
    (hT : toTree t a f = some S) (hne : S ≠ .tip) :
    a ≠ t.nil ∧ ∃ L R va ca f2, S = .bin L a va ca R ∧ f = f2 + 1 ∧
      va = (t.mem a).val ∧ ca = (t.mem a).color ∧
      toTree t ((t.mem a).left) f2 = some L ∧ toTree t ((t.mem a).right) f2 = some R := by
  have hanil : a ≠ t.nil := fun hc => hne ((toTree_tip_iff t a f S hT).2 hc)
  rcases S with _ | ⟨L, j, v, c, R⟩
  · exact absurd rfl hne
  obtain ⟨_, rfl, rfl, rfl, f2, rfl, hBL, hBR⟩ := toTree_bin_elim t a _ L R j v c hT
  exact ⟨hanil, L, R, _, _, f2, rfl, rfl, rfl, rfl, hBL, hBR⟩

/-- Field projections of the four primitive writes: each write changes exactly
one field of one cell and leaves the bookkeeping fields alone.  These are the
building blocks for reasoning about the write sequences of the engine. -/
theorem setLeft_left (t : Rb_tree V) (i j k : Nat) :
    ((setLeft t i j).mem k).left = if k = i then j else (t.mem k).left := by
  unfold setLeft upd; dsimp only; split_ifs <;> rfl

theorem setLeft_right (t : Rb_tree V) (i j k : Nat) :
    ((setLeft t i j).mem k).right = (t.mem k).right := by
  unfold setLeft upd; dsimp only; split_ifs <;> rfl

theorem setLeft_val (t : Rb_tree V) (i j k : Nat) :
    ((setLeft t i j).mem k).val = (t.mem k).val := by
  unfold setLeft upd; dsimp only; split_ifs <;> rfl

theorem setLeft_color (t : Rb_tree V) (i j k : Nat) :
    ((setLeft t i j).mem k).color = (t.mem k).color := by
  unfold setLeft upd; dsimp only; split_ifs <;> rfl

theorem setLeft_p (t : Rb_tree V) (i j k : Nat) :
    ((setLeft t i j).mem k).p = (t.mem k).p := by
  unfold setLeft upd; dsimp only; split_ifs <;> rfl

theorem setRight_left (t : Rb_tree V) (i j k : Nat) :
    ((setRight t i j).mem k).left = (t.mem k).left := by
  unfold setRight upd; dsimp only; split_ifs <;> rfl

theorem setRight_right (t : Rb_tree V) (i j k : Nat) :
    ((setRight t i j).mem k).right = if k = i then j else (t.mem k).right := by
  unfold setRight upd; dsimp only; split_ifs <;> rfl

theorem setRight_val (t : Rb_tree V) (i j k : Nat) :
    ((setRight t i j).mem k).val = (t.mem k).val := by
  unfold setRight upd; dsimp only; split_ifs <;> rfl

theorem setRight_color (t : Rb_tree V) (i j k : Nat) :
    ((setRight t i j).mem k).color = (t.mem k).color := by
  unfold setRight upd; dsimp only; split_ifs <;> rfl

theorem setRight_p (t : Rb_tree V) (i j k : Nat) :
    ((setRight t i j).mem k).p = (t.mem k).p := by
  unfold setRight upd; dsimp only; split_ifs <;> rfl

theorem setP_left (t : Rb_tree V) (i j k : Nat) :
    ((setP t i j).mem k).left = (t.mem k).left := by
  unfold setP upd; dsimp only; split_ifs <;> rfl

theorem setP_right (t : Rb_tree V) (i j k : Nat) :
    ((setP t i j).mem k).right = (t.mem k).right := by
  unfold setP upd; dsimp only; split_ifs <;> rfl

theorem setP_val (t : Rb_tree V) (i j k : Nat) :
    ((setP t i j).mem k).val = (t.mem k).val := by
  unfold setP upd; dsimp only; split_ifs <;> rfl

theorem setP_color (t : Rb_tree V) (i j k : Nat) :
    ((setP t i j).mem k).color = (t.mem k).color := by
  unfold setP upd; dsimp only; split_ifs <;> rfl

theorem setP_p (t : Rb_tree V) (i j k : Nat) :
    ((setP t i j).mem k).p = if k = i then j else (t.mem k).p := by
  unfold setP upd; dsimp only; split_ifs <;> rfl

theorem setColor_left (t : Rb_tree V) (i : Nat) (c : Node_color) (k : Nat) :
    ((setColor t i c).mem k).left = (t.mem k).left := by
  unfold setColor upd; dsimp only; split_ifs <;> rfl

theorem setColor_right (t : Rb_tree V) (i : Nat) (c : Node_color) (k : Nat) :
    ((setColor t i c).mem k).right = (t.mem k).right := by
  unfold setColor upd; dsimp only; split_ifs <;> rfl

theorem setColor_val (t : Rb_tree V) (i : Nat) (c : Node_color) (k : Nat) :
    ((setColor t i c).mem k).val = (t.mem k).val := by
  unfold setColor upd; dsimp only; split_ifs <;> rfl

theorem setColor_color (t : Rb_tree V) (i : Nat) (c : Node_color) (k : Nat) :
    ((setColor t i c).mem k).color = if k = i then c else (t.mem k).color := by
  unfold setColor upd; dsimp only; split_ifs <;> rfl

theorem setColor_p (t : Rb_tree V) (i : Nat) (c : Node_color) (k : Nat) :
    ((setColor t i c).mem k).p = (t.mem k).p := by
  unfold setColor upd; dsimp only; split_ifs <;> rfl

theorem setLeft_fields (t : Rb_tree V) (i j : Nat) :
    (setLeft t i j).nil = t.nil ∧ (setLeft t i j).root = t.root ∧
    (setLeft t i j).next = t.next ∧ (setLeft t i j).node_count = t.node_count :=
  ⟨rfl, rfl, rfl, rfl⟩

theorem setRight_fields (t : Rb_tree V) (i j : Nat) :
    (setRight t i j).nil = t.nil ∧ (setRight t i j).root = t.root ∧
    (setRight t i j).next = t.next ∧ (setRight t i j).node_count = t.node_count :=
  ⟨rfl, rfl, rfl, rfl⟩

theorem setP_fields (t : Rb_tree V) (i j : Nat) :
    (setP t i j).nil = t.nil ∧ (setP t i j).root = t.root ∧
    (setP t i j).next = t.next ∧ (setP t i j).node_count = t.node_count :=
  ⟨rfl, rfl, rfl, rfl⟩

theorem setColor_fields (t : Rb_tree V) (i : Nat) (c : Node_color) :
    (setColor t i c).nil = t.nil ∧ (setColor t i c).root = t.root ∧
    (setColor t i c).next = t.next ∧ (setColor t i c).node_count = t.node_count :=
  ⟨rfl, rfl, rfl, rfl⟩

/-- Cell-level effect of `left_rotate` at `x` (with `y` the right child, `b`
that child's left subtree top and `q` the parent of `x`): `x`'s right becomes
`b`, `y`'s left becomes `x`, the child link of `q` that pointed at `x` now
points at `y` (or the root field when `q` is the sentinel), and no other
structural field changes; no payload or colour changes anywhere. -/
theorem left_rotate_spec (t : Rb_tree V) (x y b q : Nat)
    (hy : y = (t.mem x).right) (hb : b = (t.mem y).left) (hq : q = (t.mem x).p)
    (hxy : x ≠ y) (hxb : x ≠ b) (hqx : q ≠ x) (hqy : q ≠ y) :
    (left_rotate t x).nil = t.nil ∧ (left_rotate t x).next = t.next ∧
    (left_rotate t x).node_count = t.node_count ∧
    (left_rotate t x).root = (if q = t.nil then y else t.root) ∧
    (∀ j, ((left_rotate t x).mem j).val = (t.mem j).val ∧
      ((left_rotate t x).mem j).color = (t.mem j).color) ∧
    ((left_rotate t x).mem x).left = (t.mem x).left ∧
    ((left_rotate t x).mem x).right = b ∧
    ((left_rotate t x).mem x).p = y ∧
    ((left_rotate t x).mem y).left = x ∧
    ((left_rotate t x).mem y).right = (t.mem y).right ∧
    ((left_rotate t x).mem y).p = q ∧
    (q ≠ t.nil →
      (((t.mem q).left = x → ((left_rotate t x).mem q).left = y ∧
        ((left_rotate t x).mem q).right = (t.mem q).right) ∧
      ((t.mem q).left ≠ x → ((left_rotate t x).mem q).left = (t.mem q).left ∧
        ((left_rotate t x).mem q).right = y))) ∧
    (∀ j, j ≠ x → j ≠ y → j ≠ q → ((left_rotate t x).mem j).left = (t.mem j).left ∧
      ((left_rotate t x).mem j).right = (t.mem j).right) ∧
    (b ≠ t.nil → b ≠ y → ((left_rotate t x).mem b).p = x) ∧
    (∀ j, j ≠ x → j ≠ y → j ≠ b → ((left_rotate t x).mem j).p = (t.mem j).p) := by
  have hyx : y ≠ x := Ne.symm hxy
  have hbx : b ≠ x := Ne.symm hxb
  have hxq : x ≠ q := Ne.symm hqx
  have hyq : y ≠ q := Ne.symm hqy
  have e : left_rotate t x =
      (let child := (t.mem x).right
       let t1 := setRight t x ((t.mem child).left)
       let t2 := if (t1.mem child).left ≠ t1.nil then setP t1 ((t1.mem child).left) x else t1
       let t3 := setP t2 child ((t2.mem x).p)
       let t4 :=
         if (t3.mem x).p = t3.nil then { t3 with root := child }
         else if x = (t3.mem ((t3.mem x).p)).left then setLeft t3 ((t3.mem x).p) child
         else setRight t3 ((t3.mem x).p) child
       let t5 := setLeft t4 child x
       setP t5 x child) := rfl
  lift_lets at e
  extract_lets child t1 t2 t3 t4 t5 at e
  have hchild : child = y := hy.symm
  have ht1 : t1 = setRight t x b := by
    show setRight t x ((t.mem child).left) = setRight t x b
    rw [hchild, ← hb]
  have ht2 : t2 = (if b ≠ t.nil then setP t1 b x else t1) := by
    show (if (t1.mem child).left ≠ t1.nil then setP t1 ((t1.mem child).left) x else t1) = _
    rw [hchild, ht1, setRight_left, ← hb, (setRight_fields t x b).1, ← ht1]
  have hmem1 : ∀ k, (t1.mem k).left = (t.mem k).left ∧ (t1.mem k).p = (t.mem k).p ∧
      (t1.mem k).val = (t.mem k).val ∧ (t1.mem k).color = (t.mem k).color := by
    intro k
    rw [ht1, setRight_left, setRight_p, setRight_val, setRight_color]
    exact ⟨rfl, rfl, rfl, rfl⟩
  have hmem1r : ∀ k, k ≠ x → (t1.mem k).right = (t.mem k).right := by
    intro k hk
    rw [ht1, setRight_right, if_neg hk]
  have hm1rx : (t1.mem x).right = b := by rw [ht1, setRight_right, if_pos rfl]
  have hmem2 : ∀ k, (t2.mem k).left = (t1.mem k).left ∧ (t2.mem k).right = (t1.mem k).right ∧
      (t2.mem k).val = (t1.mem k).val ∧ (t2.mem k).color = (t1.mem k).color := by
    intro k
    rw [ht2]
    split_ifs with hc
    · rw [setP_left, setP_right, setP_val, setP_color]
      exact ⟨rfl, rfl, rfl, rfl⟩
    · exact ⟨rfl, rfl, rfl, rfl⟩
  have hmem2p : ∀ k, k ≠ b → (t2.mem k).p = (t1.mem k).p := by
    intro k hk
    rw [ht2]
    split_ifs with hc
    · rw [setP_p, if_neg hk]
    · rfl
  have h2fields : t2.nil = t.nil ∧ t2.root = t.root ∧ t2.next = t.next ∧
      t2.node_count = t.node_count := by
    rw [ht2]
    split_ifs with hc
    · rw [ht1]
      exact ⟨rfl, rfl, rfl, rfl⟩
    · rw [ht1]
      exact ⟨rfl, rfl, rfl, rfl⟩
  have ht3 : t3 = setP t2 y q := by
    show setP t2 child ((t2.mem x).p) = _
    rw [hchild, hmem2p x hxb, (hmem1 x).2.1, ← hq]
  have hmem3 : ∀ k, (t3.mem k).left = (t2.mem k).left ∧ (t3.mem k).right = (t2.mem k).right ∧
      (t3.mem k).val = (t2.mem k).val ∧ (t3.mem k).color = (t2.mem k).color := by
    intro k
    rw [ht3, setP_left, setP_right, setP_val, setP_color]
    exact ⟨rfl, rfl, rfl, rfl⟩
  have hmem3p : ∀ k, k ≠ y → (t3.mem k).p = (t2.mem k).p := by
    intro k hk
    rw [ht3, setP_p, if_neg hk]
  have hm3py : (t3.mem y).p = q := by rw [ht3, setP_p, if_pos rfl]
  have hm3px : (t3.mem x).p = q := by rw [hmem3p x hxy, hmem2p x hxb, (hmem1 x).2.1, hq]
  have h3fields : t3.nil = t.nil ∧ t3.root = t.root ∧ t3.next = t.next ∧
      t3.node_count = t.node_count := by
    rw [ht3]
    exact ⟨h2fields.1, h2fields.2.1, h2fields.2.2.1, h2fields.2.2.2⟩
  have hm3ql : (t3.mem q).left = (t.mem q).left := by rw [(hmem3 q).1, (hmem2 q).1, (hmem1 q).1]
  have ht4 : t4 = (if q = t.nil then { t3 with root := y }
      else if x = (t.mem q).left then setLeft t3 q y else setRight t3 q y) := by
    show (if (t3.mem x).p = t3.nil then { t3 with root := child }
      else if x = (t3.mem ((t3.mem x).p)).left then setLeft t3 ((t3.mem x).p) child
      else setRight t3 ((t3.mem x).p) child) = _
    rw [hchild, hm3px, h3fields.1, hm3ql]
  have hmem4vc : ∀ k, (t4.mem k).val = (t3.mem k).val ∧ (t4.mem k).color = (t3.mem k).color := by
    intro k
    rw [ht4]
    split_ifs with h1 h2
    · exact ⟨rfl, rfl⟩
    · rw [setLeft_val, setLeft_color]; exact ⟨rfl, rfl⟩
    · rw [setRight_val, setRight_color]; exact ⟨rfl, rfl⟩
  have hmem4p : ∀ k, (t4.mem k).p = (t3.mem k).p := by
    intro k
    rw [ht4]
    split_ifs with h1 h2
    · rfl
    · rw [setLeft_p]
    · rw [setRight_p]
  have hmem4 : ∀ k, k ≠ q → (t4.mem k).left = (t3.mem k).left ∧
      (t4.mem k).right = (t3.mem k).right := by
    intro k hk
    rw [ht4]
    split_ifs with h1 h2
    · exact ⟨rfl, rfl⟩
    · rw [setLeft_left, setLeft_right, if_neg hk]; exact ⟨rfl, rfl⟩
    · rw [setRight_left, setRight_right, if_neg hk]; exact ⟨rfl, rfl⟩
  have h4fields : t4.nil = t.nil ∧ t4.next = t.next ∧ t4.node_count = t.node_count := by
    rw [ht4]
    split_ifs with h1 h2
    · exact ⟨h3fields.1, h3fields.2.2.1, h3fields.2.2.2⟩
    · exact ⟨h3fields.1, h3fields.2.2.1, h3fields.2.2.2⟩
    · exact ⟨h3fields.1, h3fields.2.2.1, h3fields.2.2.2⟩
  have h4root : t4.root = (if q = t.nil then y else t.root) := by
    rw [ht4]
    split_ifs with h1 h2
    · rfl
    · rw [(setLeft_fields t3 q y).2.1, h3fields.2.1]
    · rw [(setRight_fields t3 q y).2.1, h3fields.2.1]
  have ht5 : t5 = setLeft t4 y x := by
    show setLeft t4 child x = _
    rw [hchild]
  have he2 : left_rotate t x = setP t5 x y := by rw [e, hchild]
  have hm5 : ∀ k, (t5.mem k).right = (t4.mem k).right ∧ (t5.mem k).p = (t4.mem k).p ∧
      (t5.mem k).val = (t4.mem k).val ∧ (t5.mem k).color = (t4.mem k).color := by
    intro k
    rw [ht5, setLeft_right, setLeft_p, setLeft_val, setLeft_color]
    exact ⟨rfl, rfl, rfl, rfl⟩
  have hm5l : ∀ k, k ≠ y → (t5.mem k).left = (t4.mem k).left := by
    intro k hk
    rw [ht5, setLeft_left, if_neg hk]
  have hm5ly : (t5.mem y).left = x := by rw [ht5, setLeft_left, if_pos rfl]
  have hfin : ∀ k, (left_rotate t x).mem k = (setP t5 x y).mem k := fun k => by rw [he2]
  have hfl : ∀ k, ((left_rotate t x).mem k).left = (t5.mem k).left := by
    intro k
    rw [hfin, setP_left]
  have hfr : ∀ k, ((left_rotate t x).mem k).right = (t5.mem k).right := by
    intro k
    rw [hfin, setP_right]
  have hfv : ∀ k, ((left_rotate t x).mem k).val = (t5.mem k).val := by
    intro k
    rw [hfin, setP_val]
  have hfc : ∀ k, ((left_rotate t x).mem k).color = (t5.mem k).color := by
    intro k
    rw [hfin, setP_color]
  have hfp : ∀ k, k ≠ x → ((left_rotate t x).mem k).p = (t5.mem k).p := by
    intro k hk
    rw [hfin, setP_p, if_neg hk]
  have hfpx : ((left_rotate t x).mem x).p = y := by rw [hfin, setP_p, if_pos rfl]
  have hmem2pp : ∀ k, (t2.mem k).p =
      (if b ≠ t.nil then (if k = b then x else (t1.mem k).p) else (t1.mem k).p) := by
    intro k
    rw [ht2]
    split_ifs with hc hk
    · rw [setP_p, if_pos hk]
    · rw [setP_p, if_neg hk]
    · rfl
  refine ⟨?_, ?_, ?_, ?_, fun j => ⟨?_, ?_⟩, ?_, ?_, hfpx, ?_, ?_, ?_, ?_,
    fun j hjx hjy hjq => ⟨?_, ?_⟩, fun hbnil hby => ?_, fun j hjx hjy hjb => ?_⟩
  · rw [he2, (setP_fields t5 x y).1, ht5, (setLeft_fields t4 y x).1, h4fields.1]
  · rw [he2, (setP_fields t5 x y).2.2.1, ht5, (setLeft_fields t4 y x).2.2.1, h4fields.2.1]
  · rw [he2, (setP_fields t5 x y).2.2.2, ht5, (setLeft_fields t4 y x).2.2.2, h4fields.2.2]
  · rw [he2, (setP_fields t5 x y).2.1, ht5, (setLeft_fields t4 y x).2.1, h4root]
  · rw [hfv, (hm5 j).2.2.1, (hmem4vc j).1, (hmem3 j).2.2.1, (hmem2 j).2.2.1, (hmem1 j).2.2.1]
  · rw [hfc, (hm5 j).2.2.2, (hmem4vc j).2, (hmem3 j).2.2.2, (hmem2 j).2.2.2, (hmem1 j).2.2.2]
  · rw [hfl, hm5l x hxy, (hmem4 x hxq).1, (hmem3 x).1, (hmem2 x).1, (hmem1 x).1]
  · rw [hfr, (hm5 x).1, (hmem4 x hxq).2, (hmem3 x).2.1, (hmem2 x).2.1, hm1rx]
  · rw [hfl, hm5ly]
  · rw [hfr, (hm5 y).1, (hmem4 y hyq).2, (hmem3 y).2.1, (hmem2 y).2.1, hmem1r y hyx]
  · rw [hfp y hyx, (hm5 y).2.1, hmem4p, hm3py]
  · intro hqnil
    constructor
    · intro hql
      constructor
      · rw [hfl, hm5l q hqy, ht4, if_neg hqnil, if_pos hql.symm, setLeft_left, if_pos rfl]
      · rw [hfr, (hm5 q).1, ht4, if_neg hqnil, if_pos hql.symm, setLeft_right,
          (hmem3 q).2.1, (hmem2 q).2.1, hmem1r q hqx]
    · intro hql
      have hql2 : ¬ x = (t.mem q).left := fun hc => hql hc.symm
      constructor
      · rw [hfl, hm5l q hqy, ht4, if_neg hqnil, if_neg hql2, setRight_left, hm3ql]
      · rw [hfr, (hm5 q).1, ht4, if_neg hqnil, if_neg hql2, setRight_right, if_pos rfl]
  · rw [hfl, hm5l j hjy, (hmem4 j hjq).1, (hmem3 j).1, (hmem2 j).1, (hmem1 j).1]
  · rw [hfr, (hm5 j).1, (hmem4 j hjq).2, (hmem3 j).2.1, (hmem2 j).2.1, hmem1r j hjx]
  · rw [hfp b hbx, (hm5 b).2.1, hmem4p, hmem3p b hby, hmem2pp b, if_pos hbnil, if_pos rfl]
  · rw [hfp j hjx, (hm5 j).2.1, hmem4p, hmem3p j hjy, hmem2pp j, if_neg hjb]
    split_ifs with h1
    · rw [(hmem1 j).2.1]
    · rw [(hmem1 j).2.1]

/-- Cell-level effect of `right_rotate` at `x` (with `y` the left child, `b`
that child's right subtree top and `q` the parent of `x`): mirror image of
`left_rotate_spec`. -/
theorem right_rotate_spec (t : Rb_tree V) (x y b q : Nat)
    (hy : y = (t.mem x).left) (hb : b = (t.mem y).right) (hq : q = (t.mem x).p)
    (hxy : x ≠ y) (hxb : x ≠ b) (hqx : q ≠ x) (hqy : q ≠ y) :
    (right_rotate t x).nil = t.nil ∧ (right_rotate t x).next = t.next ∧
    (right_rotate t x).node_count = t.node_count ∧
    (right_rotate t x).root = (if q = t.nil then y else t.root) ∧
    (∀ j, ((right_rotate t x).mem j).val = (t.mem j).val ∧
      ((right_rotate t x).mem j).color = (t.mem j).color) ∧
    ((right_rotate t x).mem x).right = (t.mem x).right ∧
    ((right_rotate t x).mem x).left = b ∧
    ((right_rotate t x).mem x).p = y ∧
    ((right_rotate t x).mem y).right = x ∧
    ((right_rotate t x).mem y).left = (t.mem y).left ∧
    ((right_rotate t x).mem y).p = q ∧
    (q ≠ t.nil →
      (((t.mem q).right = x → ((right_rotate t x).mem q).right = y ∧
        ((right_rotate t x).mem q).left = (t.mem q).left) ∧
      ((t.mem q).right ≠ x → ((right_rotate t x).mem q).right = (t.mem q).right ∧
        ((right_rotate t x).mem q).left = y))) ∧
    (∀ j, j ≠ x → j ≠ y → j ≠ q → ((right_rotate t x).mem j).right = (t.mem j).right ∧
      ((right_rotate t x).mem j).left = (t.mem j).left) ∧
    (b ≠ t.nil → b ≠ y → ((right_rotate t x).mem b).p = x) ∧
    (∀ j, j ≠ x → j ≠ y → j ≠ b → ((right_rotate t x).mem j).p = (t.mem j).p) := by
  have hyx : y ≠ x := Ne.symm hxy
  have hbx : b ≠ x := Ne.symm hxb
  have hxq : x ≠ q := Ne.symm hqx
  have hyq : y ≠ q := Ne.symm hqy
  have e : right_rotate t x =
      (let child := (t.mem x).left
       let t1 := setLeft t x ((t.mem child).right)
       let t2 := if (t1.mem child).right ≠ t1.nil then setP t1 ((t1.mem child).right) x else t1
       let t3 := setP t2 child ((t2.mem x).p)
       let t4 :=
         if (t3.mem x).p = t3.nil then { t3 with root := child }
         else if x = (t3.mem ((t3.mem x).p)).right then setRight t3 ((t3.mem x).p) child
         else setLeft t3 ((t3.mem x).p) child
       let t5 := setRight t4 child x
       setP t5 x child) := rfl
  lift_lets at e
  extract_lets child t1 t2 t3 t4 t5 at e
  have hchild : child = y := hy.symm
  have ht1 : t1 = setLeft t x b := by
    show setLeft t x ((t.mem child).right) = setLeft t x b
    rw [hchild, ← hb]
  have ht2 : t2 = (if b ≠ t.nil then setP t1 b x else t1) := by
    show (if (t1.mem child).right ≠ t1.nil then setP t1 ((t1.mem child).right) x else t1) = _
    rw [hchild, ht1, setLeft_right, ← hb, (setLeft_fields t x b).1, ← ht1]
  have hmem1 : ∀ k, (t1.mem k).right = (t.mem k).right ∧ (t1.mem k).p = (t.mem k).p ∧
      (t1.mem k).val = (t.mem k).val ∧ (t1.mem k).color = (t.mem k).color := by
    intro k
    rw [ht1, setLeft_right, setLeft_p, setLeft_val, setLeft_color]
    exact ⟨rfl, rfl, rfl, rfl⟩
  have hmem1r : ∀ k, k ≠ x → (t1.mem k).left = (t.mem k).left := by
    intro k hk
    rw [ht1, setLeft_left, if_neg hk]
  have hm1rx : (t1.mem x).left = b := by rw [ht1, setLeft_left, if_pos rfl]
  have hmem2 : ∀ k, (t2.mem k).right = (t1.mem k).right ∧ (t2.mem k).left = (t1.mem k).left ∧
      (t2.mem k).val = (t1.mem k).val ∧ (t2.mem k).color = (t1.mem k).color := by
    intro k
    rw [ht2]
    split_ifs with hc
    · rw [setP_right, setP_left, setP_val, setP_color]
      exact ⟨rfl, rfl, rfl, rfl⟩
    · exact ⟨rfl, rfl, rfl, rfl⟩
  have hmem2p : ∀ k, k ≠ b → (t2.mem k).p = (t1.mem k).p := by
    intro k hk
    rw [ht2]
    split_ifs with hc
    · rw [setP_p, if_neg hk]
    · rfl
  have h2fields : t2.nil = t.nil ∧ t2.root = t.root ∧ t2.next = t.next ∧
      t2.node_count = t.node_count := by
    rw [ht2]
    split_ifs with hc
    · rw [ht1]
      exact ⟨rfl, rfl, rfl, rfl⟩
    · rw [ht1]
      exact ⟨rfl, rfl, rfl, rfl⟩
  have ht3 : t3 = setP t2 y q := by
    show setP t2 child ((t2.mem x).p) = _
    rw [hchild, hmem2p x hxb, (hmem1 x).2.1, ← hq]
  have hmem3 : ∀ k, (t3.mem k).right = (t2.mem k).right ∧ (t3.mem k).left = (t2.mem k).left ∧
      (t3.mem k).val = (t2.mem k).val ∧ (t3.mem k).color = (t2.mem k).color := by
    intro k
    rw [ht3, setP_right, setP_left, setP_val, setP_color]
    exact ⟨rfl, rfl, rfl, rfl⟩
  have hmem3p : ∀ k, k ≠ y → (t3.mem k).p = (t2.mem k).p := by
    intro k hk
    rw [ht3, setP_p, if_neg hk]
  have hm3py : (t3.mem y).p = q := by rw [ht3, setP_p, if_pos rfl]
  have hm3px : (t3.mem x).p = q := by rw [hmem3p x hxy, hmem2p x hxb, (hmem1 x).2.1, hq]
  have h3fields : t3.nil = t.nil ∧ t3.root = t.root ∧ t3.next = t.next ∧
      t3.node_count = t.node_count := by
    rw [ht3]
    exact ⟨h2fields.1, h2fields.2.1, h2fields.2.2.1, h2fields.2.2.2⟩
  have hm3ql : (t3.mem q).right = (t.mem q).right := by rw [(hmem3 q).1, (hmem2 q).1, (hmem1 q).1]
  have ht4 : t4 = (if q = t.nil then { t3 with root := y }
      else if x = (t.mem q).right then setRight t3 q y else setLeft t3 q y) := by
    show (if (t3.mem x).p = t3.nil then { t3 with root := child }
      else if x = (t3.mem ((t3.mem x).p)).right then setRight t3 ((t3.mem x).p) child
      else setLeft t3 ((t3.mem x).p) child) = _
    rw [hchild, hm3px, h3fields.1, hm3ql]
  have hmem4vc : ∀ k, (t4.mem k).val = (t3.mem k).val ∧ (t4.mem k).color = (t3.mem k).color := by
    intro k
    rw [ht4]
    split_ifs with h1 h2
    · exact ⟨rfl, rfl⟩
    · rw [setRight_val, setRight_color]; exact ⟨rfl, rfl⟩
    · rw [setLeft_val, setLeft_color]; exact ⟨rfl, rfl⟩
  have hmem4p : ∀ k, (t4.mem k).p = (t3.mem k).p := by
    intro k
    rw [ht4]
    split_ifs with h1 h2
    · rfl
    · rw [setRight_p]
    · rw [setLeft_p]
  have hmem4 : ∀ k, k ≠ q → (t4.mem k).right = (t3.mem k).right ∧
      (t4.mem k).left = (t3.mem k).left := by
    intro k hk
    rw [ht4]
    split_ifs with h1 h2
    · exact ⟨rfl, rfl⟩
    · rw [setRight_right, setRight_left, if_neg hk]; exact ⟨rfl, rfl⟩
    · rw [setLeft_right, setLeft_left, if_neg hk]; exact ⟨rfl, rfl⟩
  have h4fields : t4.nil = t.nil ∧ t4.next = t.next ∧ t4.node_count = t.node_count := by
    rw [ht4]
    split_ifs with h1 h2
    · exact ⟨h3fields.1, h3fields.2.2.1, h3fields.2.2.2⟩
    · exact ⟨h3fields.1, h3fields.2.2.1, h3fields.2.2.2⟩
    · exact ⟨h3fields.1, h3fields.2.2.1, h3fields.2.2.2⟩
  have h4root : t4.root = (if q = t.nil then y else t.root) := by
    rw [ht4]
    split_ifs with h1 h2
    · rfl
    · rw [(setRight_fields t3 q y).2.1, h3fields.2.1]
    · rw [(setLeft_fields t3 q y).2.1, h3fields.2.1]
  have ht5 : t5 = setRight t4 y x := by
    show setRight t4 child x = _
    rw [hchild]
  have he2 : right_rotate t x = setP t5 x y := by rw [e, hchild]
  have hm5 : ∀ k, (t5.mem k).left = (t4.mem k).left ∧ (t5.mem k).p = (t4.mem k).p ∧
      (t5.mem k).val = (t4.mem k).val ∧ (t5.mem k).color = (t4.mem k).color := by
    intro k
    rw [ht5, setRight_left, setRight_p, setRight_val, setRight_color]
    exact ⟨rfl, rfl, rfl, rfl⟩
  have hm5l : ∀ k, k ≠ y → (t5.mem k).right = (t4.mem k).right := by
    intro k hk
    rw [ht5, setRight_right, if_neg hk]
  have hm5ly : (t5.mem y).right = x := by rw [ht5, setRight_right, if_pos rfl]
  have hfin : ∀ k, (right_rotate t x).mem k = (setP t5 x y).mem k := fun k => by rw [he2]
  have hfl : ∀ k, ((right_rotate t x).mem k).right = (t5.mem k).right := by
    intro k
    rw [hfin, setP_right]
  have hfr : ∀ k, ((right_rotate t x).mem k).left = (t5.mem k).left := by
    intro k
    rw [hfin, setP_left]
  have hfv : ∀ k, ((right_rotate t x).mem k).val = (t5.mem k).val := by
    intro k
    rw [hfin, setP_val]
  have hfc : ∀ k, ((right_rotate t x).mem k).color = (t5.mem k).color := by
    intro k
    rw [hfin, setP_color]
  have hfp : ∀ k, k ≠ x → ((right_rotate t x).mem k).p = (t5.mem k).p := by
    intro k hk
    rw [hfin, setP_p, if_neg hk]
  have hfpx : ((right_rotate t x).mem x).p = y := by rw [hfin, setP_p, if_pos rfl]
  have hmem2pp : ∀ k, (t2.mem k).p =
      (if b ≠ t.nil then (if k = b then x else (t1.mem k).p) else (t1.mem k).p) := by
    intro k
    rw [ht2]
    split_ifs with hc hk
    · rw [setP_p, if_pos hk]
    · rw [setP_p, if_neg hk]
    · rfl
  refine ⟨?_, ?_, ?_, ?_, fun j => ⟨?_, ?_⟩, ?_, ?_, hfpx, ?_, ?_, ?_, ?_,
    fun j hjx hjy hjq => ⟨?_, ?_⟩, fun hbnil hby => ?_, fun j hjx hjy hjb => ?_⟩
  · rw [he2, (setP_fields t5 x y).1, ht5, (setRight_fields t4 y x).1, h4fields.1]
  · rw [he2, (setP_fields t5 x y).2.2.1, ht5, (setRight_fields t4 y x).2.2.1, h4fields.2.1]
  · rw [he2, (setP_fields t5 x y).2.2.2, ht5, (setRight_fields t4 y x).2.2.2, h4fields.2.2]
  · rw [he2, (setP_fields t5 x y).2.1, ht5, (setRight_fields t4 y x).2.1, h4root]
  · rw [hfv, (hm5 j).2.2.1, (hmem4vc j).1, (hmem3 j).2.2.1, (hmem2 j).2.2.1, (hmem1 j).2.2.1]
  · rw [hfc, (hm5 j).2.2.2, (hmem4vc j).2, (hmem3 j).2.2.2, (hmem2 j).2.2.2, (hmem1 j).2.2.2]
  · rw [hfl, hm5l x hxy, (hmem4 x hxq).1, (hmem3 x).1, (hmem2 x).1, (hmem1 x).1]
  · rw [hfr, (hm5 x).1, (hmem4 x hxq).2, (hmem3 x).2.1, (hmem2 x).2.1, hm1rx]
  · rw [hfl, hm5ly]
  · rw [hfr, (hm5 y).1, (hmem4 y hyq).2, (hmem3 y).2.1, (hmem2 y).2.1, hmem1r y hyx]
  · rw [hfp y hyx, (hm5 y).2.1, hmem4p, hm3py]
  · intro hqnil
    constructor
    · intro hql
      constructor
      · rw [hfl, hm5l q hqy, ht4, if_neg hqnil, if_pos hql.symm, setRight_right, if_pos rfl]
      · rw [hfr, (hm5 q).1, ht4, if_neg hqnil, if_pos hql.symm, setRight_left,
          (hmem3 q).2.1, (hmem2 q).2.1, hmem1r q hqx]
    · intro hql
      have hql2 : ¬ x = (t.mem q).right := fun hc => hql hc.symm
      constructor
      · rw [hfl, hm5l q hqy, ht4, if_neg hqnil, if_neg hql2, setLeft_right, hm3ql]
      · rw [hfr, (hm5 q).1, ht4, if_neg hqnil, if_neg hql2, setLeft_left, if_pos rfl]
  · rw [hfl, hm5l j hjy, (hmem4 j hjq).1, (hmem3 j).1, (hmem2 j).1, (hmem1 j).1]
  · rw [hfr, (hm5 j).1, (hmem4 j hjq).2, (hmem3 j).2.1, (hmem2 j).2.1, hmem1r j hjx]
  · rw [hfp b hbx, (hm5 b).2.1, hmem4p, hmem3p b hby, hmem2pp b, if_pos hbnil, if_pos rfl]
  · rw [hfp j hjx, (hm5 j).2.1, hmem4p, hmem3p j hjy, hmem2pp j, if_neg hjb]
    split_ifs with h1
    · rw [(hmem1 j).2.1]
    · rw [(hmem1 j).2.1]

/-- The index list of a `subAt`-subtree is a sublist of the whole list. -/
theorem BT.subAt_sublist (x : Nat) :
    ∀ T S : BT V, BT.subAt x T = some S → S.idxs.Sublist T.idxs := by
  intro T
  induction T with
  | tip => intro S h; simp [BT.subAt] at h
  | bin l j v c r ihl ihr =>
    intro S h
    rw [BT.subAt] at h
    by_cases hj : j = x
    · rw [if_pos hj] at h
      obtain rfl := Option.some.inj h
      exact List.Sublist.refl _
    rw [if_neg hj] at h
    rw [BT.idxs]
    rcases h2 : BT.subAt x l with _ | S2 <;> rw [h2] at h
    · simp only [Option.orElse] at h
      exact ((ihr S h).trans (List.sublist_cons_self _ _)).trans
        (List.sublist_append_right _ _)
    · simp only [Option.orElse] at h
      obtain rfl := Option.some.inj h
      exact (ihl S2 h2).trans (List.sublist_append_left _ _)

/-- Inside a structurally sound subtree, every non-top node's parent link
points at a node of the subtree that has it as a child. -/
theorem par_spec (t : Rb_tree V) :
    ∀ f a S, subtree_ok t a f = true → toTree t a f = some S →
      ∀ x ∈ S.idxs, x ≠ a →
        ∃ pr, pr ∈ S.idxs ∧ (t.mem x).p = pr ∧ pr ≠ x ∧
          ((t.mem pr).left = x ∨ (t.mem pr).right = x) := by
  intro f
  induction f with
  | zero => intro a S h; simp [subtree_ok] at h
  | succ f ih =>
    intro a S hok hT x hx hxa
    obtain ⟨hanil, L, R, va, ca, f2, rfl, hf2, hva, hca, hL, hR⟩ :=
      toTree_mem_elim t a (f + 1) S hT (by rintro rfl; simp [BT.idxs] at hx)
    have hfe : f2 = f := by omega
    rw [hfe] at hL hR
    obtain ⟨_, _, hbl, hbr, hokL, hokR⟩ := subtree_ok_elim t a f hok hanil
    have hmid : a ∈ (BT.bin L a va ca R).idxs := by rw [BT.idxs]; simp
    rw [BT.idxs] at hx
    rcases List.mem_append.1 hx with hxl | hxr
    · have hLne : L ≠ .tip := by rintro rfl; simp [BT.idxs] at hxl
      have hlnil : (t.mem a).left ≠ t.nil :=
        fun hc => hLne ((toTree_tip_iff t _ f L (hc ▸ hL)).2 rfl)
      by_cases hxt : x = (t.mem a).left
      · refine ⟨a, hmid, ?_, Ne.symm hxa, Or.inl hxt.symm⟩
        rcases hbl with hc | hc
        · exact absurd hc (hxt ▸ hxt ▸ hlnil)
        · rw [hxt]; exact hc
      · obtain ⟨pr, hpr, h1, h2, h3⟩ := ih _ _ hokL hL x hxl hxt
        exact ⟨pr, by rw [BT.idxs]; exact List.mem_append_left _ hpr, h1, h2, h3⟩
    rcases List.mem_cons.1 hxr with rfl | hxr
    · exact absurd rfl hxa
    have hRne : R ≠ .tip := by rintro rfl; simp [BT.idxs] at hxr
    have hrnil : (t.mem a).right ≠ t.nil :=
      fun hc => hRne ((toTree_tip_iff t _ f R (hc ▸ hR)).2 rfl)
    by_cases hxt : x = (t.mem a).right
    · refine ⟨a, hmid, ?_, Ne.symm hxa, Or.inr hxt.symm⟩
      rcases hbr with hc | hc
      · exact absurd hc (hxt ▸ hxt ▸ hrnil)
      · rw [hxt]; exact hc
    · obtain ⟨pr, hpr, h1, h2, h3⟩ := ih _ _ hokR hR x hxr hxt
      exact ⟨pr, by rw [BT.idxs]; exact List.mem_append_right _ (List.mem_cons_of_mem _ hpr),
        h1, h2, h3⟩

/-- Context facts for a left rotation at `x` inside a sound subtree: the
rotation partners (`y` the right child, `b` its left child, `q` the parent)
are pairwise distinct from the cells the rotation writes, so the cell-level
specification applies. -/
theorem rot_ctx_left (t : Rb_tree V) (f a : Nat) (S : BT V)
    (hok : subtree_ok t a f = true) (hT : toTree t a f = some S) (hnd : S.idxs.Nodup)
    (x : Nat) (hx : x ∈ S.idxs) (hyne : (t.mem x).right ≠ t.nil)
    (hqa : (t.mem x).p ∈ S.idxs → x ≠ a) :
    (t.mem x).right ∈ S.idxs ∧
    x ≠ (t.mem x).right ∧
    x ≠ (t.mem ((t.mem x).right)).left ∧
    (t.mem x).p ≠ x ∧
    (t.mem x).p ≠ (t.mem x).right ∧
    (t.mem ((t.mem x).right)).left ≠ (t.mem x).right := by
  obtain ⟨Sx, hSx, g, hgf, hTx⟩ := toTree_subAt t f a S hT x hx
  have hsub := BT.subAt_sublist x S Sx hSx
  have hndx : Sx.idxs.Nodup := List.Nodup.sublist hsub hnd
  have hxnil : x ≠ t.nil := toTree_idx_ne_nil t f a S hT x hx
  have hSxne : Sx ≠ .tip := fun hc => hxnil ((toTree_tip_iff t x g Sx hTx).1 hc)
  obtain ⟨_, A, Rs, vx, cx, g2, rfl, hg2, hvx, hcx, hA, hRs⟩ :=
    toTree_mem_elim t x g Sx hTx hSxne
  have hRsne : Rs ≠ .tip := fun hc => hyne ((toTree_tip_iff t _ g2 Rs hRs).1 hc)
  obtain ⟨hynil, B, C, vy, cy, g3, rfl, hg3, hvy, hcy, hB, hC⟩ :=
    toTree_mem_elim t ((t.mem x).right) g2 Rs hRs hRsne
  have hyRs : (t.mem x).right ∈ (BT.bin B ((t.mem x).right) vy cy C).idxs := by
    rw [BT.idxs]; simp
  have hyS : (t.mem x).right ∈ S.idxs := by
    refine hsub.subset ?_
    rw [BT.idxs]
    exact List.mem_append_right _ (List.mem_cons_of_mem _ hyRs)
  have hxRs : x ∉ (BT.bin B ((t.mem x).right) vy cy C).idxs := by
    have h1 : (x :: (BT.bin B ((t.mem x).right) vy cy C).idxs).Nodup := by
      refine List.Nodup.sublist ?_ hndx
      rw [BT.idxs]
      exact List.sublist_append_right _ _
    exact (List.nodup_cons.1 h1).1
  have hxy : x ≠ (t.mem x).right := fun hc => hxRs (hc ▸ hyRs)
  have hyB : (t.mem x).right ∉ B.idxs := by
    have h2 : (B.idxs ++ (t.mem x).right :: C.idxs).Nodup := by
      have : (BT.bin B ((t.mem x).right) vy cy C).idxs.Nodup := by
        refine List.Nodup.sublist ?_ hndx
        rw [BT.idxs]
        exact ((List.sublist_cons_self _ _).trans (List.sublist_append_right _ _))
      rw [BT.idxs] at this
      exact this
    rcases (List.nodup_append.1 h2) with ⟨_, h3, h4⟩
    intro hc
    exact h4 hc (List.mem_cons_self _ _)
  have hxb : x ≠ (t.mem ((t.mem x).right)).left := by
    by_cases hbnil : (t.mem ((t.mem x).right)).left = t.nil
    · rw [hbnil]; exact hxnil
    · have hBne : B ≠ .tip := fun hc => hbnil ((toTree_tip_iff t _ g3 B hB).1 hc)
      have hBtop := (toTree_topIdx t _ g3 B hB).2 hbnil
      intro hc
      refine hxRs ?_
      rw [BT.idxs]
      refine List.mem_append_left _ ?_
      rcases B with _ | ⟨B1, jb, vb, cb, B2⟩
      · exact absurd rfl hBne
      · rw [BT.topIdx] at hBtop
        obtain rfl := Option.some.inj hBtop
        rw [BT.idxs, ← hc]
        simp
  have hby : (t.mem ((t.mem x).right)).left ≠ (t.mem x).right := by
    by_cases hbnil : (t.mem ((t.mem x).right)).left = t.nil
    · rw [hbnil]; exact Ne.symm hynil
    · have hBne : B ≠ .tip := fun hc => hbnil ((toTree_tip_iff t _ g3 B hB).1 hc)
      have hBtop := (toTree_topIdx t _ g3 B hB).2 hbnil
      intro hc
      refine hyB ?_
      rcases B with _ | ⟨B1, jb, vb, cb, B2⟩
      · exact absurd rfl hBne
      · rw [BT.topIdx] at hBtop
        obtain rfl := Option.some.inj hBtop
        rw [BT.idxs]
        refine List.mem_append_right _ ?_
        rw [hc]
        exact List.mem_cons_self _ _
  refine ⟨hyS, hxy, hxb, ?_, ?_, hby⟩
  · by_cases hxa : x = a
    · intro hc
      exact hqa (by rw [hc]; exact hx) hxa
    · obtain ⟨pr, hprS, hpr, hprx, _⟩ := par_spec t f a S hok hT x hx hxa
      rw [hpr]; exact hprx
  · by_cases hxa : x = a
    · intro hc
      exact hqa (by rw [hc]; exact hyS) hxa
    · obtain ⟨pr, hprS, hpr, hprx, hchild⟩ := par_spec t f a S hok hT x hx hxa
      rw [hpr]
      rintro rfl
      rcases hchild with hc | hc
      · exact hxb hc.symm
      · have hcne : C ≠ .tip := by
          intro hcc
          have := (toTree_tip_iff t _ g3 C (hC)).1 hcc
          exact hxnil (by rw [← hc, this])
        have hCtop := (toTree_topIdx t _ g3 C hC).2 (fun hc2 => hcne ((toTree_tip_iff t _ g3 C hC).2 hc2))
        refine hxRs ?_
        rw [BT.idxs]
        refine List.mem_append_right _ (List.mem_cons_of_mem _ ?_)
        rcases C with _ | ⟨C1, jc, vc, cc, C2⟩
        · exact absurd rfl hcne
        · rw [BT.topIdx] at hCtop
          obtain rfl := Option.some.inj hCtop
          rw [BT.idxs, hc]
          simp

/-- Context facts for a right rotation at `x`, mirror of `rot_ctx_left`:
`y` is the left child, `b` is `y`'s right child, `q` the parent of `x`. -/
theorem rot_ctx_right (t : Rb_tree V) (f a : Nat) (S : BT V)
    (hok : subtree_ok t a f = true) (hT : toTree t a f = some S) (hnd : S.idxs.Nodup)
    (x : Nat) (hx : x ∈ S.idxs) (hyne : (t.mem x).left ≠ t.nil)
    (hqa : (t.mem x).p ∈ S.idxs → x ≠ a) :
    (t.mem x).left ∈ S.idxs ∧
    x ≠ (t.mem x).left ∧
    x ≠ (t.mem ((t.mem x).left)).right ∧
    (t.mem x).p ≠ x ∧
    (t.mem x).p ≠ (t.mem x).left ∧
    (t.mem ((t.mem x).left)).right ≠ (t.mem x).left := by
  obtain ⟨Sx, hSx, g, hgf, hTx⟩ := toTree_subAt t f a S hT x hx
  have hsub := BT.subAt_sublist x S Sx hSx
  have hndx : Sx.idxs.Nodup := List.Nodup.sublist hsub hnd
  have hxnil : x ≠ t.nil := toTree_idx_ne_nil t f a S hT x hx
  have hSxne : Sx ≠ .tip := fun hc => hxnil ((toTree_tip_iff t x g Sx hTx).1 hc)
  obtain ⟨_, Ys, A, vx, cx, g2, rfl, hg2, hvx, hcx, hYs, hA⟩ :=
    toTree_mem_elim t x g Sx hTx hSxne
  have hYsne : Ys ≠ .tip := fun hc => hyne ((toTree_tip_iff t _ g2 Ys hYs).1 hc)
  obtain ⟨hynil, C, B, vy, cy, g3, rfl, hg3, hvy, hcy, hC, hB⟩ :=
    toTree_mem_elim t ((t.mem x).left) g2 Ys hYs hYsne
  have hyYs : (t.mem x).left ∈ (BT.bin C ((t.mem x).left) vy cy B).idxs := by
    rw [BT.idxs]; simp
  have hyS : (t.mem x).left ∈ S.idxs := by
    refine hsub.subset ?_
    rw [BT.idxs]
    exact List.mem_append_left _ hyYs
  have hxYs : x ∉ (BT.bin C ((t.mem x).left) vy cy B).idxs := by
    rw [BT.idxs] at hndx
    rcases List.nodup_append.1 hndx with ⟨_, _, hdisj⟩
    exact fun hc => hdisj hc (List.mem_cons_self _ _)
  have hxy : x ≠ (t.mem x).left := fun hc => hxYs (hc ▸ hyYs)
  have hyB : (t.mem x).left ∉ B.idxs := by
    have h1 : ((t.mem x).left :: B.idxs).Nodup := by
      refine List.Nodup.sublist ?_ hndx
      rw [BT.idxs, BT.idxs]
      exact (List.sublist_append_right _ _).trans (List.sublist_append_left _ _)
    exact (List.nodup_cons.1 h1).1
  have hxb : x ≠ (t.mem ((t.mem x).left)).right := by
    by_cases hbnil : (t.mem ((t.mem x).left)).right = t.nil
    · rw [hbnil]; exact hxnil
    · have hBne : B ≠ .tip := fun hc => hbnil ((toTree_tip_iff t _ g3 B hB).1 hc)
      have hBtop := (toTree_topIdx t _ g3 B hB).2 hbnil
      intro hc
      refine hxYs ?_
      rw [BT.idxs]
      refine List.mem_append_right _ (List.mem_cons_of_mem _ ?_)
      rcases B with _ | ⟨B1, jb, vb, cb, B2⟩
      · exact absurd rfl hBne
      · rw [BT.topIdx] at hBtop
        obtain rfl := Option.some.inj hBtop
        rw [BT.idxs, ← hc]
        simp
  have hby : (t.mem ((t.mem x).left)).right ≠ (t.mem x).left := by
    by_cases hbnil : (t.mem ((t.mem x).left)).right = t.nil
    · rw [hbnil]; exact Ne.symm hynil
    · have hBne : B ≠ .tip := fun hc => hbnil ((toTree_tip_iff t _ g3 B hB).1 hc)
      have hBtop := (toTree_topIdx t _ g3 B hB).2 hbnil
      intro hc
      refine hyB ?_
      rcases B with _ | ⟨B1, jb, vb, cb, B2⟩
      · exact absurd rfl hBne
      · rw [BT.topIdx] at hBtop
        obtain rfl := Option.some.inj hBtop
        rw [BT.idxs]
        refine List.mem_append_right _ ?_
        rw [hc]
        exact List.mem_cons_self _ _
  refine ⟨hyS, hxy, hxb, ?_, ?_, hby⟩
  · by_cases hxa : x = a
    · intro hc
      exact hqa (by rw [hc]; exact hx) hxa
    · obtain ⟨pr, hprS, hpr, hprx, _⟩ := par_spec t f a S hok hT x hx hxa
      rw [hpr]; exact hprx
  · by_cases hxa : x = a
    · intro hc
      exact hqa (by rw [hc]; exact hyS) hxa
    · obtain ⟨pr, hprS, hpr, hprx, hchild⟩ := par_spec t f a S hok hT x hx hxa
      rw [hpr]
      rintro rfl
      rcases hchild with hc | hc
      · have hcne : C ≠ .tip := by
          intro hcc
          have := (toTree_tip_iff t _ g3 C hC).1 hcc
          exact hxnil (by rw [← hc, this])
        have hCtop := (toTree_topIdx t _ g3 C hC).2
          (fun hc2 => hcne ((toTree_tip_iff t _ g3 C hC).2 hc2))
        refine hxYs ?_
        rw [BT.idxs]
        refine List.mem_append_left _ ?_
        rcases C with _ | ⟨C1, jc, vc, cc, C2⟩
        · exact absurd rfl hcne
        · rw [BT.topIdx] at hCtop
          obtain rfl := Option.some.inj hCtop
          rw [BT.idxs, hc]
          simp
      · exact hxb hc.symm

/-- Simulation of `left_rotate`: on a sound, duplicate-free subtree the arena
rotation acts on the mirror as the local surgery `rotL` at `x`; the read-off
root is the former right child when `x` was the subtree top. -/
theorem left_rotate_sim (t : Rb_tree V) (x : Nat) (hyne : (t.mem x).right ≠ t.nil) :
    ∀ f a S, subtree_ok t a f = true → toTree t a f = some S → S.idxs.Nodup →
      x ∈ S.idxs →
      ((t.mem x).p ∈ S.idxs → x ≠ a) →
      toTree (left_rotate t x) (if x = a then (t.mem x).right else a) (f + 1) =
        some (S.replace x BT.rotL) := by
  intro f
  induction f with
  | zero => intro a S h; simp [subtree_ok] at h
  | succ f2 ih =>
    intro a S hok hT hnd hx hqa
    obtain ⟨hyS, hxy, hxb, hqx, hqy, hby⟩ :=
      rot_ctx_left t (f2 + 1) a S hok hT hnd x hx hyne hqa
    obtain ⟨hnil, hnext, hcount, hroot, hvc, hxl, hxr, hxp, hyl, hyr, hyp, hqcell, hframe,
        hbp, hpframe⟩ :=
      left_rotate_spec t x ((t.mem x).right) ((t.mem ((t.mem x).right)).left) ((t.mem x).p)
        rfl rfl rfl hxy hxb hqx hqy
    have hxnil : x ≠ t.nil := toTree_idx_ne_nil t _ a S hT x hx
    have hynil : (t.mem x).right ≠ t.nil := hyne
    by_cases hxa : x = a
    · -- the rotation happens at the subtree top
      subst hxa
      rw [if_pos rfl]
      obtain ⟨_, A, Rs, vx, cx, g2, rfl, hg2, hvx, hcx, hA, hRs⟩ :=
        toTree_mem_elim t x (f2 + 1) S hT (by rintro rfl; simp [BT.idxs] at hx)
      have hge : g2 = f2 := by omega
      rw [hge] at hA hRs
      have hRsne : Rs ≠ .tip := fun hc => hyne ((toTree_tip_iff t _ f2 Rs hRs).1 hc)
      obtain ⟨_, B, C, vy, cy, g3, rfl, hg3, hvy, hcy, hB, hC⟩ :=
        toTree_mem_elim t ((t.mem x).right) f2 Rs hRs hRsne
      have hqS : (t.mem x).p ∉
          (BT.bin A x vx cx (BT.bin B ((t.mem x).right) vy cy C)).idxs :=
        fun hc => (hqa hc) rfl
      have hagree : ∀ j, j ≠ x → j ≠ (t.mem x).right → j ≠ (t.mem x).p →
          agreeCell (left_rotate t x) t j := by
        intro j h1 h2 h3
        obtain ⟨e1, e2⟩ := hframe j h1 h2 h3
        exact ⟨e1, e2, (hvc j).1, (hvc j).2⟩
      have hAmem : ∀ j ∈ A.idxs, agreeCell (left_rotate t x) t j := by
        intro j hj
        have hjS : j ∈ (BT.bin A x vx cx (BT.bin B ((t.mem x).right) vy cy C)).idxs := by
          rw [BT.idxs]; exact List.mem_append_left _ hj
        refine hagree j ?_ ?_ (fun hc => hqS (hc ▸ hjS))
        · rw [BT.idxs] at hnd
          rcases List.nodup_append.1 hnd with ⟨_, _, hdisj⟩
          exact fun hc => hdisj hj (hc ▸ List.mem_cons_self _ _)
        · rw [BT.idxs] at hnd
          rcases List.nodup_append.1 hnd with ⟨_, _, hdisj⟩
          intro hc
          refine hdisj hj ?_
          rw [hc]
          refine List.mem_cons_of_mem _ ?_
          rw [BT.idxs]
          simp
      have hmidnd : ((x :: (BT.bin B ((t.mem x).right) vy cy C).idxs)).Nodup := by
        refine List.Nodup.sublist ?_ hnd
        rw [BT.idxs]
        exact List.sublist_append_right _ _
      have hxRs : x ∉ (BT.bin B ((t.mem x).right) vy cy C).idxs := (List.nodup_cons.1 hmidnd).1
      have hRsnd : (BT.bin B ((t.mem x).right) vy cy C).idxs.Nodup := (List.nodup_cons.1 hmidnd).2
      have hBCmem : ∀ j ∈ (BT.bin B ((t.mem x).right) vy cy C).idxs, j ≠ (t.mem x).right →
          agreeCell (left_rotate t x) t j := by
        intro j hj h2
        have hjS : j ∈ (BT.bin A x vx cx (BT.bin B ((t.mem x).right) vy cy C)).idxs := by
          rw [BT.idxs]
          exact List.mem_append_right _ (List.mem_cons_of_mem _ hj)
        exact hagree j (fun hc => hxRs (hc ▸ hj)) h2 (fun hc => hqS (hc ▸ hjS))
      have hBmem : ∀ j ∈ B.idxs, agreeCell (left_rotate t x) t j := by
        intro j hj
        rw [BT.idxs] at hRsnd
        rcases List.nodup_append.1 hRsnd with ⟨_, _, hdisj⟩
        refine hBCmem j ?_ (fun hc => hdisj hj (hc ▸ List.mem_cons_self _ _))
        rw [BT.idxs]
        exact List.mem_append_left _ hj
      have hCmem : ∀ j ∈ C.idxs, agreeCell (left_rotate t x) t j := by
        intro j hj
        have h1 : ((t.mem x).right :: C.idxs).Nodup := by
          refine List.Nodup.sublist ?_ hRsnd
          rw [BT.idxs]
          exact List.sublist_append_right _ _
        refine hBCmem j ?_ (fun hc => (List.nodup_cons.1 h1).1 (hc ▸ hj))
        rw [BT.idxs]
        exact List.mem_append_right _ (List.mem_cons_of_mem _ hj)
      have hA2 : toTree (left_rotate t x) ((t.mem x).left) f2 = some A := by
        refine toTree_frame _ t hnil f2 _ A hA ?_
        exact fun j hj => hAmem j hj
      have hB2 : toTree (left_rotate t x) ((t.mem ((t.mem x).right)).left) g3 = some B := by
        refine toTree_frame _ t hnil g3 _ B hB ?_
        intro j hj
        refine hBmem j hj
      have hC2 : toTree (left_rotate t x) ((t.mem ((t.mem x).right)).right) g3 = some C := by
        refine toTree_frame _ t hnil g3 _ C hC ?_
        intro j hj
        refine hCmem j hj
      have hTx2 : toTree (left_rotate t x) x (f2 + 1) = some (BT.bin A x vx cx B) := by
        rw [toTree, if_neg (by rw [hnil]; exact hxnil), hxl, hxr, hA2,
          toTree_mono _ g3 f2 _ B (by omega) hB2, (hvc x).1, (hvc x).2, hvx, hcx]
      rw [toTree, if_neg (by rw [hnil]; exact hynil), hyl, hyr, hTx2,
        toTree_mono _ g3 (f2 + 1) _ C (by omega) hC2, (hvc ((t.mem x).right)).1,
        (hvc ((t.mem x).right)).2, hvy, hcy]
      rw [BT.replace, if_pos rfl, BT.rotL]
    · -- the rotation happens strictly inside the subtree
      rw [if_neg hxa]
      obtain ⟨hanil, L, R, va, ca, f3, rfl, hf3, hva, hca, hL, hR⟩ :=
        toTree_mem_elim t a (f2 + 1) S hT (by rintro rfl; simp [BT.idxs] at hx)
      have hge : f3 = f2 := by omega
      rw [hge] at hL hR
      obtain ⟨_, _, hbl, hbr, hokL, hokR⟩ := subtree_ok_elim t a f2 hok hanil
      have hndL : L.idxs.Nodup := by
        rw [BT.idxs] at hnd
        exact (List.nodup_append.1 hnd).1
      have hndR : R.idxs.Nodup := by
        rw [BT.idxs] at hnd
        exact (List.nodup_cons.1 (List.nodup_append.1 hnd).2.1).2
      have haL : a ∉ L.idxs := by
        rw [BT.idxs] at hnd
        rcases List.nodup_append.1 hnd with ⟨_, _, hdisj⟩
        exact fun hc => hdisj hc (List.mem_cons_self _ _)
      have haR : a ∉ R.idxs := by
        rw [BT.idxs] at hnd
        exact (List.nodup_cons.1 (List.nodup_append.1 hnd).2.1).1
      rw [BT.idxs] at hx
      have hdisjLR : ∀ j ∈ L.idxs, j ∉ R.idxs := by
        rw [BT.idxs] at hnd
        rcases List.nodup_append.1 hnd with ⟨_, _, hdisj⟩
        exact fun j hj hc => hdisj hj (List.mem_cons_of_mem _ hc)
      rcases List.mem_append.1 hx with hxl2 | hxr2
      · -- x lies in the left subtree of a
        have hLne : L ≠ .tip := by rintro rfl; simp [BT.idxs] at hxl2
        have hlnil : (t.mem a).left ≠ t.nil :=
          fun hc => hLne ((toTree_tip_iff t _ f2 L hL).2 hc)
        obtain ⟨SxL, hSxL, gL, hgL, hTxL⟩ := toTree_subAt t f2 _ L hL x hxl2
        have hSxLne : SxL ≠ .tip := fun hc => hxnil ((toTree_tip_iff t x gL SxL hTxL).1 hc)
        obtain ⟨_, AX, RX, vxx, cxx, gx2, rfl, hgx2, hv1, hv2, hAX, hRX⟩ :=
          toTree_mem_elim t x gL SxL hTxL hSxLne
        have hRXne : RX ≠ .tip := fun hc => hyne ((toTree_tip_iff t _ gx2 RX hRX).1 hc)
        have hRXtop := (toTree_topIdx t _ gx2 RX hRX).2 hyne
        have hyL : (t.mem x).right ∈ L.idxs := by
          refine (BT.subAt_sublist x L _ hSxL).subset ?_
          rw [BT.idxs]
          refine List.mem_append_right _ (List.mem_cons_of_mem _ ?_)
          rcases RX with _ | ⟨R1, jr, vr, cr, R2⟩
          · exact absurd rfl hRXne
          · rw [BT.topIdx] at hRXtop
            obtain rfl := Option.some.inj hRXtop
            rw [BT.idxs]; simp
        have hxnr : x ∉ R.idxs := hdisjLR x hxl2
        have hynr : (t.mem x).right ∉ R.idxs := hdisjLR _ hyL
        have hya : (t.mem x).right ≠ a := fun hc => haL (hc ▸ hyL)
        have hax : a ≠ x := Ne.symm hxa
        have hqaL : (t.mem x).p ∈ L.idxs → x ≠ (t.mem a).left := by
          intro hqmem hxt
          have hc2 : (t.mem x).p = a := by
            rcases hbl with hc | hc
            · exact absurd hc hlnil
            · rw [hxt]; exact hc
          rw [hc2] at hqmem
          exact haL hqmem
        have hIH := ih _ L hokL hL hndL hxl2 hqaL
        have hrepl : (BT.bin L a va ca R).replace x BT.rotL =
            BT.bin (L.replace x BT.rotL) a va ca R := by
          rw [BT.replace, if_neg hax, BT.replace_of_not_mem x _ R hxnr]
        rw [hrepl]
        by_cases hxt : x = (t.mem a).left
        · have hqa2 : (t.mem x).p = a := by
            rcases hbl with hc | hc
            · exact absurd hc hlnil
            · rw [hxt]; exact hc
          have hqcell2 := hqcell (by rw [hqa2]; exact hanil)
          rw [hqa2] at hqcell2
          obtain ⟨hal, har⟩ := hqcell2.1 hxt.symm
          have hagreeR : ∀ j ∈ R.idxs, agreeCell (left_rotate t x) t j := by
            intro j hj
            obtain ⟨e1, e2⟩ := hframe j (fun hc => hxnr (hc ▸ hj)) (fun hc => hynr (hc ▸ hj))
              (by rw [hqa2]; exact fun hc => haR (hc ▸ hj))
            exact ⟨e1, e2, (hvc j).1, (hvc j).2⟩
          have hR2 : toTree (left_rotate t x) ((t.mem a).right) f2 = some R :=
            toTree_frame _ t hnil f2 _ R hR hagreeR
          rw [if_pos hxt] at hIH
          rw [toTree, if_neg (by rw [hnil]; exact hanil), hal, har, hIH,
            toTree_mono _ f2 (f2 + 1) _ R (by omega) hR2, (hvc a).1, (hvc a).2, hva, hca]
        · obtain ⟨pr, hprL, hpr, hprx, hprc⟩ := par_spec t f2 _ L hokL hL x hxl2 hxt
          have hqR : (t.mem x).p ∉ R.idxs := by rw [hpr]; exact hdisjLR pr hprL
          have hqa3 : (t.mem x).p ≠ a := by rw [hpr]; exact fun hc => haL (hc ▸ hprL)
          obtain ⟨hal, har⟩ := hframe a hax (Ne.symm hya) (Ne.symm hqa3)
          have hagreeR : ∀ j ∈ R.idxs, agreeCell (left_rotate t x) t j := by
            intro j hj
            obtain ⟨e1, e2⟩ := hframe j (fun hc => hxnr (hc ▸ hj)) (fun hc => hynr (hc ▸ hj))
              (fun hc => hqR (hc ▸ hj))
            exact ⟨e1, e2, (hvc j).1, (hvc j).2⟩
          have hR2 : toTree (left_rotate t x) ((t.mem a).right) f2 = some R :=
            toTree_frame _ t hnil f2 _ R hR hagreeR
          rw [if_neg hxt] at hIH
          rw [toTree, if_neg (by rw [hnil]; exact hanil), hal, har, hIH,
            toTree_mono _ f2 (f2 + 1) _ R (by omega) hR2, (hvc a).1, (hvc a).2, hva, hca]
      · -- x lies in the right subtree of a
        rcases List.mem_cons.1 hxr2 with rfl | hxr3
        · exact absurd rfl hxa
        have hRne : R ≠ .tip := by rintro rfl; simp [BT.idxs] at hxr3
        have hrnil : (t.mem a).right ≠ t.nil :=
          fun hc => hRne ((toTree_tip_iff t _ f2 R hR).2 hc)
        obtain ⟨SxR, hSxR, gR, hgR, hTxR⟩ := toTree_subAt t f2 _ R hR x hxr3
        have hSxRne : SxR ≠ .tip := fun hc => hxnil ((toTree_tip_iff t x gR SxR hTxR).1 hc)
        obtain ⟨_, AX, RX, vxx, cxx, gx2, rfl, hgx2, hv1, hv2, hAX, hRX⟩ :=
          toTree_mem_elim t x gR SxR hTxR hSxRne
        have hRXne : RX ≠ .tip := fun hc => hyne ((toTree_tip_iff t _ gx2 RX hRX).1 hc)
        have hRXtop := (toTree_topIdx t _ gx2 RX hRX).2 hyne
        have hyR : (t.mem x).right ∈ R.idxs := by
          refine (BT.subAt_sublist x R _ hSxR).subset ?_
          rw [BT.idxs]
          refine List.mem_append_right _ (List.mem_cons_of_mem _ ?_)
          rcases RX with _ | ⟨R1, jr, vr, cr, R2⟩
          · exact absurd rfl hRXne
          · rw [BT.topIdx] at hRXtop
            obtain rfl := Option.some.inj hRXtop
            rw [BT.idxs]; simp
        have hxnl : x ∉ L.idxs := fun hc => hdisjLR x hc hxr3
        have hynl : (t.mem x).right ∉ L.idxs := fun hc => hdisjLR _ hc hyR
        have hya : (t.mem x).right ≠ a := fun hc => haR (hc ▸ hyR)
        have hax : a ≠ x := Ne.symm hxa
        have hqaR : (t.mem x).p ∈ R.idxs → x ≠ (t.mem a).right := by
          intro hqmem hxt
          have hc2 : (t.mem x).p = a := by
            rcases hbr with hc | hc
            · exact absurd hc hrnil
            · rw [hxt]; exact hc
          rw [hc2] at hqmem
          exact haR hqmem
        have hIH := ih _ R hokR hR hndR hxr3 hqaR
        have hrepl : (BT.bin L a va ca R).replace x BT.rotL =
            BT.bin L a va ca (R.replace x BT.rotL) := by
          rw [BT.replace, if_neg hax, BT.replace_of_not_mem x _ L hxnl]
        rw [hrepl]
        have hlx : (t.mem a).left ≠ x := by
          by_cases hltip : L = .tip
          · have : (t.mem a).left = t.nil := (toTree_tip_iff t _ f2 L hL).1 hltip
            rw [this]; exact Ne.symm hxnil
          · have hlnil : (t.mem a).left ≠ t.nil :=
              fun hc => hltip ((toTree_tip_iff t _ f2 L hL).2 hc)
            have hLtop := (toTree_topIdx t _ f2 L hL).2 hlnil
            intro hc
            refine hxnl ?_
            rcases L with _ | ⟨L1, jl, vl, cl, L2⟩
            · exact absurd rfl hltip
            · rw [BT.topIdx] at hLtop
              obtain rfl := Option.some.inj hLtop
              rw [BT.idxs, ← hc]
              simp
        by_cases hxt : x = (t.mem a).right
        · have hqa2 : (t.mem x).p = a := by
            rcases hbr with hc | hc
            · exact absurd hc hrnil
            · rw [hxt]; exact hc
          have hqcell2 := hqcell (by rw [hqa2]; exact hanil)
          rw [hqa2] at hqcell2
          obtain ⟨hal, har⟩ := hqcell2.2 hlx
          have hagreeL : ∀ j ∈ L.idxs, agreeCell (left_rotate t x) t j := by
            intro j hj
            obtain ⟨e1, e2⟩ := hframe j (fun hc => hxnl (hc ▸ hj)) (fun hc => hynl (hc ▸ hj))
              (by rw [hqa2]; exact fun hc => haL (hc ▸ hj))
            exact ⟨e1, e2, (hvc j).1, (hvc j).2⟩
          have hL2 : toTree (left_rotate t x) ((t.mem a).left) f2 = some L :=
            toTree_frame _ t hnil f2 _ L hL hagreeL
          rw [if_pos hxt] at hIH
          rw [toTree, if_neg (by rw [hnil]; exact hanil), hal, har, hIH,
            toTree_mono _ f2 (f2 + 1) _ L (by omega) hL2, (hvc a).1, (hvc a).2, hva, hca]
        · obtain ⟨pr, hprR, hpr, hprx, hprc⟩ := par_spec t f2 _ R hokR hR x hxr3 hxt
          have hqL : (t.mem x).p ∉ L.idxs := by
            rw [hpr]; exact fun hc => hdisjLR pr hc hprR
          have hqa3 : (t.mem x).p ≠ a := by rw [hpr]; exact fun hc => haR (hc ▸ hprR)
          obtain ⟨hal, har⟩ := hframe a hax (Ne.symm hya) (Ne.symm hqa3)
          have hagreeL : ∀ j ∈ L.idxs, agreeCell (left_rotate t x) t j := by
            intro j hj
            obtain ⟨e1, e2⟩ := hframe j (fun hc => hxnl (hc ▸ hj)) (fun hc => hynl (hc ▸ hj))
              (fun hc => hqL (hc ▸ hj))
            exact ⟨e1, e2, (hvc j).1, (hvc j).2⟩
          have hL2 : toTree (left_rotate t x) ((t.mem a).left) f2 = some L :=
            toTree_frame _ t hnil f2 _ L hL hagreeL
          rw [if_neg hxt] at hIH
          rw [toTree, if_neg (by rw [hnil]; exact hanil), hal, har, hIH,
            toTree_mono _ f2 (f2 + 1) _ L (by omega) hL2, (hvc a).1, (hvc a).2, hva, hca]

/-- Simulation of `right_rotate`, mirror of `left_rotate_sim`: the arena
rotation acts on the mirror as the local surgery `rotR` at `x`. -/
theorem right_rotate_sim (t : Rb_tree V) (x : Nat) (hyne : (t.mem x).left ≠ t.nil) :
    ∀ f a S, subtree_ok t a f = true → toTree t a f = some S → S.idxs.Nodup →
      x ∈ S.idxs →
      ((t.mem x).p ∈ S.idxs → x ≠ a) →
      toTree (right_rotate t x) (if x = a then (t.mem x).left else a) (f + 1) =
        some (S.replace x BT.rotR) := by
  intro f
  induction f with
  | zero => intro a S h; simp [subtree_ok] at h
  | succ f2 ih =>
    intro a S hok hT hnd hx hqa
    obtain ⟨hyS, hxy, hxb, hqx, hqy, hby⟩ :=
      rot_ctx_right t (f2 + 1) a S hok hT hnd x hx hyne hqa
    obtain ⟨hnil, hnext, hcount, hroot, hvc, hxr, hxl, hxp, hyr, hyl, hyp, hqcell, hframe,
        hbp, hpframe⟩ :=
      right_rotate_spec t x ((t.mem x).left) ((t.mem ((t.mem x).left)).right) ((t.mem x).p)
        rfl rfl rfl hxy hxb hqx hqy
    have hxnil : x ≠ t.nil := toTree_idx_ne_nil t _ a S hT x hx
    have hynil : (t.mem x).left ≠ t.nil := hyne
    by_cases hxa : x = a
    · subst hxa
      rw [if_pos rfl]
      obtain ⟨_, Ys, A, vx, cx, g2, rfl, hg2, hvx, hcx, hYs, hA⟩ :=
        toTree_mem_elim t x (f2 + 1) S hT (by rintro rfl; simp [BT.idxs] at hx)
      have hge : g2 = f2 := by omega
      rw [hge] at hYs hA
      have hYsne : Ys ≠ .tip := fun hc => hyne ((toTree_tip_iff t _ f2 Ys hYs).1 hc)
      obtain ⟨_, C, B, vy, cy, g3, rfl, hg3, hvy, hcy, hC, hB⟩ :=
        toTree_mem_elim t ((t.mem x).left) f2 Ys hYs hYsne
      have hqS : (t.mem x).p ∉
          (BT.bin (BT.bin C ((t.mem x).left) vy cy B) x vx cx A).idxs :=
        fun hc => (hqa hc) rfl
      have hagree : ∀ j, j ≠ x → j ≠ (t.mem x).left → j ≠ (t.mem x).p →
          agreeCell (right_rotate t x) t j := by
        intro j h1 h2 h3
        obtain ⟨e2, e1⟩ := hframe j h1 h2 h3
        exact ⟨e1, e2, (hvc j).1, (hvc j).2⟩
      have hndYs : (BT.bin C ((t.mem x).left) vy cy B).idxs.Nodup := by
        rw [BT.idxs] at hnd
        exact (List.nodup_append.1 hnd).1
      have hxYs : x ∉ (BT.bin C ((t.mem x).left) vy cy B).idxs := by
        rw [BT.idxs] at hnd
        rcases List.nodup_append.1 hnd with ⟨_, _, hdisj⟩
        exact fun hc => hdisj hc (List.mem_cons_self _ _)
      have hAmem : ∀ j ∈ A.idxs, agreeCell (right_rotate t x) t j := by
        intro j hj
        have hjS : j ∈ (BT.bin (BT.bin C ((t.mem x).left) vy cy B) x vx cx A).idxs := by
          rw [BT.idxs]; exact List.mem_append_right _ (List.mem_cons_of_mem _ hj)
        rw [BT.idxs] at hnd
        have hncons : (x :: A.idxs).Nodup :=
          List.Nodup.sublist (List.sublist_append_right _ _) hnd
        rcases List.nodup_append.1 hnd with ⟨_, _, hdisj⟩
        refine hagree j ?_ ?_ (fun hc => hqS (hc ▸ hjS))
        · exact fun hc => (List.nodup_cons.1 hncons).1 (hc ▸ hj)
        · intro hc
          refine hdisj ?_ (List.mem_cons_of_mem _ hj)
          rw [← hc]
          rw [BT.idxs]
          simp
      have hBCmem : ∀ j ∈ (BT.bin C ((t.mem x).left) vy cy B).idxs, j ≠ (t.mem x).left →
          agreeCell (right_rotate t x) t j := by
        intro j hj h2
        have hjS : j ∈ (BT.bin (BT.bin C ((t.mem x).left) vy cy B) x vx cx A).idxs := by
          rw [BT.idxs]
          exact List.mem_append_left _ hj
        exact hagree j (fun hc => hxYs (hc ▸ hj)) h2 (fun hc => hqS (hc ▸ hjS))
      have hCmem : ∀ j ∈ C.idxs, agreeCell (right_rotate t x) t j := by
        intro j hj
        rw [BT.idxs] at hndYs
        rcases List.nodup_append.1 hndYs with ⟨_, _, hdisj⟩
        refine hBCmem j ?_ (fun hc => hdisj hj (hc ▸ List.mem_cons_self _ _))
        rw [BT.idxs]
        exact List.mem_append_left _ hj
      have hBmem : ∀ j ∈ B.idxs, agreeCell (right_rotate t x) t j := by
        intro j hj
        have h1 : ((t.mem x).left :: B.idxs).Nodup := by
          refine List.Nodup.sublist ?_ hndYs
          rw [BT.idxs]
          exact List.sublist_append_right _ _
        refine hBCmem j ?_ (fun hc => (List.nodup_cons.1 h1).1 (hc ▸ hj))
        rw [BT.idxs]
        exact List.mem_append_right _ (List.mem_cons_of_mem _ hj)
      have hA2 : toTree (right_rotate t x) ((t.mem x).right) f2 = some A :=
        toTree_frame _ t hnil f2 _ A hA hAmem
      have hB2 : toTree (right_rotate t x) ((t.mem ((t.mem x).left)).right) g3 = some B :=
        toTree_frame _ t hnil g3 _ B hB hBmem
      have hC2 : toTree (right_rotate t x) ((t.mem ((t.mem x).left)).left) g3 = some C :=
        toTree_frame _ t hnil g3 _ C hC hCmem
      have hTx2 : toTree (right_rotate t x) x (f2 + 1) = some (BT.bin B x vx cx A) := by
        rw [toTree, if_neg (by rw [hnil]; exact hxnil), hxl, hxr, hA2,
          toTree_mono _ g3 f2 _ B (by omega) hB2, (hvc x).1, (hvc x).2, hvx, hcx]
      rw [toTree, if_neg (by rw [hnil]; exact hynil), hyl, hyr, hTx2,
        toTree_mono _ g3 (f2 + 1) _ C (by omega) hC2, (hvc ((t.mem x).left)).1,
        (hvc ((t.mem x).left)).2, hvy, hcy]
      rw [BT.replace, if_pos rfl, BT.rotR]
    · rw [if_neg hxa]
      obtain ⟨hanil, L, R, va, ca, f3, rfl, hf3, hva, hca, hL, hR⟩ :=
        toTree_mem_elim t a (f2 + 1) S hT (by rintro rfl; simp [BT.idxs] at hx)
      have hge : f3 = f2 := by omega
      rw [hge] at hL hR
      obtain ⟨_, _, hbl, hbr, hokL, hokR⟩ := subtree_ok_elim t a f2 hok hanil
      have hndL : L.idxs.Nodup := by
        rw [BT.idxs] at hnd
        exact (List.nodup_append.1 hnd).1
      have hndR : R.idxs.Nodup := by
        rw [BT.idxs] at hnd
        exact (List.nodup_cons.1 (List.nodup_append.1 hnd).2.1).2
      have haL : a ∉ L.idxs := by
        rw [BT.idxs] at hnd
        rcases List.nodup_append.1 hnd with ⟨_, _, hdisj⟩
        exact fun hc => hdisj hc (List.mem_cons_self _ _)
      have haR : a ∉ R.idxs := by
        rw [BT.idxs] at hnd
        exact (List.nodup_cons.1 (List.nodup_append.1 hnd).2.1).1
      rw [BT.idxs] at hx
      have hdisjLR : ∀ j ∈ L.idxs, j ∉ R.idxs := by
        rw [BT.idxs] at hnd
        rcases List.nodup_append.1 hnd with ⟨_, _, hdisj⟩
        exact fun j hj hc => hdisj hj (List.mem_cons_of_mem _ hc)
      rcases List.mem_append.1 hx with hxl2 | hxr2
      · have hLne : L ≠ .tip := by rintro rfl; simp [BT.idxs] at hxl2
        have hlnil : (t.mem a).left ≠ t.nil :=
          fun hc => hLne ((toTree_tip_iff t _ f2 L hL).2 hc)
        obtain ⟨SxL, hSxL, gL, hgL, hTxL⟩ := toTree_subAt t f2 _ L hL x hxl2
        have hSxLne : SxL ≠ .tip := fun hc => hxnil ((toTree_tip_iff t x gL SxL hTxL).1 hc)
        obtain ⟨_, YX, AX, vxx, cxx, gx2, rfl, hgx2, hv1, hv2, hYX, hAX⟩ :=
          toTree_mem_elim t x gL SxL hTxL hSxLne
        have hYXne : YX ≠ .tip := fun hc => hyne ((toTree_tip_iff t _ gx2 YX hYX).1 hc)
        have hYXtop := (toTree_topIdx t _ gx2 YX hYX).2 hyne
        have hyL : (t.mem x).left ∈ L.idxs := by
          refine (BT.subAt_sublist x L _ hSxL).subset ?_
          rw [BT.idxs]
          refine List.mem_append_left _ ?_
          rcases YX with _ | ⟨Y1, jy, vyy, cyy, Y2⟩
          · exact absurd rfl hYXne
          · rw [BT.topIdx] at hYXtop
            obtain rfl := Option.some.inj hYXtop
            rw [BT.idxs]; simp
        have hxnr : x ∉ R.idxs := hdisjLR x hxl2
        have hynr : (t.mem x).left ∉ R.idxs := hdisjLR _ hyL
        have hya : (t.mem x).left ≠ a := fun hc => haL (hc ▸ hyL)
        have hax : a ≠ x := Ne.symm hxa
        have hqaL : (t.mem x).p ∈ L.idxs → x ≠ (t.mem a).left := by
          intro hqmem hxt
          have hc2 : (t.mem x).p = a := by
            rcases hbl with hc | hc
            · exact absurd hc hlnil
            · rw [hxt]; exact hc
          rw [hc2] at hqmem
          exact haL hqmem
        have hIH := ih _ L hokL hL hndL hxl2 hqaL
        have hrepl : (BT.bin L a va ca R).replace x BT.rotR =
            BT.bin (L.replace x BT.rotR) a va ca R := by
          rw [BT.replace, if_neg hax, BT.replace_of_not_mem x _ R hxnr]
        rw [hrepl]
        have hrx : (t.mem a).right ≠ x := by
          by_cases hrtip : R = .tip
          · have : (t.mem a).right = t.nil := (toTree_tip_iff t _ f2 R hR).1 hrtip
            rw [this]; exact Ne.symm hxnil
          · have hrnil2 : (t.mem a).right ≠ t.nil :=
              fun hc => hrtip ((toTree_tip_iff t _ f2 R hR).2 hc)
            have hRtop := (toTree_topIdx t _ f2 R hR).2 hrnil2
            intro hc
            refine hxnr ?_
            rcases R with _ | ⟨R1, jr, vr, cr, R2⟩
            · exact absurd rfl hrtip
            · rw [BT.topIdx] at hRtop
              obtain rfl := Option.some.inj hRtop
              rw [BT.idxs, ← hc]
              simp
        by_cases hxt : x = (t.mem a).left
        · have hqa2 : (t.mem x).p = a := by
            rcases hbl with hc | hc
            · exact absurd hc hlnil
            · rw [hxt]; exact hc
          have hqcell2 := hqcell (by rw [hqa2]; exact hanil)
          rw [hqa2] at hqcell2
          obtain ⟨har, hal⟩ := hqcell2.2 hrx
          have hagreeR : ∀ j ∈ R.idxs, agreeCell (right_rotate t x) t j := by
            intro j hj
            obtain ⟨e2, e1⟩ := hframe j (fun hc => hxnr (hc ▸ hj)) (fun hc => hynr (hc ▸ hj))
              (by rw [hqa2]; exact fun hc => haR (hc ▸ hj))
            exact ⟨e1, e2, (hvc j).1, (hvc j).2⟩
          have hR2 : toTree (right_rotate t x) ((t.mem a).right) f2 = some R :=
            toTree_frame _ t hnil f2 _ R hR hagreeR
          rw [if_pos hxt] at hIH
          rw [toTree, if_neg (by rw [hnil]; exact hanil), hal, har, hIH,
            toTree_mono _ f2 (f2 + 1) _ R (by omega) hR2, (hvc a).1, (hvc a).2, hva, hca]
        · obtain ⟨pr, hprL, hpr, hprx, hprc⟩ := par_spec t f2 _ L hokL hL x hxl2 hxt
          have hqR : (t.mem x).p ∉ R.idxs := by rw [hpr]; exact hdisjLR pr hprL
          have hqa3 : (t.mem x).p ≠ a := by rw [hpr]; exact fun hc => haL (hc ▸ hprL)
          obtain ⟨har, hal⟩ := hframe a hax (Ne.symm hya) (Ne.symm hqa3)
          have hagreeR : ∀ j ∈ R.idxs, agreeCell (right_rotate t x) t j := by
            intro j hj
            obtain ⟨e2, e1⟩ := hframe j (fun hc => hxnr (hc ▸ hj)) (fun hc => hynr (hc ▸ hj))
              (fun hc => hqR (hc ▸ hj))
            exact ⟨e1, e2, (hvc j).1, (hvc j).2⟩
          have hR2 : toTree (right_rotate t x) ((t.mem a).right) f2 = some R :=
            toTree_frame _ t hnil f2 _ R hR hagreeR
          rw [if_neg hxt] at hIH
          rw [toTree, if_neg (by rw [hnil]; exact hanil), hal, har, hIH,
            toTree_mono _ f2 (f2 + 1) _ R (by omega) hR2, (hvc a).1, (hvc a).2, hva, hca]
      · rcases List.mem_cons.1 hxr2 with rfl | hxr3
        · exact absurd rfl hxa
        have hRne : R ≠ .tip := by rintro rfl; simp [BT.idxs] at hxr3
        have hrnil : (t.mem a).right ≠ t.nil :=
          fun hc => hRne ((toTree_tip_iff t _ f2 R hR).2 hc)
        obtain ⟨SxR, hSxR, gR, hgR, hTxR⟩ := toTree_subAt t f2 _ R hR x hxr3
        have hSxRne : SxR ≠ .tip := fun hc => hxnil ((toTree_tip_iff t x gR SxR hTxR).1 hc)
        obtain ⟨_, YX, AX, vxx, cxx, gx2, rfl, hgx2, hv1, hv2, hYX, hAX⟩ :=
          toTree_mem_elim t x gR SxR hTxR hSxRne
        have hYXne : YX ≠ .tip := fun hc => hyne ((toTree_tip_iff t _ gx2 YX hYX).1 hc)
        have hYXtop := (toTree_topIdx t _ gx2 YX hYX).2 hyne
        have hyR : (t.mem x).left ∈ R.idxs := by
          refine (BT.subAt_sublist x R _ hSxR).subset ?_
          rw [BT.idxs]
          refine List.mem_append_left _ ?_
          rcases YX with _ | ⟨Y1, jy, vyy, cyy, Y2⟩
          · exact absurd rfl hYXne
          · rw [BT.topIdx] at hYXtop
            obtain rfl := Option.some.inj hYXtop
            rw [BT.idxs]; simp
        have hxnl : x ∉ L.idxs := fun hc => hdisjLR x hc hxr3
        have hynl : (t.mem x).left ∉ L.idxs := fun hc => hdisjLR _ hc hyR
        have hya : (t.mem x).left ≠ a := fun hc => haR (hc ▸ hyR)
        have hax : a ≠ x := Ne.symm hxa
        have hqaR : (t.mem x).p ∈ R.idxs → x ≠ (t.mem a).right := by
          intro hqmem hxt
          have hc2 : (t.mem x).p = a := by
            rcases hbr with hc | hc
            · exact absurd hc hrnil
            · rw [hxt]; exact hc
          rw [hc2] at hqmem
          exact haR hqmem
        have hIH := ih _ R hokR hR hndR hxr3 hqaR
        have hrepl : (BT.bin L a va ca R).replace x BT.rotR =
            BT.bin L a va ca (R.replace x BT.rotR) := by
          rw [BT.replace, if_neg hax, BT.replace_of_not_mem x _ L hxnl]
        rw [hrepl]
        by_cases hxt : x = (t.mem a).right
        · have hqa2 : (t.mem x).p = a := by
            rcases hbr with hc | hc
            · exact absurd hc hrnil
            · rw [hxt]; exact hc
          have hqcell2 := hqcell (by rw [hqa2]; exact hanil)
          rw [hqa2] at hqcell2
          obtain ⟨har, hal⟩ := hqcell2.1 hxt.symm
          have hagreeL : ∀ j ∈ L.idxs, agreeCell (right_rotate t x) t j := by
            intro j hj
            obtain ⟨e2, e1⟩ := hframe j (fun hc => hxnl (hc ▸ hj)) (fun hc => hynl (hc ▸ hj))
              (by rw [hqa2]; exact fun hc => haL (hc ▸ hj))
            exact ⟨e1, e2, (hvc j).1, (hvc j).2⟩
          have hL2 : toTree (right_rotate t x) ((t.mem a).left) f2 = some L :=
            toTree_frame _ t hnil f2 _ L hL hagreeL
          rw [if_pos hxt] at hIH
          rw [toTree, if_neg (by rw [hnil]; exact hanil), hal, har, hIH,
            toTree_mono _ f2 (f2 + 1) _ L (by omega) hL2, (hvc a).1, (hvc a).2, hva, hca]
        · obtain ⟨pr, hprR, hpr, hprx, hprc⟩ := par_spec t f2 _ R hokR hR x hxr3 hxt
          have hqL : (t.mem x).p ∉ L.idxs := by
            rw [hpr]; exact fun hc => hdisjLR pr hc hprR
          have hqa3 : (t.mem x).p ≠ a := by rw [hpr]; exact fun hc => haR (hc ▸ hprR)
          obtain ⟨har, hal⟩ := hframe a hax (Ne.symm hya) (Ne.symm hqa3)
          have hagreeL : ∀ j ∈ L.idxs, agreeCell (right_rotate t x) t j := by
            intro j hj
            obtain ⟨e2, e1⟩ := hframe j (fun hc => hxnl (hc ▸ hj)) (fun hc => hynl (hc ▸ hj))
              (fun hc => hqL (hc ▸ hj))
            exact ⟨e1, e2, (hvc j).1, (hvc j).2⟩
          have hL2 : toTree (right_rotate t x) ((t.mem a).left) f2 = some L :=
            toTree_frame _ t hnil f2 _ L hL hagreeL
          rw [if_neg hxt] at hIH
          rw [toTree, if_neg (by rw [hnil]; exact hanil), hal, har, hIH,
            toTree_mono _ f2 (f2 + 1) _ L (by omega) hL2, (hvc a).1, (hvc a).2, hva, hca]

/-- A colour write acts on the read-off as the mirror surgery `recolor`. -/
theorem setColor_toTree (t : Rb_tree V) (a : Nat) (c : Node_color) :
    ∀ f i, toTree (setColor t a c) i f = (toTree t i f).map (BT.recolor a c) := by
  intro f
  induction f with
  | zero => intro i; rfl
  | succ f ih =>
    intro i
    have hnil : (setColor t a c).nil = t.nil := ((setColor_fields t a c).1)
    rw [toTree, toTree]
    by_cases hi : i = t.nil
    · rw [if_pos (by rw [hnil]; exact hi), if_pos hi]
      simp [BT.recolor]
    · rw [if_neg (by rw [hnil]; exact hi), if_neg hi, setColor_left, setColor_right, ih, ih]
      rcases toTree t ((t.mem i).left) f with _ | L
      · simp
      rcases toTree t ((t.mem i).right) f with _ | R
      · simp
      simp [BT.recolor, setColor_val, setColor_color]

/-- The structural soundness check only reads the three links, the sentinel
and the allocation counter. -/
theorem subtree_ok_congr (t2 t : Rb_tree V) (hnil : t2.nil = t.nil)
    (hnext : t2.next = t.next)
    (h : ∀ j, (t2.mem j).left = (t.mem j).left ∧ (t2.mem j).right = (t.mem j).right ∧
      (t2.mem j).p = (t.mem j).p) :
    ∀ f i, subtree_ok t2 i f = subtree_ok t i f := by
  intro f
  induction f with
  | zero => intro i; rfl
  | succ f ih =>
    intro i
    rw [subtree_ok, subtree_ok, hnil]
    by_cases hi : i = t.nil
    · rw [if_pos hi, if_pos hi]
    · rw [if_neg hi, if_neg hi, hnext, (h i).1, (h i).2.1,
        (h ((t.mem i).left)).2.2, (h ((t.mem i).right)).2.2, ih, ih]

/-- `recolor` keeps the index list. -/
theorem BT.recolor_idxs (a : Nat) (c : Node_color) :
    ∀ S : BT V, (BT.recolor a c S).idxs = S.idxs := by
  intro S
  induction S with
  | tip => rfl
  | bin l j v cc r ihl ihr => rw [BT.recolor, BT.idxs, BT.idxs, ihl, ihr]

/-- `recolor` keeps the payload list. -/
theorem BT.recolor_vals (a : Nat) (c : Node_color) :
    ∀ S : BT V, (BT.recolor a c S).vals = S.vals := by
  intro S
  induction S with
  | tip => rfl
  | bin l j v cc r ihl ihr => rw [BT.recolor, BT.vals, BT.vals, ihl, ihr]

/-- `recolor` keeps the top index. -/
theorem BT.recolor_topIdx (a : Nat) (c : Node_color) :
    ∀ S : BT V, (BT.recolor a c S).topIdx = S.topIdx := by
  intro S
  cases S with
  | tip => rfl
  | bin l j v cc r => rfl

/-- The left-rotation surgery keeps the index list. -/
theorem BT.rotL_idxs : ∀ S : BT V, (BT.rotL S).idxs = S.idxs := by
  intro S
  rcases S with _ | ⟨a, x, vx, cx, _ | ⟨b, y, vy, cy, cc⟩⟩ <;>
    simp [BT.rotL, BT.idxs]

/-- The left-rotation surgery keeps the payload list. -/
theorem BT.rotL_vals : ∀ S : BT V, (BT.rotL S).vals = S.vals := by
  intro S
  rcases S with _ | ⟨a, x, vx, cx, _ | ⟨b, y, vy, cy, cc⟩⟩ <;>
    simp [BT.rotL, BT.vals]

/-- The right-rotation surgery keeps the index list. -/
theorem BT.rotR_idxs : ∀ S : BT V, (BT.rotR S).idxs = S.idxs := by
  intro S
  rcases S with _ | ⟨_ | ⟨a, y, vy, cy, b⟩, x, vx, cx, cc⟩ <;>
    simp [BT.rotR, BT.idxs]

/-- The right-rotation surgery keeps the payload list. -/
theorem BT.rotR_vals : ∀ S : BT V, (BT.rotR S).vals = S.vals := by
  intro S
  rcases S with _ | ⟨_ | ⟨a, y, vy, cy, b⟩, x, vx, cx, cc⟩ <;>
    simp [BT.rotR, BT.vals]

/-- `replace` with an index-preserving surgery keeps the index list. -/
theorem BT.replace_idxs (x : Nat) (g : BT V → BT V)
    (hg : ∀ S : BT V, (g S).idxs = S.idxs) :
    ∀ S : BT V, (S.replace x g).idxs = S.idxs := by
  intro S
  induction S with
  | tip => rfl
  | bin l j v c r ihl ihr =>
    rw [BT.replace]
    by_cases hj : j = x
    · rw [if_pos hj, hg]
    · rw [if_neg hj, BT.idxs, BT.idxs, ihl, ihr]

/-- `replace` with a payload-preserving surgery keeps the payload list. -/
theorem BT.replace_vals (x : Nat) (g : BT V → BT V)
    (hg : ∀ S : BT V, (g S).vals = S.vals) :
    ∀ S : BT V, (S.replace x g).vals = S.vals := by
  intro S
  induction S with
  | tip => rfl
  | bin l j v c r ihl ihr =>
    rw [BT.replace]
    by_cases hj : j = x
    · rw [if_pos hj, hg]
    · rw [if_neg hj, BT.vals, BT.vals, ihl, ihr]

/-- The back-link check only reads parent links. -/
theorem parB_congr (t2 t : Rb_tree V) (h : ∀ j, (t2.mem j).p = (t.mem j).p) :
    ∀ S : BT V, parB t2 S = parB t S := by
  intro S
  induction S with
  | tip => rfl
  | bin l j v c r ihl ihr =>
    rw [parB, parB, ihl, ihr]
    rcases l.topIdx with _ | a <;> rcases r.topIdx with _ | b <;> simp [h]

/-- The back-link check only reads parent links of the mirror's non-top
members. -/
theorem parB_agree (t2 t : Rb_tree V) :
    ∀ S : BT V, S.idxs.Nodup →
      (∀ j ∈ S.idxs, S.topIdx ≠ some j → (t2.mem j).p = (t.mem j).p) →
      parB t2 S = parB t S := by
  intro S
  induction S with
  | tip => intro _ _; rfl
  | bin l j v c r ihl ihr =>
    intro hnd h
    rw [BT.idxs] at hnd
    have hndl : l.idxs.Nodup := (List.nodup_append.1 hnd).1
    have hndr : r.idxs.Nodup := (List.nodup_cons.1 (List.nodup_append.1 hnd).2.1).2
    have hjl : j ∉ l.idxs := fun hc =>
      (List.nodup_append.1 hnd).2.2 hc (List.mem_cons_self _ _)
    have hjr : j ∉ r.idxs := (List.nodup_cons.1 (List.nodup_append.1 hnd).2.1).1
    have hml : ∀ a ∈ l.idxs, (t2.mem a).p = (t.mem a).p := by
      intro a ha
      refine h a (by rw [BT.idxs]; exact List.mem_append_left _ ha) ?_
      rw [BT.topIdx]
      exact fun hc => hjl ((Option.some.inj hc) ▸ ha)
    have hmr : ∀ a ∈ r.idxs, (t2.mem a).p = (t.mem a).p := by
      intro a ha
      have hmem : a ∈ (BT.bin l j v c r).idxs := by
        rw [BT.idxs]
        exact List.mem_append_right _ (List.mem_cons_of_mem _ ha)
      refine h a hmem ?_
      rw [BT.topIdx]
      exact fun hc => hjr ((Option.some.inj hc) ▸ ha)
    have hl2 : parB t2 l = parB t l := ihl hndl (fun a ha _ => hml a ha)
    have hr2 : parB t2 r = parB t r := ihr hndr (fun a ha _ => hmr a ha)
    rw [parB, parB, hl2, hr2]
    have htl : ∀ a, l.topIdx = some a → (t2.mem a).p = (t.mem a).p := by
      intro a ha
      refine hml a ?_
      rcases l with _ | ⟨l1, a1, v1, c1, r1⟩
      · exact absurd ha (by simp [BT.topIdx])
      · rw [BT.topIdx] at ha
        obtain rfl := Option.some.inj ha
        rw [BT.idxs]; simp
    have htr : ∀ a, r.topIdx = some a → (t2.mem a).p = (t.mem a).p := by
      intro a ha
      refine hmr a ?_
      rcases r with _ | ⟨l1, a1, v1, c1, r1⟩
      · exact absurd ha (by simp [BT.topIdx])
      · rw [BT.topIdx] at ha
        obtain rfl := Option.some.inj ha
        rw [BT.idxs]; simp
    have e1 : (match BT.topIdx l with | some a => (t2.mem a).p == j | none => true) =
        (match BT.topIdx l with | some a => (t.mem a).p == j | none => true) := by
      rcases hlt : l.topIdx with _ | a
      · rfl
      · simp only
        rw [htl a hlt]
    have e2 : (match BT.topIdx r with | some a => (t2.mem a).p == j | none => true) =
        (match BT.topIdx r with | some a => (t.mem a).p == j | none => true) := by
      rcases hrt : r.topIdx with _ | a
      · rfl
      · simp only
        rw [htr a hrt]
    rw [e1, e2]

/-- Reconstruct the structural soundness check from a successful read-off
with in-bounds cells and coherent back-links. -/
theorem subtree_ok_reconstruct (t : Rb_tree V) :
    ∀ f i S, toTree t i f = some S → cellsB t S = true → parB t S = true →
      subtree_ok t i f = true := by
  intro f
  induction f with
  | zero => intro i S h; simp [toTree] at h
  | succ f ih =>
    intro i S hT hc hp
    rw [subtree_ok]
    by_cases hi : i = t.nil
    · rw [if_pos hi]
    · rw [if_neg hi]
      rw [toTree, if_neg hi] at hT
      rcases hL : toTree t ((t.mem i).left) f with _ | L <;> rw [hL] at hT
      · exact absurd hT (by simp)
      rcases hR : toTree t ((t.mem i).right) f with _ | R <;> rw [hR] at hT
      · exact absurd hT (by simp)
      obtain rfl := Option.some.inj hT
      rw [cellsB, BT.idxs] at hc
      simp only [List.all_append, List.all_cons, Bool.and_eq_true, List.all_eq_true,
        decide_eq_true_eq] at hc
      rw [parB] at hp
      simp only [Bool.and_eq_true] at hp
      have hcl : cellsB t L = true := by
        rw [cellsB]; simp only [List.all_eq_true, decide_eq_true_eq, Bool.and_eq_true]
        exact hc.1
      have hcr : cellsB t R = true := by
        rw [cellsB]; simp only [List.all_eq_true, decide_eq_true_eq, Bool.and_eq_true]
        exact hc.2.2
      have hbl : ((t.mem i).left == t.nil || (t.mem ((t.mem i).left)).p == i) = true := by
        by_cases h2 : (t.mem i).left = t.nil
        · simp [h2]
        · have htop : L.topIdx = some ((t.mem i).left) := (toTree_topIdx t _ f L hL).2 h2
          have := hp.1.1.1
          rw [htop] at this
          simp only [beq_iff_eq] at this
          simp [this]
      have hbr : ((t.mem i).right == t.nil || (t.mem ((t.mem i).right)).p == i) = true := by
        by_cases h2 : (t.mem i).right = t.nil
        · simp [h2]
        · have htop : R.topIdx = some ((t.mem i).right) := (toTree_topIdx t _ f R hR).2 h2
          have := hp.1.1.2
          rw [htop] at this
          simp only [beq_iff_eq] at this
          simp [this]
      rw [hbl, hbr, ih _ _ hL hcl hp.1.2, ih _ _ hR hcr hp.2]
      simp [hc.2.1.1, hc.2.1.2]

/-- Extract the in-bounds and back-link parts from the structural soundness
check. -/
theorem subtree_ok_parts (t : Rb_tree V) :
    ∀ f i S, subtree_ok t i f = true → toTree t i f = some S →
      cellsB t S = true ∧ parB t S = true := by
  intro f
  induction f with
  | zero => intro i S h; simp [subtree_ok] at h
  | succ f ih =>
    intro i S hok hT
    by_cases hi : i = t.nil
    · obtain rfl : S = .tip := (toTree_tip_iff t i (f + 1) S hT).2 hi
      exact ⟨rfl, rfl⟩
    obtain ⟨_, L, R, v, c, f2, rfl, hf2, hv, hcc, hL, hR⟩ :=
      toTree_mem_elim t i (f + 1) S hT
        (fun hc => hi ((toTree_tip_iff t i (f + 1) _ hT).1 hc))
    have hfe : f2 = f := by omega
    rw [hfe] at hL hR
    obtain ⟨h0, hlt, hbl, hbr, hokL, hokR⟩ := subtree_ok_elim t i f hok hi
    obtain ⟨hcL, hpL⟩ := ih _ _ hokL hL
    obtain ⟨hcR, hpR⟩ := ih _ _ hokR hR
    constructor
    · rw [cellsB, BT.idxs]
      simp only [List.all_append, List.all_cons, Bool.and_eq_true, List.all_eq_true,
        decide_eq_true_eq]
      rw [cellsB] at hcL hcR
      simp only [List.all_eq_true, decide_eq_true_eq, Bool.and_eq_true] at hcL hcR
      exact ⟨hcL, ⟨⟨h0, hlt⟩, hcR⟩⟩
    · rw [parB]
      simp only [Bool.and_eq_true]
      refine ⟨⟨⟨?_, ?_⟩, hpL⟩, hpR⟩
      · rcases htl : L.topIdx with _ | a
        · rfl
        · have : a = (t.mem i).left := by
            by_cases h2 : (t.mem i).left = t.nil
            · obtain rfl : L = .tip := (toTree_tip_iff t _ f L hL).2 h2
              exact absurd htl (by simp [BT.topIdx])
            · have := (toTree_topIdx t _ f L hL).2 h2
              rw [htl] at this
              exact Option.some.inj this
          subst this
          rcases hbl with h2 | h2
          · obtain rfl : L = .tip := (toTree_tip_iff t _ f L hL).2 h2
            exact absurd htl (by simp [BT.topIdx])
          · simp [h2]
      · rcases htr : R.topIdx with _ | a
        · rfl
        · have : a = (t.mem i).right := by
            by_cases h2 : (t.mem i).right = t.nil
            · obtain rfl : R = .tip := (toTree_tip_iff t _ f R hR).2 h2
              exact absurd htr (by simp [BT.topIdx])
            · have := (toTree_topIdx t _ f R hR).2 h2
              rw [htr] at this
              exact Option.some.inj this
          subst this
          rcases hbr with h2 | h2
          · obtain rfl : R = .tip := (toTree_tip_iff t _ f R hR).2 h2
            exact absurd htr (by simp [BT.topIdx])
          · simp [h2]

/-- A recorded top index is a member of the index list. -/
theorem BT.topIdx_mem (S : BT V) (a : Nat) (h : S.topIdx = some a) : a ∈ S.idxs := by
  rcases S with _ | ⟨l, j, v, c, r⟩
  · simp [BT.topIdx] at h
  · rw [BT.topIdx] at h
    obtain rfl := Option.some.inj h
    rw [BT.idxs]
    simp

/-- `subAt` succeeds on every member index. -/
theorem BT.subAt_isSome_of_mem (x : Nat) :
    ∀ S : BT V, x ∈ S.idxs → (BT.subAt x S).isSome = true := by
  intro S
  induction S with
  | tip => intro h; simp [BT.idxs] at h
  | bin l j v c r ihl ihr =>
    intro h
    rw [BT.subAt]
    by_cases hj : j = x
    · rw [if_pos hj]; rfl
    · rw [if_neg hj]
      rw [BT.idxs] at h
      rcases hsl : BT.subAt x l with _ | S1
      · simp only [Option.orElse]
        rcases List.mem_append.1 h with h | h
        · have := ihl h
          rw [hsl] at this
          simp at this
        rcases List.mem_cons.1 h with rfl | h
        · exact absurd rfl hj
        · exact ihr h
      · simp [Option.orElse]

/-- `subAt` at the top returns the whole mirror. -/
theorem BT.subAt_self (x : Nat) (S : BT V) (h : S.topIdx = some x) :
    BT.subAt x S = some S := by
  rcases S with _ | ⟨l, j, v, c, r⟩
  · simp [BT.topIdx] at h
  · rw [BT.topIdx] at h
    rw [BT.subAt, if_pos (Option.some.inj h)]

/-- `replace` below the top keeps the top index. -/
theorem BT.replace_topIdx (x : Nat) (g : BT V → BT V) (S : BT V)
    (h : S.topIdx ≠ some x) : (S.replace x g).topIdx = S.topIdx := by
  rcases S with _ | ⟨l, j, v, c, r⟩
  · rfl
  · rw [BT.topIdx] at h
    rw [BT.replace, if_neg (fun hc => h (by rw [hc])), BT.topIdx, BT.topIdx]

/-- A `subAt` hit below the top lies inside one of the two children. -/
theorem BT.subAt_in_child (x : Nat) (l : BT V) (j : Nat) (v : V) (c : Node_color)
    (r T : BT V) (hj : j ≠ x) (h : BT.subAt x (.bin l j v c r) = some T) :
    T.idxs.Sublist l.idxs ∨ T.idxs.Sublist r.idxs := by
  rw [BT.subAt, if_neg hj] at h
  rcases hsl : BT.subAt x l with _ | S1 <;> rw [hsl] at h
  · simp only [Option.orElse] at h
    exact Or.inr (BT.subAt_sublist x r T h)
  · simp only [Option.orElse] at h
    obtain rfl := Option.some.inj h
    exact Or.inl (BT.subAt_sublist x l S1 hsl)

/-- Introduction form of the back-link check at a `bin` node. -/
theorem parB_intro (t : Rb_tree V) (l : BT V) (j : Nat) (v : V) (c : Node_color)
    (r : BT V)
    (h1 : ∀ a, l.topIdx = some a → (t.mem a).p = j)
    (h2 : ∀ a, r.topIdx = some a → (t.mem a).p = j)
    (h3 : parB t l = true) (h4 : parB t r = true) :
    parB t (.bin l j v c r) = true := by
  rw [parB]
  simp only [Bool.and_eq_true]
  refine ⟨⟨⟨?_, ?_⟩, h3⟩, h4⟩
  · rcases hlt : l.topIdx with _ | a
    · rfl
    · simp [h1 a hlt]
  · rcases hrt : r.topIdx with _ | a
    · rfl
    · simp [h2 a hrt]

/-- Elimination form of the back-link check at a `bin` node. -/
theorem parB_elim (t : Rb_tree V) (l : BT V) (j : Nat) (v : V) (c : Node_color)
    (r : BT V) (h : parB t (.bin l j v c r) = true) :
    (∀ a, l.topIdx = some a → (t.mem a).p = j) ∧
    (∀ a, r.topIdx = some a → (t.mem a).p = j) ∧
    parB t l = true ∧ parB t r = true := by
  rw [parB] at h
  simp only [Bool.and_eq_true] at h
  obtain ⟨⟨⟨m1, m2⟩, p1⟩, p2⟩ := h
  refine ⟨?_, ?_, p1, p2⟩
  · intro a ha
    rw [ha] at m1
    simpa using m1
  · intro a ha
    rw [ha] at m2
    simpa using m2

/-- The top of a mirror never reappears inside a strictly lower `subAt` hit. -/
theorem BT.subAt_top_notin (x : Nat) (S T : BT V) (hnd : S.idxs.Nodup)
    (hts : S.topIdx ≠ some x) (h : BT.subAt x S = some T) :
    ∀ a, S.topIdx = some a → a ∉ T.idxs := by
  intro a ha hc
  rcases S with _ | ⟨l, j, v, c, r⟩
  · simp [BT.subAt] at h
  · rw [BT.topIdx] at ha
    have haj : j = a := Option.some.inj ha
    have hjx : j ≠ x := fun hE => hts (by rw [BT.topIdx, hE])
    rw [BT.idxs] at hnd
    have hjl : j ∉ l.idxs := fun hcc =>
      (List.nodup_append.1 hnd).2.2 hcc (List.mem_cons_self _ _)
    have hjr : j ∉ r.idxs := (List.nodup_cons.1 (List.nodup_append.1 hnd).2.1).1
    rcases BT.subAt_in_child x l j v c r T hjx h with hs | hs
    · exact hjl (by rw [haj]; exact hs.subset hc)
    · exact hjr (by rw [haj]; exact hs.subset hc)

/-- Back-link coherence of the rotated fragment wholly at the top: given the
parent facts of `left_rotate_spec`, the rotated arena passes the back-link
check on the assembled rotated mirror. -/
theorem parB_rotL_top (t2 t : Rb_tree V) (x y : Nat) (A B C : BT V)
    (vx vy : V) (cx cy : Node_color)
    (hpx : (t2.mem x).p = y)
    (hpb : ∀ b, B.topIdx = some b → (t2.mem b).p = x)
    (hnd : (BT.bin A x vx cx (BT.bin B y vy cy C)).idxs.Nodup)
    (hpar : parB t (BT.bin A x vx cx (BT.bin B y vy cy C)) = true)
    (hframe : ∀ j ∈ (BT.bin A x vx cx (BT.bin B y vy cy C)).idxs,
      j ≠ x → j ≠ y → B.topIdx ≠ some j → (t2.mem j).p = (t.mem j).p) :
    parB t2 (BT.bin (BT.bin A x vx cx B) y vy cy C) = true := by
  obtain ⟨hoA, hoI, hpA, hpI⟩ := parB_elim t A x vx cx (BT.bin B y vy cy C) hpar
  obtain ⟨hoB, hoC, hpB, hpC⟩ := parB_elim t B y vy cy C hpI
  rw [BT.idxs, BT.idxs] at hnd
  obtain ⟨hndA, hnd2, hdA⟩ := List.nodup_append.1 hnd
  obtain ⟨hx2, hnd3⟩ := List.nodup_cons.1 hnd2
  obtain ⟨hndB, hnd4, hdB⟩ := List.nodup_append.1 hnd3
  obtain ⟨hy4, hndC⟩ := List.nodup_cons.1 hnd4
  have hxA : x ∉ A.idxs := fun hc => hdA hc (List.mem_cons_self _ _)
  have hyA : y ∉ A.idxs := fun hc =>
    hdA hc (List.mem_cons_of_mem _ (List.mem_append_right _ (List.mem_cons_self _ _)))
  have hyB : y ∉ B.idxs := fun hc => hdB hc (List.mem_cons_self _ _)
  have hxB : x ∉ B.idxs := fun hc => hx2 (List.mem_append_left _ hc)
  have hxC : x ∉ C.idxs := fun hc =>
    hx2 (List.mem_append_right _ (List.mem_cons_of_mem _ hc))
  have hfA : ∀ a ∈ A.idxs, (t2.mem a).p = (t.mem a).p := by
    intro a ha
    refine hframe a ?_ (fun hc => hxA (hc ▸ ha)) (fun hc => hyA (hc ▸ ha)) ?_
    · rw [BT.idxs, BT.idxs]
      exact List.mem_append_left _ ha
    · intro hc
      exact hdA ha (List.mem_cons_of_mem _ (List.mem_append_left _ (BT.topIdx_mem B a hc)))
  have hfB : ∀ a ∈ B.idxs, B.topIdx ≠ some a → (t2.mem a).p = (t.mem a).p := by
    intro a ha hne
    refine hframe a ?_ (fun hc => hxB (hc ▸ ha)) (fun hc => hyB (hc ▸ ha)) hne
    rw [BT.idxs, BT.idxs]
    exact List.mem_append_right _ (List.mem_cons_of_mem _ (List.mem_append_left _ ha))
  have hfC : ∀ a ∈ C.idxs, (t2.mem a).p = (t.mem a).p := by
    intro a ha
    refine hframe a ?_ (fun hc => hxC (hc ▸ ha)) (fun hc => hy4 (hc ▸ ha)) ?_
    · rw [BT.idxs, BT.idxs]
      exact List.mem_append_right _ (List.mem_cons_of_mem _
        (List.mem_append_right _ (List.mem_cons_of_mem _ ha)))
    · intro hc
      exact hdB (BT.topIdx_mem B a hc) (List.mem_cons_of_mem _ ha)
  refine parB_intro t2 _ y vy cy _ ?_ ?_ ?_ ?_
  · intro a ha
    rw [BT.topIdx] at ha
    obtain rfl : x = a := Option.some.inj ha
    exact hpx
  · intro a ha
    rw [hfC a (BT.topIdx_mem C a ha)]
    exact hoC a ha
  · refine parB_intro t2 _ x vx cx _ ?_ ?_ ?_ ?_
    · intro a ha
      rw [hfA a (BT.topIdx_mem A a ha)]
      exact hoA a ha
    · exact hpb
    · rw [parB_agree t2 t A hndA (fun a ha _ => hfA a ha)]
      exact hpA
    · rw [parB_agree t2 t B hndB (fun a ha hne => hfB a ha hne)]
      exact hpB
  · rw [parB_agree t2 t C hndC (fun a ha _ => hfC a ha)]
    exact hpC

/-- Back-link coherence after the mirror surgery of a left rotation at an
arbitrary position: given the cell-level parent facts of `left_rotate_spec`,
the rotated arena passes the back-link check on the surgically rotated
mirror. -/
theorem parB_replace_rotL (t2 t : Rb_tree V) (x y : Nat) (A B C : BT V)
    (vx vy : V) (cx cy : Node_color)
    (hpx : (t2.mem x).p = y)
    (hpy : (t2.mem y).p = (t.mem x).p)
    (hpb : ∀ b, B.topIdx = some b → (t2.mem b).p = x) :
    ∀ S : BT V, S.idxs.Nodup → parB t S = true →
      BT.subAt x S = some (.bin A x vx cx (.bin B y vy cy C)) →
      (∀ j ∈ S.idxs, j ≠ x → j ≠ y → B.topIdx ≠ some j →
        (t2.mem j).p = (t.mem j).p) →
      parB t2 (S.replace x BT.rotL) = true := by
  intro S
  induction S with
  | tip => intro _ _ h; simp [BT.subAt] at h
  | bin l j v c r ihl ihr =>
    intro hnd hpar hsub hframe
    by_cases hj : j = x
    · rw [BT.replace, if_pos hj]
      rw [BT.subAt, if_pos hj] at hsub
      have hE := Option.some.inj hsub
      rw [hE] at hnd hpar hframe ⊢
      have hrot : BT.rotL (BT.bin A x vx cx (BT.bin B y vy cy C)) =
          BT.bin (BT.bin A x vx cx B) y vy cy C := rfl
      rw [hrot]
      exact parB_rotL_top t2 t x y A B C vx vy cx cy hpx hpb hnd hpar hframe
    · rw [BT.replace, if_neg hj]
      rw [BT.subAt, if_neg hj] at hsub
      rw [BT.idxs] at hnd
      have hndl := (List.nodup_append.1 hnd).1
      have hndr := (List.nodup_cons.1 (List.nodup_append.1 hnd).2.1).2
      have hjl : j ∉ l.idxs := fun hc =>
        (List.nodup_append.1 hnd).2.2 hc (List.mem_cons_self _ _)
      have hjr : j ∉ r.idxs := (List.nodup_cons.1 (List.nodup_append.1 hnd).2.1).1
      have hdisjLR : ∀ a ∈ l.idxs, a ∉ r.idxs := fun a ha hc =>
        (List.nodup_append.1 hnd).2.2 ha (List.mem_cons_of_mem _ hc)
      obtain ⟨hol, hor, hopl, hopr⟩ := parB_elim t l j v c r hpar
      rcases hsl : BT.subAt x l with _ | S1 <;> rw [hsl] at hsub
      · simp only [Option.orElse] at hsub
        have hxr : x ∈ r.idxs := BT.subAt_mem x r _ hsub
        have hxl : x ∉ l.idxs := by
          intro hc
          have h2 := BT.subAt_isSome_of_mem x l hc
          rw [hsl] at h2
          simp at h2
        have hsubS := BT.subAt_sublist x r _ hsub
        have hyr : y ∈ r.idxs := hsubS.subset (by rw [BT.idxs, BT.idxs]; simp)
        have hbr : ∀ b, B.topIdx = some b → b ∈ r.idxs := by
          intro b hb
          refine hsubS.subset ?_
          have hmB := BT.topIdx_mem B b hb
          rw [BT.idxs, BT.idxs]
          exact List.mem_append_right _ (List.mem_cons_of_mem _
            (List.mem_append_left _ hmB))
        rw [BT.replace_of_not_mem x _ l hxl]
        refine parB_intro t2 l j v c _ ?_ ?_ ?_ ?_
        · intro a ha
          have haml := BT.topIdx_mem l a ha
          have hfr : (t2.mem a).p = (t.mem a).p :=
            hframe a (by rw [BT.idxs]; exact List.mem_append_left _ haml)
              (fun hc => hxl (hc ▸ haml)) (fun hc => hdisjLR a haml (hc ▸ hyr))
              (fun hc => hdisjLR a haml (hbr a hc))
          rw [hfr]
          exact hol a ha
        · intro a ha
          by_cases hrt : r.topIdx = some x
          · have hre := BT.subAt_self x r hrt
            rw [hre] at hsub
            have hEr := Option.some.inj hsub
            rw [hEr] at ha
            have hrepl : (BT.bin A x vx cx (BT.bin B y vy cy C)).replace x BT.rotL =
                BT.bin (BT.bin A x vx cx B) y vy cy C := by
              rw [BT.replace, if_pos rfl]
              rfl
            rw [hrepl, BT.topIdx] at ha
            have hya : y = a := Option.some.inj ha
            rw [← hya, hpy]
            exact hor x hrt
          · rw [BT.replace_topIdx x BT.rotL r hrt] at ha
            have ham := BT.topIdx_mem r a ha
            have hax : a ≠ x := fun hc => hrt (hc ▸ ha)
            have hnotin := BT.subAt_top_notin x r _ hndr hrt hsub a ha
            have hay : a ≠ y := fun hc =>
              hnotin (by rw [hc, BT.idxs, BT.idxs]; simp)
            have hab : B.topIdx ≠ some a := by
              intro hc
              refine hnotin ?_
              have hmB := BT.topIdx_mem B a hc
              rw [BT.idxs, BT.idxs]
              exact List.mem_append_right _ (List.mem_cons_of_mem _
                (List.mem_append_left _ hmB))
            have hmm : a ∈ (BT.bin l j v c r).idxs := by
              rw [BT.idxs]
              exact List.mem_append_right _ (List.mem_cons_of_mem _ ham)
            have hfr : (t2.mem a).p = (t.mem a).p := hframe a hmm hax hay hab
            rw [hfr]
            exact hor a ha
        · rw [parB_agree t2 t l hndl ?_]
          · exact hopl
          · intro a ha _
            exact hframe a (by rw [BT.idxs]; exact List.mem_append_left _ ha)
              (fun hc => hxl (hc ▸ ha)) (fun hc => hdisjLR a ha (hc ▸ hyr))
              (fun hc => hdisjLR a ha (hbr a hc))
        · refine ihr hndr hopr hsub ?_
          intro a ha h1 h2 h3
          have hmm : a ∈ (BT.bin l j v c r).idxs := by
            rw [BT.idxs]
            exact List.mem_append_right _ (List.mem_cons_of_mem _ ha)
          exact hframe a hmm h1 h2 h3
      · simp only [Option.orElse] at hsub
        obtain rfl := Option.some.inj hsub
        have hxl : x ∈ l.idxs := BT.subAt_mem x l _ hsl
        have hsubS := BT.subAt_sublist x l _ hsl
        have hyl : y ∈ l.idxs := hsubS.subset (by rw [BT.idxs, BT.idxs]; simp)
        have hbl : ∀ b, B.topIdx = some b → b ∈ l.idxs := by
          intro b hb
          refine hsubS.subset ?_
          have hmB := BT.topIdx_mem B b hb
          rw [BT.idxs, BT.idxs]
          exact List.mem_append_right _ (List.mem_cons_of_mem _
            (List.mem_append_left _ hmB))
        have hxr : x ∉ r.idxs := hdisjLR x hxl
        rw [BT.replace_of_not_mem x _ r hxr]
        refine parB_intro t2 _ j v c r ?_ ?_ ?_ ?_
        · intro a ha
          by_cases hlt2 : l.topIdx = some x
          · have hre := BT.subAt_self x l hlt2
            rw [hre] at hsl
            have hEl := Option.some.inj hsl
            rw [hEl] at ha
            have hrepl : (BT.bin A x vx cx (BT.bin B y vy cy C)).replace x BT.rotL =
                BT.bin (BT.bin A x vx cx B) y vy cy C := by
              rw [BT.replace, if_pos rfl]
              rfl
            rw [hrepl, BT.topIdx] at ha
            have hya : y = a := Option.some.inj ha
            rw [← hya, hpy]
            exact hol x hlt2
          · rw [BT.replace_topIdx x BT.rotL l hlt2] at ha
            have ham := BT.topIdx_mem l a ha
            have hax : a ≠ x := fun hc => hlt2 (hc ▸ ha)
            have hnotin := BT.subAt_top_notin x l _ hndl hlt2 hsl a ha
            have hay : a ≠ y := fun hc =>
              hnotin (by rw [hc, BT.idxs, BT.idxs]; simp)
            have hab : B.topIdx ≠ some a := by
              intro hc
              refine hnotin ?_
              have hmB := BT.topIdx_mem B a hc
              rw [BT.idxs, BT.idxs]
              exact List.mem_append_right _ (List.mem_cons_of_mem _
                (List.mem_append_left _ hmB))
            have hfr : (t2.mem a).p = (t.mem a).p :=
              hframe a (by rw [BT.idxs]; exact List.mem_append_left _ ham) hax hay hab
            rw [hfr]
            exact hol a ha
        · intro a ha
          have ham := BT.topIdx_mem r a ha
          have hmm : a ∈ (BT.bin l j v c r).idxs := by
            rw [BT.idxs]
            exact List.mem_append_right _ (List.mem_cons_of_mem _ ham)
          have hfr : (t2.mem a).p = (t.mem a).p :=
            hframe a hmm
              (fun hc => hxr (hc ▸ ham)) (fun hc => hdisjLR y hyl (hc ▸ ham))
              (fun hc => hdisjLR a (hbl a hc) ham)
          rw [hfr]
          exact hor a ha
        · refine ihl hndl hopl hsl ?_
          intro a ha h1 h2 h3
          exact hframe a (by rw [BT.idxs]; exact List.mem_append_left _ ha) h1 h2 h3
        · rw [parB_agree t2 t r hndr ?_]
          · exact hopr
          · intro a ha _
            have hmm : a ∈ (BT.bin l j v c r).idxs := by
              rw [BT.idxs]
              exact List.mem_append_right _ (List.mem_cons_of_mem _ ha)
            exact hframe a hmm
              (fun hc => hxr (hc ▸ ha)) (fun hc => hdisjLR y hyl (hc ▸ ha))
              (fun hc => hdisjLR a (hbl a hc) ha)

/-- Back-link coherence of the rotated fragment wholly at the top, right
version: mirror of `parB_rotL_top`. -/
theorem parB_rotR_top (t2 t : Rb_tree V) (x y : Nat) (A B C : BT V)
    (vx vy : V) (cx cy : Node_color)
    (hpx : (t2.mem x).p = y)
    (hpb : ∀ b, B.topIdx = some b → (t2.mem b).p = x)
    (hnd : (BT.bin (BT.bin A y vy cy B) x vx cx C).idxs.Nodup)
    (hpar : parB t (BT.bin (BT.bin A y vy cy B) x vx cx C) = true)
    (hframe : ∀ j ∈ (BT.bin (BT.bin A y vy cy B) x vx cx C).idxs,
      j ≠ x → j ≠ y → B.topIdx ≠ some j → (t2.mem j).p = (t.mem j).p) :
    parB t2 (BT.bin A y vy cy (BT.bin B x vx cx C)) = true := by
  obtain ⟨hoI, hoC, hpI, hpC⟩ := parB_elim t (BT.bin A y vy cy B) x vx cx C hpar
  obtain ⟨hoA, hoB, hpA, hpB⟩ := parB_elim t A y vy cy B hpI
  rw [BT.idxs, BT.idxs] at hnd
  obtain ⟨hnd2, hnd5, hdO⟩ := List.nodup_append.1 hnd
  obtain ⟨hndA, hnd3, hdA⟩ := List.nodup_append.1 hnd2
  obtain ⟨hyB, hndB⟩ := List.nodup_cons.1 hnd3
  obtain ⟨hxC, hndC⟩ := List.nodup_cons.1 hnd5
  have hyA : y ∉ A.idxs := fun hc => hdA hc (List.mem_cons_self _ _)
  have hxA : x ∉ A.idxs := fun hc =>
    hdO (List.mem_append_left _ hc) (List.mem_cons_self _ _)
  have hxB : x ∉ B.idxs := fun hc =>
    hdO (List.mem_append_right _ (List.mem_cons_of_mem _ hc)) (List.mem_cons_self _ _)
  have hyC : y ∉ C.idxs := fun hc =>
    hdO (List.mem_append_right _ (List.mem_cons_self _ _)) (List.mem_cons_of_mem _ hc)
  have hfA : ∀ a ∈ A.idxs, (t2.mem a).p = (t.mem a).p := by
    intro a ha
    refine hframe a ?_ (fun hc => hxA (hc ▸ ha)) (fun hc => hyA (hc ▸ ha)) ?_
    · rw [BT.idxs, BT.idxs]
      exact List.mem_append_left _ (List.mem_append_left _ ha)
    · intro hc
      exact hdA ha (List.mem_cons_of_mem _ (BT.topIdx_mem B a hc))
  have hfB : ∀ a ∈ B.idxs, B.topIdx ≠ some a → (t2.mem a).p = (t.mem a).p := by
    intro a ha hne
    refine hframe a ?_ (fun hc => hxB (hc ▸ ha)) (fun hc => hyB (hc ▸ ha)) hne
    rw [BT.idxs, BT.idxs]
    exact List.mem_append_left _ (List.mem_append_right _ (List.mem_cons_of_mem _ ha))
  have hfC : ∀ a ∈ C.idxs, (t2.mem a).p = (t.mem a).p := by
    intro a ha
    refine hframe a ?_ (fun hc => hxC (hc ▸ ha)) (fun hc => hyC (hc ▸ ha)) ?_
    · rw [BT.idxs, BT.idxs]
      exact List.mem_append_right _ (List.mem_cons_of_mem _ ha)
    · intro hc
      have hmB := BT.topIdx_mem B a hc
      exact hdO (List.mem_append_right _ (List.mem_cons_of_mem _ hmB))
        (List.mem_cons_of_mem _ ha)
  refine parB_intro t2 _ y vy cy _ ?_ ?_ ?_ ?_
  · intro a ha
    rw [hfA a (BT.topIdx_mem A a ha)]
    exact hoA a ha
  · intro a ha
    rw [BT.topIdx] at ha
    obtain rfl : x = a := Option.some.inj ha
    exact hpx
  · rw [parB_agree t2 t A hndA (fun a ha _ => hfA a ha)]
    exact hpA
  · refine parB_intro t2 _ x vx cx _ ?_ ?_ ?_ ?_
    · exact hpb
    · intro a ha
      rw [hfC a (BT.topIdx_mem C a ha)]
      exact hoC a ha
    · rw [parB_agree t2 t B hndB (fun a ha hne => hfB a ha hne)]
      exact hpB
    · rw [parB_agree t2 t C hndC (fun a ha _ => hfC a ha)]
      exact hpC

/-- Back-link coherence after the mirror surgery of a right rotation at an
arbitrary position: mirror of `parB_replace_rotL`. -/
theorem parB_replace_rotR (t2 t : Rb_tree V) (x y : Nat) (A B C : BT V)
    (vx vy : V) (cx cy : Node_color)
    (hpx : (t2.mem x).p = y)
    (hpy : (t2.mem y).p = (t.mem x).p)
    (hpb : ∀ b, B.topIdx = some b → (t2.mem b).p = x) :
    ∀ S : BT V, S.idxs.Nodup → parB t S = true →
      BT.subAt x S = some (.bin (.bin A y vy cy B) x vx cx C) →
      (∀ j ∈ S.idxs, j ≠ x → j ≠ y → B.topIdx ≠ some j →
        (t2.mem j).p = (t.mem j).p) →
      parB t2 (S.replace x BT.rotR) = true := by
  intro S
  induction S with
  | tip => intro _ _ h; simp [BT.subAt] at h
  | bin l j v c r ihl ihr =>
    intro hnd hpar hsub hframe
    by_cases hj : j = x
    · rw [BT.replace, if_pos hj]
      rw [BT.subAt, if_pos hj] at hsub
      have hE := Option.some.inj hsub
      rw [hE] at hnd hpar hframe ⊢
      have hrot : BT.rotR (BT.bin (BT.bin A y vy cy B) x vx cx C) =
          BT.bin A y vy cy (BT.bin B x vx cx C) := rfl
      rw [hrot]
      exact parB_rotR_top t2 t x y A B C vx vy cx cy hpx hpb hnd hpar hframe
    · rw [BT.replace, if_neg hj]
      rw [BT.subAt, if_neg hj] at hsub
      rw [BT.idxs] at hnd
      have hndl := (List.nodup_append.1 hnd).1
      have hndr := (List.nodup_cons.1 (List.nodup_append.1 hnd).2.1).2
      have hjl : j ∉ l.idxs := fun hc =>
        (List.nodup_append.1 hnd).2.2 hc (List.mem_cons_self _ _)
      have hjr : j ∉ r.idxs := (List.nodup_cons.1 (List.nodup_append.1 hnd).2.1).1
      have hdisjLR : ∀ a ∈ l.idxs, a ∉ r.idxs := fun a ha hc =>
        (List.nodup_append.1 hnd).2.2 ha (List.mem_cons_of_mem _ hc)
      obtain ⟨hol, hor, hopl, hopr⟩ := parB_elim t l j v c r hpar
      rcases hsl : BT.subAt x l with _ | S1 <;> rw [hsl] at hsub
      · simp only [Option.orElse] at hsub
        have hxr : x ∈ r.idxs := BT.subAt_mem x r _ hsub
        have hxl : x ∉ l.idxs := by
          intro hc
          have h2 := BT.subAt_isSome_of_mem x l hc
          rw [hsl] at h2
          simp at h2
        have hsubS := BT.subAt_sublist x r _ hsub
        have hyr : y ∈ r.idxs := hsubS.subset (by rw [BT.idxs, BT.idxs]; simp)
        have hbr : ∀ b, B.topIdx = some b → b ∈ r.idxs := by
          intro b hb
          refine hsubS.subset ?_
          have hmB := BT.topIdx_mem B b hb
          rw [BT.idxs, BT.idxs]
          exact List.mem_append_left _ (List.mem_append_right _
            (List.mem_cons_of_mem _ hmB))
        rw [BT.replace_of_not_mem x _ l hxl]
        refine parB_intro t2 l j v c _ ?_ ?_ ?_ ?_
        · intro a ha
          have haml := BT.topIdx_mem l a ha
          have hfr : (t2.mem a).p = (t.mem a).p :=
            hframe a (by rw [BT.idxs]; exact List.mem_append_left _ haml)
              (fun hc => hxl (hc ▸ haml)) (fun hc => hdisjLR a haml (hc ▸ hyr))
              (fun hc => hdisjLR a haml (hbr a hc))
          rw [hfr]
          exact hol a ha
        · intro a ha
          by_cases hrt : r.topIdx = some x
          · have hre := BT.subAt_self x r hrt
            rw [hre] at hsub
            have hEr := Option.some.inj hsub
            rw [hEr] at ha
            have hrepl : (BT.bin (BT.bin A y vy cy B) x vx cx C).replace x BT.rotR =
                BT.bin A y vy cy (BT.bin B x vx cx C) := by
              rw [BT.replace, if_pos rfl]
              rfl
            rw [hrepl, BT.topIdx] at ha
            have hya : y = a := Option.some.inj ha
            rw [← hya, hpy]
            exact hor x hrt
          · rw [BT.replace_topIdx x BT.rotR r hrt] at ha
            have ham := BT.topIdx_mem r a ha
            have hax : a ≠ x := fun hc => hrt (hc ▸ ha)
            have hnotin := BT.subAt_top_notin x r _ hndr hrt hsub a ha
            have hay : a ≠ y := fun hc =>
              hnotin (by rw [hc, BT.idxs, BT.idxs]; simp)
            have hab : B.topIdx ≠ some a := by
              intro hc
              refine hnotin ?_
              have hmB := BT.topIdx_mem B a hc
              rw [BT.idxs, BT.idxs]
              exact List.mem_append_left _ (List.mem_append_right _
                (List.mem_cons_of_mem _ hmB))
            have hmm : a ∈ (BT.bin l j v c r).idxs := by
              rw [BT.idxs]
              exact List.mem_append_right _ (List.mem_cons_of_mem _ ham)
            have hfr : (t2.mem a).p = (t.mem a).p := hframe a hmm hax hay hab
            rw [hfr]
            exact hor a ha
        · rw [parB_agree t2 t l hndl ?_]
          · exact hopl
          · intro a ha _
            exact hframe a (by rw [BT.idxs]; exact List.mem_append_left _ ha)
              (fun hc => hxl (hc ▸ ha)) (fun hc => hdisjLR a ha (hc ▸ hyr))
              (fun hc => hdisjLR a ha (hbr a hc))
        · refine ihr hndr hopr hsub ?_
          intro a ha h1 h2 h3
          have hmm : a ∈ (BT.bin l j v c r).idxs := by
            rw [BT.idxs]
            exact List.mem_append_right _ (List.mem_cons_of_mem _ ha)
          exact hframe a hmm h1 h2 h3
      · simp only [Option.orElse] at hsub
        obtain rfl := Option.some.inj hsub
        have hxl : x ∈ l.idxs := BT.subAt_mem x l _ hsl
        have hsubS := BT.subAt_sublist x l _ hsl
        have hyl : y ∈ l.idxs := hsubS.subset (by rw [BT.idxs, BT.idxs]; simp)
        have hbl : ∀ b, B.topIdx = some b → b ∈ l.idxs := by
          intro b hb
          refine hsubS.subset ?_
          have hmB := BT.topIdx_mem B b hb
          rw [BT.idxs, BT.idxs]
          exact List.mem_append_left _ (List.mem_append_right _
            (List.mem_cons_of_mem _ hmB))
        have hxr : x ∉ r.idxs := hdisjLR x hxl
        rw [BT.replace_of_not_mem x _ r hxr]
        refine parB_intro t2 _ j v c r ?_ ?_ ?_ ?_
        · intro a ha
          by_cases hlt2 : l.topIdx = some x
          · have hre := BT.subAt_self x l hlt2
            rw [hre] at hsl
            have hEl := Option.some.inj hsl
            rw [hEl] at ha
            have hrepl : (BT.bin (BT.bin A y vy cy B) x vx cx C).replace x BT.rotR =
                BT.bin A y vy cy (BT.bin B x vx cx C) := by
              rw [BT.replace, if_pos rfl]
              rfl
            rw [hrepl, BT.topIdx] at ha
            have hya : y = a := Option.some.inj ha
            rw [← hya, hpy]
            exact hol x hlt2
          · rw [BT.replace_topIdx x BT.rotR l hlt2] at ha
            have ham := BT.topIdx_mem l a ha
            have hax : a ≠ x := fun hc => hlt2 (hc ▸ ha)
            have hnotin := BT.subAt_top_notin x l _ hndl hlt2 hsl a ha
            have hay : a ≠ y := fun hc =>
              hnotin (by rw [hc, BT.idxs, BT.idxs]; simp)
            have hab : B.topIdx ≠ some a := by
              intro hc
              refine hnotin ?_
              have hmB := BT.topIdx_mem B a hc
              rw [BT.idxs, BT.idxs]
              exact List.mem_append_left _ (List.mem_append_right _
                (List.mem_cons_of_mem _ hmB))
            have hfr : (t2.mem a).p = (t.mem a).p :=
              hframe a (by rw [BT.idxs]; exact List.mem_append_left _ ham) hax hay hab
            rw [hfr]
            exact hol a ha
        · intro a ha
          have ham := BT.topIdx_mem r a ha
          have hmm : a ∈ (BT.bin l j v c r).idxs := by
            rw [BT.idxs]
            exact List.mem_append_right _ (List.mem_cons_of_mem _ ham)
          have hfr : (t2.mem a).p = (t.mem a).p :=
            hframe a hmm
              (fun hc => hxr (hc ▸ ham)) (fun hc => hdisjLR y hyl (hc ▸ ham))
              (fun hc => hdisjLR a (hbl a hc) ham)
          rw [hfr]
          exact hor a ha
        · refine ihl hndl hopl hsl ?_
          intro a ha h1 h2 h3
          exact hframe a (by rw [BT.idxs]; exact List.mem_append_left _ ha) h1 h2 h3
        · rw [parB_agree t2 t r hndr ?_]
          · exact hopr
          · intro a ha _
            have hmm : a ∈ (BT.bin l j v c r).idxs := by
              rw [BT.idxs]
              exact List.mem_append_right _ (List.mem_cons_of_mem _ ha)
            exact hframe a hmm
              (fun hc => hxr (hc ▸ ha)) (fun hc => hdisjLR y hyl (hc ▸ ha))
              (fun hc => hdisjLR a (hbl a hc) ha)

/-- Frame of `left_rotate` when `x` is the root (parent is the sentinel): the
rotation touches the `left`/`right` links of `x` and of its right child
only. -/
theorem left_rotate_root_frame (t : Rb_tree V) (x y b : Nat)
    (hy : y = (t.mem x).right) (hb : b = (t.mem y).left)
    (hq : (t.mem x).p = t.nil) (hxy : x ≠ y) (hxb : x ≠ b) :
    ∀ j, j ≠ x → j ≠ y →
      ((left_rotate t x).mem j).left = (t.mem j).left ∧
      ((left_rotate t x).mem j).right = (t.mem j).right := by
  intro j hjx hjy
  have e : left_rotate t x =
      (let child := (t.mem x).right
       let t1 := setRight t x ((t.mem child).left)
       let t2 := if (t1.mem child).left ≠ t1.nil then setP t1 ((t1.mem child).left) x else t1
       let t3 := setP t2 child ((t2.mem x).p)
       let t4 :=
         if (t3.mem x).p = t3.nil then { t3 with root := child }
         else if x = (t3.mem ((t3.mem x).p)).left then setLeft t3 ((t3.mem x).p) child
         else setRight t3 ((t3.mem x).p) child
       let t5 := setLeft t4 child x
       setP t5 x child) := rfl
  lift_lets at e
  extract_lets child t1 t2 t3 t4 t5 at e
  have hchild : child = y := hy.symm
  have hxc : x ≠ child := by rw [hchild]; exact hxy
  have ht1 : t1 = setRight t x ((t.mem child).left) := rfl
  have hm1 : ∀ k, (t1.mem k).left = (t.mem k).left ∧ (t1.mem k).p = (t.mem k).p := by
    intro k
    rw [ht1, setRight_left, setRight_p]
    exact ⟨rfl, rfl⟩
  have hm1r : ∀ k, k ≠ x → (t1.mem k).right = (t.mem k).right := by
    intro k hk
    rw [ht1, setRight_right, if_neg hk]
  have hbtg : (t1.mem child).left = b := by
    rw [(hm1 child).1, hchild, ← hb]
  have hnil1 : t1.nil = t.nil := by rw [ht1]; exact (setRight_fields t x _).1
  have ht2 : t2 =
      (if (t1.mem child).left ≠ t1.nil then setP t1 ((t1.mem child).left) x else t1) := rfl
  have hm2lr : ∀ k, (t2.mem k).left = (t1.mem k).left ∧
      (t2.mem k).right = (t1.mem k).right := by
    intro k
    rw [ht2]
    split_ifs with hc
    · rw [setP_left, setP_right]
      exact ⟨rfl, rfl⟩
    · exact ⟨rfl, rfl⟩
  have hm2px : (t2.mem x).p = (t1.mem x).p := by
    rw [ht2]
    split_ifs with hc
    · rw [setP_p, if_neg (by rw [hbtg]; exact hxb)]
    · rfl
  have hnil2 : t2.nil = t.nil := by
    rw [ht2]
    split_ifs with hc
    · rw [(setP_fields t1 _ x).1, hnil1]
    · exact hnil1
  have ht3 : t3 = setP t2 child ((t2.mem x).p) := rfl
  have hm3lr : ∀ k, (t3.mem k).left = (t2.mem k).left ∧
      (t3.mem k).right = (t2.mem k).right := by
    intro k
    rw [ht3, setP_left, setP_right]
    exact ⟨rfl, rfl⟩
  have hm3px : (t3.mem x).p = (t2.mem x).p := by
    rw [ht3, setP_p, if_neg hxc]
  have hnil3 : t3.nil = t.nil := by
    rw [ht3, (setP_fields t2 child _).1, hnil2]
  have hcond : (t3.mem x).p = t3.nil := by
    rw [hm3px, hm2px, (hm1 x).2, hq, hnil3]
  have ht4 : t4 = { t3 with root := child } := by
    show (if (t3.mem x).p = t3.nil then { t3 with root := child }
      else if x = (t3.mem ((t3.mem x).p)).left then setLeft t3 ((t3.mem x).p) child
      else setRight t3 ((t3.mem x).p) child) = _
    rw [if_pos hcond]
  have hm4 : ∀ k, ({ t3 with root := child } : Rb_tree V).mem k = t3.mem k :=
    fun _ => rfl
  have ht5 : t5 = setLeft t4 child x := rfl
  have hjc : j ≠ child := by rw [hchild]; exact hjy
  rw [e]
  constructor
  · rw [setP_left, ht5, setLeft_left, if_neg hjc, ht4, hm4, (hm3lr j).1, (hm2lr j).1,
      (hm1 j).1]
  · rw [setP_right, ht5, setLeft_right, ht4, hm4, (hm3lr j).2, (hm2lr j).2, hm1r j hjx]

/-- Frame of `right_rotate` when `x` is the root: mirror of
`left_rotate_root_frame`. -/
theorem right_rotate_root_frame (t : Rb_tree V) (x y b : Nat)
    (hy : y = (t.mem x).left) (hb : b = (t.mem y).right)
    (hq : (t.mem x).p = t.nil) (hxy : x ≠ y) (hxb : x ≠ b) :
    ∀ j, j ≠ x → j ≠ y →
      ((right_rotate t x).mem j).left = (t.mem j).left ∧
      ((right_rotate t x).mem j).right = (t.mem j).right := by
  intro j hjx hjy
  have e : right_rotate t x =
      (let child := (t.mem x).left
       let t1 := setLeft t x ((t.mem child).right)
       let t2 := if (t1.mem child).right ≠ t1.nil then setP t1 ((t1.mem child).right) x else t1
       let t3 := setP t2 child ((t2.mem x).p)
       let t4 :=
         if (t3.mem x).p = t3.nil then { t3 with root := child }
         else if x = (t3.mem ((t3.mem x).p)).right then setRight t3 ((t3.mem x).p) child
         else setLeft t3 ((t3.mem x).p) child
       let t5 := setRight t4 child x
       setP t5 x child) := rfl
  lift_lets at e
  extract_lets child t1 t2 t3 t4 t5 at e
  have hchild : child = y := hy.symm
  have hxc : x ≠ child := by rw [hchild]; exact hxy
  have ht1 : t1 = setLeft t x ((t.mem child).right) := rfl
  have hm1 : ∀ k, (t1.mem k).right = (t.mem k).right ∧ (t1.mem k).p = (t.mem k).p := by
    intro k
    rw [ht1, setLeft_right, setLeft_p]
    exact ⟨rfl, rfl⟩
  have hm1l : ∀ k, k ≠ x → (t1.mem k).left = (t.mem k).left := by
    intro k hk
    rw [ht1, setLeft_left, if_neg hk]
  have hbtg : (t1.mem child).right = b := by
    rw [(hm1 child).1, hchild, ← hb]
  have hnil1 : t1.nil = t.nil := by rw [ht1]; exact (setLeft_fields t x _).1
  have ht2 : t2 =
      (if (t1.mem child).right ≠ t1.nil then setP t1 ((t1.mem child).right) x else t1) := rfl
  have hm2lr : ∀ k, (t2.mem k).left = (t1.mem k).left ∧
      (t2.mem k).right = (t1.mem k).right := by
    intro k
    rw [ht2]
    split_ifs with hc
    · rw [setP_left, setP_right]
      exact ⟨rfl, rfl⟩
    · exact ⟨rfl, rfl⟩
  have hm2px : (t2.mem x).p = (t1.mem x).p := by
    rw [ht2]
    split_ifs with hc
    · rw [setP_p, if_neg (by rw [hbtg]; exact hxb)]
    · rfl
  have hnil2 : t2.nil = t.nil := by
    rw [ht2]
    split_ifs with hc
    · rw [(setP_fields t1 _ x).1, hnil1]
    · exact hnil1
  have ht3 : t3 = setP t2 child ((t2.mem x).p) := rfl
  have hm3lr : ∀ k, (t3.mem k).left = (t2.mem k).left ∧
      (t3.mem k).right = (t2.mem k).right := by
    intro k
    rw [ht3, setP_left, setP_right]
    exact ⟨rfl, rfl⟩
  have hm3px : (t3.mem x).p = (t2.mem x).p := by
    rw [ht3, setP_p, if_neg hxc]
  have hnil3 : t3.nil = t.nil := by
    rw [ht3, (setP_fields t2 child _).1, hnil2]
  have hcond : (t3.mem x).p = t3.nil := by
    rw [hm3px, hm2px, (hm1 x).2, hq, hnil3]
  have ht4 : t4 = { t3 with root := child } := by
    show (if (t3.mem x).p = t3.nil then { t3 with root := child }
      else if x = (t3.mem ((t3.mem x).p)).right then setRight t3 ((t3.mem x).p) child
      else setLeft t3 ((t3.mem x).p) child) = _
    rw [if_pos hcond]
  have hm4 : ∀ k, ({ t3 with root := child } : Rb_tree V).mem k = t3.mem k :=
    fun _ => rfl
  have ht5 : t5 = setRight t4 child x := rfl
  have hjc : j ≠ child := by rw [hchild]; exact hjy
  rw [e]
  constructor
  · rw [setP_left, ht5, setRight_left, ht4, hm4, (hm3lr j).1, (hm2lr j).1, hm1l j hjx]
  · rw [setP_right, ht5, setRight_right, if_neg hjc, ht4, hm4, (hm3lr j).2, (hm2lr j).2,
      (hm1 j).1]

/-- The allocation-bounds check only reads the allocation counter. -/
theorem cellsB_congr (t2 t : Rb_tree V) (hnext : t2.next = t.next) (S : BT V) :
    cellsB t2 S = cellsB t S := by
  rw [cellsB, cellsB, hnext]

/-- The back-link check ignores the mirror's colours. -/
theorem parB_recolor (t : Rb_tree V) (a : Nat) (c : Node_color) :
    ∀ S : BT V, parB t (BT.recolor a c S) = parB t S := by
  intro S
  induction S with
  | tip => rfl
  | bin l j v cc r ihl ihr =>
    rw [BT.recolor, parB, parB, ihl, ihr, BT.recolor_topIdx, BT.recolor_topIdx]

/-- A colour write away from the sentinel preserves the simulation pack, with
the mirror recoloured. -/
theorem Sim_setColor (t : Rb_tree V) (G : BT V) (f : Nat) (h : Sim t G f)
    (a : Nat) (c : Node_color) (ha : a ≠ t.nil) :
    Sim (setColor t a c) (BT.recolor a c G) f := by
  obtain ⟨hs1, hs2, hs3, hs4, hs5⟩ := h.sent
  refine ⟨⟨hs1, hs2, ?_, ?_, ?_⟩, ?_, ?_, ?_, ?_, ?_⟩
  · show ((setColor t a c).mem t.nil).color = .Black
    rw [setColor_color, if_neg (fun hc => ha hc.symm)]
    exact hs3
  · show ((setColor t a c).mem t.nil).left = t.nil
    rw [setColor_left]
    exact hs4
  · show ((setColor t a c).mem t.nil).right = t.nil
    rw [setColor_right]
    exact hs5
  · show ((setColor t a c).mem t.root).p = t.nil
    rw [setColor_p]
    exact h.rootp
  · show toTree (setColor t a c) t.root f = some (BT.recolor a c G)
    rw [setColor_toTree, h.tt]
    rfl
  · show cellsB t (BT.recolor a c G) = true
    have hc := h.cells
    rw [cellsB] at hc
    rw [cellsB, BT.recolor_idxs]
    exact hc
  · show parB (setColor t a c) (BT.recolor a c G) = true
    rw [parB_recolor, parB_congr (setColor t a c) t (fun j => setColor_p t a c j)]
    exact h.par
  · show (BT.recolor a c G).idxs.Nodup
    rw [BT.recolor_idxs]
    exact h.nodup

/-- A left rotation at a node with a real right child preserves the
simulation pack, acting on the mirror as the surgery `rotL` at that node. -/
theorem Sim_left_rotate (t : Rb_tree V) (G : BT V) (f : Nat) (h : Sim t G f)
    (x : Nat) (hx : x ∈ G.idxs) (hyne : (t.mem x).right ≠ t.nil) :
    Sim (left_rotate t x) (G.replace x BT.rotL) (f + 1) := by
  obtain ⟨hs1, hs2, hs3, hs4, hs5⟩ := h.sent
  have hok : subtree_ok t t.root f = true :=
    subtree_ok_reconstruct t f t.root G h.tt h.cells h.par
  have hnilG : ∀ j ∈ G.idxs, j ≠ t.nil := toTree_idx_ne_nil t f t.root G h.tt
  have hxnil : x ≠ t.nil := hnilG x hx
  have hqa : (t.mem x).p ∈ G.idxs → x ≠ t.root := by
    intro hp hc
    rw [hc, h.rootp] at hp
    exact hnilG t.nil hp rfl
  obtain ⟨hyS, hxy, hxb, hqx, hqy, hby⟩ :=
    rot_ctx_left t f t.root G hok h.tt h.nodup x hx hyne hqa
  obtain ⟨hnil, hnext, hcount, hroot, hvc, hxl2, hxr2, hxp2, hyl2, hyr2, hyp2, hqcell,
      hframe, hbp, hpframe⟩ :=
    left_rotate_spec t x ((t.mem x).right) ((t.mem ((t.mem x).right)).left) ((t.mem x).p)
      rfl rfl rfl hxy hxb hqx hqy
  have hsim := left_rotate_sim t x hyne f t.root G hok h.tt h.nodup hx hqa
  have hq_iff : (t.mem x).p = t.nil ↔ x = t.root := by
    constructor
    · intro hc
      by_contra hne
      have hp := par_mem t f t.root G hok h.tt x hx hne
      rw [hc] at hp
      exact hnilG t.nil hp rfl
    · intro hc
      rw [hc]
      exact h.rootp
  have hrooteq : (left_rotate t x).root = (if x = t.root then (t.mem x).right else t.root) := by
    rw [hroot]
    by_cases hc : x = t.root
    · rw [if_pos (hq_iff.2 hc), if_pos hc]
    · rw [if_neg (fun h2 => hc (hq_iff.1 h2)), if_neg hc]
  -- shape of the subtree at x
  obtain ⟨Sx, hSx, g, hg, hTx⟩ := toTree_subAt t f t.root G h.tt x hx
  have hSxne : Sx ≠ .tip := fun hc => hxnil ((toTree_tip_iff t x g Sx hTx).1 hc)
  obtain ⟨_, A, R, vx, cx, g2, rfl, hg2, hvx, hcx, hA, hR⟩ :=
    toTree_mem_elim t x g Sx hTx hSxne
  have hRne : R ≠ .tip := fun hc => hyne ((toTree_tip_iff t _ g2 R hR).1 hc)
  obtain ⟨_, B, C, vy, cy, g3, rfl, hg3, hvy, hcy, hB, hC⟩ :=
    toTree_mem_elim t ((t.mem x).right) g2 R hR hRne
  have hBtop : ∀ b0, B.topIdx = some b0 → b0 = (t.mem ((t.mem x).right)).left := by
    intro b0 hb0
    by_cases hbn : (t.mem ((t.mem x).right)).left = t.nil
    · obtain rfl : B = .tip := (toTree_tip_iff t _ g3 B hB).2 hbn
      exact absurd hb0 (by simp [BT.topIdx])
    · have := (toTree_topIdx t _ g3 B hB).2 hbn
      rw [hb0] at this
      exact Option.some.inj this
  have hpbB : ∀ b0, B.topIdx = some b0 → ((left_rotate t x).mem b0).p = x := by
    intro b0 hb0
    have hb0e := hBtop b0 hb0
    have hb0nil : b0 ≠ t.nil :=
      toTree_idx_ne_nil t g3 _ B hB b0 (BT.topIdx_mem B b0 hb0)
    rw [hb0e]
    exact hbp (by rw [← hb0e]; exact hb0nil) hby
  have hframeP : ∀ j ∈ G.idxs, j ≠ x → j ≠ (t.mem x).right → B.topIdx ≠ some j →
      ((left_rotate t x).mem j).p = (t.mem j).p := by
    intro j hj h1 h2 h3
    refine hpframe j h1 h2 ?_
    by_cases hbn : (t.mem ((t.mem x).right)).left = t.nil
    · rw [hbn]
      exact hnilG j hj
    · intro hc
      have := (toTree_topIdx t _ g3 B hB).2 hbn
      rw [← hc] at this
      exact h3 this
  -- y and b are strictly below the root when x is not the root
  have hyin : (t.mem x).right ∈
      (BT.bin A x vx cx (BT.bin B ((t.mem x).right) vy cy C)).idxs := by
    rw [BT.idxs, BT.idxs]
    simp
  have hbin : ∀ b0, B.topIdx = some b0 →
      b0 ∈ (BT.bin A x vx cx (BT.bin B ((t.mem x).right) vy cy C)).idxs := by
    intro b0 hb0
    have := BT.topIdx_mem B b0 hb0
    rw [BT.idxs, BT.idxs]
    exact List.mem_append_right _ (List.mem_cons_of_mem _ (List.mem_append_left _ this))
  have hGne : G ≠ .tip := by
    rintro rfl
    simp [BT.idxs] at hx
  have hrnnil : t.root ≠ t.nil := fun hc => hGne ((toTree_tip_iff t _ f G h.tt).2 hc)
  have hGtop : G.topIdx = some t.root := (toTree_topIdx t _ f G h.tt).2 hrnnil
  -- the sentinel's structural links are untouched
  have hnillr : ((left_rotate t x).mem t.nil).left = t.nil ∧
      ((left_rotate t x).mem t.nil).right = t.nil := by
    by_cases hqn : (t.mem x).p = t.nil
    · obtain ⟨hfl, hfr⟩ := left_rotate_root_frame t x ((t.mem x).right)
        ((t.mem ((t.mem x).right)).left) rfl rfl hqn hxy hxb t.nil
        (Ne.symm hxnil) (Ne.symm hyne)
      rw [hfl, hfr]
      exact ⟨hs4, hs5⟩
    · obtain ⟨hfl, hfr⟩ := hframe t.nil (Ne.symm hxnil) (Ne.symm hyne)
        (fun hc => hqn hc.symm)
      rw [hfl, hfr]
      exact ⟨hs4, hs5⟩
  refine ⟨⟨?_, ?_, ?_, ?_, ?_⟩, ?_, ?_, ?_, ?_, ?_⟩
  · rw [hnil]
    exact hs1
  · rw [hnil, hnext]
    exact hs2
  · rw [hnil, (hvc t.nil).2]
    exact hs3
  · rw [hnil]
    exact hnillr.1
  · rw [hnil]
    exact hnillr.2
  · -- root parent link
    rw [hnil, hrooteq]
    by_cases hc : x = t.root
    · rw [if_pos hc, hyp2]
      exact hq_iff.2 hc
    · rw [if_neg hc]
      have hts : G.topIdx ≠ some x := by
        rw [hGtop]
        exact fun h2 => hc (Option.some.inj h2).symm
      have hnotin := BT.subAt_top_notin x G _ h.nodup hts hSx t.root hGtop
      have hry : t.root ≠ (t.mem x).right := fun h2 => hnotin (h2 ▸ hyin)
      have hrx : t.root ≠ x := Ne.symm hc
      have hfr := hframeP t.root (BT.topIdx_mem G t.root hGtop) hrx hry
        (fun h2 => hnotin (hbin t.root h2))
      rw [hfr]
      exact h.rootp
  · rw [hrooteq]
    exact hsim
  · rw [cellsB_congr (left_rotate t x) t hnext,
      cellsB, BT.replace_idxs x BT.rotL BT.rotL_idxs]
    have hc := h.cells
    rw [cellsB] at hc
    exact hc
  · exact parB_replace_rotL (left_rotate t x) t x ((t.mem x).right) A B C vx vy cx cy
      hxp2 hyp2 hpbB G h.nodup h.par hSx hframeP
  · rw [BT.replace_idxs x BT.rotL BT.rotL_idxs]
    exact h.nodup

/-- A right rotation at a node with a real left child preserves the
simulation pack, acting on the mirror as the surgery `rotR` at that node. -/
theorem Sim_right_rotate (t : Rb_tree V) (G : BT V) (f : Nat) (h : Sim t G f)
    (x : Nat) (hx : x ∈ G.idxs) (hyne : (t.mem x).left ≠ t.nil) :
    Sim (right_rotate t x) (G.replace x BT.rotR) (f + 1) := by
  obtain ⟨hs1, hs2, hs3, hs4, hs5⟩ := h.sent
  have hok : subtree_ok t t.root f = true :=
    subtree_ok_reconstruct t f t.root G h.tt h.cells h.par
  have hnilG : ∀ j ∈ G.idxs, j ≠ t.nil := toTree_idx_ne_nil t f t.root G h.tt
  have hxnil : x ≠ t.nil := hnilG x hx
  have hqa : (t.mem x).p ∈ G.idxs → x ≠ t.root := by
    intro hp hc
    rw [hc, h.rootp] at hp
    exact hnilG t.nil hp rfl
  obtain ⟨hyS, hxy, hxb, hqx, hqy, hby⟩ :=
    rot_ctx_right t f t.root G hok h.tt h.nodup x hx hyne hqa
  obtain ⟨hnil, hnext, hcount, hroot, hvc, hxr2, hxl2, hxp2, hyr2, hyl2, hyp2, hqcell,
      hframe, hbp, hpframe⟩ :=
    right_rotate_spec t x ((t.mem x).left) ((t.mem ((t.mem x).left)).right) ((t.mem x).p)
      rfl rfl rfl hxy hxb hqx hqy
  have hsim := right_rotate_sim t x hyne f t.root G hok h.tt h.nodup hx hqa
  have hq_iff : (t.mem x).p = t.nil ↔ x = t.root := by
    constructor
    · intro hc
      by_contra hne
      have hp := par_mem t f t.root G hok h.tt x hx hne
      rw [hc] at hp
      exact hnilG t.nil hp rfl
    · intro hc
      rw [hc]
      exact h.rootp
  have hrooteq : (right_rotate t x).root = (if x = t.root then (t.mem x).left else t.root) := by
    rw [hroot]
    by_cases hc : x = t.root
    · rw [if_pos (hq_iff.2 hc), if_pos hc]
    · rw [if_neg (fun h2 => hc (hq_iff.1 h2)), if_neg hc]
  obtain ⟨Sx, hSx, g, hg, hTx⟩ := toTree_subAt t f t.root G h.tt x hx
  have hSxne : Sx ≠ .tip := fun hc => hxnil ((toTree_tip_iff t x g Sx hTx).1 hc)
  obtain ⟨_, Y2, C, vx, cx, g2, rfl, hg2, hvx, hcx, hY2, hC⟩ :=
    toTree_mem_elim t x g Sx hTx hSxne
  have hY2ne : Y2 ≠ .tip := fun hc => hyne ((toTree_tip_iff t _ g2 Y2 hY2).1 hc)
  obtain ⟨_, A, B, vy, cy, g3, rfl, hg3, hvy, hcy, hA, hB⟩ :=
    toTree_mem_elim t ((t.mem x).left) g2 Y2 hY2 hY2ne
  have hBtop : ∀ b0, B.topIdx = some b0 → b0 = (t.mem ((t.mem x).left)).right := by
    intro b0 hb0
    by_cases hbn : (t.mem ((t.mem x).left)).right = t.nil
    · obtain rfl : B = .tip := (toTree_tip_iff t _ g3 B hB).2 hbn
      exact absurd hb0 (by simp [BT.topIdx])
    · have := (toTree_topIdx t _ g3 B hB).2 hbn
      rw [hb0] at this
      exact Option.some.inj this
  have hpbB : ∀ b0, B.topIdx = some b0 → ((right_rotate t x).mem b0).p = x := by
    intro b0 hb0
    have hb0e := hBtop b0 hb0
    have hb0nil : b0 ≠ t.nil :=
      toTree_idx_ne_nil t g3 _ B hB b0 (BT.topIdx_mem B b0 hb0)
    rw [hb0e]
    exact hbp (by rw [← hb0e]; exact hb0nil) hby
  have hframeP : ∀ j ∈ G.idxs, j ≠ x → j ≠ (t.mem x).left → B.topIdx ≠ some j →
      ((right_rotate t x).mem j).p = (t.mem j).p := by
    intro j hj h1 h2 h3
    refine hpframe j h1 h2 ?_
    by_cases hbn : (t.mem ((t.mem x).left)).right = t.nil
    · rw [hbn]
      exact hnilG j hj
    · intro hc
      have := (toTree_topIdx t _ g3 B hB).2 hbn
      rw [← hc] at this
      exact h3 this
  have hyin : (t.mem x).left ∈
      (BT.bin (BT.bin A ((t.mem x).left) vy cy B) x vx cx C).idxs := by
    rw [BT.idxs, BT.idxs]
    simp
  have hbin : ∀ b0, B.topIdx = some b0 →
      b0 ∈ (BT.bin (BT.bin A ((t.mem x).left) vy cy B) x vx cx C).idxs := by
    intro b0 hb0
    have := BT.topIdx_mem B b0 hb0
    rw [BT.idxs, BT.idxs]
    exact List.mem_append_left _ (List.mem_append_right _ (List.mem_cons_of_mem _ this))
  have hGne : G ≠ .tip := by
    rintro rfl
    simp [BT.idxs] at hx
  have hrnnil : t.root ≠ t.nil := fun hc => hGne ((toTree_tip_iff t _ f G h.tt).2 hc)
  have hGtop : G.topIdx = some t.root := (toTree_topIdx t _ f G h.tt).2 hrnnil
  have hnillr : ((right_rotate t x).mem t.nil).left = t.nil ∧
      ((right_rotate t x).mem t.nil).right = t.nil := by
    by_cases hqn : (t.mem x).p = t.nil
    · obtain ⟨hfl, hfr⟩ := right_rotate_root_frame t x ((t.mem x).left)
        ((t.mem ((t.mem x).left)).right) rfl rfl hqn hxy hxb t.nil
        (Ne.symm hxnil) (Ne.symm hyne)
      rw [hfl, hfr]
      exact ⟨hs4, hs5⟩
    · obtain ⟨hfr, hfl⟩ := hframe t.nil (Ne.symm hxnil) (Ne.symm hyne)
        (fun hc => hqn hc.symm)
      rw [hfl, hfr]
      exact ⟨hs4, hs5⟩
  refine ⟨⟨?_, ?_, ?_, ?_, ?_⟩, ?_, ?_, ?_, ?_, ?_⟩
  · rw [hnil]
    exact hs1
  · rw [hnil, hnext]
    exact hs2
  · rw [hnil, (hvc t.nil).2]
    exact hs3
  · rw [hnil]
    exact hnillr.1
  · rw [hnil]
    exact hnillr.2
  · rw [hnil, hrooteq]
    by_cases hc : x = t.root
    · rw [if_pos hc, hyp2]
      exact hq_iff.2 hc
    · rw [if_neg hc]
      have hts : G.topIdx ≠ some x := by
        rw [hGtop]
        exact fun h2 => hc (Option.some.inj h2).symm
      have hnotin := BT.subAt_top_notin x G _ h.nodup hts hSx t.root hGtop
      have hry : t.root ≠ (t.mem x).left := fun h2 => hnotin (h2 ▸ hyin)
      have hrx : t.root ≠ x := Ne.symm hc
      have hfr := hframeP t.root (BT.topIdx_mem G t.root hGtop) hrx hry
        (fun h2 => hnotin (hbin t.root h2))
      rw [hfr]
      exact h.rootp
  · rw [hrooteq]
    exact hsim
  · rw [cellsB_congr (right_rotate t x) t hnext,
      cellsB, BT.replace_idxs x BT.rotR BT.rotR_idxs]
    have hc := h.cells
    rw [cellsB] at hc
    exact hc
  · exact parB_replace_rotR (right_rotate t x) t x ((t.mem x).left) A B C vx vy cx cy
      hxp2 hyp2 hpbB G h.nodup h.par hSx hframeP
  · rw [BT.replace_idxs x BT.rotR BT.rotR_idxs]
    exact h.nodup

/-- `bstAdd` on a non-empty mirror keeps the top index. -/
theorem bstAdd_topIdx (kov : V → Int) (key : Int) (n : Nat) (value : V) :
    ∀ S : BT V, S ≠ .tip → (bstAdd kov key n value S).topIdx = S.topIdx := by
  intro S hS
  rcases S with _ | ⟨l, j, w, c, r⟩
  · exact absurd rfl hS
  · rw [bstAdd]
    split_ifs <;> rfl

/-- Membership in the index list after `bstAdd`. -/
theorem bstAdd_mem (kov : V → Int) (key : Int) (n : Nat) (value : V) :
    ∀ S : BT V, ∀ j2, j2 ∈ (bstAdd kov key n value S).idxs ↔ j2 = n ∨ j2 ∈ S.idxs := by
  intro S
  induction S with
  | tip => intro j2; simp [bstAdd, BT.idxs]
  | bin l j w c r ihl ihr =>
    intro j2
    rw [bstAdd]
    split_ifs with hc
    · rw [BT.idxs, BT.idxs]
      simp only [List.mem_append, List.mem_cons]
      rw [ihl j2]
      tauto
    · rw [BT.idxs, BT.idxs]
      simp only [List.mem_append, List.mem_cons]
      rw [ihr j2]
      tauto

/-- `bstAdd` with a fresh index keeps the index list duplicate-free. -/
theorem bstAdd_nodup (kov : V → Int) (key : Int) (n : Nat) (value : V) :
    ∀ S : BT V, S.idxs.Nodup → n ∉ S.idxs → (bstAdd kov key n value S).idxs.Nodup := by
  intro S
  induction S with
  | tip => intro _ _; simp [bstAdd, BT.idxs]
  | bin l j w c r ihl ihr =>
    intro hnd hn
    rw [BT.idxs] at hnd hn
    obtain ⟨hndl, hnd2, hdisj⟩ := List.nodup_append.1 hnd
    rw [bstAdd]
    split_ifs with hc
    · rw [BT.idxs]
      refine List.nodup_append.2 ⟨ihl hndl (fun hc2 => hn (List.mem_append_left _ hc2)),
        hnd2, ?_⟩
      intro a ha
      rcases (bstAdd_mem kov key n value l a).1 ha with rfl | ha2
      · exact fun hc2 => hn (List.mem_append_right _ hc2)
      · exact hdisj ha2
    · rw [BT.idxs]
      have hndr2 : (j :: (bstAdd kov key n value r).idxs).Nodup := by
        obtain ⟨hjr, hndr⟩ := List.nodup_cons.1 hnd2
        refine List.nodup_cons.2 ⟨?_, ihr hndr
          (fun hc2 => hn (List.mem_append_right _ (List.mem_cons_of_mem _ hc2)))⟩
        intro hc2
        rcases (bstAdd_mem kov key n value r j).1 hc2 with rfl | ha2
        · exact hn (List.mem_append_right _ (List.mem_cons_self _ _))
        · exact hjr ha2
      refine List.nodup_append.2 ⟨hndl, hndr2, ?_⟩
      intro a ha hc2
      rcases List.mem_cons.1 hc2 with rfl | hc3
      · exact hdisj ha (List.mem_cons_self _ _)
      rcases (bstAdd_mem kov key n value r a).1 hc3 with rfl | ha2
      · exact hn (List.mem_append_left _ ha)
      · exact hdisj ha (List.mem_cons_of_mem _ ha2)

/-- The payload list after `bstAdd` is the old one plus the new value. -/
theorem bstAdd_vals_perm (kov : V → Int) (key : Int) (n : Nat) (value : V) :
    ∀ S : BT V, (bstAdd kov key n value S).vals.Perm (value :: S.vals) := by
  intro S
  induction S with
  | tip => simp [bstAdd, BT.vals]
  | bin l j w c r ihl ihr =>
    rw [bstAdd]
    split_ifs with hc
    · rw [BT.vals, BT.vals]
      exact List.Perm.append_right _ ihl
    · rw [BT.vals, BT.vals]
      refine (List.Perm.append_left _ (List.Perm.cons w ihr)).trans ?_
      refine (List.Perm.append_left _ (List.Perm.swap value w _)).trans ?_
      exact List.perm_middle

/-- `bstAdd` preserves search-tree soundness when the key respects the
bounds. -/
theorem bstAdd_bst (kov : V → Int) (key : Int) (n : Nat) (value : V)
    (hkey : kov value = key) :
    ∀ S : BT V, ∀ lo hi, BT.bst kov lo hi S = true → loOK lo key = true →
      hiOK key hi = true → BT.bst kov lo hi (bstAdd kov key n value S) = true := by
  intro S
  induction S with
  | tip =>
    intro lo hi _ hlo hhi
    rw [bstAdd, BT.bst, hkey, hlo, hhi, BT.bst, BT.bst]
    rfl
  | bin l j w c r ihl ihr =>
    intro lo hi hb hlo hhi
    rw [BT.bst] at hb
    simp only [Bool.and_eq_true] at hb
    rw [bstAdd]
    split_ifs with hc
    · rw [BT.bst]
      simp only [Bool.and_eq_true]
      refine ⟨⟨⟨hb.1.1.1, hb.1.1.2⟩, ihl _ _ hb.1.2 hlo ?_⟩, hb.2⟩
      rw [hiOK]
      simp only [decide_eq_true_eq]
      omega
    · rw [BT.bst]
      simp only [Bool.and_eq_true]
      refine ⟨⟨⟨hb.1.1.1, hb.1.1.2⟩, hb.1.2⟩, ihr _ _ hb.2 ?_ hhi⟩
      rw [loOK]
      simp only [decide_eq_true_eq]
      omega

/-- Combined simulation of the `find_or_create` descent on a duplicate-free
path: the loop terminates at the sentinel having recorded the structural
insertion father, and any arena that differs from `t` only by a fresh red
leaf cell `n` hung off that father (on the comparison side) reads off as the
mirror surgery `bstAdd` and keeps the back-links coherent. -/
theorem fc_loop_bstAdd (kov : V → Int) (t : Rb_tree V) (key : Int) (value : V)
    (unique : Bool) (n : Nat) (hn : n ≠ t.nil) :
    ∀ f i S father fuel, toTree t i f = some S → f ≤ fuel →
      (unique = true → dupFound kov key S = none) →
      ∃ fa, find_or_create_loop kov t key unique i father fuel =
          some (fa, t.nil, true) ∧
        ((S = .tip ∧ fa = father) ∨
         (S ≠ .tip ∧ fa ∈ S.idxs ∧
           ∀ t3 : Rb_tree V, t3.nil = t.nil →
             (t3.mem n).left = t.nil → (t3.mem n).right = t.nil →
             (t3.mem n).val = value → (t3.mem n).color = .Red →
             (t3.mem n).p = fa →
             (∀ j ∈ S.idxs, j ≠ fa → agreeCell t3 t j) →
             (∀ j ∈ S.idxs, (t3.mem j).p = (t.mem j).p) →
             (t3.mem fa).val = (t.mem fa).val →
             (t3.mem fa).color = (t.mem fa).color →
             (key < kov ((t.mem fa).val) →
               (t3.mem fa).left = n ∧ (t3.mem fa).right = (t.mem fa).right) →
             (¬ key < kov ((t.mem fa).val) →
               (t3.mem fa).right = n ∧ (t3.mem fa).left = (t.mem fa).left) →
             parB t S = true → S.idxs.Nodup →
             toTree t3 i (f + 1) = some (bstAdd kov key n value S) ∧
             parB t3 (bstAdd kov key n value S) = true)) := by
  intro f
  induction f with
  | zero => intro i S father fuel h; simp [toTree] at h
  | succ f2 ih =>
    intro i S father fuel hT hle hdup
    obtain ⟨fu, rfl⟩ : ∃ fu, fuel = fu + 1 := ⟨fuel - 1, by omega⟩
    by_cases hi : i = t.nil
    · obtain rfl : S = .tip := (toTree_tip_iff t i (f2 + 1) S hT).2 hi
      refine ⟨father, ?_, Or.inl ⟨rfl, rfl⟩⟩
      rw [find_or_create_loop, if_neg (by simp [hi]), hi]
    · have hSne : S ≠ .tip := fun hc => hi ((toTree_tip_iff t i (f2 + 1) S hT).1 hc)
      obtain ⟨_, L, R, w, c, g2, rfl, hg2, hw, hcc, hL, hR⟩ :=
        toTree_mem_elim t i (f2 + 1) S hT hSne
      subst hw
      subst hcc
      have hfe : g2 = f2 := by omega
      rw [hfe] at hL hR
      have hcur : ¬ (unique = true ∧ ¬ key < kov ((t.mem i).val) ∧
          ¬ kov ((t.mem i).val) < key) := by
        rintro ⟨hu, h1, h2⟩
        have hd := hdup hu
        rw [dupFound, if_pos ⟨h1, h2⟩] at hd
        simp at hd
      have hfu : f2 ≤ fu := by omega
      have hf2 : f2 ≠ 0 := by
        intro h0
        rw [h0] at hL
        simp [toTree] at hL
      by_cases hcmp : key < kov ((t.mem i).val)
      · have hdupL : unique = true → dupFound kov key L = none := by
          intro hu
          have hd := hdup hu
          rw [dupFound, if_neg (fun hAB => hcur ⟨hu, hAB.1, hAB.2⟩), if_pos hcmp] at hd
          exact hd
        obtain ⟨fa, hloop, hrest⟩ := ih ((t.mem i).left) L i fu hL hfu hdupL
        refine ⟨fa, ?_, ?_⟩
        · rw [find_or_create_loop, if_pos hi, if_neg hcur, if_pos hcmp]
          exact hloop
        right
        rcases hrest with ⟨rfl, hfai⟩ | ⟨hLne, hfaL, hblock⟩
        · -- the left child is the sentinel: the new node hangs directly below i
          obtain rfl := hfai.symm
          have hlnil : (t.mem i).left = t.nil := (toTree_tip_iff t _ f2 _ hL).1 rfl
          refine ⟨hSne, by rw [BT.idxs]; simp, ?_⟩
          intro t3 hnil3 hnL hnR hnV hnC hnP hagree hpagree hfav hfac hwl hwr hparS hndS
          obtain ⟨f3, rfl⟩ := Nat.exists_eq_succ_of_ne_zero hf2
          obtain ⟨hwl1, hwl2⟩ := hwl hcmp
          have htip3 : toTree t3 t.nil (f3 + 1) = some BT.tip := by
            rw [← hnil3]
            exact toTree_nil t3 f3
          have hTn : toTree t3 n (f3 + 1 + 1) = some (BT.bin .tip n value .Red .tip) := by
            rw [toTree, if_neg (by rw [hnil3]; exact hn), hnL, hnR, htip3, hnV, hnC]
          rw [BT.idxs] at hndS
          have hiR : i ∉ R.idxs := (List.nodup_cons.1 (List.nodup_append.1 hndS).2.1).1
          have hndR : R.idxs.Nodup := (List.nodup_cons.1 (List.nodup_append.1 hndS).2.1).2
          have hTR : toTree t3 ((t.mem i).right) (f3 + 1) = some R := by
            refine toTree_frame t3 t hnil3 (f3 + 1) _ R hR ?_
            intro j hj
            refine hagree j ?_ (fun hc => hiR (hc ▸ hj))
            rw [BT.idxs]
            exact List.mem_append_right _ (List.mem_cons_of_mem _ hj)
          obtain ⟨hoL, hoR, hpL, hpR⟩ := parB_elim t _ i _ _ _ hparS
          constructor
          · rw [bstAdd, if_pos hcmp, bstAdd, toTree, if_neg (by rw [hnil3]; exact hi),
              hwl1, hwl2, hTn, toTree_mono t3 (f3 + 1) (f3 + 1 + 1) _ R (by omega) hTR,
              hfav, hfac]
          · rw [bstAdd, if_pos hcmp, bstAdd]
            refine parB_intro t3 _ i _ _ _ ?_ ?_ ?_ ?_
            · intro a ha
              rw [BT.topIdx] at ha
              obtain rfl : n = a := Option.some.inj ha
              exact hnP
            · intro a ha
              have ham := BT.topIdx_mem R a ha
              rw [hpagree a (by rw [BT.idxs]; exact List.mem_append_right _ (List.mem_cons_of_mem _ ham))]
              exact hoR a ha
            · refine parB_intro t3 _ n _ _ _ ?_ ?_ rfl rfl
              · intro a ha
                simp [BT.topIdx] at ha
              · intro a ha
                simp [BT.topIdx] at ha
            · rw [parB_agree t3 t R hndR ?_]
              · exact hpR
              · intro a ha _
                refine hpagree a ?_
                rw [BT.idxs]
                exact List.mem_append_right _ (List.mem_cons_of_mem _ ha)
        · -- the new node lands deeper inside the left subtree
          refine ⟨hSne, by rw [BT.idxs]; exact List.mem_append_left _ hfaL, ?_⟩
          intro t3 hnil3 hnL hnR hnV hnC hnP hagree hpagree hfav hfac hwl hwr hparS hndS
          rw [BT.idxs] at hndS
          have hndL : L.idxs.Nodup := (List.nodup_append.1 hndS).1
          have hndR : R.idxs.Nodup := (List.nodup_cons.1 (List.nodup_append.1 hndS).2.1).2
          have hiL : i ∉ L.idxs := fun hc =>
            (List.nodup_append.1 hndS).2.2 hc (List.mem_cons_self _ _)
          have hiR : i ∉ R.idxs := (List.nodup_cons.1 (List.nodup_append.1 hndS).2.1).1
          have hdisj : ∀ a ∈ L.idxs, a ∉ R.idxs := fun a ha hc =>
            (List.nodup_append.1 hndS).2.2 ha (List.mem_cons_of_mem _ hc)
          obtain ⟨hoL, hoR, hpL, hpR⟩ := parB_elim t _ i _ _ _ hparS
          obtain ⟨hTL, hPL⟩ := hblock t3 hnil3 hnL hnR hnV hnC hnP
            (fun j hj hjfa => hagree j (by rw [BT.idxs]; exact List.mem_append_left _ hj) hjfa)
            (fun j hj => hpagree j (by rw [BT.idxs]; exact List.mem_append_left _ hj))
            hfav hfac hwl hwr hpL hndL
          have hifa : i ≠ fa := fun hc => hiL (hc ▸ hfaL)
          obtain ⟨hal, har, hav, hac⟩ := hagree i (by rw [BT.idxs]; simp) hifa
          have hTR : toTree t3 ((t.mem i).right) f2 = some R := by
            refine toTree_frame t3 t hnil3 f2 _ R hR ?_
            intro j hj
            refine hagree j ?_ (fun hc => hdisj fa hfaL (hc ▸ hj))
            rw [BT.idxs]
            exact List.mem_append_right _ (List.mem_cons_of_mem _ hj)
          constructor
          · rw [bstAdd, if_pos hcmp, toTree, if_neg (by rw [hnil3]; exact hi),
              hal, hTL, har, toTree_mono t3 f2 (f2 + 1) _ R (by omega) hTR, hav, hac]
          · rw [bstAdd, if_pos hcmp]
            refine parB_intro t3 _ i _ _ _ ?_ ?_ hPL ?_
            · intro a ha
              rw [bstAdd_topIdx kov key n value L hLne] at ha
              have ham := BT.topIdx_mem L a ha
              have := hpagree a (by rw [BT.idxs]; exact List.mem_append_left _ ham)
              rw [this]
              exact hoL a ha
            · intro a ha
              have ham := BT.topIdx_mem R a ha
              rw [hpagree a (by rw [BT.idxs]; exact List.mem_append_right _ (List.mem_cons_of_mem _ ham))]
              exact hoR a ha
            · rw [parB_agree t3 t R hndR ?_]
              · exact hpR
              · intro a ha _
                refine hpagree a ?_
                rw [BT.idxs]
                exact List.mem_append_right _ (List.mem_cons_of_mem _ ha)
      · have hdupR : unique = true → dupFound kov key R = none := by
          intro hu
          have hd := hdup hu
          rw [dupFound, if_neg (fun hAB => hcur ⟨hu, hAB.1, hAB.2⟩), if_neg hcmp] at hd
          exact hd
        obtain ⟨fa, hloop, hrest⟩ := ih ((t.mem i).right) R i fu hR hfu hdupR
        refine ⟨fa, ?_, ?_⟩
        · rw [find_or_create_loop, if_pos hi, if_neg hcur, if_neg hcmp]
          exact hloop
        right
        rcases hrest with ⟨rfl, hfai⟩ | ⟨hRne, hfaR, hblock⟩
        · -- the right child is the sentinel: the new node hangs directly below i
          obtain rfl := hfai.symm
          have hrnil : (t.mem i).right = t.nil := (toTree_tip_iff t _ f2 _ hR).1 rfl
          refine ⟨hSne, by rw [BT.idxs]; simp, ?_⟩
          intro t3 hnil3 hnL hnR hnV hnC hnP hagree hpagree hfav hfac hwl hwr hparS hndS
          obtain ⟨f3, rfl⟩ := Nat.exists_eq_succ_of_ne_zero hf2
          obtain ⟨hwr1, hwr2⟩ := hwr hcmp
          have htip3 : toTree t3 t.nil (f3 + 1) = some BT.tip := by
            rw [← hnil3]
            exact toTree_nil t3 f3
          have hTn : toTree t3 n (f3 + 1 + 1) = some (BT.bin .tip n value .Red .tip) := by
            rw [toTree, if_neg (by rw [hnil3]; exact hn), hnL, hnR, htip3, hnV, hnC]
          rw [BT.idxs] at hndS
          have hiL2 : i ∉ L.idxs := fun hc =>
            (List.nodup_append.1 hndS).2.2 hc (List.mem_cons_self _ _)
          have hndL : L.idxs.Nodup := (List.nodup_append.1 hndS).1
          have hTL : toTree t3 ((t.mem i).left) (f3 + 1) = some L := by
            refine toTree_frame t3 t hnil3 (f3 + 1) _ L hL ?_
            intro j hj
            refine hagree j ?_ (fun hc => hiL2 (hc ▸ hj))
            rw [BT.idxs]
            exact List.mem_append_left _ hj
          obtain ⟨hoL, hoR, hpL, hpR⟩ := parB_elim t _ i _ _ _ hparS
          constructor
          · rw [bstAdd, if_neg hcmp, bstAdd, toTree, if_neg (by rw [hnil3]; exact hi),
              hwr2, hwr1, hTn, toTree_mono t3 (f3 + 1) (f3 + 1 + 1) _ L (by omega) hTL,
              hfav, hfac]
          · rw [bstAdd, if_neg hcmp, bstAdd]
            refine parB_intro t3 _ i _ _ _ ?_ ?_ ?_ ?_
            · intro a ha
              have ham := BT.topIdx_mem L a ha
              have := hpagree a (by rw [BT.idxs]; exact List.mem_append_left _ ham)
              rw [this]
              exact hoL a ha
            · intro a ha
              rw [BT.topIdx] at ha
              obtain rfl : n = a := Option.some.inj ha
              exact hnP
            · rw [parB_agree t3 t L hndL ?_]
              · exact hpL
              · intro a ha _
                refine hpagree a ?_
                rw [BT.idxs]
                exact List.mem_append_left _ ha
            · refine parB_intro t3 _ n _ _ _ ?_ ?_ rfl rfl
              · intro a ha
                simp [BT.topIdx] at ha
              · intro a ha
                simp [BT.topIdx] at ha
        · -- the new node lands deeper inside the right subtree
          refine ⟨hSne, ?_, ?_⟩
          · rw [BT.idxs]
            exact List.mem_append_right _ (List.mem_cons_of_mem _ hfaR)
          intro t3 hnil3 hnL hnR hnV hnC hnP hagree hpagree hfav hfac hwl hwr hparS hndS
          rw [BT.idxs] at hndS
          have hndL : L.idxs.Nodup := (List.nodup_append.1 hndS).1
          have hndR : R.idxs.Nodup := (List.nodup_cons.1 (List.nodup_append.1 hndS).2.1).2
          have hiL : i ∉ L.idxs := fun hc =>
            (List.nodup_append.1 hndS).2.2 hc (List.mem_cons_self _ _)
          have hiR : i ∉ R.idxs := (List.nodup_cons.1 (List.nodup_append.1 hndS).2.1).1
          have hdisj : ∀ a ∈ L.idxs, a ∉ R.idxs := fun a ha hc =>
            (List.nodup_append.1 hndS).2.2 ha (List.mem_cons_of_mem _ hc)
          obtain ⟨hoL, hoR, hpL, hpR⟩ := parB_elim t _ i _ _ _ hparS
          have hagR : ∀ j ∈ R.idxs, j ≠ fa → agreeCell t3 t j := by
            intro j hj hjfa
            refine hagree j ?_ hjfa
            rw [BT.idxs]
            exact List.mem_append_right _ (List.mem_cons_of_mem _ hj)
          have hpagR : ∀ j ∈ R.idxs, (t3.mem j).p = (t.mem j).p := by
            intro j hj
            refine hpagree j ?_
            rw [BT.idxs]
            exact List.mem_append_right _ (List.mem_cons_of_mem _ hj)
          obtain ⟨hTRb, hPR⟩ := hblock t3 hnil3 hnL hnR hnV hnC hnP hagR hpagR
            hfav hfac hwl hwr hpR hndR
          have hifa : i ≠ fa := fun hc => hiR (hc ▸ hfaR)
          obtain ⟨hal, har, hav, hac⟩ := hagree i (by rw [BT.idxs]; simp) hifa
          have hTL : toTree t3 ((t.mem i).left) f2 = some L := by
            refine toTree_frame t3 t hnil3 f2 _ L hL ?_
            intro j hj
            refine hagree j ?_ (fun hc => hdisj j hj (hc ▸ hfaR))
            rw [BT.idxs]
            exact List.mem_append_left _ hj
          constructor
          · rw [bstAdd, if_neg hcmp, toTree, if_neg (by rw [hnil3]; exact hi),
              har, hTRb, hal, toTree_mono t3 f2 (f2 + 1) _ L (by omega) hTL, hav, hac]
          · rw [bstAdd, if_neg hcmp]
            refine parB_intro t3 _ i _ _ _ ?_ ?_ ?_ hPR
            · intro a ha
              have ham := BT.topIdx_mem L a ha
              have := hpagree a (by rw [BT.idxs]; exact List.mem_append_left _ ham)
              rw [this]
              exact hoL a ha
            · intro a ha
              rw [bstAdd_topIdx kov key n value R hRne] at ha
              have ham := BT.topIdx_mem R a ha
              rw [hpagree a (by rw [BT.idxs]; exact List.mem_append_right _ (List.mem_cons_of_mem _ ham))]
              exact hoR a ha
            · rw [parB_agree t3 t L hndL ?_]
              · exact hpL
              · intro a ha _
                refine hpagree a ?_
                rw [BT.idxs]
                exact List.mem_append_left _ ha

/-- Cell projection of a raw arena write at another index. -/
theorem upd_mem_ne (t : Rb_tree V) (i : Nat) (g : Node V → Node V) (j : Nat)
    (hj : j ≠ i) : (upd t i g).mem j = t.mem j := by
  show (if j = i then g (t.mem j) else t.mem j) = t.mem j
  rw [if_neg hj]

/-- Cell projection of a raw arena write at the written index. -/
theorem upd_mem_eq (t : Rb_tree V) (i : Nat) (g : Node V → Node V) :
    (upd t i g).mem i = g (t.mem i) := by
  show (if i = i then g (t.mem i) else t.mem i) = g (t.mem i)
  rw [if_pos rfl]

/-- A raw arena write does not change the bookkeeping fields. -/
theorem upd_fields (t : Rb_tree V) (i : Nat) (g : Node V → Node V) :
    (upd t i g).nil = t.nil ∧ (upd t i g).root = t.root ∧
    (upd t i g).next = t.next ∧ (upd t i g).node_count = t.node_count :=
  ⟨rfl, rfl, rfl, rfl⟩

/-- `create_node` leaves every other cell unchanged. -/
theorem create_node_mem_ne (t : Rb_tree V) (value : V) (j : Nat) (hj : j ≠ t.next) :
    ((create_node t value).1).mem j = t.mem j := by
  show (if j = t.next then { val := value, color := .Red, left := 0, right := 0, p := 0 }
    else t.mem j) = t.mem j
  rw [if_neg hj]

/-- `create_node` runs the `Node` constructor on the fresh cell. -/
theorem create_node_mem_eq (t : Rb_tree V) (value : V) :
    ((create_node t value).1).mem t.next =
      { val := value, color := .Red, left := 0, right := 0, p := 0 } := by
  show (if t.next = t.next then { val := value, color := .Red, left := 0, right := 0, p := 0 }
    else t.mem t.next) = _
  rw [if_pos rfl]

/-- Bookkeeping fields after `create_node`: only the allocation counter
moves, and the returned index is the old counter. -/
theorem create_node_fields (t : Rb_tree V) (value : V) :
    ((create_node t value).1).nil = t.nil ∧ ((create_node t value).1).root = t.root ∧
    ((create_node t value).1).next = t.next + 1 ∧
    ((create_node t value).1).node_count = t.node_count ∧
    (create_node t value).2 = t.next :=
  ⟨rfl, rfl, rfl, rfl, rfl⟩

/-- The `find_or_create` descent with unique keys stops at the duplicate
recorded by `dupFound` and reports `created = false`. -/
theorem fc_loop_dup (kov : V → Int) (t : Rb_tree V) (key : Int) (d : Nat) :
    ∀ f i S father fuel, toTree t i f = some S → f ≤ fuel →
      dupFound kov key S = some d →
      find_or_create_loop kov t key true i father fuel = some (d, d, false) := by
  intro f
  induction f with
  | zero => intro i S father fuel h; simp [toTree] at h
  | succ f2 ih =>
    intro i S father fuel hT hle hdup
    obtain ⟨fu, rfl⟩ : ∃ fu, fuel = fu + 1 := ⟨fuel - 1, by omega⟩
    by_cases hi : i = t.nil
    · obtain rfl : S = .tip := (toTree_tip_iff t i (f2 + 1) S hT).2 hi
      simp [dupFound] at hdup
    · have hSne : S ≠ .tip := fun hc => hi ((toTree_tip_iff t i (f2 + 1) S hT).1 hc)
      obtain ⟨_, L, R, w, c, g2, rfl, hg2, hw, hcc, hL, hR⟩ :=
        toTree_mem_elim t i (f2 + 1) S hT hSne
      subst hw
      subst hcc
      have hfe : g2 = f2 := by omega
      rw [hfe] at hL hR
      have hfu : f2 ≤ fu := by omega
      rw [dupFound] at hdup
      by_cases heq : ¬ key < kov ((t.mem i).val) ∧ ¬ kov ((t.mem i).val) < key
      · rw [if_pos heq] at hdup
        obtain rfl : i = d := Option.some.inj hdup
        rw [find_or_create_loop, if_pos hi, if_pos ⟨rfl, heq.1, heq.2⟩]
      · rw [if_neg heq] at hdup
        by_cases hcmp : key < kov ((t.mem i).val)
        · rw [if_pos hcmp] at hdup
          rw [find_or_create_loop, if_pos hi,
            if_neg (fun hAB => heq ⟨hAB.2.1, hAB.2.2⟩), if_pos hcmp]
          exact ih _ L i fu hL hfu hdup
        · rw [if_neg hcmp] at hdup
          rw [find_or_create_loop, if_pos hi,
            if_neg (fun hAB => heq ⟨hAB.2.1, hAB.2.2⟩), if_neg hcmp]
          exact ih _ R i fu hR hfu hdup

/-- Simulation of `find_or_create` on a simulated state: with unique keys a
recorded duplicate is returned without any state change; otherwise a fresh
red node is allocated and linked at the structural insertion point, the
mirror evolving by `bstAdd` (or becoming the single black root on an empty
tree). -/
theorem find_or_create_sim (kov : V → Int) (t : Rb_tree V) (G : BT V) (f : Nat)
    (h : Sim t G f) (key : Int) (value : V) (hkey : kov value = key)
    (unique : Bool) (fuel : Nat) (hle : f ≤ fuel) :
    (∀ d, unique = true → dupFound kov key G = some d →
      find_or_create kov t key value unique fuel = some (t, d, false)) ∧
    ((unique = true → dupFound kov key G = none) →
      ∃ t3, find_or_create kov t key value unique fuel = some (t3, t.next, true) ∧
        (G = .tip → Sim t3 (BT.bin .tip t.next value .Black .tip) (f + 1)) ∧
        (G ≠ .tip → Sim t3 (bstAdd kov key t.next value G) (f + 1)) ∧
        t3.nil = t.nil ∧ t3.next = t.next + 1 ∧ t3.node_count = t.node_count ∧
        (G = .tip → t3.root = t.next) ∧ (G ≠ .tip → t3.root = t.root) ∧
        (t3.mem t.next).val = value ∧
        (G = .tip → (t3.mem t.next).color = .Black ∧ (t3.mem t.next).p = t.nil) ∧
        (G ≠ .tip → (t3.mem t.next).color = .Red ∧
          (t3.mem t.next).p ∈ G.idxs ∧ (t3.mem t.next).p ≠ t.nil) ∧
        (∀ j, j ≠ t.next → (t3.mem j).val = (t.mem j).val ∧
          (t3.mem j).color = (t.mem j).color)) := by
  obtain ⟨hs1, hs2, hs3, hs4, hs5⟩ := h.sent
  have hnilG : ∀ j ∈ G.idxs, j ≠ t.nil := toTree_idx_ne_nil t f t.root G h.tt
  have hboundG : ∀ j ∈ G.idxs, j ≠ 0 ∧ j < t.next := by
    intro j hj
    have hc := h.cells
    rw [cellsB] at hc
    simp only [List.all_eq_true, Bool.and_eq_true, decide_eq_true_eq] at hc
    exact hc j hj
  have hnnil : t.next ≠ t.nil := by
    intro hc
    rw [hc] at hs2
    omega
  have hn0 : t.next ≠ 0 := by omega
  have hf0 : f ≠ 0 := by
    intro h0
    have := h.tt
    rw [h0] at this
    simp [toTree] at this
  constructor
  · intro d hu hdup
    subst hu
    have hloop := fc_loop_dup kov t key d f t.root G t.nil fuel h.tt hle hdup
    rw [find_or_create, hloop]
    rfl
  · intro hnod
    by_cases hG : G = .tip
    · subst hG
      have hroot_nil : t.root = t.nil := (toTree_tip_iff t t.root f BT.tip h.tt).1 rfl
      obtain ⟨fu, rfl⟩ : ∃ fu, fuel = fu + 1 := ⟨fuel - 1, by omega⟩
      obtain ⟨f0, rfl⟩ : ∃ f0, f = f0 + 1 := ⟨f - 1, by omega⟩
      have hloop : find_or_create_loop kov t key unique t.root t.nil (fu + 1) =
          some (t.nil, t.root, true) := by
        rw [find_or_create_loop, if_neg (by simp [hroot_nil])]
      have hfc : find_or_create kov t key value unique (fu + 1) =
          some (link_new_node kov (create_node t value).1 t.nil t.next, t.next, true) := by
        rw [find_or_create, hloop]
        rfl
      have e : link_new_node kov (create_node t value).1 t.nil t.next =
          (let t1 := upd ((create_node t value).1) t.next
            (fun nd => { nd with left := ((create_node t value).1).nil, right := ((create_node t value).1).nil })
           if t.nil = t1.nil then
             upd { t1 with root := t.next } t.next
               (fun nd => { nd with p := ({ t1 with root := t.next } : Rb_tree V).nil, color := .Black })
           else
             let t2 := setP t1 t.next t.nil
             if kov ((t2.mem t.next).val) < kov ((t2.mem t.nil).val) then
               setLeft t2 t.nil t.next
             else setRight t2 t.nil t.next) := rfl
      lift_lets at e
      extract_lets t1 t2 at e
      have ht1 : t1 = upd ((create_node t value).1) t.next
          (fun nd => { nd with left := ((create_node t value).1).nil, right := ((create_node t value).1).nil }) := rfl
      have hnil1 : t.nil = t1.nil := rfl
      have hT3 : link_new_node kov (create_node t value).1 t.nil t.next =
          upd { t1 with root := t.next } t.next
            (fun nd => { nd with p := ({ t1 with root := t.next } : Rb_tree V).nil, color := .Black }) := by
        rw [e, if_pos hnil1]
      have h3nil : (upd { t1 with root := t.next } t.next
          (fun nd => { nd with p := ({ t1 with root := t.next } : Rb_tree V).nil, color := .Black })).nil = t.nil := rfl
      have h3memn : (upd { t1 with root := t.next } t.next
          (fun nd => { nd with p := ({ t1 with root := t.next } : Rb_tree V).nil, color := .Black })).mem t.next =
          { val := value, color := .Black, left := t.nil, right := t.nil, p := t.nil } := by
        rw [upd_mem_eq]
        have h1 : ({ t1 with root := t.next } : Rb_tree V).mem t.next = t1.mem t.next := rfl
        rw [h1, ht1, upd_mem_eq, create_node_mem_eq]
        rfl
      have h3memne : ∀ j, j ≠ t.next → (upd { t1 with root := t.next } t.next
          (fun nd => { nd with p := ({ t1 with root := t.next } : Rb_tree V).nil, color := .Black })).mem j = t.mem j := by
        intro j hj
        rw [upd_mem_ne _ _ _ j hj]
        have h1 : ({ t1 with root := t.next } : Rb_tree V).mem j = t1.mem j := rfl
        rw [h1, ht1, upd_mem_ne _ _ _ j hj, create_node_mem_ne t value j hj]
      refine ⟨_, hfc, ?_⟩
      rw [hT3]
      have htip3 : ∀ g2, toTree (upd { t1 with root := t.next } t.next
          (fun nd => { nd with p := ({ t1 with root := t.next } : Rb_tree V).nil, color := .Black })) t.nil (g2 + 1) = some BT.tip := by
        intro g2
        have := toTree_nil (upd { t1 with root := t.next } t.next
          (fun nd => { nd with p := ({ t1 with root := t.next } : Rb_tree V).nil, color := .Black })) g2
        rw [h3nil] at this
        exact this
      refine ⟨fun _ => ⟨⟨?_, ?_, ?_, ?_, ?_⟩, ?_, ?_, ?_, ?_, ?_⟩, fun hc => absurd rfl hc,
        rfl, rfl, rfl, fun _ => rfl, fun hc => absurd rfl hc, ?_, fun _ => ?_,
        fun hc => absurd rfl hc, ?_⟩
      · rw [h3nil]
        exact hs1
      · rw [h3nil]
        show t.nil < t.next + 1
        omega
      · rw [h3nil, h3memne t.nil (Ne.symm hnnil)]
        exact hs3
      · rw [h3nil, h3memne t.nil (Ne.symm hnnil)]
        exact hs4
      · rw [h3nil, h3memne t.nil (Ne.symm hnnil)]
        exact hs5
      · show ((upd { t1 with root := t.next } t.next
          (fun nd => { nd with p := ({ t1 with root := t.next } : Rb_tree V).nil, color := .Black })).mem t.next).p = _
        rw [h3memn, h3nil]
      · show toTree _ t.next (f0 + 1 + 1) = _
        rw [toTree, if_neg (by rw [h3nil]; exact hnnil), h3memn]
        show (match toTree _ t.nil (f0 + 1), toTree _ t.nil (f0 + 1) with
          | some L, some R => some (BT.bin L t.next value Node_color.Black R)
          | _, _ => none) = _
        rw [htip3]
      · rw [cellsB]
        simp only [BT.idxs]
        have hnx : (upd { t1 with root := t.next } t.next
          (fun nd => { nd with p := ({ t1 with root := t.next } : Rb_tree V).nil, color := .Black })).next = t.next + 1 := rfl
        simp only [List.nil_append, List.all_cons, List.all_nil, Bool.and_eq_true,
          decide_eq_true_eq, hnx]
        exact ⟨⟨hn0, by omega⟩, trivial⟩
      · refine parB_intro _ _ t.next _ _ _ ?_ ?_ rfl rfl
        · intro a ha
          simp [BT.topIdx] at ha
        · intro a ha
          simp [BT.topIdx] at ha
      · simp [BT.idxs]
      · rw [h3memn]
      · rw [h3memn]
        exact ⟨rfl, rfl⟩
      · intro j hj
        rw [h3memne j hj]
        exact ⟨rfl, rfl⟩
    · -- non-empty tree: descend, allocate and link a red leaf
      obtain ⟨fa, hloop, hrest⟩ :=
        fc_loop_bstAdd kov t key value unique t.next hnnil f t.root G t.nil fuel
          h.tt hle hnod
      rcases hrest with ⟨hGtip, _⟩ | ⟨_, hfa, hblock⟩
      · exact absurd hGtip hG
      have hfanil : fa ≠ t.nil := hnilG fa hfa
      have hfan : fa ≠ t.next := by
        have := (hboundG fa hfa).2
        omega
      have hnfa : t.next ≠ fa := Ne.symm hfan
      have hfc : find_or_create kov t key value unique fuel =
          some (link_new_node kov (create_node t value).1 fa t.next, t.next, true) := by
        rw [find_or_create, hloop]
        rfl
      have e : link_new_node kov (create_node t value).1 fa t.next =
          (let t1 := upd ((create_node t value).1) t.next
            (fun nd => { nd with left := ((create_node t value).1).nil, right := ((create_node t value).1).nil })
           if fa = t1.nil then
             upd { t1 with root := t.next } t.next
               (fun nd => { nd with p := ({ t1 with root := t.next } : Rb_tree V).nil, color := .Black })
           else
             let t2 := setP t1 t.next fa
             if kov ((t2.mem t.next).val) < kov ((t2.mem fa).val) then
               setLeft t2 fa t.next
             else setRight t2 fa t.next) := rfl
      lift_lets at e
      extract_lets t1 t2 at e
      have ht1 : t1 = upd ((create_node t value).1) t.next
          (fun nd => { nd with left := ((create_node t value).1).nil, right := ((create_node t value).1).nil }) := rfl
      have ht2 : t2 = setP t1 t.next fa := rfl
      have hnil1 : t1.nil = t.nil := rfl
      have hfanil1 : ¬ fa = t1.nil := by
        rw [hnil1]
        exact hfanil
      have hm1ne : ∀ j, j ≠ t.next → t1.mem j = t.mem j := by
        intro j hj
        rw [ht1, upd_mem_ne _ _ _ j hj, create_node_mem_ne t value j hj]
      have hm1n : t1.mem t.next =
          { val := value, color := .Red, left := t.nil, right := t.nil, p := 0 } := by
        rw [ht1, upd_mem_eq, create_node_mem_eq]
        rfl
      have hm2ne : ∀ j, j ≠ t.next → t2.mem j = t.mem j := by
        intro j hj
        rw [ht2, setP, upd_mem_ne _ _ _ j hj, hm1ne j hj]
      have hm2v : (t2.mem t.next).val = value := by
        rw [ht2, setP_val, hm1n]
      have hm2fv : (t2.mem fa).val = (t.mem fa).val := by
        rw [ht2, setP_val, hm1ne fa hfan]
      have hfresh : t.next ∉ G.idxs := fun hc => absurd (hboundG _ hc).2 (lt_irrefl _)
      have hrtinG : t.root ∈ G.idxs := by
        have hrnnil : t.root ≠ t.nil := fun hc => hG ((toTree_tip_iff t _ f G h.tt).2 hc)
        exact BT.topIdx_mem G t.root ((toTree_topIdx t _ f G h.tt).2 hrnnil)
      have hrtn : t.root ≠ t.next := by
        have := (hboundG t.root hrtinG).2
        omega
      by_cases hcmp : key < kov ((t.mem fa).val)
      · have hc2 : kov ((t2.mem t.next).val) < kov ((t2.mem fa).val) := by
          rw [hm2v, hm2fv, hkey]
          exact hcmp
        have hT3L : link_new_node kov (create_node t value).1 fa t.next =
            setLeft t2 fa t.next := by
          rw [e, if_neg hfanil1, if_pos hc2]
        have hb_nl : ((setLeft t2 fa t.next).mem t.next).left = t.nil := by
          rw [setLeft_left, if_neg hnfa, ht2, setP_left, hm1n]
        have hb_nr : ((setLeft t2 fa t.next).mem t.next).right = t.nil := by
          rw [setLeft_right, ht2, setP_right, hm1n]
        have hb_nv : ((setLeft t2 fa t.next).mem t.next).val = value := by
          rw [setLeft_val, hm2v]
        have hb_nc : ((setLeft t2 fa t.next).mem t.next).color = .Red := by
          rw [setLeft_color, ht2, setP_color, hm1n]
        have hb_np : ((setLeft t2 fa t.next).mem t.next).p = fa := by
          rw [setLeft_p, ht2, setP_p, if_pos rfl]
        have hb_agree : ∀ j ∈ G.idxs, j ≠ fa → agreeCell (setLeft t2 fa t.next) t j := by
          intro j hj hjfa
          have hjn : j ≠ t.next := by
            have := (hboundG j hj).2
            omega
          refine ⟨?_, ?_, ?_, ?_⟩
          · rw [setLeft_left, if_neg hjfa, hm2ne j hjn]
          · rw [setLeft_right, hm2ne j hjn]
          · rw [setLeft_val, hm2ne j hjn]
          · rw [setLeft_color, hm2ne j hjn]
        have hb_pagree : ∀ j ∈ G.idxs, ((setLeft t2 fa t.next).mem j).p = (t.mem j).p := by
          intro j hj
          have hjn : j ≠ t.next := by
            have := (hboundG j hj).2
            omega
          rw [setLeft_p, hm2ne j hjn]
        have hb_fav : ((setLeft t2 fa t.next).mem fa).val = (t.mem fa).val := by
          rw [setLeft_val, hm2ne fa hfan]
        have hb_fac : ((setLeft t2 fa t.next).mem fa).color = (t.mem fa).color := by
          rw [setLeft_color, hm2ne fa hfan]
        have hb_wl : key < kov ((t.mem fa).val) →
            ((setLeft t2 fa t.next).mem fa).left = t.next ∧
            ((setLeft t2 fa t.next).mem fa).right = (t.mem fa).right := by
          intro _
          constructor
          · rw [setLeft_left, if_pos rfl]
          · rw [setLeft_right, hm2ne fa hfan]
        have hb_wr : ¬ key < kov ((t.mem fa).val) →
            ((setLeft t2 fa t.next).mem fa).right = t.next ∧
            ((setLeft t2 fa t.next).mem fa).left = (t.mem fa).left :=
          fun hno => absurd hcmp hno
        obtain ⟨hTT, hPP⟩ := hblock (setLeft t2 fa t.next) rfl hb_nl hb_nr hb_nv hb_nc
          hb_np hb_agree hb_pagree hb_fav hb_fac hb_wl hb_wr h.par h.nodup
        refine ⟨setLeft t2 fa t.next, ?_, fun hc => absurd hc hG, fun _ => ?_, rfl, rfl, rfl,
          fun hc => absurd hc hG, fun _ => rfl, hb_nv, fun hc => absurd hc hG,
          fun _ => ?_, ?_⟩
        · rw [hfc, hT3L]
        · refine ⟨⟨?_, ?_, ?_, ?_, ?_⟩, ?_, ?_, ?_, hPP, ?_⟩
          · exact hs1
          · show t.nil < t.next + 1
            omega
          · show ((setLeft t2 fa t.next).mem t.nil).color = .Black
            rw [setLeft_color, hm2ne t.nil (Ne.symm hnnil)]
            exact hs3
          · show ((setLeft t2 fa t.next).mem t.nil).left = t.nil
            rw [setLeft_left, if_neg (Ne.symm hfanil), hm2ne t.nil (Ne.symm hnnil)]
            exact hs4
          · show ((setLeft t2 fa t.next).mem t.nil).right = t.nil
            rw [setLeft_right, hm2ne t.nil (Ne.symm hnnil)]
            exact hs5
          · show ((setLeft t2 fa t.next).mem t.root).p = t.nil
            rw [setLeft_p, hm2ne t.root hrtn]
            exact h.rootp
          · show toTree (setLeft t2 fa t.next) t.root (f + 1) = _
            exact hTT
          · show cellsB (setLeft t2 fa t.next) (bstAdd kov key t.next value G) = true
            rw [cellsB, List.all_eq_true]
            intro j hj
            simp only [Bool.and_eq_true, decide_eq_true_eq]
            have hnx : (setLeft t2 fa t.next).next = t.next + 1 := rfl
            rw [hnx]
            rcases (bstAdd_mem kov key t.next value G j).1 hj with rfl | hj2
            · exact ⟨hn0, by omega⟩
            · obtain ⟨h1, h2⟩ := hboundG j hj2
              exact ⟨h1, by omega⟩
          · show (bstAdd kov key t.next value G).idxs.Nodup
            exact bstAdd_nodup kov key t.next value G h.nodup hfresh
        · refine ⟨hb_nc, ?_, ?_⟩
          · rw [hb_np]
            exact hfa
          · rw [hb_np]
            exact hfanil
        · intro j hj
          constructor
          · rw [setLeft_val, hm2ne j hj]
          · rw [setLeft_color, hm2ne j hj]
      · have hc2 : ¬ kov ((t2.mem t.next).val) < kov ((t2.mem fa).val) := by
          rw [hm2v, hm2fv, hkey]
          exact hcmp
        have hT3R : link_new_node kov (create_node t value).1 fa t.next =
            setRight t2 fa t.next := by
          rw [e, if_neg hfanil1, if_neg hc2]
        have hb_nl : ((setRight t2 fa t.next).mem t.next).left = t.nil := by
          rw [setRight_left, ht2, setP_left, hm1n]
        have hb_nr : ((setRight t2 fa t.next).mem t.next).right = t.nil := by
          rw [setRight_right, if_neg hnfa, ht2, setP_right, hm1n]
        have hb_nv : ((setRight t2 fa t.next).mem t.next).val = value := by
          rw [setRight_val, hm2v]
        have hb_nc : ((setRight t2 fa t.next).mem t.next).color = .Red := by
          rw [setRight_color, ht2, setP_color, hm1n]
        have hb_np : ((setRight t2 fa t.next).mem t.next).p = fa := by
          rw [setRight_p, ht2, setP_p, if_pos rfl]
        have hb_agree : ∀ j ∈ G.idxs, j ≠ fa → agreeCell (setRight t2 fa t.next) t j := by
          intro j hj hjfa
          have hjn : j ≠ t.next := by
            have := (hboundG j hj).2
            omega
          refine ⟨?_, ?_, ?_, ?_⟩
          · rw [setRight_left, hm2ne j hjn]
          · rw [setRight_right, if_neg hjfa, hm2ne j hjn]
          · rw [setRight_val, hm2ne j hjn]
          · rw [setRight_color, hm2ne j hjn]
        have hb_pagree : ∀ j ∈ G.idxs, ((setRight t2 fa t.next).mem j).p = (t.mem j).p := by
          intro j hj
          have hjn : j ≠ t.next := by
            have := (hboundG j hj).2
            omega
          rw [setRight_p, hm2ne j hjn]
        have hb_fav : ((setRight t2 fa t.next).mem fa).val = (t.mem fa).val := by
          rw [setRight_val, hm2ne fa hfan]
        have hb_fac : ((setRight t2 fa t.next).mem fa).color = (t.mem fa).color := by
          rw [setRight_color, hm2ne fa hfan]
        have hb_wl : key < kov ((t.mem fa).val) →
            ((setRight t2 fa t.next).mem fa).left = t.next ∧
            ((setRight t2 fa t.next).mem fa).right = (t.mem fa).right :=
          fun hyes => absurd hyes hcmp
        have hb_wr : ¬ key < kov ((t.mem fa).val) →
            ((setRight t2 fa t.next).mem fa).right = t.next ∧
            ((setRight t2 fa t.next).mem fa).left = (t.mem fa).left := by
          intro _
          constructor
          · rw [setRight_right, if_pos rfl]
          · rw [setRight_left, hm2ne fa hfan]
        obtain ⟨hTT, hPP⟩ := hblock (setRight t2 fa t.next) rfl hb_nl hb_nr hb_nv hb_nc
          hb_np hb_agree hb_pagree hb_fav hb_fac hb_wl hb_wr h.par h.nodup
        refine ⟨setRight t2 fa t.next, ?_, fun hc => absurd hc hG, fun _ => ?_, rfl, rfl, rfl,
          fun hc => absurd hc hG, fun _ => rfl, hb_nv, fun hc => absurd hc hG,
          fun _ => ?_, ?_⟩
        · rw [hfc, hT3R]
        · refine ⟨⟨?_, ?_, ?_, ?_, ?_⟩, ?_, ?_, ?_, hPP, ?_⟩
          · exact hs1
          · show t.nil < t.next + 1
            omega
          · show ((setRight t2 fa t.next).mem t.nil).color = .Black
            rw [setRight_color, hm2ne t.nil (Ne.symm hnnil)]
            exact hs3
          · show ((setRight t2 fa t.next).mem t.nil).left = t.nil
            rw [setRight_left, hm2ne t.nil (Ne.symm hnnil)]
            exact hs4
          · show ((setRight t2 fa t.next).mem t.nil).right = t.nil
            rw [setRight_right, if_neg (Ne.symm hfanil), hm2ne t.nil (Ne.symm hnnil)]
            exact hs5
          · show ((setRight t2 fa t.next).mem t.root).p = t.nil
            rw [setRight_p, hm2ne t.root hrtn]
            exact h.rootp
          · show toTree (setRight t2 fa t.next) t.root (f + 1) = _
            exact hTT
          · show cellsB (setRight t2 fa t.next) (bstAdd kov key t.next value G) = true
            rw [cellsB, List.all_eq_true]
            intro j hj
            simp only [Bool.and_eq_true, decide_eq_true_eq]
            have hnx : (setRight t2 fa t.next).next = t.next + 1 := rfl
            rw [hnx]
            rcases (bstAdd_mem kov key t.next value G j).1 hj with rfl | hj2
            · exact ⟨hn0, by omega⟩
            · obtain ⟨h1, h2⟩ := hboundG j hj2
              exact ⟨h1, by omega⟩
          · show (bstAdd kov key t.next value G).idxs.Nodup
            exact bstAdd_nodup kov key t.next value G h.nodup hfresh
        · refine ⟨hb_nc, ?_, ?_⟩
          · rw [hb_np]
            exact hfa
          · rw [hb_np]
            exact hfanil
        · intro j hj
          constructor
          · rw [setRight_val, hm2ne j hj]
          · rw [setRight_color, hm2ne j hj]

/-- `recolor` at an absent index is the identity. -/
theorem BT.recolor_not_mem (a : Nat) (c : Node_color) :
    ∀ S : BT V, a ∉ S.idxs → BT.recolor a c S = S := by
  intro S
  induction S with
  | tip => intro _; rfl
  | bin l j v cc r ihl ihr =>
    intro h
    rw [BT.idxs] at h
    have hja : ¬ j = a := fun hc =>
      h (List.mem_append_right _ (List.mem_cons.2 (Or.inl hc.symm)))
    rw [BT.recolor, ihl (fun hc => h (List.mem_append_left _ hc)),
      ihr (fun hc => h (List.mem_append_right _ (List.mem_cons_of_mem _ hc))),
      if_neg hja]

/-- Colour at the recoloured index. -/
theorem BT.colorAt_recolor_eq (a : Nat) (c : Node_color) :
    ∀ S : BT V, a ∈ S.idxs → BT.colorAt a (BT.recolor a c S) = c := by
  intro S
  induction S with
  | tip => intro h; simp [BT.idxs] at h
  | bin l j v cc r ihl ihr =>
    intro h
    rw [BT.recolor, BT.colorAt]
    by_cases hj : j = a
    · rw [if_pos hj, if_pos hj]
    · rw [if_neg hj, BT.recolor_idxs]
      rw [BT.idxs] at h
      by_cases hl : a ∈ l.idxs
      · rw [if_pos hl]
        exact ihl hl
      · rw [if_neg hl]
        rcases List.mem_append.1 h with h2 | h2
        · exact absurd h2 hl
        rcases List.mem_cons.1 h2 with h3 | h3
        · exact absurd h3.symm hj
        · exact ihr h3

/-- Colour at another index after a recolour. -/
theorem BT.colorAt_recolor_ne (a : Nat) (c : Node_color) (x : Nat) (hx : x ≠ a) :
    ∀ S : BT V, BT.colorAt x (BT.recolor a c S) = BT.colorAt x S := by
  intro S
  induction S with
  | tip => rfl
  | bin l j v cc r ihl ihr =>
    rw [BT.recolor, BT.colorAt, BT.colorAt, BT.recolor_idxs]
    by_cases hj : j = x
    · rw [if_pos hj, if_pos hj, if_neg (hj ▸ hx : ¬ j = a)]
    · rw [if_neg hj, if_neg hj]
      by_cases hl : x ∈ l.idxs
      · rw [if_pos hl, if_pos hl, ihl]
      · rw [if_neg hl, if_neg hl, ihr]

/-- The arena colour of every recorded node is the mirror colour. -/
theorem colorAt_bridge (t : Rb_tree V) :
    ∀ f i S, toTree t i f = some S → S.idxs.Nodup →
      ∀ x ∈ S.idxs, (t.mem x).color = BT.colorAt x S := by
  intro f
  induction f with
  | zero => intro i S h; simp [toTree] at h
  | succ f2 ih =>
    intro i S hT hnd x hx
    have hSne : S ≠ .tip := by
      rintro rfl
      simp [BT.idxs] at hx
    obtain ⟨hin, L, R, w, c, g2, rfl, hg2, hw, hcc, hL, hR⟩ :=
      toTree_mem_elim t i (f2 + 1) S hT hSne
    have hfe : g2 = f2 := by omega
    rw [hfe] at hL hR
    rw [BT.idxs] at hnd hx
    have hndL := (List.nodup_append.1 hnd).1
    have hndR := (List.nodup_cons.1 (List.nodup_append.1 hnd).2.1).2
    rw [BT.colorAt]
    by_cases hj : i = x
    · rw [if_pos hj, hcc, hj]
    · rw [if_neg hj]
      by_cases hl : x ∈ L.idxs
      · rw [if_pos hl]
        exact ih _ L hL hndL x hl
      · rw [if_neg hl]
        rcases List.mem_append.1 hx with h2 | h2
        · exact absurd h2 hl
        rcases List.mem_cons.1 h2 with h3 | h3
        · exact absurd h3.symm hj
        · exact ih _ R hR hndR x h3

/-- At the top, `colorAt` is the top colour. -/
theorem BT.colorAt_top (x : Nat) (S : BT V) (h : S.topIdx = some x) :
    BT.colorAt x S = S.topColor := by
  rcases S with _ | ⟨l, j, v, c, r⟩
  · simp [BT.topIdx] at h
  · rw [BT.topIdx] at h
    rw [BT.colorAt, if_pos (Option.some.inj h), BT.topColor]

/-- The full red-red condition implies every exempted form. -/
theorem noRR_le_noRRx (z : Nat) :
    ∀ S : BT V, BT.noRR S = true → BT.noRRx z S = true := by
  intro S
  induction S with
  | tip => intro _; rfl
  | bin l j v c r ihl ihr =>
    intro h
    rw [BT.noRR] at h
    simp only [Bool.and_eq_true, Bool.or_eq_true] at h
    rw [BT.noRRx]
    simp only [Bool.and_eq_true, Bool.or_eq_true]
    refine ⟨⟨ihl h.1.1, ihr h.1.2⟩, ?_⟩
    rcases h.2 with h2 | h2
    · exact Or.inl h2
    · exact Or.inr ⟨Or.inr h2.1, Or.inr h2.2⟩

/-- With the exempted index absent, the exempted condition is the full one. -/
theorem noRRx_not_mem (z : Nat) :
    ∀ S : BT V, z ∉ S.idxs → BT.noRRx z S = BT.noRR S := by
  intro S
  induction S with
  | tip => intro _; rfl
  | bin l j v c r ihl ihr =>
    intro h
    rw [BT.idxs] at h
    have hzl : z ∉ l.idxs := fun hc => h (List.mem_append_left _ hc)
    have hzr : z ∉ r.idxs := fun hc =>
      h (List.mem_append_right _ (List.mem_cons_of_mem _ hc))
    rw [BT.noRRx, BT.noRR, ihl hzl, ihr hzr]
    have htl : (l.topIdx == some z) = false := by
      rcases hlt : l.topIdx with _ | a
      · rfl
      · simp only [beq_eq_false_iff_ne, ne_eq, Option.some.injEq]
        exact fun hc => hzl (hc ▸ BT.topIdx_mem l a hlt)
    have htr : (r.topIdx == some z) = false := by
      rcases hrt : r.topIdx with _ | a
      · rfl
      · simp only [beq_eq_false_iff_ne, ne_eq, Option.some.injEq]
        exact fun hc => hzr (hc ▸ BT.topIdx_mem r a hrt)
    rw [htl, htr]
    simp

/-- With the exempted index at the top, the exempted condition is the full
one. -/
theorem noRRx_top (z : Nat) (S : BT V) (hnd : S.idxs.Nodup)
    (h : S.topIdx = some z) : BT.noRRx z S = BT.noRR S := by
  rcases S with _ | ⟨l, j, v, c, r⟩
  · rfl
  · rw [BT.topIdx] at h
    obtain rfl : z = j := (Option.some.inj h).symm
    rw [BT.idxs] at hnd
    have hzl : z ∉ l.idxs := fun hc =>
      (List.nodup_append.1 hnd).2.2 hc (List.mem_cons_self _ _)
    have hzr : z ∉ r.idxs := (List.nodup_cons.1 (List.nodup_append.1 hnd).2.1).1
    rw [BT.noRRx, BT.noRR, noRRx_not_mem z l hzl, noRRx_not_mem z r hzr]
    have htl : (l.topIdx == some z) = false := by
      rcases hlt : l.topIdx with _ | a
      · rfl
      · simp only [beq_eq_false_iff_ne, ne_eq, Option.some.injEq]
        exact fun hc => hzl (hc ▸ BT.topIdx_mem l a hlt)
    have htr : (r.topIdx == some z) = false := by
      rcases hrt : r.topIdx with _ | a
      · rfl
      · simp only [beq_eq_false_iff_ne, ne_eq, Option.some.injEq]
        exact fun hc => hzr (hc ▸ BT.topIdx_mem r a hrt)
    rw [htl, htr]
    simp

/-- The exempted red-red condition plus the recovered edge condition give the
full one. -/
theorem noRRx_zEdge_noRR (z : Nat) :
    ∀ S : BT V, BT.noRRx z S = true → BT.zEdge z S = true → BT.noRR S = true := by
  intro S
  induction S with
  | tip => intro _ _; rfl
  | bin l j v c r ihl ihr =>
    intro h1 h2
    rw [BT.noRRx] at h1
    rw [BT.zEdge] at h2
    simp only [Bool.and_eq_true, Bool.or_eq_true] at h1 h2
    rw [BT.noRR]
    simp only [Bool.and_eq_true, Bool.or_eq_true]
    refine ⟨⟨ihl h1.1.1 h2.1.1, ihr h1.1.2 h2.1.2⟩, ?_⟩
    rcases h1.2 with hc | hpair
    · exact Or.inl hc
    rcases h2.2 with hc | hpair2
    · exact Or.inl hc
    refine Or.inr ⟨?_, ?_⟩
    · rcases hpair.1 with hz | hb
      · rcases hpair2.1 with hz2 | hb2
        · rw [Bool.not_eq_true', beq_eq_false_iff_ne] at hz2
          exact absurd (by simpa using hz) hz2
        · exact hb2
      · exact hb
    · rcases hpair.2 with hz | hb
      · rcases hpair2.2 with hz2 | hb2
        · rw [Bool.not_eq_true', beq_eq_false_iff_ne] at hz2
          exact absurd (by simpa using hz) hz2
        · exact hb2
      · exact hb

/-- A colour that is not red is black. -/
theorem color_not_red (c : Node_color) (h : c ≠ .Red) : c = .Black := by
  cases c
  · exact absurd rfl h
  · rfl

/-- When the arena parent of `z` is black, the recovered edge condition holds
on any read-off subtree with coherent back-links. -/
theorem zEdge_of_parent_black (t : Rb_tree V) (z : Nat)
    (hblack : (t.mem ((t.mem z).p)).color = .Black) :
    ∀ f i S, toTree t i f = some S → parB t S = true → BT.zEdge z S = true := by
  intro f
  induction f with
  | zero => intro i S h; simp [toTree] at h
  | succ f2 ih =>
    intro i S hT hp
    by_cases hi : i = t.nil
    · obtain rfl : S = .tip := (toTree_tip_iff t i (f2 + 1) S hT).2 hi
      rfl
    have hSne : S ≠ .tip := fun hc => hi ((toTree_tip_iff t i (f2 + 1) S hT).1 hc)
    obtain ⟨_, L, R, w, c, g2, rfl, hg2, hw, hcc, hL, hR⟩ :=
      toTree_mem_elim t i (f2 + 1) S hT hSne
    have hfe : g2 = f2 := by omega
    rw [hfe] at hL hR
    obtain ⟨hoL, hoR, hpL, hpR⟩ := parB_elim t _ i _ _ _ hp
    rw [BT.zEdge]
    simp only [Bool.and_eq_true, Bool.or_eq_true]
    refine ⟨⟨ih _ L hL hpL, ih _ R hR hpR⟩, ?_⟩
    by_cases hcl : (t.mem i).color = .Black
    · left
      rw [hcc, hcl]
      rfl
    right
    constructor
    · rcases hlt : L.topIdx with _ | a
      · left
        simp
      · by_cases hz : a = z
        · subst hz
          have hpa := hoL a hlt
          rw [hpa] at hblack
          exact absurd hblack hcl
        · left
          simp [hz]
    · rcases hrt : R.topIdx with _ | a
      · left
        simp
      · by_cases hz : a = z
        · subst hz
          have hpa := hoR a hrt
          rw [hpa] at hblack
          exact absurd hblack hcl
        · left
          simp [hz]

/-- Dissection of a no-duplicates flattened node. -/
theorem nodup_parts (l : List Nat) (j : Nat) (r : List Nat)
    (h : (l ++ j :: r).Nodup) :
    l.Nodup ∧ r.Nodup ∧ j ∉ l ∧ j ∉ r ∧ ∀ a ∈ l, a ∉ r := by
  obtain ⟨h1, h2, h3⟩ := List.nodup_append.1 h
  obtain ⟨h4, h5⟩ := List.nodup_cons.1 h2
  refine ⟨h1, h5, ?_, h4, ?_⟩
  · exact fun hc => h3 hc (List.mem_cons_self _ _)
  · exact fun a ha hc => h3 ha (List.mem_cons_of_mem _ hc)

/-- `recolor` at the top index sets the top colour. -/
theorem BT.recolor_topColor_eq (a : Nat) (c : Node_color) (S : BT V)
    (h : S.topIdx = some a) : (BT.recolor a c S).topColor = c := by
  rcases S with _ | ⟨l, j, v, cc, r⟩
  · simp [BT.topIdx] at h
  · rw [BT.topIdx] at h
    rw [BT.recolor, BT.topColor, if_pos (Option.some.inj h)]

/-- `recolor` away from the top keeps the top colour. -/
theorem BT.recolor_topColor_ne (a : Nat) (c : Node_color) (S : BT V)
    (h : S.topIdx ≠ some a) : (BT.recolor a c S).topColor = S.topColor := by
  rcases S with _ | ⟨l, j, v, cc, r⟩
  · rfl
  · rw [BT.topIdx] at h
    have hja : ¬ j = a := fun hc => h (by rw [hc])
    rw [BT.recolor, BT.topColor, BT.topColor, if_neg hja]

/-- A surgery whose target is the top applies directly. -/
theorem BT.replace_self (x : Nat) (g : BT V → BT V) (S : BT V)
    (h : S.topIdx = some x) : S.replace x g = g S := by
  rcases S with _ | ⟨l, j, v, c, r⟩
  · simp [BT.topIdx] at h
  · rw [BT.topIdx] at h
    rw [BT.replace, if_pos (Option.some.inj h)]

/-- Two surgeries at the same index compose, provided the first keeps the top
index of its argument. -/
theorem BT.replace_comp (x : Nat) (g1 g2 : BT V → BT V)
    (hg1 : ∀ T : BT V, (g1 T).topIdx = T.topIdx) :
    ∀ S : BT V, (S.replace x g1).replace x g2 = S.replace x (fun T => g2 (g1 T)) := by
  intro S
  induction S with
  | tip => rfl
  | bin l j v c r ihl ihr =>
    by_cases hj : j = x
    · rw [BT.replace, if_pos hj, BT.replace, if_pos hj]
      have htop : (g1 (BT.bin l j v c r)).topIdx = some x := by
        rw [hg1, BT.topIdx, hj]
      rw [BT.replace_self x g2 _ htop]
    · rw [BT.replace, if_neg hj, BT.replace, if_neg hj, BT.replace, if_neg hj,
        ihl, ihr]

/-- A surgery below the top keeps the top colour. -/
theorem BT.replace_topColor (x : Nat) (g : BT V → BT V) (S : BT V)
    (h : S.topIdx ≠ some x) : (S.replace x g).topColor = S.topColor := by
  rcases S with _ | ⟨l, j, v, c, r⟩
  · rfl
  · rw [BT.topIdx] at h
    have hjx : ¬ j = x := fun hc => h (by rw [hc])
    rw [BT.replace, if_neg hjx, BT.topColor, BT.topColor]

/-- Locating the replaced subtree after a surgery that keeps its top index. -/
theorem BT.subAt_replace (g : Nat) (h : BT V → BT V) :
    ∀ S Sg : BT V, S.idxs.Nodup → BT.subAt g S = some Sg →
      (h Sg).topIdx = some g → BT.subAt g (S.replace g h) = some (h Sg) := by
  intro S
  induction S with
  | tip => intro Sg _ hsub; simp [BT.subAt] at hsub
  | bin l j v c r ihl ihr =>
    intro Sg hnd hsub htop
    rw [BT.idxs] at hnd
    obtain ⟨ndl, ndr, hjl, hjr, hdisj⟩ := nodup_parts _ _ _ hnd
    rw [BT.subAt] at hsub
    by_cases hj : j = g
    · rw [if_pos hj] at hsub
      obtain rfl := Option.some.inj hsub
      rw [BT.replace, if_pos hj]
      exact BT.subAt_self g _ htop
    · rw [if_neg hj] at hsub
      rw [BT.replace, if_neg hj, BT.subAt, if_neg hj]
      rcases hla : BT.subAt g l with _ | S1 <;> rw [hla] at hsub
      · simp only [Option.orElse] at hsub
        have hgl : g ∉ l.idxs := fun hc => by
          have := BT.subAt_isSome_of_mem g l hc
          rw [hla] at this
          simp at this
        rw [BT.replace_of_not_mem g h l hgl, hla]
        simp only [Option.orElse]
        exact ihr Sg ndr hsub htop
      · simp only [Option.orElse] at hsub
        obtain rfl := Option.some.inj hsub
        rw [ihl S1 ndl hla htop]
        simp only [Option.orElse]

/-- A global recolour of an index inside the subtree at `g` is a surgery
at `g`. -/
theorem recolor_eq_replace (a : Nat) (c : Node_color) (g : Nat) :
    ∀ S Sg : BT V, S.idxs.Nodup → BT.subAt g S = some Sg → a ∈ Sg.idxs →
      BT.recolor a c S = S.replace g (BT.recolor a c) := by
  intro S
  induction S with
  | tip => intro Sg _ hsub; simp [BT.subAt] at hsub
  | bin l j v cc r ihl ihr =>
    intro Sg hnd hsub ha
    rw [BT.idxs] at hnd
    obtain ⟨ndl, ndr, hjl, hjr, hdisj⟩ := nodup_parts _ _ _ hnd
    rw [BT.subAt] at hsub
    by_cases hj : j = g
    · rw [if_pos hj] at hsub
      obtain rfl := Option.some.inj hsub
      rw [BT.replace, if_pos hj]
    · rw [if_neg hj] at hsub
      rw [BT.replace, if_neg hj, BT.recolor]
      rcases hla : BT.subAt g l with _ | S1 <;> rw [hla] at hsub
      · simp only [Option.orElse] at hsub
        have hgl : g ∉ l.idxs := fun hc => by
          have := BT.subAt_isSome_of_mem g l hc
          rw [hla] at this
          simp at this
        have har : a ∈ r.idxs := (BT.subAt_sublist g r Sg hsub).subset ha
        have hal : a ∉ l.idxs := fun hc => hdisj a hc har
        have hja : ¬ j = a := fun hc => hjr (hc ▸ har)
        rw [BT.recolor_not_mem a c l hal, BT.replace_of_not_mem g _ l hgl,
          if_neg hja, ihr Sg ndr hsub ha]
      · simp only [Option.orElse] at hsub
        obtain rfl := Option.some.inj hsub
        have hgr : g ∉ r.idxs := by
          intro hc
          have hgl : g ∈ l.idxs := BT.subAt_mem g l S1 hla
          exact hdisj g hgl hc
        have hal : a ∈ l.idxs := (BT.subAt_sublist g l S1 hla).subset ha
        have hja : ¬ j = a := fun hc => hjl (hc ▸ hal)
        have har : a ∉ r.idxs := hdisj a hal
        rw [BT.recolor_not_mem a c r har, BT.replace_of_not_mem g _ r hgr,
          if_neg hja, ihl S1 ndl hla ha]

/-- A surgery at an index inside the subtree at `g` is a surgery at `g`. -/
theorem BT.replace_inner (p g : Nat) (h : BT V → BT V) :
    ∀ S Sg : BT V, S.idxs.Nodup → BT.subAt g S = some Sg → p ∈ Sg.idxs →
      S.replace p h = S.replace g (BT.replace p h) := by
  intro S
  induction S with
  | tip => intro Sg _ hsub; simp [BT.subAt] at hsub
  | bin l j v cc r ihl ihr =>
    intro Sg hnd hsub hp
    rw [BT.idxs] at hnd
    obtain ⟨ndl, ndr, hjl, hjr, hdisj⟩ := nodup_parts _ _ _ hnd
    rw [BT.subAt] at hsub
    by_cases hj : j = g
    · rw [if_pos hj] at hsub
      obtain rfl := Option.some.inj hsub
      conv_rhs => rw [BT.replace, if_pos hj]
    · rw [if_neg hj] at hsub
      conv_lhs => rw [BT.replace]
      conv_rhs => rw [BT.replace, if_neg hj]
      rcases hla : BT.subAt g l with _ | S1 <;> rw [hla] at hsub
      · simp only [Option.orElse] at hsub
        have hgl : g ∉ l.idxs := fun hc => by
          have := BT.subAt_isSome_of_mem g l hc
          rw [hla] at this
          simp at this
        have hpr : p ∈ r.idxs := (BT.subAt_sublist g r Sg hsub).subset hp
        have hpl : p ∉ l.idxs := fun hc => hdisj p hc hpr
        have hjp : ¬ j = p := fun hc => hjr (hc ▸ hpr)
        rw [if_neg hjp, BT.replace_of_not_mem p h l hpl,
          BT.replace_of_not_mem g _ l hgl, ihr Sg ndr hsub hp]
      · simp only [Option.orElse] at hsub
        obtain rfl := Option.some.inj hsub
        have hgr : g ∉ r.idxs := by
          intro hc
          have hgl : g ∈ l.idxs := BT.subAt_mem g l S1 hla
          exact hdisj g hgl hc
        have hpl : p ∈ l.idxs := (BT.subAt_sublist g l S1 hla).subset hp
        have hjp : ¬ j = p := fun hc => hjl (hc ▸ hpl)
        have hpr : p ∉ r.idxs := hdisj p hpl
        rw [if_neg hjp, BT.replace_of_not_mem p h r hpr,
          BT.replace_of_not_mem g _ r hgr, ihl S1 ndl hla hp]

/-- A defined black height at a node forces equal defined heights below. -/
theorem bh_bin_elim (l : BT V) (j : Nat) (v : V) (c : Node_color) (r : BT V)
    (h : (BT.bh (.bin l j v c r)).isSome = true) :
    ∃ a, BT.bh l = some a ∧ BT.bh r = some a := by
  rw [BT.bh] at h
  rcases hbl : BT.bh l with _ | a <;> rw [hbl] at h
  · simp at h
  rcases hbr : BT.bh r with _ | b <;> rw [hbr] at h
  · simp at h
  by_cases hab : a = b
  · exact ⟨a, rfl, by rw [hab]⟩
  · simp [hab] at h

/-- A defined black height restricts to every located subtree. -/
theorem bh_subAt (x : Nat) :
    ∀ S Sg : BT V, BT.subAt x S = some Sg → (BT.bh S).isSome = true →
      (BT.bh Sg).isSome = true := by
  intro S
  induction S with
  | tip => intro Sg hsub; simp [BT.subAt] at hsub
  | bin l j v c r ihl ihr =>
    intro Sg hsub hb
    obtain ⟨a, hbl, hbr⟩ := bh_bin_elim l j v c r hb
    rw [BT.subAt] at hsub
    by_cases hj : j = x
    · rw [if_pos hj] at hsub
      obtain rfl := Option.some.inj hsub
      exact hb
    · rw [if_neg hj] at hsub
      rcases hla : BT.subAt x l with _ | S1 <;> rw [hla] at hsub
      · simp only [Option.orElse] at hsub
        exact ihr Sg hsub (by rw [hbr]; rfl)
      · simp only [Option.orElse] at hsub
        obtain rfl := Option.some.inj hsub
        exact ihl S1 hla (by rw [hbl]; rfl)

/-- A surgery that keeps the local black height keeps the global one. -/
theorem bh_replace_local (x : Nat) (h : BT V → BT V) :
    ∀ S Sg : BT V, S.idxs.Nodup → BT.subAt x S = some Sg →
      BT.bh (h Sg) = BT.bh Sg → BT.bh (S.replace x h) = BT.bh S := by
  intro S
  induction S with
  | tip => intro Sg _ hsub; simp [BT.subAt] at hsub
  | bin l j v c r ihl ihr =>
    intro Sg hnd hsub hbh
    rw [BT.idxs] at hnd
    obtain ⟨ndl, ndr, hjl, hjr, hdisj⟩ := nodup_parts _ _ _ hnd
    rw [BT.subAt] at hsub
    by_cases hj : j = x
    · rw [if_pos hj] at hsub
      obtain rfl := Option.some.inj hsub
      rw [BT.replace_self x h _ (by rw [BT.topIdx, hj])]
      exact hbh
    · rw [if_neg hj] at hsub
      have hrepl : BT.replace x h (BT.bin l j v c r) =
          BT.bin (BT.replace x h l) j v c (BT.replace x h r) := by
        rw [BT.replace, if_neg hj]
      rcases hla : BT.subAt x l with _ | S1 <;> rw [hla] at hsub
      · simp only [Option.orElse] at hsub
        have hgl : x ∉ l.idxs := fun hc => by
          have := BT.subAt_isSome_of_mem x l hc
          rw [hla] at this
          simp at this
        rw [hrepl, BT.replace_of_not_mem x h l hgl, BT.bh, BT.bh,
          ihr Sg ndr hsub hbh]
      · simp only [Option.orElse] at hsub
        obtain rfl := Option.some.inj hsub
        have hgr : x ∉ r.idxs := fun hc =>
          hdisj x (BT.subAt_mem x l S1 hla) hc
        rw [hrepl, BT.replace_of_not_mem x h r hgr, BT.bh, BT.bh,
          ihl S1 ndl hla hbh]

/-- The full red-red condition restricts to every located subtree. -/
theorem noRR_subAt (x : Nat) :
    ∀ S Sg : BT V, BT.subAt x S = some Sg → BT.noRR S = true →
      BT.noRR Sg = true := by
  intro S
  induction S with
  | tip => intro Sg hsub; simp [BT.subAt] at hsub
  | bin l j v c r ihl ihr =>
    intro Sg hsub hno
    rw [BT.noRR] at hno
    simp only [Bool.and_eq_true] at hno
    rw [BT.subAt] at hsub
    by_cases hj : j = x
    · rw [if_pos hj] at hsub
      obtain rfl := Option.some.inj hsub
      rw [BT.noRR]
      simp only [Bool.and_eq_true]
      exact hno
    · rw [if_neg hj] at hsub
      rcases hla : BT.subAt x l with _ | S1 <;> rw [hla] at hsub
      · simp only [Option.orElse] at hsub
        exact ihr Sg hsub hno.1.2
      · simp only [Option.orElse] at hsub
        obtain rfl := Option.some.inj hsub
        exact ihl S1 hla hno.1.1

/-- The exempted red-red condition restricts to every located subtree. -/
theorem noRRx_subAt (z x : Nat) :
    ∀ S Sg : BT V, BT.subAt x S = some Sg → BT.noRRx z S = true →
      BT.noRRx z Sg = true := by
  intro S
  induction S with
  | tip => intro Sg hsub; simp [BT.subAt] at hsub
  | bin l j v c r ihl ihr =>
    intro Sg hsub hno
    rw [BT.noRRx] at hno
    simp only [Bool.and_eq_true] at hno
    rw [BT.subAt] at hsub
    by_cases hj : j = x
    · rw [if_pos hj] at hsub
      obtain rfl := Option.some.inj hsub
      rw [BT.noRRx]
      simp only [Bool.and_eq_true]
      exact hno
    · rw [if_neg hj] at hsub
      rcases hla : BT.subAt x l with _ | S1 <;> rw [hla] at hsub
      · simp only [Option.orElse] at hsub
        exact ihr Sg hsub hno.1.2
      · simp only [Option.orElse] at hsub
        obtain rfl := Option.some.inj hsub
        exact ihl S1 hla hno.1.1

/-- The top index of a subtree avoiding `z` never reads `z`. -/
theorem topIdx_ne_of_notin (S : BT V) (z : Nat) (hz : z ∉ S.idxs) :
    (S.topIdx == some z) = false := by
  rcases ht : S.topIdx with _ | a
  · rfl
  · simp only [beq_eq_false_iff_ne, ne_eq, Option.some.injEq]
    exact fun hc => hz (hc ▸ BT.topIdx_mem S a ht)

/-- A surgery at `g` that locally satisfies the `g`-exempted red-red condition
and keeps `g` on top turns a `z`-exempted tree (with `z` inside the replaced
subtree) into a `g`-exempted tree. -/
theorem noRRx_replace_exempt (z g : Nat) (h : BT V → BT V) :
    ∀ S Sg : BT V, S.idxs.Nodup → BT.subAt g S = some Sg → z ∈ Sg.idxs →
      BT.noRRx z S = true → (h Sg).topIdx = some g →
      BT.noRRx g (h Sg) = true → BT.noRRx g (S.replace g h) = true := by
  intro S
  induction S with
  | tip => intro Sg _ hsub; simp [BT.subAt] at hsub
  | bin l j v c r ihl ihr =>
    intro Sg hnd hsub hz hno htop hloc
    rw [BT.idxs] at hnd
    obtain ⟨ndl, ndr, hjl, hjr, hdisj⟩ := nodup_parts _ _ _ hnd
    rw [BT.subAt] at hsub
    rw [BT.noRRx] at hno
    simp only [Bool.and_eq_true, Bool.or_eq_true] at hno
    obtain ⟨⟨hnl, hnr⟩, hedge⟩ := hno
    by_cases hj : j = g
    · rw [if_pos hj] at hsub
      obtain rfl := Option.some.inj hsub
      rw [BT.replace_self g h _ (by rw [BT.topIdx, hj])]
      exact hloc
    · rw [if_neg hj] at hsub
      have hrepl : BT.replace g h (BT.bin l j v c r) =
          BT.bin (BT.replace g h l) j v c (BT.replace g h r) := by
        rw [BT.replace, if_neg hj]
      rcases hla : BT.subAt g l with _ | S1 <;> rw [hla] at hsub
      · simp only [Option.orElse] at hsub
        have hgl : g ∉ l.idxs := fun hc => by
          have := BT.subAt_isSome_of_mem g l hc
          rw [hla] at this
          simp at this
        have hzr : z ∈ r.idxs := (BT.subAt_sublist g r Sg hsub).subset hz
        have hzl : z ∉ l.idxs := fun hc => hdisj z hc hzr
        rw [hrepl, BT.replace_of_not_mem g h l hgl, BT.noRRx]
        simp only [Bool.and_eq_true, Bool.or_eq_true]
        refine ⟨⟨?_, ihr Sg ndr hsub hz hnr htop hloc⟩, ?_⟩
        · rw [noRRx_not_mem g l hgl, ← noRRx_not_mem z l hzl]
          exact hnl
        rcases hedge with hc | ⟨hle, hre⟩
        · exact Or.inl hc
        refine Or.inr ⟨?_, ?_⟩
        · rcases hle with hlz | hlb
          · rw [topIdx_ne_of_notin l z hzl] at hlz
            exact absurd hlz (by simp)
          · exact Or.inr hlb
        · by_cases hrt : r.topIdx = some g
          · left
            rw [BT.subAt_self g r hrt] at hsub
            have hSgr : r = Sg := Option.some.inj hsub
            have : (BT.replace g h r).topIdx = some g := by
              rw [BT.replace_self g h r hrt, hSgr]
              exact htop
            simp [this]
          · rcases hre with hrz | hrb
            · exfalso
              rw [beq_iff_eq] at hrz
              exact BT.subAt_top_notin g r Sg ndr hrt hsub z hrz hz
            · right
              rw [BT.replace_topColor g h r hrt]
              exact hrb
      · simp only [Option.orElse] at hsub
        obtain rfl := Option.some.inj hsub
        have hgr : g ∉ r.idxs := fun hc =>
          hdisj g (BT.subAt_mem g l S1 hla) hc
        have hzl : z ∈ l.idxs := (BT.subAt_sublist g l S1 hla).subset hz
        have hzr : z ∉ r.idxs := hdisj z hzl
        rw [hrepl, BT.replace_of_not_mem g h r hgr, BT.noRRx]
        simp only [Bool.and_eq_true, Bool.or_eq_true]
        refine ⟨⟨ihl S1 ndl hla hz hnl htop hloc, ?_⟩, ?_⟩
        · rw [noRRx_not_mem g r hgr, ← noRRx_not_mem z r hzr]
          exact hnr
        rcases hedge with hc | ⟨hle, hre⟩
        · exact Or.inl hc
        refine Or.inr ⟨?_, ?_⟩
        · by_cases hlt : l.topIdx = some g
          · left
            rw [BT.subAt_self g l hlt] at hla
            have hSgl : l = S1 := Option.some.inj hla
            have : (BT.replace g h l).topIdx = some g := by
              rw [BT.replace_self g h l hlt, hSgl]
              exact htop
            simp [this]
          · rcases hle with hlz | hlb
            · exfalso
              rw [beq_iff_eq] at hlz
              exact BT.subAt_top_notin g l S1 ndl hlt hla z hlz hz
            · right
              rw [BT.replace_topColor g h l hlt]
              exact hlb
        · rcases hre with hrz | hrb
          · rw [topIdx_ne_of_notin r z hzr] at hrz
            exact absurd hrz (by simp)
          · exact Or.inr hrb

/-- A surgery at `g` that locally restores the full red-red condition with a
black top turns a `z`-exempted tree (with `z` inside the replaced subtree)
into one satisfying the full condition. -/
theorem noRR_replace_black (z g : Nat) (h : BT V → BT V) :
    ∀ S Sg : BT V, S.idxs.Nodup → BT.subAt g S = some Sg → z ∈ Sg.idxs →
      BT.noRRx z S = true → (h Sg).topColor = .Black →
      BT.noRR (h Sg) = true → BT.noRR (S.replace g h) = true := by
  intro S
  induction S with
  | tip => intro Sg _ hsub; simp [BT.subAt] at hsub
  | bin l j v c r ihl ihr =>
    intro Sg hnd hsub hz hno htc hloc
    rw [BT.idxs] at hnd
    obtain ⟨ndl, ndr, hjl, hjr, hdisj⟩ := nodup_parts _ _ _ hnd
    rw [BT.subAt] at hsub
    rw [BT.noRRx] at hno
    simp only [Bool.and_eq_true, Bool.or_eq_true] at hno
    obtain ⟨⟨hnl, hnr⟩, hedge⟩ := hno
    by_cases hj : j = g
    · rw [if_pos hj] at hsub
      obtain rfl := Option.some.inj hsub
      rw [BT.replace_self g h _ (by rw [BT.topIdx, hj])]
      exact hloc
    · rw [if_neg hj] at hsub
      have hrepl : BT.replace g h (BT.bin l j v c r) =
          BT.bin (BT.replace g h l) j v c (BT.replace g h r) := by
        rw [BT.replace, if_neg hj]
      rcases hla : BT.subAt g l with _ | S1 <;> rw [hla] at hsub
      · simp only [Option.orElse] at hsub
        have hgl : g ∉ l.idxs := fun hc => by
          have := BT.subAt_isSome_of_mem g l hc
          rw [hla] at this
          simp at this
        have hzr : z ∈ r.idxs := (BT.subAt_sublist g r Sg hsub).subset hz
        have hzl : z ∉ l.idxs := fun hc => hdisj z hc hzr
        rw [hrepl, BT.replace_of_not_mem g h l hgl, BT.noRR]
        simp only [Bool.and_eq_true, Bool.or_eq_true]
        refine ⟨⟨?_, ihr Sg ndr hsub hz hnr htc hloc⟩, ?_⟩
        · rw [← noRRx_not_mem z l hzl]
          exact hnl
        rcases hedge with hc | ⟨hle, hre⟩
        · exact Or.inl hc
        refine Or.inr ⟨?_, ?_⟩
        · rcases hle with hlz | hlb
          · rw [topIdx_ne_of_notin l z hzl] at hlz
            exact absurd hlz (by simp)
          · exact hlb
        · by_cases hrt : r.topIdx = some g
          · rw [BT.subAt_self g r hrt] at hsub
            have hSgr : r = Sg := Option.some.inj hsub
            have : (BT.replace g h r).topColor = .Black := by
              rw [BT.replace_self g h r hrt, hSgr]
              exact htc
            simp [this]
          · rcases hre with hrz | hrb
            · exfalso
              rw [beq_iff_eq] at hrz
              exact BT.subAt_top_notin g r Sg ndr hrt hsub z hrz hz
            · rw [BT.replace_topColor g h r hrt]
              exact hrb
      · simp only [Option.orElse] at hsub
        obtain rfl := Option.some.inj hsub
        have hgr : g ∉ r.idxs := fun hc =>
          hdisj g (BT.subAt_mem g l S1 hla) hc
        have hzl : z ∈ l.idxs := (BT.subAt_sublist g l S1 hla).subset hz
        have hzr : z ∉ r.idxs := hdisj z hzl
        rw [hrepl, BT.replace_of_not_mem g h r hgr, BT.noRR]
        simp only [Bool.and_eq_true, Bool.or_eq_true]
        refine ⟨⟨ihl S1 ndl hla hz hnl htc hloc, ?_⟩, ?_⟩
        · rw [← noRRx_not_mem z r hzr]
          exact hnr
        rcases hedge with hc | ⟨hle, hre⟩
        · exact Or.inl hc
        refine Or.inr ⟨?_, ?_⟩
        · by_cases hlt : l.topIdx = some g
          · rw [BT.subAt_self g l hlt] at hla
            have hSgl : l = S1 := Option.some.inj hla
            have : (BT.replace g h l).topColor = .Black := by
              rw [BT.replace_self g h l hlt, hSgl]
              exact htc
            simp [this]
          · rcases hle with hlz | hlb
            · exfalso
              rw [beq_iff_eq] at hlz
              exact BT.subAt_top_notin g l S1 ndl hlt hla z hlz hz
            · rw [BT.replace_topColor g h l hlt]
              exact hlb
        · rcases hre with hrz | hrb
          · rw [topIdx_ne_of_notin r z hzr] at hrz
            exact absurd hrz (by simp)
          · exact hrb

/-- Members sit at positive depth. -/
theorem BT.depthOf_pos (x : Nat) :
    ∀ S : BT V, x ∈ S.idxs → 0 < BT.depthOf x S := by
  intro S
  induction S with
  | tip => intro h; simp [BT.idxs] at h
  | bin l j v c r ihl ihr =>
    intro _
    rw [BT.depthOf]
    split
    · omega
    split <;> omega

/-- The top sits at depth one. -/
theorem BT.depthOf_top (x : Nat) (S : BT V) (h : S.topIdx = some x) :
    BT.depthOf x S = 1 := by
  rcases S with _ | ⟨l, j, v, c, r⟩
  · simp [BT.topIdx] at h
  · rw [BT.topIdx] at h
    rw [BT.depthOf, if_pos (Option.some.inj h)]

/-- A strict member of the subtree at `g` sits strictly deeper than `g`. -/
theorem BT.depthOf_lt (g x : Nat) :
    ∀ S Sg : BT V, S.idxs.Nodup → BT.subAt g S = some Sg → x ∈ Sg.idxs →
      x ≠ g → BT.depthOf g S < BT.depthOf x S := by
  intro S
  induction S with
  | tip => intro Sg _ hsub; simp [BT.subAt] at hsub
  | bin l j v c r ihl ihr =>
    intro Sg hnd hsub hx hxg
    rw [BT.idxs] at hnd
    obtain ⟨ndl, ndr, hjl, hjr, hdisj⟩ := nodup_parts _ _ _ hnd
    rw [BT.subAt] at hsub
    by_cases hj : j = g
    · rw [if_pos hj] at hsub
      obtain rfl := Option.some.inj hsub
      rw [BT.depthOf, if_pos hj, BT.depthOf,
        if_neg (fun hc : j = x => hxg (by rw [← hc, hj]))]
      rw [BT.idxs] at hx
      by_cases hxl : x ∈ l.idxs
      · rw [if_pos hxl]
        have := BT.depthOf_pos x l hxl
        omega
      · rw [if_neg hxl]
        have hxr : x ∈ r.idxs := by
          rcases List.mem_append.1 hx with h2 | h2
          · exact absurd h2 hxl
          rcases List.mem_cons.1 h2 with h3 | h3
          · exact absurd (by rw [h3, ← hj]) hxg
          · exact h3
        have := BT.depthOf_pos x r hxr
        omega
    · rw [if_neg hj] at hsub
      rcases hla : BT.subAt g l with _ | S1 <;> rw [hla] at hsub
      · simp only [Option.orElse] at hsub
        have hgl : g ∉ l.idxs := fun hc => by
          have := BT.subAt_isSome_of_mem g l hc
          rw [hla] at this
          simp at this
        have hgr : g ∈ r.idxs := BT.subAt_mem g r Sg hsub
        have hxr : x ∈ r.idxs := (BT.subAt_sublist g r Sg hsub).subset hx
        have hxl : x ∉ l.idxs := fun hc => hdisj x hc hxr
        rw [BT.depthOf, if_neg hj, if_neg hgl, BT.depthOf,
          if_neg (fun hc : j = x => hjr (hc ▸ hxr)), if_neg hxl]
        have := ihr Sg ndr hsub hx hxg
        omega
      · simp only [Option.orElse] at hsub
        obtain rfl := Option.some.inj hsub
        have hgl : g ∈ l.idxs := BT.subAt_mem g l S1 hla
        have hxl : x ∈ l.idxs := (BT.subAt_sublist g l S1 hla).subset hx
        rw [BT.depthOf, if_neg hj, if_pos hgl, BT.depthOf,
          if_neg (fun hc : j = x => hjl (hc ▸ hxl)), if_pos hxl]
        have := ihl S1 ndl hla hx hxg
        omega

/-- Depth of the surgery index is unchanged by a surgery keeping index sets
and the hit top. -/
theorem BT.depthOf_replace (x : Nat) (h : BT V → BT V)
    (hg : ∀ T : BT V, (h T).idxs = T.idxs)
    (htop : ∀ T : BT V, T.topIdx = some x → (h T).topIdx = some x) :
    ∀ S : BT V, BT.depthOf x (S.replace x h) = BT.depthOf x S := by
  intro S
  induction S with
  | tip => rfl
  | bin l j v c r ihl ihr =>
    by_cases hj : j = x
    · have htj : (BT.bin l j v c r).topIdx = some x := by rw [BT.topIdx, hj]
      rw [BT.replace_self x h _ htj, BT.depthOf_top x _ (htop _ htj),
        BT.depthOf_top x _ htj]
    · have hrepl : BT.replace x h (BT.bin l j v c r) =
          BT.bin (BT.replace x h l) j v c (BT.replace x h r) := by
        rw [BT.replace, if_neg hj]
      rw [hrepl, BT.depthOf, if_neg hj, BT.depthOf, if_neg hj,
        BT.replace_idxs x h hg l]
      by_cases hxl : x ∈ l.idxs
      · rw [if_pos hxl, if_pos hxl, ihl]
      · rw [if_neg hxl, if_neg hxl, ihr]

/-- `subAt` misses absent indices. -/
theorem BT.subAt_none_of_notin (x : Nat) (S : BT V) (hx : x ∉ S.idxs) :
    BT.subAt x S = none := by
  rcases h : BT.subAt x S with _ | S1
  · rfl
  · exact absurd (BT.subAt_mem x S S1 h) hx

/-- The back-link check restricts to every located subtree. -/
theorem parB_subAt (t : Rb_tree V) (x : Nat) :
    ∀ S Sx : BT V, parB t S = true → BT.subAt x S = some Sx →
      parB t Sx = true := by
  intro S
  induction S with
  | tip => intro Sx _ hsub; simp [BT.subAt] at hsub
  | bin l j v c r ihl ihr =>
    intro Sx hp hsub
    obtain ⟨_, _, hpL, hpR⟩ := parB_elim t l j v c r hp
    rw [BT.subAt] at hsub
    by_cases hj : j = x
    · rw [if_pos hj] at hsub
      obtain rfl := Option.some.inj hsub
      exact hp
    · rw [if_neg hj] at hsub
      rcases hla : BT.subAt x l with _ | S1 <;> rw [hla] at hsub
      · simp only [Option.orElse] at hsub
        exact ihr Sx hpR hsub
      · simp only [Option.orElse] at hsub
        obtain rfl := Option.some.inj hsub
        exact ihl S1 hpL hla

/-- The colour at an index is the top colour of the located subtree. -/
theorem colorAt_subAt (x : Nat) :
    ∀ S Sx : BT V, BT.subAt x S = some Sx → BT.colorAt x S = Sx.topColor := by
  intro S
  induction S with
  | tip => intro Sx hsub; simp [BT.subAt] at hsub
  | bin l j v c r ihl ihr =>
    intro Sx hsub
    rw [BT.subAt] at hsub
    rw [BT.colorAt]
    by_cases hj : j = x
    · rw [if_pos hj] at hsub
      obtain rfl := Option.some.inj hsub
      rw [if_pos hj, BT.topColor]
    · rw [if_neg hj] at hsub
      rw [if_neg hj]
      rcases hla : BT.subAt x l with _ | S1 <;> rw [hla] at hsub
      · simp only [Option.orElse] at hsub
        have hxl : x ∉ l.idxs := fun hc => by
          have := BT.subAt_isSome_of_mem x l hc
          rw [hla] at this
          simp at this
        rw [if_neg hxl]
        exact ihr Sx hsub
      · simp only [Option.orElse] at hsub
        obtain rfl := Option.some.inj hsub
        rw [if_pos (BT.subAt_mem x l S1 hla)]
        exact ihl S1 hla

/-- Every non-top member has a located parent node, one of whose children is
exactly the located subtree at the member. -/
theorem parent_ctx (z : Nat) :
    ∀ G : BT V, G.idxs.Nodup → z ∈ G.idxs → G.topIdx ≠ some z →
      ∃ p vp cp A B, BT.subAt p G = some (.bin A p vp cp B) ∧
        ((A.topIdx = some z ∧ BT.subAt z G = some A) ∨
         (B.topIdx = some z ∧ BT.subAt z G = some B)) := by
  intro G
  induction G with
  | tip => intro _ hz; simp [BT.idxs] at hz
  | bin l j v c r ihl ihr =>
    intro hnd hz htop
    rw [BT.idxs] at hnd
    obtain ⟨ndl, ndr, hjl, hjr, hdisj⟩ := nodup_parts _ _ _ hnd
    have hjz : ¬ j = z := fun hc => htop (by rw [BT.topIdx, hc])
    rw [BT.idxs] at hz
    by_cases hzl : z ∈ l.idxs
    · by_cases hlt : l.topIdx = some z
      · refine ⟨j, v, c, l, r, BT.subAt_self j _ rfl, Or.inl ⟨hlt, ?_⟩⟩
        rw [BT.subAt, if_neg hjz, BT.subAt_self z l hlt]
        rfl
      · obtain ⟨p, vp, cp, A, B, hsubp, hside⟩ := ihl ndl hzl hlt
        have hpl : p ∈ l.idxs := BT.subAt_mem p l _ hsubp
        have hjp : ¬ j = p := fun hc => hjl (hc ▸ hpl)
        refine ⟨p, vp, cp, A, B, ?_, ?_⟩
        · rw [BT.subAt, if_neg hjp, hsubp]
          rfl
        · rcases hside with ⟨h1, h2⟩ | ⟨h1, h2⟩
          · refine Or.inl ⟨h1, ?_⟩
            rw [BT.subAt, if_neg hjz, h2]
            rfl
          · refine Or.inr ⟨h1, ?_⟩
            rw [BT.subAt, if_neg hjz, h2]
            rfl
    · have hzr : z ∈ r.idxs := by
        rcases List.mem_append.1 hz with h2 | h2
        · exact absurd h2 hzl
        rcases List.mem_cons.1 h2 with h3 | h3
        · exact absurd h3.symm hjz
        · exact h3
      by_cases hrt : r.topIdx = some z
      · refine ⟨j, v, c, l, r, BT.subAt_self j _ rfl, Or.inr ⟨hrt, ?_⟩⟩
        rw [BT.subAt, if_neg hjz, BT.subAt_none_of_notin z l hzl,
          BT.subAt_self z r hrt]
        rfl
      · obtain ⟨p, vp, cp, A, B, hsubp, hside⟩ := ihr ndr hzr hrt
        have hpr : p ∈ r.idxs := BT.subAt_mem p r _ hsubp
        have hjp : ¬ j = p := fun hc => hjr (hc ▸ hpr)
        have hpl : p ∉ l.idxs := fun hc => hdisj p hc hpr
        refine ⟨p, vp, cp, A, B, ?_, ?_⟩
        · rw [BT.subAt, if_neg hjp, BT.subAt_none_of_notin p l hpl, hsubp]
          rfl
        · rcases hside with ⟨h1, h2⟩ | ⟨h1, h2⟩
          · refine Or.inl ⟨h1, ?_⟩
            rw [BT.subAt, if_neg hjz, BT.subAt_none_of_notin z l hzl, h2]
            rfl
          · refine Or.inr ⟨h1, ?_⟩
            rw [BT.subAt, if_neg hjz, BT.subAt_none_of_notin z l hzl, h2]
            rfl

/-- Depth is bounded by the number of nodes. -/
theorem BT.depthOf_le (x : Nat) :
    ∀ S : BT V, BT.depthOf x S ≤ S.idxs.length := by
  intro S
  induction S with
  | tip => exact Nat.le_refl _
  | bin l j v c r ihl ihr =>
    rw [BT.depthOf, BT.idxs]
    simp only [List.length_append, List.length_cons]
    split
    · omega
    split <;> omega

/-- `bstAdd` never changes the black-height certificate: the new node is red
and replaces a sentinel leaf. -/
theorem bstAdd_bh (kov : V → Int) (key : Int) (n : Nat) (value : V) :
    ∀ G : BT V, BT.bh (bstAdd kov key n value G) = BT.bh G := by
  intro G
  induction G with
  | tip => rfl
  | bin l j w c r ihl ihr =>
    rw [bstAdd]
    by_cases hc : key < kov w
    · rw [if_pos hc, BT.bh, BT.bh, ihl]
    · rw [if_neg hc, BT.bh, BT.bh, ihr]

/-- `bstAdd` into a nonempty tree keeps the top colour. -/
theorem bstAdd_topColor (kov : V → Int) (key : Int) (n : Nat) (value : V)
    (G : BT V) (h : G ≠ .tip) :
    (bstAdd kov key n value G).topColor = G.topColor := by
  rcases G with _ | ⟨l, j, w, c, r⟩
  · exact absurd rfl h
  · rw [bstAdd]
    by_cases hc : key < kov w
    · rw [if_pos hc, BT.topColor, BT.topColor]
    · rw [if_neg hc, BT.topColor, BT.topColor]

/-- The tree after `bstAdd` of a fresh index satisfies the red-red condition
exempted at the new node. -/
theorem bstAdd_noRRx (kov : V → Int) (key : Int) (n : Nat) (value : V) :
    ∀ G : BT V, BT.noRR G = true → n ∉ G.idxs →
      BT.noRRx n (bstAdd kov key n value G) = true := by
  intro G
  induction G with
  | tip => intro _ _; rfl
  | bin l j w c r ihl ihr =>
    intro hno hn
    rw [BT.idxs] at hn
    have hnl : n ∉ l.idxs := fun hc => hn (List.mem_append_left _ hc)
    have hnr : n ∉ r.idxs := fun hc =>
      hn (List.mem_append_right _ (List.mem_cons_of_mem _ hc))
    rw [BT.noRR] at hno
    simp only [Bool.and_eq_true, Bool.or_eq_true] at hno
    obtain ⟨⟨hl2, hr2⟩, hedge⟩ := hno
    rw [bstAdd]
    by_cases hcnd : key < kov w
    · rw [if_pos hcnd, BT.noRRx]
      simp only [Bool.and_eq_true, Bool.or_eq_true]
      refine ⟨⟨ihl hl2 hnl, ?_⟩, ?_⟩
      · rw [noRRx_not_mem n r hnr]
        exact hr2
      rcases hedge with hcb | ⟨hlc, hrc⟩
      · exact Or.inl hcb
      refine Or.inr ⟨?_, Or.inr hrc⟩
      rcases hlt : l with _ | ⟨a, b, cvv, d, e⟩
      · left
        rw [bstAdd, BT.topIdx]
        simp
      · right
        rw [bstAdd_topColor kov key n value _ (by simp)]
        rw [hlt] at hlc
        exact hlc
    · rw [if_neg hcnd, BT.noRRx]
      simp only [Bool.and_eq_true, Bool.or_eq_true]
      refine ⟨⟨?_, ihr hr2 hnr⟩, ?_⟩
      · rw [noRRx_not_mem n l hnl]
        exact hl2
      rcases hedge with hcb | ⟨hlc, hrc⟩
      · exact Or.inl hcb
      refine Or.inr ⟨Or.inr hlc, ?_⟩
      rcases hrt : r with _ | ⟨a, b, cvv, d, e⟩
      · left
        rw [bstAdd, BT.topIdx]
        simp
      · right
        rw [bstAdd_topColor kov key n value _ (by simp)]
        rw [hrt] at hrc
        exact hrc

/-- Recolouring any node black preserves the full red-red condition. -/
theorem noRR_recolor_black (a : Nat) :
    ∀ S : BT V, BT.noRR S = true → BT.noRR (BT.recolor a .Black S) = true := by
  intro S
  induction S with
  | tip => intro _; rfl
  | bin l j v c r ihl ihr =>
    intro hno
    rw [BT.noRR] at hno
    simp only [Bool.and_eq_true, Bool.or_eq_true] at hno
    obtain ⟨⟨hl2, hr2⟩, hedge⟩ := hno
    rw [BT.recolor, BT.noRR]
    simp only [Bool.and_eq_true, Bool.or_eq_true]
    refine ⟨⟨ihl hl2, ihr hr2⟩, ?_⟩
    by_cases hja : j = a
    · left
      rw [if_pos hja]
      rfl
    rw [if_neg hja]
    rcases hedge with hcb | ⟨hlc, hrc⟩
    · exact Or.inl hcb
    refine Or.inr ⟨?_, ?_⟩
    · by_cases hlt : l.topIdx = some a
      · rw [BT.recolor_topColor_eq a .Black l hlt]
        rfl
      · rw [BT.recolor_topColor_ne a .Black l hlt]
        exact hlc
    · by_cases hrt : r.topIdx = some a
      · rw [BT.recolor_topColor_eq a .Black r hrt]
        rfl
      · rw [BT.recolor_topColor_ne a .Black r hrt]
        exact hrc

/-- Recolouring any node black preserves the exempted red-red condition. -/
theorem noRRx_recolor_black (z a : Nat) :
    ∀ S : BT V, BT.noRRx z S = true → BT.noRRx z (BT.recolor a .Black S) = true := by
  intro S
  induction S with
  | tip => intro _; rfl
  | bin l j v c r ihl ihr =>
    intro hno
    rw [BT.noRRx] at hno
    simp only [Bool.and_eq_true, Bool.or_eq_true] at hno
    obtain ⟨⟨hl2, hr2⟩, hedge⟩ := hno
    rw [BT.recolor, BT.noRRx]
    simp only [Bool.and_eq_true, Bool.or_eq_true]
    refine ⟨⟨ihl hl2, ihr hr2⟩, ?_⟩
    by_cases hja : j = a
    · left
      rw [if_pos hja]
      rfl
    rw [if_neg hja]
    rcases hedge with hcb | ⟨hlc, hrc⟩
    · exact Or.inl hcb
    refine Or.inr ⟨?_, ?_⟩
    · rcases hlc with hlz | hlb
      · left
        rw [BT.recolor_topIdx]
        exact hlz
      · by_cases hlt : l.topIdx = some a
        · right
          rw [BT.recolor_topColor_eq a .Black l hlt]
          rfl
        · right
          rw [BT.recolor_topColor_ne a .Black l hlt]
          exact hlb
    · rcases hrc with hrz | hrb
      · left
        rw [BT.recolor_topIdx]
        exact hrz
      · by_cases hrt : r.topIdx = some a
        · right
          rw [BT.recolor_topColor_eq a .Black r hrt]
          rfl
        · right
          rw [BT.recolor_topColor_ne a .Black r hrt]
          exact hrb

/-- Recolouring the top black keeps the black-height certificate defined. -/
theorem bh_recolor_root (x : Nat) (S : BT V) (hnd : S.idxs.Nodup)
    (htop : S.topIdx = some x) (hb : (BT.bh S).isSome = true) :
    (BT.bh (BT.recolor x .Black S)).isSome = true := by
  rcases S with _ | ⟨l, j, v, c, r⟩
  · exact hb
  · rw [BT.topIdx] at htop
    obtain rfl : x = j := (Option.some.inj htop).symm
    rw [BT.idxs] at hnd
    obtain ⟨_, _, hjl, hjr, _⟩ := nodup_parts _ _ _ hnd
    obtain ⟨a, hbl, hbr⟩ := bh_bin_elim l x v c r hb
    rw [BT.recolor, if_pos rfl, BT.recolor_not_mem x _ l hjl,
      BT.recolor_not_mem x _ r hjr, BT.bh, hbl, hbr]
    simp

/-- The read-off fuel bound in `Sim` is monotone. -/
theorem Sim_mono (t : Rb_tree V) (G : BT V) (f f2 : Nat) (h : Sim t G f)
    (hle : f ≤ f2) : Sim t G f2 :=
  ⟨h.sent, h.rootp, toTree_mono t f f2 t.root G hle h.tt, h.cells, h.par, h.nodup⟩

/-- Composition of surgeries, requiring top preservation only at hits. -/
theorem BT.replace_comp_top (x : Nat) (g1 g2 : BT V → BT V)
    (hg1 : ∀ T : BT V, T.topIdx = some x → (g1 T).topIdx = some x) :
    ∀ S : BT V, (S.replace x g1).replace x g2 = S.replace x (fun T => g2 (g1 T)) := by
  intro S
  induction S with
  | tip => rfl
  | bin l j v c r ihl ihr =>
    by_cases hj : j = x
    · rw [BT.replace, if_pos hj, BT.replace, if_pos hj]
      have htj : (BT.bin l j v c r).topIdx = some x := by rw [BT.topIdx, hj]
      rw [BT.replace_self x g2 _ (hg1 _ htj)]
    · rw [BT.replace, if_neg hj, BT.replace, if_neg hj, BT.replace, if_neg hj,
        ihl, ihr]

/-- Locating the replaced subtree at its (possibly new) top index, which must
come from inside the replaced region. -/
theorem BT.subAt_replace_mem (g w : Nat) (h : BT V → BT V) :
    ∀ S Sg : BT V, S.idxs.Nodup → BT.subAt g S = some Sg → w ∈ Sg.idxs →
      (h Sg).topIdx = some w → BT.subAt w (S.replace g h) = some (h Sg) := by
  intro S
  induction S with
  | tip => intro Sg _ hsub; simp [BT.subAt] at hsub
  | bin l j v c r ihl ihr =>
    intro Sg hnd hsub hw htop
    rw [BT.idxs] at hnd
    obtain ⟨ndl, ndr, hjl, hjr, hdisj⟩ := nodup_parts _ _ _ hnd
    rw [BT.subAt] at hsub
    by_cases hj : j = g
    · rw [if_pos hj] at hsub
      obtain rfl := Option.some.inj hsub
      rw [BT.replace, if_pos hj]
      exact BT.subAt_self w _ htop
    · rw [if_neg hj] at hsub
      rw [BT.replace, if_neg hj]
      rcases hla : BT.subAt g l with _ | S1 <;> rw [hla] at hsub
      · simp only [Option.orElse] at hsub
        have hgl : g ∉ l.idxs := fun hc => by
          have := BT.subAt_isSome_of_mem g l hc
          rw [hla] at this
          simp at this
        have hwr : w ∈ r.idxs := (BT.subAt_sublist g r Sg hsub).subset hw
        have hwl : w ∉ l.idxs := fun hc => hdisj w hc hwr
        have hjw : ¬ j = w := fun hc => hjr (hc ▸ hwr)
        rw [BT.subAt, if_neg hjw, BT.replace_of_not_mem g h l hgl,
          BT.subAt_none_of_notin w l hwl]
        simp only [Option.orElse]
        exact ihr Sg ndr hsub hw htop
      · simp only [Option.orElse] at hsub
        obtain rfl := Option.some.inj hsub
        have hgr : g ∉ r.idxs := fun hc =>
          hdisj g (BT.subAt_mem g l S1 hla) hc
        have hwl : w ∈ l.idxs := (BT.subAt_sublist g l S1 hla).subset hw
        have hjw : ¬ j = w := fun hc => hjl (hc ▸ hwl)
        have hwr : w ∉ r.idxs := hdisj w hwl
        rw [BT.subAt, if_neg hjw, BT.replace_of_not_mem g h r hgr,
          ihl S1 ndl hla hw htop]
        simp only [Option.orElse]

/-- Context extraction for one `insert_fixup` iteration: when the arena parent
of the current red node `z` is red, the mirror contains a red parent node `p`
and a black grandparent node `g`, with all arena links matching. -/
theorem fix_ctx (t : Rb_tree V) (z : Nat) (G : BT V) (f : Nat)
    (hSim : Sim t G f) (hmem : z ∈ G.idxs)
    (hnox : BT.noRRx z G = true)
    (htopinv : G.topColor = .Red → G.topIdx = some z)
    (hpr : (t.mem ((t.mem z).p)).color = .Red) :
    ∃ p g Sz A2 B2 vp L2 R2 vg,
      (t.mem z).p = p ∧ (t.mem p).p = g ∧
      p ∈ G.idxs ∧ g ∈ G.idxs ∧ p ≠ t.nil ∧ g ≠ t.nil ∧
      z ≠ p ∧ z ≠ g ∧ p ≠ g ∧
      (t.mem p).color = .Red ∧ (t.mem g).color = .Black ∧
      BT.subAt z G = some Sz ∧ Sz.topIdx = some z ∧
      BT.subAt p G = some (.bin A2 p vp .Red B2) ∧
      ((A2 = Sz ∧ (t.mem p).left = z ∧ (t.mem p).right ≠ z) ∨
       (B2 = Sz ∧ (t.mem p).right = z ∧ (t.mem p).left ≠ z)) ∧
      BT.subAt g G = some (.bin L2 g vg .Black R2) ∧
      ((L2 = .bin A2 p vp .Red B2 ∧ (t.mem g).left = p ∧ (t.mem g).right ≠ p) ∨
       (R2 = .bin A2 p vp .Red B2 ∧ (t.mem g).right = p ∧ (t.mem g).left ≠ p)) ∧
      G.topIdx = some t.root ∧ G.topIdx ≠ some z ∧ G.topIdx ≠ some p ∧
      G.topColor = .Black := by
  have hnd := hSim.nodup
  have hnilG : ∀ j ∈ G.idxs, j ≠ t.nil := toTree_idx_ne_nil t f t.root G hSim.tt
  have hGne : G ≠ .tip := by
    rintro rfl
    simp [BT.idxs] at hmem
  have hrne : t.root ≠ t.nil := fun hc =>
    hGne ((toTree_tip_iff t t.root f G hSim.tt).2 hc)
  have hGtop : G.topIdx = some t.root := (toTree_topIdx t t.root f G hSim.tt).2 hrne
  have hbridge : ∀ x ∈ G.idxs, (t.mem x).color = BT.colorAt x G :=
    colorAt_bridge t f t.root G hSim.tt hnd
  have htopz : G.topIdx ≠ some z := by
    intro hc
    rw [hGtop] at hc
    obtain rfl : t.root = z := Option.some.inj hc
    rw [hSim.rootp] at hpr
    rw [hSim.sent.2.2.1] at hpr
    exact Node_color.noConfusion hpr
  obtain ⟨p, vp, cp, A2, B2, hsubp, hside⟩ := parent_ctx z G hnd hmem htopz
  have hpm : p ∈ G.idxs := BT.subAt_mem p G _ hsubp
  have hndP : (BT.bin A2 p vp cp B2).idxs.Nodup :=
    (BT.subAt_sublist p G _ hsubp).nodup hnd
  have hndPx := hndP
  rw [BT.idxs] at hndPx
  obtain ⟨ndA, ndB, hpA, hpB, hABdisj⟩ := nodup_parts _ _ _ hndPx
  have hzp : z ≠ p := by
    rcases hside with ⟨h1, _⟩ | ⟨h1, _⟩
    · exact fun hc => hpA (hc ▸ BT.topIdx_mem A2 z h1)
    · exact fun hc => hpB (hc ▸ BT.topIdx_mem B2 z h1)
  have hparB_P : parB t (.bin A2 p vp cp B2) := parB_subAt t p G _ hSim.par hsubp
  obtain ⟨hoA, hoB, _, _⟩ := parB_elim t A2 p vp cp B2 hparB_P
  have hzpp : (t.mem z).p = p := by
    rcases hside with ⟨h1, _⟩ | ⟨h1, _⟩
    · exact hoA z h1
    · exact hoB z h1
  have hcp : cp = .Red := by
    have h1 := hbridge p hpm
    rw [hzpp] at hpr
    rw [hpr] at h1
    rw [colorAt_subAt p G _ hsubp, BT.topColor] at h1
    exact h1.symm
  have htopp : G.topIdx ≠ some p := by
    intro hc
    rcases G with _ | ⟨Gl, gj, gv, gc, Gr⟩
    · exact hGne rfl
    rw [BT.topIdx] at hc
    obtain rfl : p = gj := (Option.some.inj hc).symm
    have hSelf : BT.subAt p (BT.bin Gl p gv gc Gr) = some (BT.bin Gl p gv gc Gr) :=
      BT.subAt_self p _ rfl
    rw [hSelf] at hsubp
    obtain hEq := Option.some.inj hsubp
    have hgc : gc = cp := by
      have := congrArg BT.topColor hEq
      rw [BT.topColor, BT.topColor] at this
      exact this
    have htc : (BT.bin Gl p gv gc Gr).topColor = .Red := by
      rw [BT.topColor, hgc, hcp]
    have := htopinv htc
    rw [BT.topIdx] at this
    exact hzp (Option.some.inj this).symm
  obtain ⟨g, vg, cg, L2, R2, hsubg, hsideg⟩ := parent_ctx p G hnd hpm htopp
  have hgm : g ∈ G.idxs := BT.subAt_mem g G _ hsubg
  have hndG2 : (BT.bin L2 g vg cg R2).idxs.Nodup :=
    (BT.subAt_sublist g G _ hsubg).nodup hnd
  have hndG2x := hndG2
  rw [BT.idxs] at hndG2x
  obtain ⟨ndL2, ndR2, hgL2, hgR2, hLRdisj⟩ := nodup_parts _ _ _ hndG2x
  have hparB_G2 : parB t (.bin L2 g vg cg R2) := parB_subAt t g G _ hSim.par hsubg
  obtain ⟨hoL2, hoR2, _, _⟩ := parB_elim t L2 g vg cg R2 hparB_G2
  have hSpEq : ∀ X : BT V, X.topIdx = some p → BT.subAt p G = some X →
      X = .bin A2 p vp cp B2 := by
    intro X _ hX
    rw [hsubp] at hX
    exact (Option.some.inj hX).symm
  have hppg : (t.mem p).p = g := by
    rcases hsideg with ⟨h1, _⟩ | ⟨h1, _⟩
    · exact hoL2 p h1
    · exact hoR2 p h1
  have hpg : p ≠ g := by
    rcases hsideg with ⟨h1, h2⟩ | ⟨h1, h2⟩
    · exact fun hc => hgL2 (hc ▸ BT.topIdx_mem L2 p h1)
    · exact fun hc => hgR2 (hc ▸ BT.topIdx_mem R2 p h1)
  have hsidegE : (L2 = .bin A2 p vp cp B2 ∧ L2.topIdx = some p) ∨
      (R2 = .bin A2 p vp cp B2 ∧ R2.topIdx = some p) := by
    rcases hsideg with ⟨h1, h2⟩ | ⟨h1, h2⟩
    · exact Or.inl ⟨hSpEq L2 h1 h2, h1⟩
    · exact Or.inr ⟨hSpEq R2 h1 h2, h1⟩
  have hzg : z ≠ g := by
    intro hc
    rcases hsidegE with ⟨h1, _⟩ | ⟨h1, _⟩
    · refine hgL2 ?_
      rw [h1, BT.idxs]
      rcases hside with ⟨ha, _⟩ | ⟨ha, _⟩
      · exact hc ▸ List.mem_append_left _ (BT.topIdx_mem A2 z ha)
      · exact hc ▸ List.mem_append_right _
          (List.mem_cons_of_mem _ (BT.topIdx_mem B2 z ha))
    · refine hgR2 ?_
      rw [h1, BT.idxs]
      rcases hside with ⟨ha, _⟩ | ⟨ha, _⟩
      · exact hc ▸ List.mem_append_left _ (BT.topIdx_mem A2 z ha)
      · exact hc ▸ List.mem_append_right _
          (List.mem_cons_of_mem _ (BT.topIdx_mem B2 z ha))
  have hcg : cg = .Black := by
    have hnoxg := noRRx_subAt z g G _ hsubg hnox
    rw [BT.noRRx] at hnoxg
    simp only [Bool.and_eq_true, Bool.or_eq_true] at hnoxg
    rcases hnoxg.2 with hcb | ⟨hlc, hrc⟩
    · exact beq_iff_eq.1 hcb
    exfalso
    rcases hsidegE with ⟨h1, h2⟩ | ⟨h1, h2⟩
    · rcases hlc with hlz | hlb
      · rw [h2] at hlz
        simp only [beq_iff_eq, Option.some.injEq] at hlz
        exact hzp hlz.symm
      · rw [h1, BT.topColor, hcp] at hlb
        exact Node_color.noConfusion (beq_iff_eq.1 hlb)
    · rcases hrc with hrz | hrb
      · rw [h2] at hrz
        simp only [beq_iff_eq, Option.some.injEq] at hrz
        exact hzp hrz.symm
      · rw [h1, BT.topColor, hcp] at hrb
        exact Node_color.noConfusion (beq_iff_eq.1 hrb)
  have hgcol : (t.mem g).color = .Black := by
    rw [hbridge g hgm, colorAt_subAt g G _ hsubg, BT.topColor, hcg]
  have htopc : G.topColor = .Black := by
    by_cases hcB : G.topColor = .Red
    · exact absurd (htopinv hcB) htopz
    · exact color_not_red _ hcB
  obtain ⟨SP, hSP, fP, hfP, httP⟩ := toTree_subAt t f t.root G hSim.tt p hpm
  rw [hsubp] at hSP
  obtain rfl : SP = .bin A2 p vp cp B2 := (Option.some.inj hSP).symm
  obtain ⟨hpnil, _, _, _, fP2, rfl, httA, httB⟩ :=
    toTree_bin_elim t p fP A2 B2 p vp cp httP
  obtain ⟨SG2, hSG2, fG, hfG, httG⟩ := toTree_subAt t f t.root G hSim.tt g hgm
  rw [hsubg] at hSG2
  obtain rfl : SG2 = .bin L2 g vg cg R2 := (Option.some.inj hSG2).symm
  obtain ⟨hgnil, _, _, _, fG2, rfl, httL2, httR2⟩ :=
    toTree_bin_elim t g fG L2 R2 g vg cg httG
  have hchild : ∀ q X fq, toTree t q fq = some X → X.topIdx = some z → q = z := by
    intro q X fq hX hXt
    have hqnil : q ≠ t.nil := by
      intro hc
      have := (toTree_topIdx t q fq X hX).1 hc
      rw [this, BT.topIdx] at hXt
      exact Option.noConfusion hXt
    have := (toTree_topIdx t q fq X hX).2 hqnil
    rw [this] at hXt
    exact Option.some.inj hXt
  have hchildp : ∀ q X fq, toTree t q fq = some X → X.topIdx = some p → q = p := by
    intro q X fq hX hXt
    have hqnil : q ≠ t.nil := by
      intro hc
      have := (toTree_topIdx t q fq X hX).1 hc
      rw [this, BT.topIdx] at hXt
      exact Option.noConfusion hXt
    have := (toTree_topIdx t q fq X hX).2 hqnil
    rw [this] at hXt
    exact Option.some.inj hXt
  have hchildn : ∀ q X fq (a : Nat), toTree t q fq = some X → a ∉ X.idxs →
      a ≠ t.nil → q ≠ a := by
    intro q X fq a hX ha hanil hc
    by_cases hqn : q = t.nil
    · exact hanil (hc ▸ hqn)
    have := (toTree_topIdx t q fq X hX).2 hqn
    exact ha (hc ▸ BT.topIdx_mem X q this)
  have hznil : z ≠ t.nil := hnilG z hmem
  have hpnil2 : p ≠ t.nil := hnilG p hpm
  refine ⟨p, g, ?_⟩
  rcases hside with ⟨h1, h2⟩ | ⟨h1, h2⟩
  · -- z tops A2 (left child of p)
    refine ⟨A2, A2, B2, vp, L2, R2, vg, hzpp, hppg, hpm, hgm, hpnil2,
      hnilG g hgm, hzp, hzg, hpg, by rw [hzpp] at hpr; exact hpr, hgcol,
      h2, h1, hcp ▸ hsubp, Or.inl ⟨rfl, hchild _ A2 _ httA h1, ?_⟩, hcg ▸ hsubg,
      ?_, hGtop, htopz, htopp, htopc⟩
    · intro hc
      have hzB : z ∉ B2.idxs := fun hcc => hABdisj z (BT.topIdx_mem A2 z h1) hcc
      exact hchildn _ B2 _ z httB hzB hznil hc
    · rcases hsidegE with ⟨hg1, hg2⟩ | ⟨hg1, hg2⟩
      · refine Or.inl ⟨by rw [hg1, hcp], hchildp _ L2 _ httL2 hg2, ?_⟩
        intro hc
        have hpR2 : p ∉ R2.idxs := fun hcc =>
          hLRdisj p (BT.topIdx_mem L2 p hg2) hcc
        exact hchildn _ R2 _ p httR2 hpR2 hpnil2 hc
      · refine Or.inr ⟨by rw [hg1, hcp], hchildp _ R2 _ httR2 hg2, ?_⟩
        intro hc
        have hpL2 : p ∉ L2.idxs := fun hcc => by
          have hpmem := BT.topIdx_mem R2 p hg2
          exact hLRdisj p hcc hpmem
        exact hchildn _ L2 _ p httL2 hpL2 hpnil2 hc
  · -- z tops B2 (right child of p)
    refine ⟨B2, A2, B2, vp, L2, R2, vg, hzpp, hppg, hpm, hgm, hpnil2,
      hnilG g hgm, hzp, hzg, hpg, by rw [hzpp] at hpr; exact hpr, hgcol,
      h2, h1, hcp ▸ hsubp, Or.inr ⟨rfl, hchild _ B2 _ httB h1, ?_⟩, hcg ▸ hsubg,
      ?_, hGtop, htopz, htopp, htopc⟩
    · intro hc
      have hzA : z ∉ A2.idxs := fun hcc => by
        have hzmem := BT.topIdx_mem B2 z h1
        exact hABdisj z hcc hzmem
      exact hchildn _ A2 _ z httA hzA hznil hc
    · rcases hsidegE with ⟨hg1, hg2⟩ | ⟨hg1, hg2⟩
      · refine Or.inl ⟨by rw [hg1, hcp], hchildp _ L2 _ httL2 hg2, ?_⟩
        intro hc
        have hpR2 : p ∉ R2.idxs := fun hcc =>
          hLRdisj p (BT.topIdx_mem L2 p hg2) hcc
        exact hchildn _ R2 _ p httR2 hpR2 hpnil2 hc
      · refine Or.inr ⟨by rw [hg1, hcp], hchildp _ R2 _ httR2 hg2, ?_⟩
        intro hc
        have hpL2 : p ∉ L2.idxs := fun hcc => by
          have hpmem := BT.topIdx_mem R2 p hg2
          exact hLRdisj p hcc hpmem
        exact hchildn _ L2 _ p httL2 hpL2 hpnil2 hc

/-- CLRS insert-fixup case 1 (left configuration, red uncle): recolour the
parent and uncle black and the grandparent red; the fixup invariant moves to
the grandparent, strictly closer to the root. -/
theorem rebal_left_uncle_red (t : Rb_tree V) (z : Nat) (G : BT V) (f : Nat)
    (hSim : Sim t G f)
    (p g u : Nat) (A2 B2 C D : BT V) (vp vg vu : V) (L2 R2 : BT V)
    (hzp : (t.mem z).p = p) (hppg : (t.mem p).p = g)
    (hgm : g ∈ G.idxs)
    (hunil : u ≠ t.nil) (hpnil : p ≠ t.nil) (hgnil : g ≠ t.nil)
    (hzgne : z ≠ g)
    (hzAB : A2.topIdx = some z ∨ B2.topIdx = some z)
    (hsubg : BT.subAt g G = some (.bin L2 g vg .Black R2))
    (hL2 : L2 = .bin A2 p vp .Red B2)
    (hR2 : R2 = .bin C u vu .Red D)
    (hugr : (t.mem g).right = u)
    (hured : (t.mem u).color = .Red)
    (hnox : BT.noRRx z G = true)
    (hbh : (BT.bh G).isSome = true)
    (htopc : G.topColor = .Black) :
    ∃ G2, rebalance_left t z =
        (setColor (setColor (setColor t u .Black) p .Black) g .Red, g) ∧
      Sim (setColor (setColor (setColor t u .Black) p .Black) g .Red) G2 f ∧
      G2.idxs = G.idxs ∧ G2.vals = G.vals ∧
      g ∈ G2.idxs ∧ BT.colorAt g G2 = .Red ∧ (BT.bh G2).isSome = true ∧
      BT.noRRx g G2 = true ∧ (G2.topColor = .Red → G2.topIdx = some g) ∧
      BT.depthOf g G2 < BT.depthOf z G := by
  have hnd := hSim.nodup
  -- nodup dissection of the grandparent subtree
  have hndSg : (BT.bin L2 g vg .Black R2).idxs.Nodup :=
    List.Nodup.sublist (BT.subAt_sublist g G _ hsubg) hnd
  have hndSgx := hndSg
  rw [BT.idxs] at hndSgx
  obtain ⟨ndL2, ndR2, hgL2, hgR2, hLRdisj⟩ := nodup_parts _ _ _ hndSgx
  have hndL2x := ndL2
  rw [hL2, BT.idxs] at hndL2x
  obtain ⟨ndA2, ndB2, hpA2, hpB2, hABdisj⟩ := nodup_parts _ _ _ hndL2x
  have hndR2x := ndR2
  rw [hR2, BT.idxs] at hndR2x
  obtain ⟨ndC, ndD, huC, huD, hCDdisj⟩ := nodup_parts _ _ _ hndR2x
  -- basic memberships and non-memberships
  have hpL2m : p ∈ L2.idxs := by
    rw [hL2, BT.idxs]
    exact List.mem_append_right _ (List.mem_cons_self _ _)
  have huR2m : u ∈ R2.idxs := by
    rw [hR2, BT.idxs]
    exact List.mem_append_right _ (List.mem_cons_self _ _)
  have hzL2m : z ∈ L2.idxs := by
    rw [hL2, BT.idxs]
    rcases hzAB with h1 | h1
    · exact List.mem_append_left _ (BT.topIdx_mem A2 z h1)
    · exact List.mem_append_right _ (List.mem_cons_of_mem _ (BT.topIdx_mem B2 z h1))
  have hzSg : z ∈ (BT.bin L2 g vg .Black R2).idxs := by
    rw [BT.idxs]
    exact List.mem_append_left _ hzL2m
  have hpSg : p ∈ (BT.bin L2 g vg .Black R2).idxs := by
    rw [BT.idxs]
    exact List.mem_append_left _ hpL2m
  have huSg : u ∈ (BT.bin L2 g vg .Black R2).idxs := by
    rw [BT.idxs]
    exact List.mem_append_right _ (List.mem_cons_of_mem _ huR2m)
  have huL2 : u ∉ L2.idxs := fun hc => hLRdisj u hc huR2m
  have hpR2 : p ∉ R2.idxs := hLRdisj p hpL2m
  have hzR2 : z ∉ R2.idxs := hLRdisj z hzL2m
  have hgu : ¬ g = u := fun hc => hgR2 (hc ▸ huR2m)
  have hgp : ¬ g = p := fun hc => hgL2 (hc ▸ hpL2m)
  have hpu : ¬ p = u := fun hc => hpR2 (hc ▸ huR2m)
  have hup : ¬ u = p := fun hc => hpu hc.symm
  have hug : ¬ u = g := fun hc => hgu hc.symm
  have hpg2 : ¬ p = g := fun hc => hgp hc.symm
  have huA2 : u ∉ A2.idxs := fun hc => by
    refine huL2 ?_
    rw [hL2, BT.idxs]
    exact List.mem_append_left _ hc
  have huB2 : u ∉ B2.idxs := fun hc => by
    refine huL2 ?_
    rw [hL2, BT.idxs]
    exact List.mem_append_right _ (List.mem_cons_of_mem _ hc)
  have hpC : p ∉ C.idxs := fun hc => by
    refine hpR2 ?_
    rw [hR2, BT.idxs]
    exact List.mem_append_left _ hc
  have hpD : p ∉ D.idxs := fun hc => by
    refine hpR2 ?_
    rw [hR2, BT.idxs]
    exact List.mem_append_right _ (List.mem_cons_of_mem _ hc)
  have hgA2 : g ∉ A2.idxs := fun hc => by
    refine hgL2 ?_
    rw [hL2, BT.idxs]
    exact List.mem_append_left _ hc
  have hgB2 : g ∉ B2.idxs := fun hc => by
    refine hgL2 ?_
    rw [hL2, BT.idxs]
    exact List.mem_append_right _ (List.mem_cons_of_mem _ hc)
  have hgC : g ∉ C.idxs := fun hc => by
    refine hgR2 ?_
    rw [hR2, BT.idxs]
    exact List.mem_append_left _ hc
  have hgD : g ∉ D.idxs := fun hc => by
    refine hgR2 ?_
    rw [hR2, BT.idxs]
    exact List.mem_append_right _ (List.mem_cons_of_mem _ hc)
  have hzC : z ∉ C.idxs := fun hc => by
    refine hzR2 ?_
    rw [hR2, BT.idxs]
    exact List.mem_append_left _ hc
  have hzD : z ∉ D.idxs := fun hc => by
    refine hzR2 ?_
    rw [hR2, BT.idxs]
    exact List.mem_append_right _ (List.mem_cons_of_mem _ hc)
  -- the local surgery value
  have hval : fixC1 p g u (BT.bin L2 g vg .Black R2) =
      .bin (.bin A2 p vp .Black B2) g vg .Red (.bin C u vu .Black D) := by
    rw [hL2, hR2]
    simp [fixC1, BT.recolor, hgu, hgp, hpu, hup, hug, hpg2,
      BT.recolor_not_mem u .Black A2 huA2, BT.recolor_not_mem u .Black B2 huB2,
      BT.recolor_not_mem u .Black C huC, BT.recolor_not_mem u .Black D huD,
      BT.recolor_not_mem p .Black A2 hpA2, BT.recolor_not_mem p .Black B2 hpB2,
      BT.recolor_not_mem p .Black C hpC, BT.recolor_not_mem p .Black D hpD,
      BT.recolor_not_mem g .Red A2 hgA2, BT.recolor_not_mem g .Red B2 hgB2,
      BT.recolor_not_mem g .Red C hgC, BT.recolor_not_mem g .Red D hgD]
  -- surgery bookkeeping
  have hidx : ∀ T : BT V, (fixC1 p g u T).idxs = T.idxs := fun T => by
    simp [fixC1, BT.recolor_idxs]
  have hvalsf : ∀ T : BT V, (fixC1 p g u T).vals = T.vals := fun T => by
    simp [fixC1, BT.recolor_vals]
  have htopf : ∀ T : BT V, T.topIdx = some g → (fixC1 p g u T).topIdx = some g := by
    intro T hT
    simp [fixC1, BT.recolor_topIdx, hT]
  -- the replace-form of the recolour chain
  have e1 : BT.recolor u .Black G = G.replace g (BT.recolor u .Black) :=
    recolor_eq_replace u .Black g G _ hnd hsubg huSg
  have hsub1 : BT.subAt g (G.replace g (BT.recolor u .Black)) =
      some (BT.recolor u .Black (BT.bin L2 g vg .Black R2)) :=
    BT.subAt_replace g _ G _ hnd hsubg (by rw [BT.recolor_topIdx, BT.topIdx])
  have hnd1 : (G.replace g (BT.recolor u .Black)).idxs.Nodup := by
    rw [BT.replace_idxs g _ (BT.recolor_idxs u .Black)]
    exact hnd
  have e2 : BT.recolor p .Black (G.replace g (BT.recolor u .Black)) =
      (G.replace g (BT.recolor u .Black)).replace g (BT.recolor p .Black) :=
    recolor_eq_replace p .Black g _ _ hnd1 hsub1 (by rw [BT.recolor_idxs]; exact hpSg)
  have e2f : (G.replace g (BT.recolor u .Black)).replace g (BT.recolor p .Black) =
      G.replace g (fun T => BT.recolor p .Black (BT.recolor u .Black T)) :=
    BT.replace_comp_top g _ _ (fun T hT => by rw [BT.recolor_topIdx]; exact hT) G
  have hidx12 : ∀ T : BT V,
      (BT.recolor p .Black (BT.recolor u .Black T)).idxs = T.idxs := fun T => by
    rw [BT.recolor_idxs, BT.recolor_idxs]
  have hsub2 : BT.subAt g (G.replace g
        (fun T => BT.recolor p .Black (BT.recolor u .Black T))) =
      some (BT.recolor p .Black (BT.recolor u .Black (BT.bin L2 g vg .Black R2))) :=
    BT.subAt_replace g _ G _ hnd hsubg
      (by rw [BT.recolor_topIdx, BT.recolor_topIdx, BT.topIdx])
  have hnd2 : (G.replace g
      (fun T => BT.recolor p .Black (BT.recolor u .Black T))).idxs.Nodup := by
    rw [BT.replace_idxs g _ hidx12]
    exact hnd
  have hgSg : g ∈ (BT.bin L2 g vg .Black R2).idxs := by
    rw [BT.idxs]
    exact List.mem_append_right _ (List.mem_cons_self _ _)
  have e3 : BT.recolor g .Red (G.replace g
        (fun T => BT.recolor p .Black (BT.recolor u .Black T))) =
      (G.replace g (fun T => BT.recolor p .Black (BT.recolor u .Black T))).replace g
        (BT.recolor g .Red) :=
    recolor_eq_replace g .Red g _ _ hnd2 hsub2
      (by rw [BT.recolor_idxs, BT.recolor_idxs]; exact hgSg)
  have e3f : (G.replace g
        (fun T => BT.recolor p .Black (BT.recolor u .Black T))).replace g
        (BT.recolor g .Red) = G.replace g (fixC1 p g u) :=
    BT.replace_comp_top g _ _
      (fun T hT => by rw [BT.recolor_topIdx, BT.recolor_topIdx]; exact hT) G
  have hchain : BT.recolor g .Red (BT.recolor p .Black (BT.recolor u .Black G)) =
      G.replace g (fixC1 p g u) := by
    rw [e1, e2, e2f, e3, e3f]
  -- simulation of the three arena recolours
  have hS1 : Sim (setColor t u .Black) (BT.recolor u .Black G) f :=
    Sim_setColor t G f hSim u .Black hunil
  have hS2 : Sim (setColor (setColor t u .Black) p .Black)
      (BT.recolor p .Black (BT.recolor u .Black G)) f :=
    Sim_setColor _ _ f hS1 p .Black hpnil
  have hS3 : Sim (setColor (setColor (setColor t u .Black) p .Black) g .Red)
      (BT.recolor g .Red (BT.recolor p .Black (BT.recolor u .Black G))) f :=
    Sim_setColor _ _ f hS2 g .Red hgnil
  rw [hchain] at hS3
  -- black heights of the components
  have hbhSg : (BT.bh (BT.bin L2 g vg .Black R2)).isSome = true :=
    bh_subAt g G _ hsubg hbh
  obtain ⟨a, hbL2, hbR2⟩ := bh_bin_elim L2 g vg .Black R2 hbhSg
  rw [hL2] at hbL2
  rw [hR2] at hbR2
  obtain ⟨b, hbA2, hbB2⟩ := bh_bin_elim A2 p vp .Red B2 (by rw [hbL2]; rfl)
  obtain ⟨d2, hbC, hbD⟩ := bh_bin_elim C u vu .Red D (by rw [hbR2]; rfl)
  rw [BT.bh, hbA2, hbB2] at hbL2
  simp at hbL2
  rw [BT.bh, hbC, hbD] at hbR2
  simp at hbR2
  rw [hbL2] at hbA2 hbB2
  rw [hbR2] at hbC hbD
  have hbhloc : BT.bh (BT.bin (.bin A2 p vp .Black B2) g vg .Red
      (.bin C u vu .Black D)) = BT.bh (BT.bin L2 g vg .Black R2) := by
    rw [hL2, hR2]
    simp [BT.bh, hbA2, hbB2, hbC, hbD]
  -- red-red facts of the components
  have hnoxSg : BT.noRRx z (BT.bin L2 g vg .Black R2) = true :=
    noRRx_subAt z g G _ hsubg hnox
  rw [BT.noRRx] at hnoxSg
  simp only [Bool.and_eq_true] at hnoxSg
  obtain ⟨⟨hnoxL2, hnoxR2⟩, _⟩ := hnoxSg
  rw [hL2, BT.noRRx] at hnoxL2
  simp only [Bool.and_eq_true] at hnoxL2
  obtain ⟨⟨hnoxA2, hnoxB2⟩, _⟩ := hnoxL2
  rw [hR2, BT.noRRx] at hnoxR2
  simp only [Bool.and_eq_true] at hnoxR2
  obtain ⟨⟨hnoxC, hnoxD⟩, _⟩ := hnoxR2
  have hnRA2 : BT.noRR A2 = true := by
    rcases hzAB with h1 | h1
    · rw [← noRRx_top z A2 ndA2 h1]
      exact hnoxA2
    · have hzA2 : z ∉ A2.idxs := fun hc => hABdisj z hc (BT.topIdx_mem B2 z h1)
      rw [← noRRx_not_mem z A2 hzA2]
      exact hnoxA2
  have hnRB2 : BT.noRR B2 = true := by
    rcases hzAB with h1 | h1
    · have hzB2 : z ∉ B2.idxs := fun hc => hABdisj z (BT.topIdx_mem A2 z h1) hc
      rw [← noRRx_not_mem z B2 hzB2]
      exact hnoxB2
    · rw [← noRRx_top z B2 ndB2 h1]
      exact hnoxB2
  have hnRC : BT.noRR C = true := by
    rw [← noRRx_not_mem z C hzC]
    exact hnoxC
  have hnRD : BT.noRR D = true := by
    rw [← noRRx_not_mem z D hzD]
    exact hnoxD
  have hnoxloc : BT.noRRx g (BT.bin (.bin A2 p vp .Black B2) g vg .Red
      (.bin C u vu .Black D)) = true := by
    rw [BT.noRRx]
    simp only [Bool.and_eq_true, Bool.or_eq_true]
    refine ⟨⟨?_, ?_⟩, Or.inr ⟨Or.inr rfl, Or.inr rfl⟩⟩
    · have hgL' : g ∉ (BT.bin A2 p vp .Black B2).idxs := by
        rw [BT.idxs]
        intro hc
        rcases List.mem_append.1 hc with h2 | h2
        · exact hgA2 h2
        rcases List.mem_cons.1 h2 with h3 | h3
        · exact hgp h3
        · exact hgB2 h3
      rw [noRRx_not_mem g _ hgL', BT.noRR]
      simp only [Bool.and_eq_true, Bool.or_eq_true]
      exact ⟨⟨hnRA2, hnRB2⟩, Or.inl rfl⟩
    · have hgR' : g ∉ (BT.bin C u vu .Black D).idxs := by
        rw [BT.idxs]
        intro hc
        rcases List.mem_append.1 hc with h2 | h2
        · exact hgC h2
        rcases List.mem_cons.1 h2 with h3 | h3
        · exact hgu h3
        · exact hgD h3
      rw [noRRx_not_mem g _ hgR', BT.noRR]
      simp only [Bool.and_eq_true, Bool.or_eq_true]
      exact ⟨⟨hnRC, hnRD⟩, Or.inl rfl⟩
  -- the computation of rebalance_left
  have hcomp : rebalance_left t z =
      (setColor (setColor (setColor t u .Black) p .Black) g .Red, g) := by
    simp only [rebalance_left, setColor_p]
    rw [hzp, hppg, hugr, if_pos hured]
  -- assemble
  refine ⟨G.replace g (fixC1 p g u), hcomp, hS3,
    BT.replace_idxs g _ hidx G, BT.replace_vals g _ hvalsf G, ?_, ?_, ?_, ?_, ?_, ?_⟩
  · rw [BT.replace_idxs g _ hidx G]
    exact hgm
  · have h1 : BT.colorAt g (BT.recolor g .Red
        (BT.recolor p .Black (BT.recolor u .Black G))) = .Red :=
      BT.colorAt_recolor_eq g .Red _
        (by rw [BT.recolor_idxs, BT.recolor_idxs]; exact hgm)
    rw [hchain] at h1
    exact h1
  · rw [bh_replace_local g _ G _ hnd hsubg (by rw [hval]; exact hbhloc)]
    exact hbh
  · exact noRRx_replace_exempt z g _ G _ hnd hsubg hzSg hnox
      (by rw [hval]; rfl) (by rw [hval]; exact hnoxloc)
  · intro hrc
    have htid : (G.replace g (fixC1 p g u)).topIdx = G.topIdx := by
      rw [← hchain, BT.recolor_topIdx, BT.recolor_topIdx, BT.recolor_topIdx]
    by_cases hgt : G.topIdx = some g
    · rw [htid]
      exact hgt
    · exfalso
      rw [BT.replace_topColor g _ G hgt, htopc] at hrc
      exact Node_color.noConfusion hrc
  · have hdep : BT.depthOf g (G.replace g (fixC1 p g u)) = BT.depthOf g G :=
      BT.depthOf_replace g _ hidx htopf G
    rw [hdep]
    exact BT.depthOf_lt g z G _ hnd hsubg hzSg hzgne

/-- Rotations keep the bookkeeping fields. -/
theorem left_rotate_fields (t : Rb_tree V) (x : Nat) :
    (left_rotate t x).nil = t.nil ∧ (left_rotate t x).next = t.next ∧
    (left_rotate t x).node_count = t.node_count := by
  simp only [left_rotate]
  split_ifs <;> exact ⟨rfl, rfl, rfl⟩

/-- Rotations keep the bookkeeping fields (right version). -/
theorem right_rotate_fields (t : Rb_tree V) (x : Nat) :
    (right_rotate t x).nil = t.nil ∧ (right_rotate t x).next = t.next ∧
    (right_rotate t x).node_count = t.node_count := by
  simp only [right_rotate]
  split_ifs <;> exact ⟨rfl, rfl, rfl⟩

/-- CLRS insert-fixup case 3, left configuration (black uncle, `z` a left
child): recolour and rotate right at the grandparent; the local red-red
violation is fully repaired and the next iteration exits. -/
theorem rebal_left_LL (t : Rb_tree V) (z : Nat) (G : BT V) (f : Nat)
    (hSim : Sim t G f)
    (p g : Nat) (A2 B2 : BT V) (vp vg : V) (L2 R2 : BT V)
    (hzp : (t.mem z).p = p) (hppg : (t.mem p).p = g)
    (hgm : g ∈ G.idxs)
    (hpnil : p ≠ t.nil) (hgnil : g ≠ t.nil) (hznil : z ≠ t.nil)
    (hzA : A2.topIdx = some z)
    (hsubg : BT.subAt g G = some (.bin L2 g vg .Black R2))
    (hL2 : L2 = .bin A2 p vp .Red B2)
    (hR2c : R2.topColor = .Black)
    (hunotred : ¬ (t.mem ((t.mem g).right)).color = .Red)
    (hprne : ¬ z = (t.mem p).right)
    (hgl : (t.mem g).left = p)
    (hnox : BT.noRRx z G = true)
    (hbh : (BT.bh G).isSome = true) :
    ∃ G2, rebalance_left t z =
        (right_rotate (setColor (setColor t p .Black) g .Red) g, z) ∧
      Sim (right_rotate (setColor (setColor t p .Black) g .Red) g) G2 (f + 1) ∧
      G2.idxs = G.idxs ∧ G2.vals = G.vals ∧
      BT.noRR G2 = true ∧ (BT.bh G2).isSome = true ∧
      ((right_rotate (setColor (setColor t p .Black) g .Red) g).mem
        (((right_rotate (setColor (setColor t p .Black) g .Red) g).mem z).p)).color
        = .Black := by
  have hnd := hSim.nodup
  have hndSg : (BT.bin L2 g vg .Black R2).idxs.Nodup :=
    List.Nodup.sublist (BT.subAt_sublist g G _ hsubg) hnd
  have hndSgx := hndSg
  rw [BT.idxs] at hndSgx
  obtain ⟨ndL2, ndR2, hgL2, hgR2, hLRdisj⟩ := nodup_parts _ _ _ hndSgx
  have hndL2x := ndL2
  rw [hL2, BT.idxs] at hndL2x
  obtain ⟨ndA2, ndB2, hpA2, hpB2, hABdisj⟩ := nodup_parts _ _ _ hndL2x
  have hpL2m : p ∈ L2.idxs := by
    rw [hL2, BT.idxs]
    exact List.mem_append_right _ (List.mem_cons_self _ _)
  have hzA2m : z ∈ A2.idxs := BT.topIdx_mem A2 z hzA
  have hzL2m : z ∈ L2.idxs := by
    rw [hL2, BT.idxs]
    exact List.mem_append_left _ hzA2m
  have hzSg : z ∈ (BT.bin L2 g vg .Black R2).idxs := by
    rw [BT.idxs]
    exact List.mem_append_left _ hzL2m
  have hpSg : p ∈ (BT.bin L2 g vg .Black R2).idxs := by
    rw [BT.idxs]
    exact List.mem_append_left _ hpL2m
  have hpR2 : p ∉ R2.idxs := hLRdisj p hpL2m
  have hzR2 : z ∉ R2.idxs := hLRdisj z hzL2m
  have hzB2 : z ∉ B2.idxs := hABdisj z hzA2m
  have hgp : ¬ g = p := fun hc => hgL2 (hc ▸ hpL2m)
  have hpg2 : ¬ p = g := fun hc => hgp hc.symm
  have hzgne : z ≠ g := fun hc => hgL2 (hc ▸ hzL2m)
  have hgz : ¬ g = z := fun hc => hzgne hc.symm
  have hpz : ¬ p = z := fun hc => hpA2 (hc ▸ hzA2m)
  have hzpne : ¬ z = p := fun hc => hpz hc.symm
  have hgA2 : g ∉ A2.idxs := fun hc => by
    refine hgL2 ?_
    rw [hL2, BT.idxs]
    exact List.mem_append_left _ hc
  have hgB2 : g ∉ B2.idxs := fun hc => by
    refine hgL2 ?_
    rw [hL2, BT.idxs]
    exact List.mem_append_right _ (List.mem_cons_of_mem _ hc)
  have hpA2L : p ∉ A2.idxs := hpA2
  -- the local surgery value
  have hval : fixLL p g (BT.bin L2 g vg .Black R2) =
      .bin A2 p vp .Black (.bin B2 g vg .Red R2) := by
    rw [hL2]
    simp [fixLL, BT.recolor, BT.rotR, hgp, hpg2,
      BT.recolor_not_mem p .Black A2 hpA2, BT.recolor_not_mem p .Black B2 hpB2,
      BT.recolor_not_mem p .Black R2 hpR2,
      BT.recolor_not_mem g .Red A2 hgA2, BT.recolor_not_mem g .Red B2 hgB2,
      BT.recolor_not_mem g .Red R2 hgR2]
  have hidx : ∀ T : BT V, (fixLL p g T).idxs = T.idxs := fun T => by
    simp [fixLL, BT.rotR_idxs, BT.recolor_idxs]
  have hvalsf : ∀ T : BT V, (fixLL p g T).vals = T.vals := fun T => by
    simp [fixLL, BT.rotR_vals, BT.recolor_vals]
  -- replace-form of the mirror chain
  have e1 : BT.recolor p .Black G = G.replace g (BT.recolor p .Black) :=
    recolor_eq_replace p .Black g G _ hnd hsubg hpSg
  have hsub1 : BT.subAt g (G.replace g (BT.recolor p .Black)) =
      some (BT.recolor p .Black (BT.bin L2 g vg .Black R2)) :=
    BT.subAt_replace g _ G _ hnd hsubg (by rw [BT.recolor_topIdx, BT.topIdx])
  have hnd1 : (G.replace g (BT.recolor p .Black)).idxs.Nodup := by
    rw [BT.replace_idxs g _ (BT.recolor_idxs p .Black)]
    exact hnd
  have hgSg : g ∈ (BT.bin L2 g vg .Black R2).idxs := by
    rw [BT.idxs]
    exact List.mem_append_right _ (List.mem_cons_self _ _)
  have e2 : BT.recolor g .Red (G.replace g (BT.recolor p .Black)) =
      (G.replace g (BT.recolor p .Black)).replace g (BT.recolor g .Red) :=
    recolor_eq_replace g .Red g _ _ hnd1 hsub1 (by rw [BT.recolor_idxs]; exact hgSg)
  have e2f : (G.replace g (BT.recolor p .Black)).replace g (BT.recolor g .Red) =
      G.replace g (fun T => BT.recolor g .Red (BT.recolor p .Black T)) :=
    BT.replace_comp_top g _ _ (fun T hT => by rw [BT.recolor_topIdx]; exact hT) G
  have e3f : (G.replace g
        (fun T => BT.recolor g .Red (BT.recolor p .Black T))).replace g BT.rotR =
      G.replace g (fixLL p g) :=
    BT.replace_comp_top g _ _
      (fun T hT => by rw [BT.recolor_topIdx, BT.recolor_topIdx]; exact hT) G
  have hchain : (BT.recolor g .Red (BT.recolor p .Black G)).replace g BT.rotR =
      G.replace g (fixLL p g) := by
    rw [e1, e2, e2f, e3f]
  -- simulation
  have hS1 : Sim (setColor t p .Black) (BT.recolor p .Black G) f :=
    Sim_setColor t G f hSim p .Black hpnil
  have hS2 : Sim (setColor (setColor t p .Black) g .Red)
      (BT.recolor g .Red (BT.recolor p .Black G)) f :=
    Sim_setColor _ _ f hS1 g .Red hgnil
  have hS3 : Sim (right_rotate (setColor (setColor t p .Black) g .Red) g)
      ((BT.recolor g .Red (BT.recolor p .Black G)).replace g BT.rotR) (f + 1) := by
    refine Sim_right_rotate _ _ f hS2 g ?_ ?_
    · rw [BT.recolor_idxs, BT.recolor_idxs]
      exact hgm
    · show ((setColor (setColor t p .Black) g .Red).mem g).left ≠
        (setColor (setColor t p .Black) g .Red).nil
      rw [setColor_left, setColor_left, hgl]
      exact hpnil
  rw [hchain] at hS3
  -- black heights
  have hbhSg : (BT.bh (BT.bin L2 g vg .Black R2)).isSome = true :=
    bh_subAt g G _ hsubg hbh
  obtain ⟨a, hbL2, hbR2⟩ := bh_bin_elim L2 g vg .Black R2 hbhSg
  rw [hL2] at hbL2
  obtain ⟨b, hbA2, hbB2⟩ := bh_bin_elim A2 p vp .Red B2 (by rw [hbL2]; rfl)
  rw [BT.bh, hbA2, hbB2] at hbL2
  simp at hbL2
  rw [hbL2] at hbA2 hbB2
  have hbhloc : BT.bh (BT.bin A2 p vp .Black (.bin B2 g vg .Red R2)) =
      BT.bh (BT.bin L2 g vg .Black R2) := by
    rw [hL2]
    simp [BT.bh, hbA2, hbB2, hbR2]
  -- red-red components
  have hnoxSg : BT.noRRx z (BT.bin L2 g vg .Black R2) = true :=
    noRRx_subAt z g G _ hsubg hnox
  rw [BT.noRRx] at hnoxSg
  simp only [Bool.and_eq_true] at hnoxSg
  obtain ⟨⟨hnoxL2, hnoxR2⟩, _⟩ := hnoxSg
  rw [hL2, BT.noRRx] at hnoxL2
  simp only [Bool.and_eq_true, Bool.or_eq_true] at hnoxL2
  obtain ⟨⟨hnoxA2, hnoxB2⟩, hedgeP⟩ := hnoxL2
  have hB2c : B2.topColor = .Black := by
    rcases hedgeP with hcb | ⟨_, hB⟩
    · exact absurd (beq_iff_eq.1 hcb) (fun hcc => Node_color.noConfusion hcc)
    rcases hB with hBz | hBb
    · exfalso
      rw [beq_iff_eq] at hBz
      exact hzB2 (BT.topIdx_mem B2 z hBz)
    · exact beq_iff_eq.1 hBb
  have hnRA2 : BT.noRR A2 = true := by
    rw [← noRRx_top z A2 ndA2 hzA]
    exact hnoxA2
  have hnRB2 : BT.noRR B2 = true := by
    rw [← noRRx_not_mem z B2 hzB2]
    exact hnoxB2
  have hnRR2 : BT.noRR R2 = true := by
    rw [← noRRx_not_mem z R2 hzR2]
    exact hnoxR2
  have hnoRRloc : BT.noRR (BT.bin A2 p vp .Black (.bin B2 g vg .Red R2)) = true := by
    rw [BT.noRR, BT.noRR]
    simp only [Bool.and_eq_true, Bool.or_eq_true]
    refine ⟨⟨hnRA2, ⟨⟨hnRB2, hnRR2⟩, Or.inr ⟨?_, ?_⟩⟩⟩, Or.inl rfl⟩
    · simp [hB2c]
    · simp [hR2c]
  -- computation of rebalance_left
  have hcomp : rebalance_left t z =
      (right_rotate (setColor (setColor t p .Black) g .Red) g, z) := by
    simp only [rebalance_left, setColor_p]
    rw [hzp, hppg]
    rw [if_neg hunotred, if_neg hprne]
    dsimp only
    rw [hzp, hppg]
  -- the repaired tree
  refine ⟨G.replace g (fixLL p g), hcomp, hS3,
    BT.replace_idxs g _ hidx G, BT.replace_vals g _ hvalsf G, ?_, ?_, ?_⟩
  · exact noRR_replace_black z g _ G _ hnd hsubg hzSg hnox
      (by rw [hval]; rfl) (by rw [hval]; exact hnoRRloc)
  · rw [bh_replace_local g _ G _ hnd hsubg (by rw [hval]; exact hbhloc)]
    exact hbh
  · have hsubp4 : BT.subAt p (G.replace g (fixLL p g)) = some
        (fixLL p g (BT.bin L2 g vg .Black R2)) :=
      BT.subAt_replace_mem g p _ G _ hnd hsubg hpSg (by rw [hval]; rfl)
    have hparB4 : parB (right_rotate (setColor (setColor t p .Black) g .Red) g)
        (fixLL p g (BT.bin L2 g vg .Black R2)) = true :=
      parB_subAt _ p _ _ hS3.par hsubp4
    rw [hval] at hparB4
    obtain ⟨hoA, _, _, _⟩ := parB_elim _ A2 p vp .Black _ hparB4
    have hz4p : ((right_rotate (setColor (setColor t p .Black) g .Red) g).mem z).p
        = p := hoA z hzA
    rw [hz4p]
    have hpG2 : p ∈ (G.replace g (fixLL p g)).idxs := by
      rw [BT.replace_idxs g _ hidx G]
      exact (BT.subAt_sublist g G _ hsubg).subset hpSg
    have hcol := colorAt_bridge _ (f + 1) _ _ hS3.tt hS3.nodup p hpG2
    rw [hcol, colorAt_subAt p _ _ hsubp4, hval, BT.topColor]

/-- CLRS insert-fixup cases 2+3, left configuration (black uncle, `z` a right
child): pre-rotate left at the parent, recolour, rotate right at the
grandparent; the local violation is fully repaired. -/
theorem rebal_left_LR (t : Rb_tree V) (z : Nat) (G : BT V) (f : Nat)
    (hSim : Sim t G f)
    (p g : Nat) (A2 E F : BT V) (vp vz vg : V) (L2 B2 R2 : BT V)
    (hzp : (t.mem z).p = p) (hppg : (t.mem p).p = g)
    (hpm : p ∈ G.idxs) (hgm : g ∈ G.idxs)
    (hpnil : p ≠ t.nil) (hgnil : g ≠ t.nil) (hznil : z ≠ t.nil)
    (hsubg : BT.subAt g G = some (.bin L2 g vg .Black R2))
    (hL2 : L2 = .bin A2 p vp .Red B2)
    (hB2 : B2 = .bin E z vz .Red F)
    (hR2c : R2.topColor = .Black)
    (hunotred : ¬ (t.mem ((t.mem g).right)).color = .Red)
    (hpr2 : (t.mem p).right = z)
    (hgl : (t.mem g).left = p)
    (hpb : p ≠ (t.mem z).left)
    (hnox : BT.noRRx z G = true)
    (hbh : (BT.bh G).isSome = true) :
    ∃ G2, rebalance_left t z =
        (right_rotate (setColor (setColor (left_rotate t p) z .Black) g .Red) g, p) ∧
      Sim (right_rotate (setColor (setColor (left_rotate t p) z .Black) g .Red) g)
        G2 (f + 2) ∧
      G2.idxs = G.idxs ∧ G2.vals = G.vals ∧
      BT.noRR G2 = true ∧ (BT.bh G2).isSome = true ∧
      ((right_rotate (setColor (setColor (left_rotate t p) z .Black) g .Red) g).mem
        (((right_rotate (setColor (setColor (left_rotate t p) z .Black) g .Red)
          g).mem p).p)).color = .Black := by
  have hnd := hSim.nodup
  have hndSg : (BT.bin L2 g vg .Black R2).idxs.Nodup :=
    List.Nodup.sublist (BT.subAt_sublist g G _ hsubg) hnd
  have hndSgx := hndSg
  rw [BT.idxs] at hndSgx
  obtain ⟨ndL2, ndR2, hgL2, hgR2, hLRdisj⟩ := nodup_parts _ _ _ hndSgx
  have hndL2x := ndL2
  rw [hL2, BT.idxs] at hndL2x
  obtain ⟨ndA2, ndB2, hpA2, hpB2, hABdisj⟩ := nodup_parts _ _ _ hndL2x
  have hndB2x := ndB2
  rw [hB2, BT.idxs] at hndB2x
  obtain ⟨ndE, ndF, hzE, hzF, hEFdisj⟩ := nodup_parts _ _ _ hndB2x
  have hpL2m : p ∈ L2.idxs := by
    rw [hL2, BT.idxs]
    exact List.mem_append_right _ (List.mem_cons_self _ _)
  have hzB2m : z ∈ B2.idxs := by
    rw [hB2, BT.idxs]
    exact List.mem_append_right _ (List.mem_cons_self _ _)
  have hzL2m : z ∈ L2.idxs := by
    rw [hL2, BT.idxs]
    exact List.mem_append_right _ (List.mem_cons_of_mem _ hzB2m)
  have hzSg : z ∈ (BT.bin L2 g vg .Black R2).idxs := by
    rw [BT.idxs]
    exact List.mem_append_left _ hzL2m
  have hpSg : p ∈ (BT.bin L2 g vg .Black R2).idxs := by
    rw [BT.idxs]
    exact List.mem_append_left _ hpL2m
  have hgSg : g ∈ (BT.bin L2 g vg .Black R2).idxs := by
    rw [BT.idxs]
    exact List.mem_append_right _ (List.mem_cons_self _ _)
  have hpR2 : p ∉ R2.idxs := hLRdisj p hpL2m
  have hzR2 : z ∉ R2.idxs := hLRdisj z hzL2m
  have hzA2 : z ∉ A2.idxs := fun hc => hABdisj z hc hzB2m
  have hgp : ¬ g = p := fun hc => hgL2 (hc ▸ hpL2m)
  have hpg2 : ¬ p = g := fun hc => hgp hc.symm
  have hzgne : z ≠ g := fun hc => hgL2 (hc ▸ hzL2m)
  have hgz : ¬ g = z := fun hc => hzgne hc.symm
  have hpz : ¬ p = z := fun hc => hpB2 (hc ▸ hzB2m)
  have hzpne : ¬ z = p := fun hc => hpz hc.symm
  have hpE : p ∉ E.idxs := fun hc => by
    refine hpB2 ?_
    rw [hB2, BT.idxs]
    exact List.mem_append_left _ hc
  have hpF : p ∉ F.idxs := fun hc => by
    refine hpB2 ?_
    rw [hB2, BT.idxs]
    exact List.mem_append_right _ (List.mem_cons_of_mem _ hc)
  have hgA2 : g ∉ A2.idxs := fun hc => by
    refine hgL2 ?_
    rw [hL2, BT.idxs]
    exact List.mem_append_left _ hc
  have hgE : g ∉ E.idxs := fun hc => by
    refine hgL2 ?_
    rw [hL2, BT.idxs]
    refine List.mem_append_right _ (List.mem_cons_of_mem _ ?_)
    rw [hB2, BT.idxs]
    exact List.mem_append_left _ hc
  have hgF : g ∉ F.idxs := fun hc => by
    refine hgL2 ?_
    rw [hL2, BT.idxs]
    refine List.mem_append_right _ (List.mem_cons_of_mem _ ?_)
    rw [hB2, BT.idxs]
    exact List.mem_append_right _ (List.mem_cons_of_mem _ hc)
  -- arena effects of the pre-rotation
  obtain ⟨ht1nil, ht1next, ht1count, ht1root, ht1vc, ht1xl, ht1xr, ht1xp,
      ht1yl, ht1yr, ht1yp, ht1q, ht1oth, ht1bp, ht1othp⟩ :=
    left_rotate_spec t p z ((t.mem z).left) g hpr2.symm rfl hppg.symm
      hpz hpb hgp hgz
  have ht1gl : ((left_rotate t p).mem g).left = z := ((ht1q hgnil).1 hgl).1
  -- the local surgery value
  have hval : fixLR p g z (BT.bin L2 g vg .Black R2) =
      .bin (.bin A2 p vp .Red E) z vz .Black (.bin F g vg .Red R2) := by
    rw [hL2, hB2]
    simp [fixLR, BT.replace, BT.rotL, BT.rotR, BT.recolor, hgp, hpg2, hpz, hzpne,
      hgz, hzgne,
      BT.replace_of_not_mem p BT.rotL R2 hpR2,
      BT.recolor_not_mem z .Black A2 hzA2, BT.recolor_not_mem z .Black E hzE,
      BT.recolor_not_mem z .Black F hzF, BT.recolor_not_mem z .Black R2 hzR2,
      BT.recolor_not_mem g .Red A2 hgA2, BT.recolor_not_mem g .Red E hgE,
      BT.recolor_not_mem g .Red F hgF, BT.recolor_not_mem g .Red R2 hgR2]
  have hidx : ∀ T : BT V, (fixLR p g z T).idxs = T.idxs := fun T => by
    simp [fixLR, BT.rotR_idxs, BT.recolor_idxs,
      BT.replace_idxs p BT.rotL (fun S => BT.rotL_idxs S)]
  have hvalsf : ∀ T : BT V, (fixLR p g z T).vals = T.vals := fun T => by
    simp [fixLR, BT.rotR_vals, BT.recolor_vals,
      BT.replace_vals p BT.rotL (fun S => BT.rotL_vals S)]
  have htop0 : ∀ T : BT V, T.topIdx = some g →
      (BT.replace p BT.rotL T).topIdx = some g := by
    intro T hT
    rw [BT.replace_topIdx p _ T (by rw [hT]; intro hc; exact hgp (Option.some.inj hc))]
    exact hT
  -- replace-form of the mirror chain
  have hE0 : G.replace p BT.rotL = G.replace g (BT.replace p BT.rotL) :=
    BT.replace_inner p g _ G _ hnd hsubg hpSg
  have hidx0 : ∀ T : BT V, (BT.replace p BT.rotL T).idxs = T.idxs :=
    fun T => BT.replace_idxs p BT.rotL (fun S => BT.rotL_idxs S) T
  have hsub0 : BT.subAt g (G.replace g (BT.replace p BT.rotL)) =
      some (BT.replace p BT.rotL (BT.bin L2 g vg .Black R2)) :=
    BT.subAt_replace g _ G _ hnd hsubg (htop0 _ rfl)
  have hnd0 : (G.replace g (BT.replace p BT.rotL)).idxs.Nodup := by
    rw [BT.replace_idxs g _ hidx0]
    exact hnd
  have e1 : BT.recolor z .Black (G.replace g (BT.replace p BT.rotL)) =
      (G.replace g (BT.replace p BT.rotL)).replace g (BT.recolor z .Black) :=
    recolor_eq_replace z .Black g _ _ hnd0 hsub0 (by rw [hidx0]; exact hzSg)
  have e1f : (G.replace g (BT.replace p BT.rotL)).replace g (BT.recolor z .Black) =
      G.replace g (fun T => BT.recolor z .Black (BT.replace p BT.rotL T)) :=
    BT.replace_comp_top g _ _ htop0 G
  have hidx1 : ∀ T : BT V,
      (BT.recolor z .Black (BT.replace p BT.rotL T)).idxs = T.idxs := fun T => by
    rw [BT.recolor_idxs, hidx0]
  have htop1 : ∀ T : BT V, T.topIdx = some g →
      (BT.recolor z .Black (BT.replace p BT.rotL T)).topIdx = some g := by
    intro T hT
    rw [BT.recolor_topIdx]
    exact htop0 T hT
  have hsub1 : BT.subAt g (G.replace g
        (fun T => BT.recolor z .Black (BT.replace p BT.rotL T))) =
      some (BT.recolor z .Black (BT.replace p BT.rotL (BT.bin L2 g vg .Black R2))) :=
    BT.subAt_replace g _ G _ hnd hsubg (htop1 _ rfl)
  have hnd1 : (G.replace g
      (fun T => BT.recolor z .Black (BT.replace p BT.rotL T))).idxs.Nodup := by
    rw [BT.replace_idxs g _ hidx1]
    exact hnd
  have e2 : BT.recolor g .Red (G.replace g
        (fun T => BT.recolor z .Black (BT.replace p BT.rotL T))) =
      (G.replace g (fun T => BT.recolor z .Black (BT.replace p BT.rotL T))).replace g
        (BT.recolor g .Red) :=
    recolor_eq_replace g .Red g _ _ hnd1 hsub1 (by rw [hidx1]; exact hgSg)
  have e2f : (G.replace g
        (fun T => BT.recolor z .Black (BT.replace p BT.rotL T))).replace g
        (BT.recolor g .Red) =
      G.replace g (fun T => BT.recolor g .Red
        (BT.recolor z .Black (BT.replace p BT.rotL T))) :=
    BT.replace_comp_top g _ _ htop1 G
  have e3f : (G.replace g (fun T => BT.recolor g .Red
        (BT.recolor z .Black (BT.replace p BT.rotL T)))).replace g BT.rotR =
      G.replace g (fixLR p g z) :=
    BT.replace_comp_top g _ _
      (fun T hT => by rw [BT.recolor_topIdx]; exact htop1 T hT) G
  have hchain : (BT.recolor g .Red (BT.recolor z .Black
        (G.replace p BT.rotL))).replace g BT.rotR = G.replace g (fixLR p g z) := by
    rw [hE0, e1, e1f, e2, e2f, e3f]
  -- simulation
  have hS1 : Sim (left_rotate t p) (G.replace p BT.rotL) (f + 1) :=
    Sim_left_rotate t G f hSim p hpm (by rw [hpr2]; exact hznil)
  have hS2 : Sim (setColor (left_rotate t p) z .Black)
      (BT.recolor z .Black (G.replace p BT.rotL)) (f + 1) :=
    Sim_setColor _ _ _ hS1 z .Black (by rw [ht1nil]; exact hznil)
  have hS3 : Sim (setColor (setColor (left_rotate t p) z .Black) g .Red)
      (BT.recolor g .Red (BT.recolor z .Black (G.replace p BT.rotL))) (f + 1) :=
    Sim_setColor _ _ _ hS2 g .Red (by show g ≠ (left_rotate t p).nil; rw [ht1nil]; exact hgnil)
  have hS4 : Sim (right_rotate (setColor (setColor (left_rotate t p) z .Black)
        g .Red) g)
      ((BT.recolor g .Red (BT.recolor z .Black
        (G.replace p BT.rotL))).replace g BT.rotR) (f + 2) := by
    refine Sim_right_rotate _ _ (f + 1) hS3 g ?_ ?_
    · rw [BT.recolor_idxs, BT.recolor_idxs,
        BT.replace_idxs p BT.rotL (fun S => BT.rotL_idxs S)]
      exact hgm
    · show ((setColor (setColor (left_rotate t p) z .Black) g .Red).mem g).left ≠
        (setColor (setColor (left_rotate t p) z .Black) g .Red).nil
      rw [setColor_left, setColor_left, ht1gl]
      show z ≠ (left_rotate t p).nil
      rw [ht1nil]
      exact hznil
  rw [hchain] at hS4
  -- black heights
  have hbhSg : (BT.bh (BT.bin L2 g vg .Black R2)).isSome = true :=
    bh_subAt g G _ hsubg hbh
  obtain ⟨a, hbL2, hbR2⟩ := bh_bin_elim L2 g vg .Black R2 hbhSg
  rw [hL2] at hbL2
  obtain ⟨b, hbA2, hbB2⟩ := bh_bin_elim A2 p vp .Red B2 (by rw [hbL2]; rfl)
  rw [BT.bh, hbA2, hbB2] at hbL2
  simp at hbL2
  rw [hbL2] at hbA2 hbB2
  rw [hB2] at hbB2
  obtain ⟨e2v, hbE, hbF⟩ := bh_bin_elim E z vz .Red F (by rw [hbB2]; rfl)
  rw [BT.bh, hbE, hbF] at hbB2
  simp at hbB2
  rw [hbB2] at hbE hbF
  have hbhloc : BT.bh (BT.bin (.bin A2 p vp .Red E) z vz .Black
      (.bin F g vg .Red R2)) = BT.bh (BT.bin L2 g vg .Black R2) := by
    rw [hL2, hB2]
    simp [BT.bh, hbA2, hbE, hbF, hbR2]
  -- red-red components
  have hnoxSg : BT.noRRx z (BT.bin L2 g vg .Black R2) = true :=
    noRRx_subAt z g G _ hsubg hnox
  rw [BT.noRRx] at hnoxSg
  simp only [Bool.and_eq_true] at hnoxSg
  obtain ⟨⟨hnoxL2, hnoxR2⟩, _⟩ := hnoxSg
  rw [hL2, BT.noRRx] at hnoxL2
  simp only [Bool.and_eq_true, Bool.or_eq_true] at hnoxL2
  obtain ⟨⟨hnoxA2, hnoxB2⟩, hedgeP⟩ := hnoxL2
  rw [hB2, BT.noRRx] at hnoxB2
  simp only [Bool.and_eq_true, Bool.or_eq_true] at hnoxB2
  obtain ⟨⟨hnoxE, hnoxF⟩, hedgeZ⟩ := hnoxB2
  have hA2c : A2.topColor = .Black := by
    rcases hedgeP with hcb | ⟨hA, _⟩
    · exact absurd (beq_iff_eq.1 hcb) (fun hcc => Node_color.noConfusion hcc)
    rcases hA with hAz | hAb
    · exfalso
      rw [beq_iff_eq] at hAz
      exact hzA2 (BT.topIdx_mem A2 z hAz)
    · exact beq_iff_eq.1 hAb
  have hEc : E.topColor = .Black := by
    rcases hedgeZ with hcb | ⟨hA, _⟩
    · exact absurd (beq_iff_eq.1 hcb) (fun hcc => Node_color.noConfusion hcc)
    rcases hA with hAz | hAb
    · exfalso
      rw [beq_iff_eq] at hAz
      exact hzE (BT.topIdx_mem E z hAz)
    · exact beq_iff_eq.1 hAb
  have hFc : F.topColor = .Black := by
    rcases hedgeZ with hcb | ⟨_, hA⟩
    · exact absurd (beq_iff_eq.1 hcb) (fun hcc => Node_color.noConfusion hcc)
    rcases hA with hAz | hAb
    · exfalso
      rw [beq_iff_eq] at hAz
      exact hzF (BT.topIdx_mem F z hAz)
    · exact beq_iff_eq.1 hAb
  have hnRA2 : BT.noRR A2 = true := by
    rw [← noRRx_not_mem z A2 hzA2]
    exact hnoxA2
  have hnRE : BT.noRR E = true := by
    rw [← noRRx_not_mem z E hzE]
    exact hnoxE
  have hnRF : BT.noRR F = true := by
    rw [← noRRx_not_mem z F hzF]
    exact hnoxF
  have hnRR2 : BT.noRR R2 = true := by
    rw [← noRRx_not_mem z R2 hzR2]
    exact hnoxR2
  have hnoRRloc : BT.noRR (BT.bin (.bin A2 p vp .Red E) z vz .Black
      (.bin F g vg .Red R2)) = true := by
    rw [BT.noRR, BT.noRR, BT.noRR]
    simp only [Bool.and_eq_true, Bool.or_eq_true]
    refine ⟨⟨⟨⟨hnRA2, hnRE⟩, Or.inr ⟨?_, ?_⟩⟩,
      ⟨⟨hnRF, hnRR2⟩, Or.inr ⟨?_, ?_⟩⟩⟩, Or.inl rfl⟩
    · simp [hA2c]
    · simp [hEc]
    · simp [hFc]
    · simp [hR2c]
  -- computation of rebalance_left
  have hcomp : rebalance_left t z =
      (right_rotate (setColor (setColor (left_rotate t p) z .Black) g .Red) g, p) := by
    simp only [rebalance_left, setColor_p]
    rw [hzp, hppg]
    rw [if_neg hunotred, if_pos hpr2.symm]
    dsimp only
    rw [ht1xp, ht1yp]
  -- the repaired tree
  refine ⟨G.replace g (fixLR p g z), hcomp, hS4,
    BT.replace_idxs g _ hidx G, BT.replace_vals g _ hvalsf G, ?_, ?_, ?_⟩
  · exact noRR_replace_black z g _ G _ hnd hsubg hzSg hnox
      (by rw [hval]; rfl) (by rw [hval]; exact hnoRRloc)
  · rw [bh_replace_local g _ G _ hnd hsubg (by rw [hval]; exact hbhloc)]
    exact hbh
  · have hsubz4 : BT.subAt z (G.replace g (fixLR p g z)) = some
        (fixLR p g z (BT.bin L2 g vg .Black R2)) :=
      BT.subAt_replace_mem g z _ G _ hnd hsubg hzSg (by rw [hval]; rfl)
    have hparB4 : parB (right_rotate (setColor (setColor (left_rotate t p) z .Black)
        g .Red) g) (fixLR p g z (BT.bin L2 g vg .Black R2)) = true :=
      parB_subAt _ z _ _ hS4.par hsubz4
    rw [hval] at hparB4
    obtain ⟨hoA, _, _, _⟩ := parB_elim _ (.bin A2 p vp .Red E) z vz .Black _ hparB4
    have hp4p : ((right_rotate (setColor (setColor (left_rotate t p) z .Black)
        g .Red) g).mem p).p = z := hoA p rfl
    rw [hp4p]
    have hzG2 : z ∈ (G.replace g (fixLR p g z)).idxs := by
      rw [BT.replace_idxs g _ hidx G]
      exact (BT.subAt_sublist g G _ hsubg).subset hzSg
    have hcol := colorAt_bridge _ (f + 2) _ _ hS4.tt hS4.nodup z hzG2
    rw [hcol, colorAt_subAt z _ _ hsubz4, hval, BT.topColor]

/-- CLRS insert-fixup case 1, right configuration (red uncle). -/
theorem rebal_right_uncle_red (t : Rb_tree V) (z : Nat) (G : BT V) (f : Nat)
    (hSim : Sim t G f)
    (p g u : Nat) (A2 B2 C D : BT V) (vp vg vu : V) (L2 R2 : BT V)
    (hzp : (t.mem z).p = p) (hppg : (t.mem p).p = g)
    (hgm : g ∈ G.idxs)
    (hunil : u ≠ t.nil) (hpnil : p ≠ t.nil) (hgnil : g ≠ t.nil)
    (hzgne : z ≠ g)
    (hzAB : A2.topIdx = some z ∨ B2.topIdx = some z)
    (hsubg : BT.subAt g G = some (.bin L2 g vg .Black R2))
    (hR2 : R2 = .bin B2 p vp .Red A2)
    (hL2 : L2 = .bin C u vu .Red D)
    (hugl : (t.mem g).left = u)
    (hured : (t.mem u).color = .Red)
    (hnox : BT.noRRx z G = true)
    (hbh : (BT.bh G).isSome = true)
    (htopc : G.topColor = .Black) :
    ∃ G2, rebalance_right t z =
        (setColor (setColor (setColor t u .Black) p .Black) g .Red, g) ∧
      Sim (setColor (setColor (setColor t u .Black) p .Black) g .Red) G2 f ∧
      G2.idxs = G.idxs ∧ G2.vals = G.vals ∧
      g ∈ G2.idxs ∧ BT.colorAt g G2 = .Red ∧ (BT.bh G2).isSome = true ∧
      BT.noRRx g G2 = true ∧ (G2.topColor = .Red → G2.topIdx = some g) ∧
      BT.depthOf g G2 < BT.depthOf z G := by
  have hnd := hSim.nodup
  have hndSg : (BT.bin L2 g vg .Black R2).idxs.Nodup :=
    List.Nodup.sublist (BT.subAt_sublist g G _ hsubg) hnd
  have hndSgx := hndSg
  rw [BT.idxs] at hndSgx
  obtain ⟨ndL2, ndR2, hgL2, hgR2, hLRdisj⟩ := nodup_parts _ _ _ hndSgx
  have hndR2x := ndR2
  rw [hR2, BT.idxs] at hndR2x
  obtain ⟨ndB2, ndA2, hpB2, hpA2, hBAdisj⟩ := nodup_parts _ _ _ hndR2x
  have hndL2x := ndL2
  rw [hL2, BT.idxs] at hndL2x
  obtain ⟨ndC, ndD, huC, huD, hCDdisj⟩ := nodup_parts _ _ _ hndL2x
  have hpR2m : p ∈ R2.idxs := by
    rw [hR2, BT.idxs]
    exact List.mem_append_right _ (List.mem_cons_self _ _)
  have huL2m : u ∈ L2.idxs := by
    rw [hL2, BT.idxs]
    exact List.mem_append_right _ (List.mem_cons_self _ _)
  have hzR2m : z ∈ R2.idxs := by
    rw [hR2, BT.idxs]
    rcases hzAB with h1 | h1
    · exact List.mem_append_right _ (List.mem_cons_of_mem _ (BT.topIdx_mem A2 z h1))
    · exact List.mem_append_left _ (BT.topIdx_mem B2 z h1)
  have hzSg : z ∈ (BT.bin L2 g vg .Black R2).idxs := by
    rw [BT.idxs]
    exact List.mem_append_right _ (List.mem_cons_of_mem _ hzR2m)
  have hpSg : p ∈ (BT.bin L2 g vg .Black R2).idxs := by
    rw [BT.idxs]
    exact List.mem_append_right _ (List.mem_cons_of_mem _ hpR2m)
  have huSg : u ∈ (BT.bin L2 g vg .Black R2).idxs := by
    rw [BT.idxs]
    exact List.mem_append_left _ huL2m
  have huR2 : u ∉ R2.idxs := hLRdisj u huL2m
  have hpL2 : p ∉ L2.idxs := fun hc => hLRdisj p hc hpR2m
  have hzL2 : z ∉ L2.idxs := fun hc => hLRdisj z hc hzR2m
  have hgu : ¬ g = u := fun hc => hgL2 (hc ▸ huL2m)
  have hgp : ¬ g = p := fun hc => hgR2 (hc ▸ hpR2m)
  have hpu : ¬ p = u := fun hc => huR2 (hc ▸ hpR2m)
  have hup : ¬ u = p := fun hc => hpu hc.symm
  have hug : ¬ u = g := fun hc => hgu hc.symm
  have hpg2 : ¬ p = g := fun hc => hgp hc.symm
  have huA2 : u ∉ A2.idxs := fun hc => by
    refine huR2 ?_
    rw [hR2, BT.idxs]
    exact List.mem_append_right _ (List.mem_cons_of_mem _ hc)
  have huB2 : u ∉ B2.idxs := fun hc => by
    refine huR2 ?_
    rw [hR2, BT.idxs]
    exact List.mem_append_left _ hc
  have hpC : p ∉ C.idxs := fun hc => by
    refine hpL2 ?_
    rw [hL2, BT.idxs]
    exact List.mem_append_left _ hc
  have hpD : p ∉ D.idxs := fun hc => by
    refine hpL2 ?_
    rw [hL2, BT.idxs]
    exact List.mem_append_right _ (List.mem_cons_of_mem _ hc)
  have hgA2 : g ∉ A2.idxs := fun hc => by
    refine hgR2 ?_
    rw [hR2, BT.idxs]
    exact List.mem_append_right _ (List.mem_cons_of_mem _ hc)
  have hgB2 : g ∉ B2.idxs := fun hc => by
    refine hgR2 ?_
    rw [hR2, BT.idxs]
    exact List.mem_append_left _ hc
  have hgC : g ∉ C.idxs := fun hc => by
    refine hgL2 ?_
    rw [hL2, BT.idxs]
    exact List.mem_append_left _ hc
  have hgD : g ∉ D.idxs := fun hc => by
    refine hgL2 ?_
    rw [hL2, BT.idxs]
    exact List.mem_append_right _ (List.mem_cons_of_mem _ hc)
  have hzC : z ∉ C.idxs := fun hc => by
    refine hzL2 ?_
    rw [hL2, BT.idxs]
    exact List.mem_append_left _ hc
  have hzD : z ∉ D.idxs := fun hc => by
    refine hzL2 ?_
    rw [hL2, BT.idxs]
    exact List.mem_append_right _ (List.mem_cons_of_mem _ hc)
  -- the local surgery value
  have hval : fixC1 p g u (BT.bin L2 g vg .Black R2) =
      .bin (.bin C u vu .Black D) g vg .Red (.bin B2 p vp .Black A2) := by
    rw [hL2, hR2]
    simp [fixC1, BT.recolor, hgu, hgp, hpu, hup, hug, hpg2,
      BT.recolor_not_mem u .Black A2 huA2, BT.recolor_not_mem u .Black B2 huB2,
      BT.recolor_not_mem u .Black C huC, BT.recolor_not_mem u .Black D huD,
      BT.recolor_not_mem p .Black A2 hpA2, BT.recolor_not_mem p .Black B2 hpB2,
      BT.recolor_not_mem p .Black C hpC, BT.recolor_not_mem p .Black D hpD,
      BT.recolor_not_mem g .Red A2 hgA2, BT.recolor_not_mem g .Red B2 hgB2,
      BT.recolor_not_mem g .Red C hgC, BT.recolor_not_mem g .Red D hgD]
  have hidx : ∀ T : BT V, (fixC1 p g u T).idxs = T.idxs := fun T => by
    simp [fixC1, BT.recolor_idxs]
  have hvalsf : ∀ T : BT V, (fixC1 p g u T).vals = T.vals := fun T => by
    simp [fixC1, BT.recolor_vals]
  have htopf : ∀ T : BT V, T.topIdx = some g → (fixC1 p g u T).topIdx = some g := by
    intro T hT
    simp [fixC1, BT.recolor_topIdx, hT]
  have e1 : BT.recolor u .Black G = G.replace g (BT.recolor u .Black) :=
    recolor_eq_replace u .Black g G _ hnd hsubg huSg
  have hsub1 : BT.subAt g (G.replace g (BT.recolor u .Black)) =
      some (BT.recolor u .Black (BT.bin L2 g vg .Black R2)) :=
    BT.subAt_replace g _ G _ hnd hsubg (by rw [BT.recolor_topIdx, BT.topIdx])
  have hnd1 : (G.replace g (BT.recolor u .Black)).idxs.Nodup := by
    rw [BT.replace_idxs g _ (BT.recolor_idxs u .Black)]
    exact hnd
  have e2 : BT.recolor p .Black (G.replace g (BT.recolor u .Black)) =
      (G.replace g (BT.recolor u .Black)).replace g (BT.recolor p .Black) :=
    recolor_eq_replace p .Black g _ _ hnd1 hsub1 (by rw [BT.recolor_idxs]; exact hpSg)
  have e2f : (G.replace g (BT.recolor u .Black)).replace g (BT.recolor p .Black) =
      G.replace g (fun T => BT.recolor p .Black (BT.recolor u .Black T)) :=
    BT.replace_comp_top g _ _ (fun T hT => by rw [BT.recolor_topIdx]; exact hT) G
  have hidx12 : ∀ T : BT V,
      (BT.recolor p .Black (BT.recolor u .Black T)).idxs = T.idxs := fun T => by
    rw [BT.recolor_idxs, BT.recolor_idxs]
  have hsub2 : BT.subAt g (G.replace g
        (fun T => BT.recolor p .Black (BT.recolor u .Black T))) =
      some (BT.recolor p .Black (BT.recolor u .Black (BT.bin L2 g vg .Black R2))) :=
    BT.subAt_replace g _ G _ hnd hsubg
      (by rw [BT.recolor_topIdx, BT.recolor_topIdx, BT.topIdx])
  have hnd2 : (G.replace g
      (fun T => BT.recolor p .Black (BT.recolor u .Black T))).idxs.Nodup := by
    rw [BT.replace_idxs g _ hidx12]
    exact hnd
  have hgSg : g ∈ (BT.bin L2 g vg .Black R2).idxs := by
    rw [BT.idxs]
    exact List.mem_append_right _ (List.mem_cons_self _ _)
  have e3 : BT.recolor g .Red (G.replace g
        (fun T => BT.recolor p .Black (BT.recolor u .Black T))) =
      (G.replace g (fun T => BT.recolor p .Black (BT.recolor u .Black T))).replace g
        (BT.recolor g .Red) :=
    recolor_eq_replace g .Red g _ _ hnd2 hsub2
      (by rw [BT.recolor_idxs, BT.recolor_idxs]; exact hgSg)
  have e3f : (G.replace g
        (fun T => BT.recolor p .Black (BT.recolor u .Black T))).replace g
        (BT.recolor g .Red) = G.replace g (fixC1 p g u) :=
    BT.replace_comp_top g _ _
      (fun T hT => by rw [BT.recolor_topIdx, BT.recolor_topIdx]; exact hT) G
  have hchain : BT.recolor g .Red (BT.recolor p .Black (BT.recolor u .Black G)) =
      G.replace g (fixC1 p g u) := by
    rw [e1, e2, e2f, e3, e3f]
  have hS1 : Sim (setColor t u .Black) (BT.recolor u .Black G) f :=
    Sim_setColor t G f hSim u .Black hunil
  have hS2 : Sim (setColor (setColor t u .Black) p .Black)
      (BT.recolor p .Black (BT.recolor u .Black G)) f :=
    Sim_setColor _ _ f hS1 p .Black hpnil
  have hS3 : Sim (setColor (setColor (setColor t u .Black) p .Black) g .Red)
      (BT.recolor g .Red (BT.recolor p .Black (BT.recolor u .Black G))) f :=
    Sim_setColor _ _ f hS2 g .Red hgnil
  rw [hchain] at hS3
  have hbhSg : (BT.bh (BT.bin L2 g vg .Black R2)).isSome = true :=
    bh_subAt g G _ hsubg hbh
  obtain ⟨a, hbL2, hbR2⟩ := bh_bin_elim L2 g vg .Black R2 hbhSg
  rw [hL2] at hbL2
  rw [hR2] at hbR2
  obtain ⟨b, hbC, hbD⟩ := bh_bin_elim C u vu .Red D (by rw [hbL2]; rfl)
  obtain ⟨d2, hbB2, hbA2⟩ := bh_bin_elim B2 p vp .Red A2 (by rw [hbR2]; rfl)
  rw [BT.bh, hbC, hbD] at hbL2
  simp at hbL2
  rw [BT.bh, hbB2, hbA2] at hbR2
  simp at hbR2
  rw [hbL2] at hbC hbD
  rw [hbR2] at hbB2 hbA2
  have hbhloc : BT.bh (BT.bin (.bin C u vu .Black D) g vg .Red
      (.bin B2 p vp .Black A2)) = BT.bh (BT.bin L2 g vg .Black R2) := by
    rw [hL2, hR2]
    simp [BT.bh, hbA2, hbB2, hbC, hbD]
  have hnoxSg : BT.noRRx z (BT.bin L2 g vg .Black R2) = true :=
    noRRx_subAt z g G _ hsubg hnox
  rw [BT.noRRx] at hnoxSg
  simp only [Bool.and_eq_true] at hnoxSg
  obtain ⟨⟨hnoxL2, hnoxR2⟩, _⟩ := hnoxSg
  rw [hR2, BT.noRRx] at hnoxR2
  simp only [Bool.and_eq_true] at hnoxR2
  obtain ⟨⟨hnoxB2, hnoxA2⟩, _⟩ := hnoxR2
  rw [hL2, BT.noRRx] at hnoxL2
  simp only [Bool.and_eq_true] at hnoxL2
  obtain ⟨⟨hnoxC, hnoxD⟩, _⟩ := hnoxL2
  have hnRA2 : BT.noRR A2 = true := by
    rcases hzAB with h1 | h1
    · rw [← noRRx_top z A2 ndA2 h1]
      exact hnoxA2
    · have hzA2 : z ∉ A2.idxs := fun hc => hBAdisj z (BT.topIdx_mem B2 z h1) hc
      rw [← noRRx_not_mem z A2 hzA2]
      exact hnoxA2
  have hnRB2 : BT.noRR B2 = true := by
    rcases hzAB with h1 | h1
    · have hzB2 : z ∉ B2.idxs := fun hc => hBAdisj z hc (BT.topIdx_mem A2 z h1)
      rw [← noRRx_not_mem z B2 hzB2]
      exact hnoxB2
    · rw [← noRRx_top z B2 ndB2 h1]
      exact hnoxB2
  have hnRC : BT.noRR C = true := by
    rw [← noRRx_not_mem z C hzC]
    exact hnoxC
  have hnRD : BT.noRR D = true := by
    rw [← noRRx_not_mem z D hzD]
    exact hnoxD
  have hnoxloc : BT.noRRx g (BT.bin (.bin C u vu .Black D) g vg .Red
      (.bin B2 p vp .Black A2)) = true := by
    rw [BT.noRRx]
    simp only [Bool.and_eq_true, Bool.or_eq_true]
    refine ⟨⟨?_, ?_⟩, Or.inr ⟨Or.inr rfl, Or.inr rfl⟩⟩
    · have hgL' : g ∉ (BT.bin C u vu .Black D).idxs := by
        rw [BT.idxs]
        intro hc
        rcases List.mem_append.1 hc with h2 | h2
        · exact hgC h2
        rcases List.mem_cons.1 h2 with h3 | h3
        · exact hgu h3
        · exact hgD h3
      rw [noRRx_not_mem g _ hgL', BT.noRR]
      simp only [Bool.and_eq_true, Bool.or_eq_true]
      exact ⟨⟨hnRC, hnRD⟩, Or.inl rfl⟩
    · have hgR' : g ∉ (BT.bin B2 p vp .Black A2).idxs := by
        rw [BT.idxs]
        intro hc
        rcases List.mem_append.1 hc with h2 | h2
        · exact hgB2 h2
        rcases List.mem_cons.1 h2 with h3 | h3
        · exact hgp h3
        · exact hgA2 h3
      rw [noRRx_not_mem g _ hgR', BT.noRR]
      simp only [Bool.and_eq_true, Bool.or_eq_true]
      exact ⟨⟨hnRB2, hnRA2⟩, Or.inl rfl⟩
  have hcomp : rebalance_right t z =
      (setColor (setColor (setColor t u .Black) p .Black) g .Red, g) := by
    simp only [rebalance_right, setColor_p]
    rw [hzp, hppg, hugl, if_pos hured]
  refine ⟨G.replace g (fixC1 p g u), hcomp, hS3,
    BT.replace_idxs g _ hidx G, BT.replace_vals g _ hvalsf G, ?_, ?_, ?_, ?_, ?_, ?_⟩
  · rw [BT.replace_idxs g _ hidx G]
    exact hgm
  · have h1 : BT.colorAt g (BT.recolor g .Red
        (BT.recolor p .Black (BT.recolor u .Black G))) = .Red :=
      BT.colorAt_recolor_eq g .Red _
        (by rw [BT.recolor_idxs, BT.recolor_idxs]; exact hgm)
    rw [hchain] at h1
    exact h1
  · rw [bh_replace_local g _ G _ hnd hsubg (by rw [hval]; exact hbhloc)]
    exact hbh
  · exact noRRx_replace_exempt z g _ G _ hnd hsubg hzSg hnox
      (by rw [hval]; rfl) (by rw [hval]; exact hnoxloc)
  · intro hrc
    have htid : (G.replace g (fixC1 p g u)).topIdx = G.topIdx := by
      rw [← hchain, BT.recolor_topIdx, BT.recolor_topIdx, BT.recolor_topIdx]
    by_cases hgt : G.topIdx = some g
    · rw [htid]
      exact hgt
    · exfalso
      rw [BT.replace_topColor g _ G hgt, htopc] at hrc
      exact Node_color.noConfusion hrc
  · have hdep : BT.depthOf g (G.replace g (fixC1 p g u)) = BT.depthOf g G :=
      BT.depthOf_replace g _ hidx htopf G
    rw [hdep]
    exact BT.depthOf_lt g z G _ hnd hsubg hzSg hzgne

/-- CLRS insert-fixup case 3, right configuration (black uncle, `z` a right
child): recolour and rotate left at the grandparent. -/
theorem rebal_right_RR (t : Rb_tree V) (z : Nat) (G : BT V) (f : Nat)
    (hSim : Sim t G f)
    (p g : Nat) (A2 B2 : BT V) (vp vg : V) (L2 R2 : BT V)
    (hzp : (t.mem z).p = p) (hppg : (t.mem p).p = g)
    (hgm : g ∈ G.idxs)
    (hpnil : p ≠ t.nil) (hgnil : g ≠ t.nil)
    (hzA : A2.topIdx = some z)
    (hsubg : BT.subAt g G = some (.bin L2 g vg .Black R2))
    (hR2 : R2 = .bin B2 p vp .Red A2)
    (hL2c : L2.topColor = .Black)
    (hunotred : ¬ (t.mem ((t.mem g).left)).color = .Red)
    (hplne : ¬ z = (t.mem p).left)
    (hgr : (t.mem g).right = p)
    (hnox : BT.noRRx z G = true)
    (hbh : (BT.bh G).isSome = true) :
    ∃ G2, rebalance_right t z =
        (left_rotate (setColor (setColor t p .Black) g .Red) g, z) ∧
      Sim (left_rotate (setColor (setColor t p .Black) g .Red) g) G2 (f + 1) ∧
      G2.idxs = G.idxs ∧ G2.vals = G.vals ∧
      BT.noRR G2 = true ∧ (BT.bh G2).isSome = true ∧
      ((left_rotate (setColor (setColor t p .Black) g .Red) g).mem
        (((left_rotate (setColor (setColor t p .Black) g .Red) g).mem z).p)).color
        = .Black := by
  have hnd := hSim.nodup
  have hndSg : (BT.bin L2 g vg .Black R2).idxs.Nodup :=
    List.Nodup.sublist (BT.subAt_sublist g G _ hsubg) hnd
  have hndSgx := hndSg
  rw [BT.idxs] at hndSgx
  obtain ⟨ndL2, ndR2, hgL2, hgR2, hLRdisj⟩ := nodup_parts _ _ _ hndSgx
  have hndR2x := ndR2
  rw [hR2, BT.idxs] at hndR2x
  obtain ⟨ndB2, ndA2, hpB2, hpA2, hBAdisj⟩ := nodup_parts _ _ _ hndR2x
  have hpR2m : p ∈ R2.idxs := by
    rw [hR2, BT.idxs]
    exact List.mem_append_right _ (List.mem_cons_self _ _)
  have hzA2m : z ∈ A2.idxs := BT.topIdx_mem A2 z hzA
  have hzR2m : z ∈ R2.idxs := by
    rw [hR2, BT.idxs]
    exact List.mem_append_right _ (List.mem_cons_of_mem _ hzA2m)
  have hzSg : z ∈ (BT.bin L2 g vg .Black R2).idxs := by
    rw [BT.idxs]
    exact List.mem_append_right _ (List.mem_cons_of_mem _ hzR2m)
  have hpSg : p ∈ (BT.bin L2 g vg .Black R2).idxs := by
    rw [BT.idxs]
    exact List.mem_append_right _ (List.mem_cons_of_mem _ hpR2m)
  have hpL2 : p ∉ L2.idxs := fun hc => hLRdisj p hc hpR2m
  have hzL2 : z ∉ L2.idxs := fun hc => hLRdisj z hc hzR2m
  have hzB2 : z ∉ B2.idxs := fun hc => hBAdisj z hc hzA2m
  have hgp : ¬ g = p := fun hc => hgR2 (hc ▸ hpR2m)
  have hpg2 : ¬ p = g := fun hc => hgp hc.symm
  have hzgne : z ≠ g := fun hc => hgR2 (hc ▸ hzR2m)
  have hgz : ¬ g = z := fun hc => hzgne hc.symm
  have hpz : ¬ p = z := fun hc => hpA2 (hc ▸ hzA2m)
  have hzpne : ¬ z = p := fun hc => hpz hc.symm
  have hgA2 : g ∉ A2.idxs := fun hc => by
    refine hgR2 ?_
    rw [hR2, BT.idxs]
    exact List.mem_append_right _ (List.mem_cons_of_mem _ hc)
  have hgB2 : g ∉ B2.idxs := fun hc => by
    refine hgR2 ?_
    rw [hR2, BT.idxs]
    exact List.mem_append_left _ hc
  -- the local surgery value
  have hval : fixRR p g (BT.bin L2 g vg .Black R2) =
      .bin (.bin L2 g vg .Red B2) p vp .Black A2 := by
    rw [hR2]
    simp [fixRR, BT.recolor, BT.rotL, hgp, hpg2,
      BT.recolor_not_mem p .Black A2 hpA2, BT.recolor_not_mem p .Black B2 hpB2,
      BT.recolor_not_mem p .Black L2 hpL2,
      BT.recolor_not_mem g .Red A2 hgA2, BT.recolor_not_mem g .Red B2 hgB2,
      BT.recolor_not_mem g .Red L2 hgL2]
  have hidx : ∀ T : BT V, (fixRR p g T).idxs = T.idxs := fun T => by
    simp [fixRR, BT.rotL_idxs, BT.recolor_idxs]
  have hvalsf : ∀ T : BT V, (fixRR p g T).vals = T.vals := fun T => by
    simp [fixRR, BT.rotL_vals, BT.recolor_vals]
  -- replace-form of the mirror chain
  have e1 : BT.recolor p .Black G = G.replace g (BT.recolor p .Black) :=
    recolor_eq_replace p .Black g G _ hnd hsubg hpSg
  have hsub1 : BT.subAt g (G.replace g (BT.recolor p .Black)) =
      some (BT.recolor p .Black (BT.bin L2 g vg .Black R2)) :=
    BT.subAt_replace g _ G _ hnd hsubg (by rw [BT.recolor_topIdx, BT.topIdx])
  have hnd1 : (G.replace g (BT.recolor p .Black)).idxs.Nodup := by
    rw [BT.replace_idxs g _ (BT.recolor_idxs p .Black)]
    exact hnd
  have hgSg : g ∈ (BT.bin L2 g vg .Black R2).idxs := by
    rw [BT.idxs]
    exact List.mem_append_right _ (List.mem_cons_self _ _)
  have e2 : BT.recolor g .Red (G.replace g (BT.recolor p .Black)) =
      (G.replace g (BT.recolor p .Black)).replace g (BT.recolor g .Red) :=
    recolor_eq_replace g .Red g _ _ hnd1 hsub1 (by rw [BT.recolor_idxs]; exact hgSg)
  have e2f : (G.replace g (BT.recolor p .Black)).replace g (BT.recolor g .Red) =
      G.replace g (fun T => BT.recolor g .Red (BT.recolor p .Black T)) :=
    BT.replace_comp_top g _ _ (fun T hT => by rw [BT.recolor_topIdx]; exact hT) G
  have e3f : (G.replace g
        (fun T => BT.recolor g .Red (BT.recolor p .Black T))).replace g BT.rotL =
      G.replace g (fixRR p g) :=
    BT.replace_comp_top g _ _
      (fun T hT => by rw [BT.recolor_topIdx, BT.recolor_topIdx]; exact hT) G
  have hchain : (BT.recolor g .Red (BT.recolor p .Black G)).replace g BT.rotL =
      G.replace g (fixRR p g) := by
    rw [e1, e2, e2f, e3f]
  -- simulation
  have hS1 : Sim (setColor t p .Black) (BT.recolor p .Black G) f :=
    Sim_setColor t G f hSim p .Black hpnil
  have hS2 : Sim (setColor (setColor t p .Black) g .Red)
      (BT.recolor g .Red (BT.recolor p .Black G)) f :=
    Sim_setColor _ _ f hS1 g .Red hgnil
  have hS3 : Sim (left_rotate (setColor (setColor t p .Black) g .Red) g)
      ((BT.recolor g .Red (BT.recolor p .Black G)).replace g BT.rotL) (f + 1) := by
    refine Sim_left_rotate _ _ f hS2 g ?_ ?_
    · rw [BT.recolor_idxs, BT.recolor_idxs]
      exact hgm
    · show ((setColor (setColor t p .Black) g .Red).mem g).right ≠
        (setColor (setColor t p .Black) g .Red).nil
      rw [setColor_right, setColor_right, hgr]
      exact hpnil
  rw [hchain] at hS3
  -- black heights
  have hbhSg : (BT.bh (BT.bin L2 g vg .Black R2)).isSome = true :=
    bh_subAt g G _ hsubg hbh
  obtain ⟨a, hbL2, hbR2⟩ := bh_bin_elim L2 g vg .Black R2 hbhSg
  rw [hR2] at hbR2
  obtain ⟨b, hbB2, hbA2⟩ := bh_bin_elim B2 p vp .Red A2 (by rw [hbR2]; rfl)
  rw [BT.bh, hbB2, hbA2] at hbR2
  simp at hbR2
  rw [hbR2] at hbB2 hbA2
  have hbhloc : BT.bh (BT.bin (.bin L2 g vg .Red B2) p vp .Black A2) =
      BT.bh (BT.bin L2 g vg .Black R2) := by
    rw [hR2]
    simp [BT.bh, hbA2, hbB2, hbL2]
  -- red-red components
  have hnoxSg : BT.noRRx z (BT.bin L2 g vg .Black R2) = true :=
    noRRx_subAt z g G _ hsubg hnox
  rw [BT.noRRx] at hnoxSg
  simp only [Bool.and_eq_true] at hnoxSg
  obtain ⟨⟨hnoxL2, hnoxR2⟩, _⟩ := hnoxSg
  rw [hR2, BT.noRRx] at hnoxR2
  simp only [Bool.and_eq_true, Bool.or_eq_true] at hnoxR2
  obtain ⟨⟨hnoxB2, hnoxA2⟩, hedgeP⟩ := hnoxR2
  have hB2c : B2.topColor = .Black := by
    rcases hedgeP with hcb | ⟨hB, _⟩
    · exact absurd (beq_iff_eq.1 hcb) (fun hcc => Node_color.noConfusion hcc)
    rcases hB with hBz | hBb
    · exfalso
      rw [beq_iff_eq] at hBz
      exact hzB2 (BT.topIdx_mem B2 z hBz)
    · exact beq_iff_eq.1 hBb
  have hnRA2 : BT.noRR A2 = true := by
    rw [← noRRx_top z A2 ndA2 hzA]
    exact hnoxA2
  have hnRB2 : BT.noRR B2 = true := by
    rw [← noRRx_not_mem z B2 hzB2]
    exact hnoxB2
  have hnRL2 : BT.noRR L2 = true := by
    rw [← noRRx_not_mem z L2 hzL2]
    exact hnoxL2
  have hnoRRloc : BT.noRR (BT.bin (.bin L2 g vg .Red B2) p vp .Black A2) = true := by
    rw [BT.noRR, BT.noRR]
    simp only [Bool.and_eq_true, Bool.or_eq_true]
    refine ⟨⟨⟨⟨hnRL2, hnRB2⟩, Or.inr ⟨?_, ?_⟩⟩, hnRA2⟩, Or.inl rfl⟩
    · simp [hL2c]
    · simp [hB2c]
  -- computation of rebalance_right
  have hcomp : rebalance_right t z =
      (left_rotate (setColor (setColor t p .Black) g .Red) g, z) := by
    simp only [rebalance_right, setColor_p]
    rw [hzp, hppg]
    rw [if_neg hunotred, if_neg hplne]
    dsimp only
    rw [hzp, hppg]
  -- the repaired tree
  refine ⟨G.replace g (fixRR p g), hcomp, hS3,
    BT.replace_idxs g _ hidx G, BT.replace_vals g _ hvalsf G, ?_, ?_, ?_⟩
  · exact noRR_replace_black z g _ G _ hnd hsubg hzSg hnox
      (by rw [hval]; rfl) (by rw [hval]; exact hnoRRloc)
  · rw [bh_replace_local g _ G _ hnd hsubg (by rw [hval]; exact hbhloc)]
    exact hbh
  · have hsubp4 : BT.subAt p (G.replace g (fixRR p g)) = some
        (fixRR p g (BT.bin L2 g vg .Black R2)) :=
      BT.subAt_replace_mem g p _ G _ hnd hsubg hpSg (by rw [hval]; rfl)
    have hparB4 : parB (left_rotate (setColor (setColor t p .Black) g .Red) g)
        (fixRR p g (BT.bin L2 g vg .Black R2)) = true :=
      parB_subAt _ p _ _ hS3.par hsubp4
    rw [hval] at hparB4
    obtain ⟨_, hoA, _, _⟩ := parB_elim _ (.bin L2 g vg .Red B2) p vp .Black _ hparB4
    have hz4p : ((left_rotate (setColor (setColor t p .Black) g .Red) g).mem z).p
        = p := hoA z hzA
    rw [hz4p]
    have hpG2 : p ∈ (G.replace g (fixRR p g)).idxs := by
      rw [BT.replace_idxs g _ hidx G]
      exact (BT.subAt_sublist g G _ hsubg).subset hpSg
    have hcol := colorAt_bridge _ (f + 1) _ _ hS3.tt hS3.nodup p hpG2
    rw [hcol, colorAt_subAt p _ _ hsubp4, hval, BT.topColor]

/-- CLRS insert-fixup cases 2+3, right configuration (black uncle, `z` a left
child): pre-rotate right at the parent, recolour, rotate left at the
grandparent. -/
theorem rebal_right_RL (t : Rb_tree V) (z : Nat) (G : BT V) (f : Nat)
    (hSim : Sim t G f)
    (p g : Nat) (A2 E F : BT V) (vp vz vg : V) (L2 B2 R2 : BT V)
    (hzp : (t.mem z).p = p) (hppg : (t.mem p).p = g)
    (hpm : p ∈ G.idxs) (hgm : g ∈ G.idxs)
    (hpnil : p ≠ t.nil) (hgnil : g ≠ t.nil) (hznil : z ≠ t.nil)
    (hsubg : BT.subAt g G = some (.bin L2 g vg .Black R2))
    (hR2 : R2 = .bin B2 p vp .Red A2)
    (hB2 : B2 = .bin E z vz .Red F)
    (hL2c : L2.topColor = .Black)
    (hunotred : ¬ (t.mem ((t.mem g).left)).color = .Red)
    (hpl2 : (t.mem p).left = z)
    (hgr : (t.mem g).right = p)
    (hpb : p ≠ (t.mem z).right)
    (hnox : BT.noRRx z G = true)
    (hbh : (BT.bh G).isSome = true) :
    ∃ G2, rebalance_right t z =
        (left_rotate (setColor (setColor (right_rotate t p) z .Black) g .Red) g, p) ∧
      Sim (left_rotate (setColor (setColor (right_rotate t p) z .Black) g .Red) g)
        G2 (f + 2) ∧
      G2.idxs = G.idxs ∧ G2.vals = G.vals ∧
      BT.noRR G2 = true ∧ (BT.bh G2).isSome = true ∧
      ((left_rotate (setColor (setColor (right_rotate t p) z .Black) g .Red) g).mem
        (((left_rotate (setColor (setColor (right_rotate t p) z .Black) g .Red)
          g).mem p).p)).color = .Black := by
  have hnd := hSim.nodup
  have hndSg : (BT.bin L2 g vg .Black R2).idxs.Nodup :=
    List.Nodup.sublist (BT.subAt_sublist g G _ hsubg) hnd
  have hndSgx := hndSg
  rw [BT.idxs] at hndSgx
  obtain ⟨ndL2, ndR2, hgL2, hgR2, hLRdisj⟩ := nodup_parts _ _ _ hndSgx
  have hndR2x := ndR2
  rw [hR2, BT.idxs] at hndR2x
  obtain ⟨ndB2, ndA2, hpB2, hpA2, hBAdisj⟩ := nodup_parts _ _ _ hndR2x
  have hndB2x := ndB2
  rw [hB2, BT.idxs] at hndB2x
  obtain ⟨ndE, ndF, hzE, hzF, hEFdisj⟩ := nodup_parts _ _ _ hndB2x
  have hpR2m : p ∈ R2.idxs := by
    rw [hR2, BT.idxs]
    exact List.mem_append_right _ (List.mem_cons_self _ _)
  have hzB2m : z ∈ B2.idxs := by
    rw [hB2, BT.idxs]
    exact List.mem_append_right _ (List.mem_cons_self _ _)
  have hzR2m : z ∈ R2.idxs := by
    rw [hR2, BT.idxs]
    exact List.mem_append_left _ hzB2m
  have hzSg : z ∈ (BT.bin L2 g vg .Black R2).idxs := by
    rw [BT.idxs]
    exact List.mem_append_right _ (List.mem_cons_of_mem _ hzR2m)
  have hpSg : p ∈ (BT.bin L2 g vg .Black R2).idxs := by
    rw [BT.idxs]
    exact List.mem_append_right _ (List.mem_cons_of_mem _ hpR2m)
  have hgSg : g ∈ (BT.bin L2 g vg .Black R2).idxs := by
    rw [BT.idxs]
    exact List.mem_append_right _ (List.mem_cons_self _ _)
  have hpL2 : p ∉ L2.idxs := fun hc => hLRdisj p hc hpR2m
  have hzL2 : z ∉ L2.idxs := fun hc => hLRdisj z hc hzR2m
  have hzA2 : z ∉ A2.idxs := fun hc => hBAdisj z hzB2m hc
  have hgp : ¬ g = p := fun hc => hgR2 (hc ▸ hpR2m)
  have hpg2 : ¬ p = g := fun hc => hgp hc.symm
  have hzgne : z ≠ g := fun hc => hgR2 (hc ▸ hzR2m)
  have hgz : ¬ g = z := fun hc => hzgne hc.symm
  have hpz : ¬ p = z := fun hc => hpB2 (hc ▸ hzB2m)
  have hzpne : ¬ z = p := fun hc => hpz hc.symm
  have hpE : p ∉ E.idxs := fun hc => by
    refine hpB2 ?_
    rw [hB2, BT.idxs]
    exact List.mem_append_left _ hc
  have hpF : p ∉ F.idxs := fun hc => by
    refine hpB2 ?_
    rw [hB2, BT.idxs]
    exact List.mem_append_right _ (List.mem_cons_of_mem _ hc)
  have hgA2 : g ∉ A2.idxs := fun hc => by
    refine hgR2 ?_
    rw [hR2, BT.idxs]
    exact List.mem_append_right _ (List.mem_cons_of_mem _ hc)
  have hgE : g ∉ E.idxs := fun hc => by
    refine hgR2 ?_
    rw [hR2, BT.idxs]
    refine List.mem_append_left _ ?_
    rw [hB2, BT.idxs]
    exact List.mem_append_left _ hc
  have hgF : g ∉ F.idxs := fun hc => by
    refine hgR2 ?_
    rw [hR2, BT.idxs]
    refine List.mem_append_left _ ?_
    rw [hB2, BT.idxs]
    exact List.mem_append_right _ (List.mem_cons_of_mem _ hc)
  -- arena effects of the pre-rotation
  obtain ⟨ht1nil, ht1next, ht1count, ht1root, ht1vc, ht1xr, ht1xl, ht1xp,
      ht1yr, ht1yl, ht1yp, ht1q, ht1oth, ht1bp, ht1othp⟩ :=
    right_rotate_spec t p z ((t.mem z).right) g hpl2.symm rfl hppg.symm
      hpz hpb hgp hgz
  have ht1gr : ((right_rotate t p).mem g).right = z := ((ht1q hgnil).1 hgr).1
  -- the local surgery value
  have hval : fixRL p g z (BT.bin L2 g vg .Black R2) =
      .bin (.bin L2 g vg .Red E) z vz .Black (.bin F p vp .Red A2) := by
    rw [hR2, hB2]
    simp [fixRL, BT.replace, BT.rotR, BT.rotL, BT.recolor, hgp, hpg2, hpz, hzpne,
      hgz, hzgne,
      BT.replace_of_not_mem p BT.rotR L2 hpL2,
      BT.recolor_not_mem z .Black A2 hzA2, BT.recolor_not_mem z .Black E hzE,
      BT.recolor_not_mem z .Black F hzF, BT.recolor_not_mem z .Black L2 hzL2,
      BT.recolor_not_mem g .Red A2 hgA2, BT.recolor_not_mem g .Red E hgE,
      BT.recolor_not_mem g .Red F hgF, BT.recolor_not_mem g .Red L2 hgL2]
  have hidx : ∀ T : BT V, (fixRL p g z T).idxs = T.idxs := fun T => by
    simp [fixRL, BT.rotL_idxs, BT.recolor_idxs,
      BT.replace_idxs p BT.rotR (fun S => BT.rotR_idxs S)]
  have hvalsf : ∀ T : BT V, (fixRL p g z T).vals = T.vals := fun T => by
    simp [fixRL, BT.rotL_vals, BT.recolor_vals,
      BT.replace_vals p BT.rotR (fun S => BT.rotR_vals S)]
  have htop0 : ∀ T : BT V, T.topIdx = some g →
      (BT.replace p BT.rotR T).topIdx = some g := by
    intro T hT
    rw [BT.replace_topIdx p _ T (by rw [hT]; intro hc; exact hgp (Option.some.inj hc))]
    exact hT
  -- replace-form of the mirror chain
  have hE0 : G.replace p BT.rotR = G.replace g (BT.replace p BT.rotR) :=
    BT.replace_inner p g _ G _ hnd hsubg hpSg
  have hidx0 : ∀ T : BT V, (BT.replace p BT.rotR T).idxs = T.idxs :=
    fun T => BT.replace_idxs p BT.rotR (fun S => BT.rotR_idxs S) T
  have hsub0 : BT.subAt g (G.replace g (BT.replace p BT.rotR)) =
      some (BT.replace p BT.rotR (BT.bin L2 g vg .Black R2)) :=
    BT.subAt_replace g _ G _ hnd hsubg (htop0 _ rfl)
  have hnd0 : (G.replace g (BT.replace p BT.rotR)).idxs.Nodup := by
    rw [BT.replace_idxs g _ hidx0]
    exact hnd
  have e1 : BT.recolor z .Black (G.replace g (BT.replace p BT.rotR)) =
      (G.replace g (BT.replace p BT.rotR)).replace g (BT.recolor z .Black) :=
    recolor_eq_replace z .Black g _ _ hnd0 hsub0 (by rw [hidx0]; exact hzSg)
  have e1f : (G.replace g (BT.replace p BT.rotR)).replace g (BT.recolor z .Black) =
      G.replace g (fun T => BT.recolor z .Black (BT.replace p BT.rotR T)) :=
    BT.replace_comp_top g _ _ htop0 G
  have hidx1 : ∀ T : BT V,
      (BT.recolor z .Black (BT.replace p BT.rotR T)).idxs = T.idxs := fun T => by
    rw [BT.recolor_idxs, hidx0]
  have htop1 : ∀ T : BT V, T.topIdx = some g →
      (BT.recolor z .Black (BT.replace p BT.rotR T)).topIdx = some g := by
    intro T hT
    rw [BT.recolor_topIdx]
    exact htop0 T hT
  have hsub1 : BT.subAt g (G.replace g
        (fun T => BT.recolor z .Black (BT.replace p BT.rotR T))) =
      some (BT.recolor z .Black (BT.replace p BT.rotR (BT.bin L2 g vg .Black R2))) :=
    BT.subAt_replace g _ G _ hnd hsubg (htop1 _ rfl)
  have hnd1 : (G.replace g
      (fun T => BT.recolor z .Black (BT.replace p BT.rotR T))).idxs.Nodup := by
    rw [BT.replace_idxs g _ hidx1]
    exact hnd
  have e2 : BT.recolor g .Red (G.replace g
        (fun T => BT.recolor z .Black (BT.replace p BT.rotR T))) =
      (G.replace g (fun T => BT.recolor z .Black (BT.replace p BT.rotR T))).replace g
        (BT.recolor g .Red) :=
    recolor_eq_replace g .Red g _ _ hnd1 hsub1 (by rw [hidx1]; exact hgSg)
  have e2f : (G.replace g
        (fun T => BT.recolor z .Black (BT.replace p BT.rotR T))).replace g
        (BT.recolor g .Red) =
      G.replace g (fun T => BT.recolor g .Red
        (BT.recolor z .Black (BT.replace p BT.rotR T))) :=
    BT.replace_comp_top g _ _ htop1 G
  have e3f : (G.replace g (fun T => BT.recolor g .Red
        (BT.recolor z .Black (BT.replace p BT.rotR T)))).replace g BT.rotL =
      G.replace g (fixRL p g z) :=
    BT.replace_comp_top g _ _
      (fun T hT => by rw [BT.recolor_topIdx]; exact htop1 T hT) G
  have hchain : (BT.recolor g .Red (BT.recolor z .Black
        (G.replace p BT.rotR))).replace g BT.rotL = G.replace g (fixRL p g z) := by
    rw [hE0, e1, e1f, e2, e2f, e3f]
  -- simulation
  have hS1 : Sim (right_rotate t p) (G.replace p BT.rotR) (f + 1) :=
    Sim_right_rotate t G f hSim p hpm (by rw [hpl2]; exact hznil)
  have hS2 : Sim (setColor (right_rotate t p) z .Black)
      (BT.recolor z .Black (G.replace p BT.rotR)) (f + 1) :=
    Sim_setColor _ _ _ hS1 z .Black (by rw [ht1nil]; exact hznil)
  have hS3 : Sim (setColor (setColor (right_rotate t p) z .Black) g .Red)
      (BT.recolor g .Red (BT.recolor z .Black (G.replace p BT.rotR))) (f + 1) :=
    Sim_setColor _ _ _ hS2 g .Red
      (by show g ≠ (right_rotate t p).nil; rw [ht1nil]; exact hgnil)
  have hS4 : Sim (left_rotate (setColor (setColor (right_rotate t p) z .Black)
        g .Red) g)
      ((BT.recolor g .Red (BT.recolor z .Black
        (G.replace p BT.rotR))).replace g BT.rotL) (f + 2) := by
    refine Sim_left_rotate _ _ (f + 1) hS3 g ?_ ?_
    · rw [BT.recolor_idxs, BT.recolor_idxs,
        BT.replace_idxs p BT.rotR (fun S => BT.rotR_idxs S)]
      exact hgm
    · show ((setColor (setColor (right_rotate t p) z .Black) g .Red).mem g).right ≠
        (setColor (setColor (right_rotate t p) z .Black) g .Red).nil
      rw [setColor_right, setColor_right, ht1gr]
      show z ≠ (right_rotate t p).nil
      rw [ht1nil]
      exact hznil
  rw [hchain] at hS4
  -- black heights
  have hbhSg : (BT.bh (BT.bin L2 g vg .Black R2)).isSome = true :=
    bh_subAt g G _ hsubg hbh
  obtain ⟨a, hbL2, hbR2⟩ := bh_bin_elim L2 g vg .Black R2 hbhSg
  rw [hR2] at hbR2
  obtain ⟨b, hbB2, hbA2⟩ := bh_bin_elim B2 p vp .Red A2 (by rw [hbR2]; rfl)
  rw [BT.bh, hbB2, hbA2] at hbR2
  simp at hbR2
  rw [hbR2] at hbB2 hbA2
  rw [hB2] at hbB2
  obtain ⟨e2v, hbE, hbF⟩ := bh_bin_elim E z vz .Red F (by rw [hbB2]; rfl)
  rw [BT.bh, hbE, hbF] at hbB2
  simp at hbB2
  rw [hbB2] at hbE hbF
  have hbhloc : BT.bh (BT.bin (.bin L2 g vg .Red E) z vz .Black
      (.bin F p vp .Red A2)) = BT.bh (BT.bin L2 g vg .Black R2) := by
    rw [hR2, hB2]
    simp [BT.bh, hbA2, hbE, hbF, hbL2]
  -- red-red components
  have hnoxSg : BT.noRRx z (BT.bin L2 g vg .Black R2) = true :=
    noRRx_subAt z g G _ hsubg hnox
  rw [BT.noRRx] at hnoxSg
  simp only [Bool.and_eq_true] at hnoxSg
  obtain ⟨⟨hnoxL2, hnoxR2⟩, _⟩ := hnoxSg
  rw [hR2, BT.noRRx] at hnoxR2
  simp only [Bool.and_eq_true, Bool.or_eq_true] at hnoxR2
  obtain ⟨⟨hnoxB2, hnoxA2⟩, hedgeP⟩ := hnoxR2
  rw [hB2, BT.noRRx] at hnoxB2
  simp only [Bool.and_eq_true, Bool.or_eq_true] at hnoxB2
  obtain ⟨⟨hnoxE, hnoxF⟩, hedgeZ⟩ := hnoxB2
  have hA2c : A2.topColor = .Black := by
    rcases hedgeP with hcb | ⟨_, hA⟩
    · exact absurd (beq_iff_eq.1 hcb) (fun hcc => Node_color.noConfusion hcc)
    rcases hA with hAz | hAb
    · exfalso
      rw [beq_iff_eq] at hAz
      exact hzA2 (BT.topIdx_mem A2 z hAz)
    · exact beq_iff_eq.1 hAb
  have hEc : E.topColor = .Black := by
    rcases hedgeZ with hcb | ⟨hA, _⟩
    · exact absurd (beq_iff_eq.1 hcb) (fun hcc => Node_color.noConfusion hcc)
    rcases hA with hAz | hAb
    · exfalso
      rw [beq_iff_eq] at hAz
      exact hzE (BT.topIdx_mem E z hAz)
    · exact beq_iff_eq.1 hAb
  have hFc : F.topColor = .Black := by
    rcases hedgeZ with hcb | ⟨_, hA⟩
    · exact absurd (beq_iff_eq.1 hcb) (fun hcc => Node_color.noConfusion hcc)
    rcases hA with hAz | hAb
    · exfalso
      rw [beq_iff_eq] at hAz
      exact hzF (BT.topIdx_mem F z hAz)
    · exact beq_iff_eq.1 hAb
  have hnRA2 : BT.noRR A2 = true := by
    rw [← noRRx_not_mem z A2 hzA2]
    exact hnoxA2
  have hnRE : BT.noRR E = true := by
    rw [← noRRx_not_mem z E hzE]
    exact hnoxE
  have hnRF : BT.noRR F = true := by
    rw [← noRRx_not_mem z F hzF]
    exact hnoxF
  have hnRL2 : BT.noRR L2 = true := by
    rw [← noRRx_not_mem z L2 hzL2]
    exact hnoxL2
  have hnoRRloc : BT.noRR (BT.bin (.bin L2 g vg .Red E) z vz .Black
      (.bin F p vp .Red A2)) = true := by
    rw [BT.noRR, BT.noRR, BT.noRR]
    simp only [Bool.and_eq_true, Bool.or_eq_true]
    refine ⟨⟨⟨⟨hnRL2, hnRE⟩, Or.inr ⟨?_, ?_⟩⟩,
      ⟨⟨hnRF, hnRA2⟩, Or.inr ⟨?_, ?_⟩⟩⟩, Or.inl rfl⟩
    · simp [hL2c]
    · simp [hEc]
    · simp [hFc]
    · simp [hA2c]
  -- computation of rebalance_right
  have hcomp : rebalance_right t z =
      (left_rotate (setColor (setColor (right_rotate t p) z .Black) g .Red) g, p) := by
    simp only [rebalance_right, setColor_p]
    rw [hzp, hppg]
    rw [if_neg hunotred, if_pos hpl2.symm]
    dsimp only
    rw [ht1xp, ht1yp]
  -- the repaired tree
  refine ⟨G.replace g (fixRL p g z), hcomp, hS4,
    BT.replace_idxs g _ hidx G, BT.replace_vals g _ hvalsf G, ?_, ?_, ?_⟩
  · exact noRR_replace_black z g _ G _ hnd hsubg hzSg hnox
      (by rw [hval]; rfl) (by rw [hval]; exact hnoRRloc)
  · rw [bh_replace_local g _ G _ hnd hsubg (by rw [hval]; exact hbhloc)]
    exact hbh
  · have hsubz4 : BT.subAt z (G.replace g (fixRL p g z)) = some
        (fixRL p g z (BT.bin L2 g vg .Black R2)) :=
      BT.subAt_replace_mem g z _ G _ hnd hsubg hzSg (by rw [hval]; rfl)
    have hparB4 : parB (left_rotate (setColor (setColor (right_rotate t p) z .Black)
        g .Red) g) (fixRL p g z (BT.bin L2 g vg .Black R2)) = true :=
      parB_subAt _ z _ _ hS4.par hsubz4
    rw [hval] at hparB4
    obtain ⟨_, hoA, _, _⟩ := parB_elim _ (.bin L2 g vg .Red E) z vz .Black _ hparB4
    have hp4p : ((left_rotate (setColor (setColor (right_rotate t p) z .Black)
        g .Red) g).mem p).p = z := hoA p rfl
    rw [hp4p]
    have hzG2 : z ∈ (G.replace g (fixRL p g z)).idxs := by
      rw [BT.replace_idxs g _ hidx G]
      exact (BT.subAt_sublist g G _ hsubg).subset hzSg
    have hcol := colorAt_bridge _ (f + 2) _ _ hS4.tt hS4.nodup z hzG2
    rw [hcol, colorAt_subAt z _ _ hsubz4, hval, BT.topColor]

/-- When the parent of the current node is black, the fixup loop exits on its
next iteration, forcing the root black; the result is a sound red-black
mirror. -/
theorem fixup_exit_step (t2 : Rb_tree V) (z2 : Nat) (G2 : BT V) (f2 fuel : Nat)
    (hSim2 : Sim t2 G2 f2) (hne : G2 ≠ .tip)
    (hpb : (t2.mem ((t2.mem z2).p)).color = .Black)
    (hnoRR2 : BT.noRR G2 = true) (hbh2 : (BT.bh G2).isSome = true) :
    ∃ t3 G3, insert_fixup_loop t2 z2 (fuel + 1) = some t3 ∧ Sim t3 G3 f2 ∧
      G3.idxs = G2.idxs ∧ G3.vals = G2.vals ∧ rb_ok G3 = true ∧
      t3.nil = t2.nil ∧ t3.next = t2.next ∧ t3.node_count = t2.node_count := by
  have hrnil : t2.root ≠ t2.nil := fun hc =>
    hne ((toTree_tip_iff t2 t2.root f2 G2 hSim2.tt).2 hc)
  have htop : G2.topIdx = some t2.root :=
    (toTree_topIdx t2 t2.root f2 G2 hSim2.tt).2 hrnil
  have hSim3 : Sim (setColor t2 t2.root .Black) (BT.recolor t2.root .Black G2) f2 :=
    Sim_setColor t2 G2 f2 hSim2 t2.root .Black hrnil
  refine ⟨setColor t2 t2.root .Black, BT.recolor t2.root .Black G2, ?_, hSim3,
    BT.recolor_idxs _ _ G2, BT.recolor_vals _ _ G2, ?_, rfl, rfl, rfl⟩
  · rw [insert_fixup_loop,
      if_neg (fun hc : (t2.mem ((t2.mem z2).p)).color = .Red =>
        Node_color.noConfusion (hpb ▸ hc))]
  · rw [rb_ok]
    simp only [Bool.and_eq_true]
    refine ⟨⟨?_, noRR_recolor_black t2.root G2 hnoRR2⟩,
      bh_recolor_root t2.root G2 hSim2.nodup htop hbh2⟩
    rw [BT.recolor_topColor_eq t2.root .Black G2 htop]
    rfl

/-- The insert-fixup loop, run with enough fuel from a state satisfying the
CLRS loop invariant, terminates with a sound red-black mirror carrying the
same indices and the same in-order payloads. -/
theorem insert_fixup_loop_sim :
    ∀ fuel (t : Rb_tree V) (z : Nat) (G : BT V) (f : Nat), Sim t G f → z ∈ G.idxs →
      BT.colorAt z G = .Red → (BT.bh G).isSome = true → BT.noRRx z G = true →
      (G.topColor = .Red → G.topIdx = some z) →
      BT.depthOf z G + 1 ≤ fuel →
      ∃ t2 G2 f2, insert_fixup_loop t z fuel = some t2 ∧ Sim t2 G2 f2 ∧
        G2.idxs = G.idxs ∧ G2.vals = G.vals ∧ rb_ok G2 = true ∧
        t2.nil = t.nil ∧ t2.next = t.next ∧ t2.node_count = t.node_count := by
  intro fuel
  induction fuel with
  | zero =>
    intro t z G f _ hmem _ _ _ _ hfuel
    exact absurd hfuel (by omega)
  | succ fuel ih =>
    intro t z G f hSim hmem hred hbh hnox htopinv hfuel
    have hznil : z ≠ t.nil := toTree_idx_ne_nil t f t.root G hSim.tt z hmem
    have hdpos := BT.depthOf_pos z G hmem
    by_cases hpc : (t.mem ((t.mem z).p)).color = .Red
    case neg =>
      have hblack : (t.mem ((t.mem z).p)).color = .Black := color_not_red _ hpc
      have hzEd : BT.zEdge z G = true :=
        zEdge_of_parent_black t z hblack f t.root G hSim.tt hSim.par
      have hnoRR : BT.noRR G = true := noRRx_zEdge_noRR z G hnox hzEd
      have hne : G ≠ .tip := by
        rintro rfl
        simp [BT.idxs] at hmem
      obtain ⟨t3, G3, hloop, hS3, hidx3, hvals3, hrb3, hnil3, hnext3, hcount3⟩ :=
        fixup_exit_step t z G f fuel hSim hne hblack hnoRR hbh
      exact ⟨t3, G3, f, hloop, hS3, hidx3, hvals3, hrb3, hnil3, hnext3, hcount3⟩
    case pos =>
      obtain ⟨p, g, Sz, A2, B2, vp, L2, R2, vg, hzp, hppg, hpm, hgm, hpnil, hgnil,
        hzpne, hzgne, hpgne, hpcol, hgcol, hsubz, hSzt, hsubp, hside, hsubg, hsideg,
        hGtop, htopz, htopp, htopc⟩ := fix_ctx t z G f hSim hmem hnox htopinv hpc
      have hfuel1 : 1 ≤ fuel := by omega
      obtain ⟨fuel2, rfl⟩ : ∃ k, fuel = k + 1 := ⟨fuel - 1, by omega⟩
      have hndSp : (BT.bin A2 p vp .Red B2).idxs.Nodup :=
        List.Nodup.sublist (BT.subAt_sublist p G _ hsubp) hSim.nodup
      have hndSpx := hndSp
      rw [BT.idxs] at hndSpx
      obtain ⟨ndA2, ndB2, hpA2, hpB2, hABdisj⟩ := nodup_parts _ _ _ hndSpx
      -- read off the grandparent node in the arena
      obtain ⟨SG, hSG, fG, hfGle, httG⟩ := toTree_subAt t f t.root G hSim.tt g hgm
      rw [hsubg] at hSG
      obtain rfl : SG = .bin L2 g vg .Black R2 := (Option.some.inj hSG).symm
      obtain ⟨hgni2, _, _, _, fG2, hfGeq, httL2, httR2⟩ :=
        toTree_bin_elim t g fG L2 R2 g vg .Black httG
      -- read off the z node in the arena
      obtain ⟨SZ, hSZ, fz, hfzle, httZ⟩ := toTree_subAt t f t.root G hSim.tt z hmem
      rw [hsubz] at hSZ
      obtain rfl : Sz = SZ := Option.some.inj hSZ
      rw [insert_fixup_loop, hzp, hppg, if_pos hpcol]
      rcases hsideg with ⟨hL2eq, hgl, hgrne⟩ | ⟨hR2eq, hgr, hglne⟩
      · -- left configuration
        rw [if_pos hgl.symm]
        rcases R2 with _ | ⟨C, u, vu, cu, D⟩
        · -- uncle is the sentinel
          have hrnil : (t.mem g).right = t.nil :=
            (toTree_tip_iff t _ _ _ httR2).1 rfl
          have hunotred : ¬ (t.mem ((t.mem g).right)).color = .Red := by
            rw [hrnil, hSim.sent.2.2.1]
            intro hc
            exact Node_color.noConfusion hc
          rcases hside with ⟨hA2eq, hpl, hprne⟩ | ⟨hB2eq, hpr, hplne⟩
          · -- case LL
            obtain ⟨G2, hcomp, hSim2, hidx2, hvals2, hnoRR2, hbh2, hpb2⟩ :=
              rebal_left_LL t z G f hSim p g A2 B2 vp vg L2 .tip hzp hppg hgm
                hpnil hgnil hznil (by rw [hA2eq]; exact hSzt) hsubg hL2eq rfl
                hunotred (fun hc => hprne hc.symm) hgl hnox hbh
            rw [hcomp]
            have hne2 : G2 ≠ .tip := by
              intro hc
              rw [hc] at hidx2
              rw [← hidx2] at hmem
              simp [BT.idxs] at hmem
            obtain ⟨t3, G3, hloop, hS3, hidx3, hvals3, hrb3, hnil3, hnext3, hcount3⟩ :=
              fixup_exit_step _ z G2 (f + 1) fuel2 hSim2 hne2 hpb2 hnoRR2 hbh2
            refine ⟨t3, G3, f + 1, hloop, hS3, hidx3.trans hidx2,
              hvals3.trans hvals2, hrb3, ?_, ?_, ?_⟩
            · rw [hnil3, (right_rotate_fields _ g).1]
              rfl
            · rw [hnext3, (right_rotate_fields _ g).2.1]
              rfl
            · rw [hcount3, (right_rotate_fields _ g).2.2]
              rfl
          · -- case LR
            have hSzC : Sz.topColor = .Red := by
              rw [← colorAt_subAt z G Sz hsubz]
              exact hred
            rcases Sz with _ | ⟨E, z2, vz, cz, F⟩
            · rw [BT.topIdx] at hSzt
              exact absurd hSzt (by simp)
            rw [BT.topIdx] at hSzt
            obtain rfl : z = z2 := (Option.some.inj hSzt).symm
            rw [BT.topColor] at hSzC
            obtain rfl : cz = .Red := hSzC
            obtain ⟨hzni2, _, _, _, fz2, hfzeq, httE, httF⟩ :=
              toTree_bin_elim t z fz E F z vz .Red httZ
            have hpb : p ≠ (t.mem z).left := by
              intro hc
              by_cases hE : (t.mem z).left = t.nil
              · exact hpnil (hc.trans hE)
              · have hEtop : E.topIdx = some ((t.mem z).left) :=
                  (toTree_topIdx t _ _ E httE).2 hE
                have hpE : p ∈ E.idxs := hc ▸ BT.topIdx_mem E _ hEtop
                refine hpB2 ?_
                rw [hB2eq, BT.idxs]
                exact List.mem_append_left _ hpE
            obtain ⟨G2, hcomp, hSim2, hidx2, hvals2, hnoRR2, hbh2, hpb2⟩ :=
              rebal_left_LR t z G f hSim p g A2 E F vp vz vg L2 B2 .tip hzp hppg
                hpm hgm hpnil hgnil hznil hsubg hL2eq (hB2eq.trans rfl) rfl
                hunotred hpr hgl hpb hnox hbh
            rw [hcomp]
            have hne2 : G2 ≠ .tip := by
              intro hc
              rw [hc] at hidx2
              rw [← hidx2] at hmem
              simp [BT.idxs] at hmem
            obtain ⟨t3, G3, hloop, hS3, hidx3, hvals3, hrb3, hnil3, hnext3, hcount3⟩ :=
              fixup_exit_step _ p G2 (f + 2) fuel2 hSim2 hne2 hpb2 hnoRR2 hbh2
            refine ⟨t3, G3, f + 2, hloop, hS3, hidx3.trans hidx2,
              hvals3.trans hvals2, hrb3, ?_, ?_, ?_⟩
            · rw [hnil3, (right_rotate_fields _ g).1]
              show (left_rotate t p).nil = t.nil
              exact (left_rotate_fields t p).1
            · rw [hnext3, (right_rotate_fields _ g).2.1]
              show (left_rotate t p).next = t.next
              exact (left_rotate_fields t p).2.1
            · rw [hcount3, (right_rotate_fields _ g).2.2]
              show (left_rotate t p).node_count = t.node_count
              exact (left_rotate_fields t p).2.2
        · -- uncle is a real node
          obtain ⟨hrnil2, hju, _, hcu2, fG3, hfG3, httC, httD⟩ :=
            toTree_bin_elim t ((t.mem g).right) fG2 C D u vu cu httR2
          have hu : (t.mem g).right = u := hju.symm
          have hunil : u ≠ t.nil := by
            rw [hju]
            exact hrnil2
          rcases cu with _ | _
          · -- red uncle: case 1
            have hured : (t.mem u).color = .Red := by
              rw [hu] at hcu2
              exact hcu2.symm
            have hzAB : A2.topIdx = some z ∨ B2.topIdx = some z := by
              rcases hside with ⟨hA2eq, _, _⟩ | ⟨hB2eq, _, _⟩
              · exact Or.inl (by rw [hA2eq]; exact hSzt)
              · exact Or.inr (by rw [hB2eq]; exact hSzt)
            obtain ⟨G2, hcomp, hSim2, hidx2, hvals2, hg2, hcol2, hbh2, hnox2,
                htopc2, hdepth2⟩ :=
              rebal_left_uncle_red t z G f hSim p g u A2 B2 C D vp vg vu L2
                (.bin C u vu .Red D) hzp hppg hgm hunil hpnil hgnil hzgne hzAB
                hsubg hL2eq rfl hu hured hnox hbh htopc
            rw [hcomp]
            obtain ⟨t2, G3, f3, hloop2, hS3, hidx3, hvals3, hrb3, hnil3, hnext3,
                hcount3⟩ :=
              ih _ g G2 f hSim2 hg2 hcol2 hbh2 hnox2 htopc2 (by omega)
            exact ⟨t2, G3, f3, hloop2, hS3, hidx3.trans hidx2,
              hvals3.trans hvals2, hrb3, hnil3, hnext3, hcount3⟩
          · -- black uncle
            have hunotred : ¬ (t.mem ((t.mem g).right)).color = .Red := by
              rw [← hcu2]
              intro hc
              exact Node_color.noConfusion hc
            rcases hside with ⟨hA2eq, hpl, hprne⟩ | ⟨hB2eq, hpr, hplne⟩
            · -- case LL
              obtain ⟨G2, hcomp, hSim2, hidx2, hvals2, hnoRR2, hbh2, hpb2⟩ :=
                rebal_left_LL t z G f hSim p g A2 B2 vp vg L2 (.bin C u vu .Black D)
                  hzp hppg hgm hpnil hgnil hznil (by rw [hA2eq]; exact hSzt) hsubg
                  hL2eq rfl hunotred (fun hc => hprne hc.symm) hgl hnox hbh
              rw [hcomp]
              have hne2 : G2 ≠ .tip := by
                intro hc
                rw [hc] at hidx2
                rw [← hidx2] at hmem
                simp [BT.idxs] at hmem
              obtain ⟨t3, G3, hloop, hS3, hidx3, hvals3, hrb3, hnil3, hnext3,
                  hcount3⟩ :=
                fixup_exit_step _ z G2 (f + 1) fuel2 hSim2 hne2 hpb2 hnoRR2 hbh2
              refine ⟨t3, G3, f + 1, hloop, hS3, hidx3.trans hidx2,
                hvals3.trans hvals2, hrb3, ?_, ?_, ?_⟩
              · rw [hnil3, (right_rotate_fields _ g).1]
                rfl
              · rw [hnext3, (right_rotate_fields _ g).2.1]
                rfl
              · rw [hcount3, (right_rotate_fields _ g).2.2]
                rfl
            · -- case LR
              have hSzC : Sz.topColor = .Red := by
                rw [← colorAt_subAt z G Sz hsubz]
                exact hred
              rcases Sz with _ | ⟨E, z2, vz, cz, F⟩
              · rw [BT.topIdx] at hSzt
                exact absurd hSzt (by simp)
              rw [BT.topIdx] at hSzt
              obtain rfl : z = z2 := (Option.some.inj hSzt).symm
              rw [BT.topColor] at hSzC
              obtain rfl : cz = .Red := hSzC
              obtain ⟨hzni2, _, _, _, fz2, hfzeq, httE, httF⟩ :=
                toTree_bin_elim t z fz E F z vz .Red httZ
              have hpb : p ≠ (t.mem z).left := by
                intro hc
                by_cases hE : (t.mem z).left = t.nil
                · exact hpnil (hc.trans hE)
                · have hEtop : E.topIdx = some ((t.mem z).left) :=
                    (toTree_topIdx t _ _ E httE).2 hE
                  have hpE : p ∈ E.idxs := hc ▸ BT.topIdx_mem E _ hEtop
                  refine hpB2 ?_
                  rw [hB2eq, BT.idxs]
                  exact List.mem_append_left _ hpE
              obtain ⟨G2, hcomp, hSim2, hidx2, hvals2, hnoRR2, hbh2, hpb2⟩ :=
                rebal_left_LR t z G f hSim p g A2 E F vp vz vg L2 B2
                  (.bin C u vu .Black D) hzp hppg hpm hgm hpnil hgnil hznil hsubg
                  hL2eq (hB2eq.trans rfl) rfl hunotred hpr hgl hpb hnox hbh
              rw [hcomp]
              have hne2 : G2 ≠ .tip := by
                intro hc
                rw [hc] at hidx2
                rw [← hidx2] at hmem
                simp [BT.idxs] at hmem
              obtain ⟨t3, G3, hloop, hS3, hidx3, hvals3, hrb3, hnil3, hnext3,
                  hcount3⟩ :=
                fixup_exit_step _ p G2 (f + 2) fuel2 hSim2 hne2 hpb2 hnoRR2 hbh2
              refine ⟨t3, G3, f + 2, hloop, hS3, hidx3.trans hidx2,
                hvals3.trans hvals2, hrb3, ?_, ?_, ?_⟩
              · rw [hnil3, (right_rotate_fields _ g).1]
                show (left_rotate t p).nil = t.nil
                exact (left_rotate_fields t p).1
              · rw [hnext3, (right_rotate_fields _ g).2.1]
                show (left_rotate t p).next = t.next
                exact (left_rotate_fields t p).2.1
              · rw [hcount3, (right_rotate_fields _ g).2.2]
                show (left_rotate t p).node_count = t.node_count
                exact (left_rotate_fields t p).2.2
      · -- right configuration
        rw [if_neg (fun hc : p = (t.mem g).left => hglne hc.symm)]
        rcases L2 with _ | ⟨C, u, vu, cu, D⟩
        · -- uncle is the sentinel
          have hlnil : (t.mem g).left = t.nil :=
            (toTree_tip_iff t _ _ _ httL2).1 rfl
          have hunotred : ¬ (t.mem ((t.mem g).left)).color = .Red := by
            rw [hlnil, hSim.sent.2.2.1]
            intro hc
            exact Node_color.noConfusion hc
          rcases hside with ⟨hA2eq, hpl, hprne⟩ | ⟨hB2eq, hpr, hplne⟩
          · -- z is a left child: case RL
            have hSzC : Sz.topColor = .Red := by
              rw [← colorAt_subAt z G Sz hsubz]
              exact hred
            rcases Sz with _ | ⟨E, z2, vz, cz, F⟩
            · rw [BT.topIdx] at hSzt
              exact absurd hSzt (by simp)
            rw [BT.topIdx] at hSzt
            obtain rfl : z = z2 := (Option.some.inj hSzt).symm
            rw [BT.topColor] at hSzC
            obtain rfl : cz = .Red := hSzC
            obtain ⟨hzni2, _, _, _, fz2, hfzeq, httE, httF⟩ :=
              toTree_bin_elim t z fz E F z vz .Red httZ
            have hpb : p ≠ (t.mem z).right := by
              intro hc
              by_cases hE : (t.mem z).right = t.nil
              · exact hpnil (hc.trans hE)
              · have hFtop : F.topIdx = some ((t.mem z).right) :=
                  (toTree_topIdx t _ _ F httF).2 hE
                have hpF : p ∈ F.idxs := hc ▸ BT.topIdx_mem F _ hFtop
                refine hpA2 ?_
                rw [hA2eq, BT.idxs]
                exact List.mem_append_right _ (List.mem_cons_of_mem _ hpF)
            obtain ⟨G2, hcomp, hSim2, hidx2, hvals2, hnoRR2, hbh2, hpb2⟩ :=
              rebal_right_RL t z G f hSim p g B2 E F vp vz vg .tip A2 R2 hzp hppg
                hpm hgm hpnil hgnil hznil hsubg hR2eq (hA2eq.trans rfl) rfl
                hunotred hpl hgr hpb hnox hbh
            rw [hcomp]
            have hne2 : G2 ≠ .tip := by
              intro hc
              rw [hc] at hidx2
              rw [← hidx2] at hmem
              simp [BT.idxs] at hmem
            obtain ⟨t3, G3, hloop, hS3, hidx3, hvals3, hrb3, hnil3, hnext3,
                hcount3⟩ :=
              fixup_exit_step _ p G2 (f + 2) fuel2 hSim2 hne2 hpb2 hnoRR2 hbh2
            refine ⟨t3, G3, f + 2, hloop, hS3, hidx3.trans hidx2,
              hvals3.trans hvals2, hrb3, ?_, ?_, ?_⟩
            · rw [hnil3, (left_rotate_fields _ g).1]
              show (right_rotate t p).nil = t.nil
              exact (right_rotate_fields t p).1
            · rw [hnext3, (left_rotate_fields _ g).2.1]
              show (right_rotate t p).next = t.next
              exact (right_rotate_fields t p).2.1
            · rw [hcount3, (left_rotate_fields _ g).2.2]
              show (right_rotate t p).node_count = t.node_count
              exact (right_rotate_fields t p).2.2
          · -- z is a right child: case RR
            obtain ⟨G2, hcomp, hSim2, hidx2, hvals2, hnoRR2, hbh2, hpb2⟩ :=
              rebal_right_RR t z G f hSim p g B2 A2 vp vg .tip R2 hzp hppg hgm
                hpnil hgnil (by rw [hB2eq]; exact hSzt) hsubg hR2eq rfl
                hunotred (fun hc => hplne hc.symm) hgr hnox hbh
            rw [hcomp]
            have hne2 : G2 ≠ .tip := by
              intro hc
              rw [hc] at hidx2
              rw [← hidx2] at hmem
              simp [BT.idxs] at hmem
            obtain ⟨t3, G3, hloop, hS3, hidx3, hvals3, hrb3, hnil3, hnext3,
                hcount3⟩ :=
              fixup_exit_step _ z G2 (f + 1) fuel2 hSim2 hne2 hpb2 hnoRR2 hbh2
            refine ⟨t3, G3, f + 1, hloop, hS3, hidx3.trans hidx2,
              hvals3.trans hvals2, hrb3, ?_, ?_, ?_⟩
            · rw [hnil3, (left_rotate_fields _ g).1]
              rfl
            · rw [hnext3, (left_rotate_fields _ g).2.1]
              rfl
            · rw [hcount3, (left_rotate_fields _ g).2.2]
              rfl
        · -- uncle is a real node
          obtain ⟨hlnil2, hju, _, hcu2, fG3, hfG3, httC, httD⟩ :=
            toTree_bin_elim t ((t.mem g).left) fG2 C D u vu cu httL2
          have hu : (t.mem g).left = u := hju.symm
          have hunil : u ≠ t.nil := by
            rw [hju]
            exact hlnil2
          rcases cu with _ | _
          · -- red uncle: case 1
            have hured : (t.mem u).color = .Red := by
              rw [hu] at hcu2
              exact hcu2.symm
            have hzAB : A2.topIdx = some z ∨ B2.topIdx = some z := by
              rcases hside with ⟨hA2eq, _, _⟩ | ⟨hB2eq, _, _⟩
              · exact Or.inl (by rw [hA2eq]; exact hSzt)
              · exact Or.inr (by rw [hB2eq]; exact hSzt)
            obtain ⟨G2, hcomp, hSim2, hidx2, hvals2, hg2, hcol2, hbh2, hnox2,
                htopc2, hdepth2⟩ :=
              rebal_right_uncle_red t z G f hSim p g u B2 A2 C D vp vg vu
                (.bin C u vu .Red D) R2 hzp hppg hgm hunil hpnil hgnil hzgne
                hzAB.symm hsubg hR2eq rfl hu hured hnox hbh htopc
            rw [hcomp]
            obtain ⟨t2, G3, f3, hloop2, hS3, hidx3, hvals3, hrb3, hnil3, hnext3,
                hcount3⟩ :=
              ih _ g G2 f hSim2 hg2 hcol2 hbh2 hnox2 htopc2 (by omega)
            exact ⟨t2, G3, f3, hloop2, hS3, hidx3.trans hidx2,
              hvals3.trans hvals2, hrb3, hnil3, hnext3, hcount3⟩
          · -- black uncle
            have hunotred : ¬ (t.mem ((t.mem g).left)).color = .Red := by
              rw [← hcu2]
              intro hc
              exact Node_color.noConfusion hc
            rcases hside with ⟨hA2eq, hpl, hprne⟩ | ⟨hB2eq, hpr, hplne⟩
            · -- case RL
              have hSzC : Sz.topColor = .Red := by
                rw [← colorAt_subAt z G Sz hsubz]
                exact hred
              rcases Sz with _ | ⟨E, z2, vz, cz, F⟩
              · rw [BT.topIdx] at hSzt
                exact absurd hSzt (by simp)
              rw [BT.topIdx] at hSzt
              obtain rfl : z = z2 := (Option.some.inj hSzt).symm
              rw [BT.topColor] at hSzC
              obtain rfl : cz = .Red := hSzC
              obtain ⟨hzni2, _, _, _, fz2, hfzeq, httE, httF⟩ :=
                toTree_bin_elim t z fz E F z vz .Red httZ
              have hpb : p ≠ (t.mem z).right := by
                intro hc
                by_cases hE : (t.mem z).right = t.nil
                · exact hpnil (hc.trans hE)
                · have hFtop : F.topIdx = some ((t.mem z).right) :=
                    (toTree_topIdx t _ _ F httF).2 hE
                  have hpF : p ∈ F.idxs := hc ▸ BT.topIdx_mem F _ hFtop
                  refine hpA2 ?_
                  rw [hA2eq, BT.idxs]
                  exact List.mem_append_right _ (List.mem_cons_of_mem _ hpF)
              obtain ⟨G2, hcomp, hSim2, hidx2, hvals2, hnoRR2, hbh2, hpb2⟩ :=
                rebal_right_RL t z G f hSim p g B2 E F vp vz vg
                  (.bin C u vu .Black D) A2 R2 hzp hppg hpm hgm hpnil hgnil hznil
                  hsubg hR2eq (hA2eq.trans rfl) rfl hunotred hpl hgr hpb hnox hbh
              rw [hcomp]
              have hne2 : G2 ≠ .tip := by
                intro hc
                rw [hc] at hidx2
                rw [← hidx2] at hmem
                simp [BT.idxs] at hmem
              obtain ⟨t3, G3, hloop, hS3, hidx3, hvals3, hrb3, hnil3, hnext3,
                  hcount3⟩ :=
                fixup_exit_step _ p G2 (f + 2) fuel2 hSim2 hne2 hpb2 hnoRR2 hbh2
              refine ⟨t3, G3, f + 2, hloop, hS3, hidx3.trans hidx2,
                hvals3.trans hvals2, hrb3, ?_, ?_, ?_⟩
              · rw [hnil3, (left_rotate_fields _ g).1]
                show (right_rotate t p).nil = t.nil
                exact (right_rotate_fields t p).1
              · rw [hnext3, (left_rotate_fields _ g).2.1]
                show (right_rotate t p).next = t.next
                exact (right_rotate_fields t p).2.1
              · rw [hcount3, (left_rotate_fields _ g).2.2]
                show (right_rotate t p).node_count = t.node_count
                exact (right_rotate_fields t p).2.2
            · -- case RR
              obtain ⟨G2, hcomp, hSim2, hidx2, hvals2, hnoRR2, hbh2, hpb2⟩ :=
                rebal_right_RR t z G f hSim p g B2 A2 vp vg
                  (.bin C u vu .Black D) R2 hzp hppg hgm hpnil hgnil
                  (by rw [hB2eq]; exact hSzt) hsubg hR2eq rfl hunotred
                  (fun hc => hplne hc.symm) hgr hnox hbh
              rw [hcomp]
              have hne2 : G2 ≠ .tip := by
                intro hc
                rw [hc] at hidx2
                rw [← hidx2] at hmem
                simp [BT.idxs] at hmem
              obtain ⟨t3, G3, hloop, hS3, hidx3, hvals3, hrb3, hnil3, hnext3,
                  hcount3⟩ :=
                fixup_exit_step _ z G2 (f + 1) fuel2 hSim2 hne2 hpb2 hnoRR2 hbh2
              refine ⟨t3, G3, f + 1, hloop, hS3, hidx3.trans hidx2,
                hvals3.trans hvals2, hrb3, ?_, ?_, ?_⟩
              · rw [hnil3, (left_rotate_fields _ g).1]
                rfl
              · rw [hnext3, (left_rotate_fields _ g).2.1]
                rfl
              · rw [hcount3, (left_rotate_fields _ g).2.2]
                rfl

end S21
